import Mathlib

namespace bustub

/-! ## unordered_map: association lists keyed by a type with decidable equality -/

/-- Lookup of key `k` (`find` of std::unordered_map). -/
def ufind {κ α : Type} [DecidableEq κ] : List (κ × α) → κ → Option α
  | [], _ => none
  | (k', v) :: r, k => if k' = k then some v else ufind r k

/-- Removal of key `k` (`erase(key)` of std::unordered_map). -/
def uerase {κ α : Type} [DecidableEq κ] : List (κ × α) → κ → List (κ × α)
  | [], _ => []
  | (k', v) :: r, k => if k' = k then uerase r k else (k', v) :: uerase r k

/-- Assignment `m[k] = v` of std::unordered_map. -/
def uset {κ α : Type} [DecidableEq κ] (m : List (κ × α)) (k : κ) (v : α) : List (κ × α) :=
  (k, v) :: uerase m k

/-- The modulus of `size_t` arithmetic. -/
def SIZE_MOD : Nat := 2 ^ 64

/-- The `x++` of a `size_t` holding `x < 2^64`: the successor modulo `2^64`. -/
def szInc (x : Nat) : Nat := if x + 1 = SIZE_MOD then 0 else x + 1

/-- The `x--` of a `size_t` holding `x < 2^64`: the predecessor modulo `2^64`. -/
def szDec (x : Nat) : Nat := if x = 0 then SIZE_MOD - 1 else x - 1

/-! ## LRU-K replacer (src/buffer/lru_k_replacer.cpp) -/

/-- The fields of `LRUKReplacer` (lru_k_replacer.h). A list iterator stored in
`cache_frame_umap_` is represented by the element it points to; those of
`new_frame_umap_` are never dereferenced and carry no data. -/
structure LRUKReplacer where
  current_timestamp_ : Nat
  curr_size_ : Nat
  replacer_size_ : Nat
  k_ : Nat
  frame_timestamp_ : List (Int × List Nat)
  frame_evictable_ : List (Int × Bool)
  frame_k_ : List (Int × Nat)
  new_frame_ : List Int
  new_frame_umap_ : List (Int × Unit)
  cache_frame_ : List (Int × Nat)
  cache_frame_umap_ : List (Int × (Int × Nat))
deriving DecidableEq, Repr

/-- The constructor `LRUKReplacer(num_frames, k)`. -/
def LRUKReplacer.new (num_frames k : Nat) : LRUKReplacer :=
  { current_timestamp_ := 0, curr_size_ := 0, replacer_size_ := num_frames % SIZE_MOD,
    k_ := k % SIZE_MOD,
    frame_timestamp_ := [], frame_evictable_ := [], frame_k_ := [],
    new_frame_ := [], new_frame_umap_ := [], cache_frame_ := [], cache_frame_umap_ := [] }

/-- The first loop of `EvictInstance`, over `new_frame_` from its tail: the list is
passed reversed. `frame_evictable_[f]` inserts `false` for a missing key. -/
def scanNew : List (Int × Bool) → List Int → List (Int × Bool) × Option Int
  | ev, [] => (ev, none)
  | ev, f :: rest =>
    match ufind ev f with
    | some true => (ev, some f)
    | some false => scanNew ev rest
    | none => scanNew (uset ev f false) rest

/-- The second loop of `EvictInstance`, over `cache_frame_` from its head. -/
def scanCache : List (Int × Bool) → List (Int × Nat) → List (Int × Bool) × Option (Int × Nat)
  | ev, [] => (ev, none)
  | ev, e :: rest =>
    match ufind ev e.1 with
    | some true => (ev, some e)
    | some false => scanCache ev rest
    | none => scanCache (uset ev e.1 false) rest

/-- `LRUKReplacer::EvictInstance`: the new state and the evicted frame (`none` for
`return false`). -/
def LRUKReplacer.EvictInstance (r : LRUKReplacer) : LRUKReplacer × Option Int :=
  if r.curr_size_ = 0 then (r, none)
  else
    match scanNew r.frame_evictable_ r.new_frame_.reverse with
    | (ev, some f) =>
      ({ r with
          frame_timestamp_ := uerase r.frame_timestamp_ f
          frame_evictable_ := uerase ev f
          frame_k_ := uerase r.frame_k_ f
          new_frame_umap_ := uerase r.new_frame_umap_ f
          new_frame_ := r.new_frame_.filter (fun g => g ≠ f)
          curr_size_ := szDec r.curr_size_ }, some f)
    | (ev, none) =>
      match scanCache ev r.cache_frame_ with
      | (ev2, some e) =>
        ({ r with
            frame_timestamp_ := uerase r.frame_timestamp_ e.1
            frame_evictable_ := uerase ev2 e.1
            frame_k_ := uerase r.frame_k_ e.1
            cache_frame_umap_ := uerase r.cache_frame_umap_ e.1
            cache_frame_ := r.cache_frame_.filter (fun g => g ≠ e)
            curr_size_ := szDec r.curr_size_ }, some e.1)
      | (ev2, none) => ({ r with frame_evictable_ := ev2 }, none)

/-- `LRUKReplacer::Evict`. -/
def LRUKReplacer.Evict (r : LRUKReplacer) : LRUKReplacer × Option Int := r.EvictInstance

/-- The insertion `cache_frame_.insert(std::upper_bound(..., new_cache, by second), new_cache)`:
before the first element whose timestamp is greater than the new one. -/
def upperInsert (x : Int × Nat) : List (Int × Nat) → List (Int × Nat)
  | [] => [x]
  | e :: rest => if x.2 < e.2 then x :: e :: rest else e :: upperInsert x rest

/-- `LRUKReplacer::RecordAccess`. The result is `none` where the C++ has no defined
behaviour: `cache_frame_.erase` of the default iterator that
`cache_frame_umap_[frame_id]` yields for a missing key, and `front()` of an empty list. -/
def LRUKReplacer.RecordAccess (r : LRUKReplacer) (frame_id : Int) : Option LRUKReplacer :=
  let fk0 := match ufind r.frame_k_ frame_id with
    | none => uset r.frame_k_ frame_id 0
    | some _ => r.frame_k_
  let cnt := szInc ((ufind fk0 frame_id).getD 0)
  let fk := uset fk0 frame_id cnt
  let hist := (ufind r.frame_timestamp_ frame_id).getD [] ++ [r.current_timestamp_]
  let ft := uset r.frame_timestamp_ frame_id hist
  let r1 : LRUKReplacer :=
    { r with frame_k_ := fk, frame_timestamp_ := ft, current_timestamp_ := szInc r.current_timestamp_ }
  if cnt = 1 then
    let r2 := if r1.curr_size_ = r1.replacer_size_ then r1.EvictInstance.1 else r1
    some { r2 with
      frame_evictable_ := uset r2.frame_evictable_ frame_id true
      curr_size_ := szInc r2.curr_size_
      new_frame_ := frame_id :: r2.new_frame_
      new_frame_umap_ := uset r2.new_frame_umap_ frame_id () }
  else if cnt = r1.k_ then
    match hist.head? with
    | none => none
    | some kth_timestamp =>
      let new_cache := (frame_id, kth_timestamp)
      some { r1 with
        new_frame_ := r1.new_frame_.filter (fun g => g ≠ frame_id)
        new_frame_umap_ := uerase r1.new_frame_umap_ frame_id
        cache_frame_ := upperInsert new_cache r1.cache_frame_
        cache_frame_umap_ := uset r1.cache_frame_umap_ frame_id new_cache }
  else if r1.k_ < cnt then
    match ufind r1.cache_frame_umap_ frame_id with
    | none => none
    | some old =>
      match hist.tail.head? with
      | none => none
      | some kth_timestamp =>
        let new_cache := (frame_id, kth_timestamp)
        some { r1 with
          frame_timestamp_ := uset r1.frame_timestamp_ frame_id hist.tail
          cache_frame_ := upperInsert new_cache (r1.cache_frame_.erase old)
          cache_frame_umap_ := uset r1.cache_frame_umap_ frame_id new_cache }
  else some r1

/-- `LRUKReplacer::SetEvictable`. -/
def LRUKReplacer.SetEvictable (r : LRUKReplacer) (frame_id : Int) (set_evictable : Bool) :
    LRUKReplacer :=
  match ufind r.frame_evictable_ frame_id with
  | none => r
  | some b =>
    if b = set_evictable then r
    else if set_evictable then
      { r with frame_evictable_ := uset r.frame_evictable_ frame_id set_evictable
               curr_size_ := szInc r.curr_size_, replacer_size_ := szInc r.replacer_size_ }
    else
      { r with frame_evictable_ := uset r.frame_evictable_ frame_id set_evictable
               curr_size_ := szDec r.curr_size_, replacer_size_ := szDec r.replacer_size_ }

/-- `LRUKReplacer::Remove`. -/
def LRUKReplacer.Remove (r : LRUKReplacer) (frame_id : Int) : LRUKReplacer :=
  match ufind r.frame_evictable_ frame_id with
  | none => r
  | some false => r
  | some true =>
    let r1 : LRUKReplacer :=
      { r with curr_size_ := szDec r.curr_size_
               frame_timestamp_ := uerase r.frame_timestamp_ frame_id
               frame_evictable_ := uerase r.frame_evictable_ frame_id
               frame_k_ := uerase r.frame_k_ frame_id }
    if frame_id ∈ r1.new_frame_ then
      { r1 with new_frame_umap_ := uerase r1.new_frame_umap_ frame_id
                new_frame_ := r1.new_frame_.filter (fun g => g ≠ frame_id) }
    else
      match r1.cache_frame_.find? (fun e => e.1 = frame_id) with
      | some e =>
        { r1 with cache_frame_umap_ := uerase r1.cache_frame_umap_ e.1
                  cache_frame_ := r1.cache_frame_.filter (fun g => g ≠ e) }
      | none => r1

/-- `LRUKReplacer::Size`. -/
def LRUKReplacer.Size (r : LRUKReplacer) : Nat := r.curr_size_

/-! ### Sequences of replacer calls and the log of recorded accesses -/

/-- A call of the replacer's interface. -/
inductive ReplacerOp where
  | record_access (frame_id : Int)
  | set_evictable (frame_id : Int) (b : Bool)
  | remove (frame_id : Int)
  | evict
deriving DecidableEq, Repr

/-- The state after a call; `none` where the call has no defined behaviour. -/
def LRUKReplacer.apply (r : LRUKReplacer) : ReplacerOp → Option LRUKReplacer
  | .record_access f => r.RecordAccess f
  | .set_evictable f b => some (r.SetEvictable f b)
  | .remove f => some (r.Remove f)
  | .evict => some r.Evict.1

/-- A frame is tracked when `frame_evictable_` has an entry for it. -/
def LRUKReplacer.tracked (r : LRUKReplacer) (f : Int) : Bool :=
  (ufind r.frame_evictable_ f).isSome

/-- A frame is evictable when it is tracked and its flag is set. -/
def LRUKReplacer.evictable (r : LRUKReplacer) (f : Int) : Bool :=
  ufind r.frame_evictable_ f == some true

/-- Specification-side record of a run: `clock` counts the `RecordAccess` calls made so
far, and `log f` lists, oldest first, the clock values of the accesses of `f` since `f`
was last evicted or removed (empty for a frame that is not tracked). -/
structure AccessLog where
  clock : Nat
  log : Int → List Nat

/-- The empty record. -/
def AccessLog.empty : AccessLog := { clock := 0, log := fun _ => [] }

/-- The record after a call `op` that led to the replacer state `r'`. -/
def AccessLog.step (g : AccessLog) (op : ReplacerOp) (r' : LRUKReplacer) : AccessLog :=
  { clock := match op with
      | .record_access _ => g.clock + 1
      | _ => g.clock
    log := fun f =>
      if r'.tracked f then
        match op with
        | .record_access f' => if f' = f then g.log f ++ [g.clock] else g.log f
        | _ => g.log f
      else [] }

/-- Runs a sequence of calls, keeping the access record alongside. -/
def runOps : LRUKReplacer × AccessLog → List ReplacerOp → Option (LRUKReplacer × AccessLog)
  | s, [] => some s
  | s, op :: ops =>
    match s.1.apply op with
    | none => none
    | some r' => runOps (r', s.2.step op r') ops

/-- The timestamp of the earliest access in a log. -/
def earliest (l : List Nat) : Nat := l.headD 0

/-- The timestamp of the `k`-th most recent access in a log of at least `k` accesses. -/
def kthRecent (k : Nat) (l : List Nat) : Nat := l.getD (l.length - k) 0

/-- The number of entries of `frame_evictable_` whose flag is set. -/
def evCount (m : List (Int × Bool)) : Nat := (m.filter (fun e => e.2)).length

/-- The state after frame `f` of `new_frame_` has been erased from the replacer
(the body of the `if` in the first loop of `EvictInstance`, and of `Remove`). -/
def LRUKReplacer.dropNew (r : LRUKReplacer) (f : Int) : LRUKReplacer :=
  { r with
      frame_timestamp_ := uerase r.frame_timestamp_ f
      frame_evictable_ := uerase r.frame_evictable_ f
      frame_k_ := uerase r.frame_k_ f
      new_frame_umap_ := uerase r.new_frame_umap_ f
      new_frame_ := r.new_frame_.filter (fun g => g ≠ f)
      curr_size_ := szDec r.curr_size_ }

/-- The state after the entry `e` of `cache_frame_` has been erased from the replacer
(the body of the `if` in the second loop of `EvictInstance`, and of `Remove`). -/
def LRUKReplacer.dropCache (r : LRUKReplacer) (e : Int × Nat) : LRUKReplacer :=
  { r with
      frame_timestamp_ := uerase r.frame_timestamp_ e.1
      frame_evictable_ := uerase r.frame_evictable_ e.1
      frame_k_ := uerase r.frame_k_ e.1
      cache_frame_umap_ := uerase r.cache_frame_umap_ e.1
      cache_frame_ := r.cache_frame_.filter (fun g => g ≠ e)
      curr_size_ := szDec r.curr_size_ }

/-- The state after frame `f` has entered `new_frame_` as an evictable frame (the end of
the branch `cnt == 1` of `RecordAccess`). -/
def LRUKReplacer.enterNew (r : LRUKReplacer) (f : Int) : LRUKReplacer :=
  { r with
      frame_evictable_ := uset r.frame_evictable_ f true
      curr_size_ := szInc r.curr_size_
      new_frame_ := f :: r.new_frame_
      new_frame_umap_ := uset r.new_frame_umap_ f () }

/-- The state after the first four statements of `RecordAccess` for a frame that had no
entry in `frame_k_` and `frame_timestamp_`. -/
def LRUKReplacer.stampFirst (r : LRUKReplacer) (f : Int) : LRUKReplacer :=
  { r with
      frame_k_ := uset (uset r.frame_k_ f 0) f 1
      frame_timestamp_ := uset r.frame_timestamp_ f [r.current_timestamp_]
      current_timestamp_ := szInc r.current_timestamp_ }

/-- The access record restricted to the frames that a state tracks. -/
def AccessLog.restrict (g : AccessLog) (r' : LRUKReplacer) : AccessLog :=
  { clock := g.clock, log := fun f => if r'.tracked f then g.log f else [] }

/-- The invariant that ties a replacer state with `k_ = k` to the record of the accesses
that led to it. -/
structure ReplInv (k : Nat) (r : LRUKReplacer) (g : AccessLog) : Prop where
  hk : r.k_ = k
  hts : r.current_timestamp_ = g.clock
  clk : g.clock < SIZE_MOD
  untr : ∀ f, ufind r.frame_evictable_ f = none →
    ufind r.frame_k_ f = none ∧ ufind r.frame_timestamp_ f = none ∧ f ∉ r.new_frame_ ∧
    f ∉ r.cache_frame_.map Prod.fst ∧ g.log f = []
  trk : ∀ f b, ufind r.frame_evictable_ f = some b →
    g.log f ≠ [] ∧ (∀ t ∈ g.log f, t < g.clock) ∧ (g.log f).length ≤ g.clock ∧
    ufind r.frame_k_ f = some (g.log f).length ∧
    ufind r.frame_timestamp_ f = some ((g.log f).drop ((g.log f).length - k)) ∧
    ((g.log f).length < k → f ∈ r.new_frame_ ∧ f ∉ r.cache_frame_.map Prod.fst) ∧
    (k ≤ (g.log f).length → f ∉ r.new_frame_ ∧ (f, kthRecent k (g.log f)) ∈ r.cache_frame_ ∧
      ufind r.cache_frame_umap_ f = some (f, kthRecent k (g.log f)))
  newOrd : r.new_frame_.Pairwise (fun a b => earliest (g.log b) ≤ earliest (g.log a))
  cacheOrd : r.cache_frame_.Pairwise (fun a b => a.2 ≤ b.2)
  cacheVal : ∀ e ∈ r.cache_frame_, e.2 = kthRecent k (g.log e.1)
  cacheNodup : r.cache_frame_.Nodup
  evNodup : (r.frame_evictable_.map Prod.fst).Nodup
  size : r.curr_size_ = evCount r.frame_evictable_
  szb : r.frame_evictable_.length ≤ g.clock

/-- Every frame with an access count is tracked: `frame_k_` has no key that
`frame_evictable_` lacks. -/
def LRUKReplacer.Counted (r : LRUKReplacer) : Prop :=
  ∀ f, ufind r.frame_k_ f ≠ none → ufind r.frame_evictable_ f ≠ none

/-- The access count that `RecordAccess` gives the frame (`cnt`). -/
def LRUKReplacer.countAfter (r : LRUKReplacer) (frame_id : Int) : Nat :=
  szInc ((ufind (match ufind r.frame_k_ frame_id with
    | none => uset r.frame_k_ frame_id 0
    | some _ => r.frame_k_) frame_id).getD 0)

/-- The state after the first four statements of `RecordAccess`: the access is counted and
stamped. -/
def LRUKReplacer.stamped (r : LRUKReplacer) (frame_id : Int) : LRUKReplacer :=
  { r with
      frame_k_ := uset (match ufind r.frame_k_ frame_id with
        | none => uset r.frame_k_ frame_id 0
        | some _ => r.frame_k_) frame_id (r.countAfter frame_id)
      frame_timestamp_ := uset r.frame_timestamp_ frame_id
        ((ufind r.frame_timestamp_ frame_id).getD [] ++ [r.current_timestamp_])
      current_timestamp_ := szInc r.current_timestamp_ }

/-- The number of entries of `frame_evictable_` whose flag is not set. -/
def falseCount (m : List (Int × Bool)) : Nat := (m.filter (fun e => !e.2)).length

/-- The invariant of the two sizes of a replacer built for `N` frames: `frame_evictable_` has
no key twice; `curr_size_` is the number of flags that are set; `replacer_size_` plus the
number of flags that are not set is `N`, modulo `2^64`. -/
structure SizeInv (N : Nat) (r : LRUKReplacer) : Prop where
  evNodup : (r.frame_evictable_.map Prod.fst).Nodup
  size : r.curr_size_ = evCount r.frame_evictable_
  cap : (r.replacer_size_ + falseCount r.frame_evictable_) % SIZE_MOD = N % SIZE_MOD

/-- The invariant of a replacer with `k ≤ 1`, on which every access that returns is a first
access: `cache_frame_` stays empty, every frame of `new_frame_` is tracked, and every tracked
frame has the access count 1. -/
structure LruInv (r : LRUKReplacer) : Prop where
  hk : r.k_ ≤ 1
  cache : r.cache_frame_ = []
  umap : r.cache_frame_umap_ = []
  counted : r.Counted
  members : ∀ f ∈ r.new_frame_, ufind r.frame_evictable_ f ≠ none
  once : ∀ f, ufind r.frame_evictable_ f ≠ none → ufind r.frame_k_ f = some 1
  szb : r.frame_evictable_.length ≤ r.current_timestamp_

/-- Whether `RecordAccess(frame_id)` calls `EvictInstance` before the frame enters
`new_frame_`: the access is counted as the first of the frame (`cnt == 1`) and
`curr_size_ == replacer_size_`. -/
def LRUKReplacer.evictsOnAccess (r : LRUKReplacer) (frame_id : Int) : Bool :=
  decide (r.countAfter frame_id = 1 ∧
    (r.stamped frame_id).curr_size_ = (r.stamped frame_id).replacer_size_)

/-! ### The replacer of the specification

The specification of the replacer, written from its words and from the calls alone: it does
not look at a state of `LRUKReplacer`. -/

/-- Specification of the replacer: the clock, which counts the `record_access` calls made so
far, and the tracked frames, each with the timestamps of its accesses since it was last
evicted or removed (oldest first) and its evictable flag. -/
structure SpecReplacer where
  clock : Nat
  frames : List (Int × (List Nat × Bool))
deriving DecidableEq, Repr

/-- The replacer of the specification before any call. -/
def SpecReplacer.empty : SpecReplacer := { clock := 0, frames := [] }

/-- The accesses of frame `f` since it was last evicted or removed; none for a frame that is
not tracked. -/
def SpecReplacer.history (S : SpecReplacer) (f : Int) : List Nat :=
  ((ufind S.frames f).map (fun e => e.1)).getD []

/-- Frame `f` is tracked. -/
def SpecReplacer.tracked (S : SpecReplacer) (f : Int) : Bool := (ufind S.frames f).isSome

/-- Frame `f` is tracked and evictable. -/
def SpecReplacer.evictable (S : SpecReplacer) (f : Int) : Bool :=
  (ufind S.frames f).map (fun e => e.2) == some true

/-- The first of the elements of a list whose key is least. -/
def leastBy {α : Type} (key : α → Nat) : List α → Option α
  | [] => none
  | a :: l =>
    match leastBy key l with
    | none => some a
    | some b => if key a ≤ key b then some a else some b

/-- Specification of the victim: "the evictable frame with maximum backward k-distance; ties
among `+∞` frames break by earliest overall timestamp". A frame with fewer than `k` accesses
has the distance `+∞`; among such evictable frames the one whose earliest access is oldest is
chosen; if there is none, the evictable frame whose `k`-th most recent access is oldest. -/
def SpecReplacer.victim (k : Nat) (S : SpecReplacer) : Option Int :=
  match leastBy (fun e => earliest e.2.1)
      (S.frames.filter (fun e => e.2.2 && decide (e.2.1.length < k))) with
  | some e => some e.1
  | none =>
    (leastBy (fun e => kthRecent k e.2.1) (S.frames.filter (fun e => e.2.2))).map
      (fun e => e.1)

/-- Specification of `evict`: "chooses and removes the best victim; removes all history of
the evicted frame". -/
def SpecReplacer.evict (k : Nat) (S : SpecReplacer) : SpecReplacer :=
  match S.victim k with
  | some v => { S with frames := uerase S.frames v }
  | none => S

/-- Specification of a call on a replacer built for `num_frames` frames.
`record_access(f)` "notes an access of frame `f` at the next timestamp; inserts `f` into
tracking on first sight", in which case it marks `f` evictable and, "if the pool was full
before this call, first evict[s] one to make room"; `set_evictable(f, b)` is a "no-op if `f`
is not tracked or already in state `b`"; `remove(f)` "untracks `f`; must be evictable (else
no-op)". -/
def SpecReplacer.step (num_frames k : Nat) (S : SpecReplacer) : ReplacerOp → SpecReplacer
  | .record_access f =>
    match ufind S.frames f with
    | some _ =>
      { clock := S.clock + 1
        frames := S.frames.map
          (fun e => if e.1 = f then (e.1, (e.2.1 ++ [S.clock], e.2.2)) else e) }
    | none =>
      let S1 := if S.frames.length = num_frames then S.evict k else S
      { clock := S.clock + 1, frames := uset S1.frames f ([S.clock], true) }
  | .set_evictable f b =>
    match ufind S.frames f with
    | none => S
    | some e => if e.2 = b then S else { S with frames := uset S.frames f (e.1, b) }
  | .remove f =>
    match ufind S.frames f with
    | some (_, true) => { S with frames := uerase S.frames f }
    | _ => S
  | .evict => S.evict k

/-- Specification of a sequence of calls on a new replacer. -/
def SpecReplacer.run (num_frames k : Nat) (ops : List ReplacerOp) : SpecReplacer :=
  ops.foldl (SpecReplacer.step num_frames k) SpecReplacer.empty

/-- The evictable flags of the frames that the specification tracks. -/
def SpecReplacer.flags (S : SpecReplacer) : List (Int × Bool) :=
  S.frames.map (fun e => (e.1, e.2.2))

/-- The replacer state `r`, with the access record `g`, is a state of the specification `S`:
the clocks agree, the replacer has a flag for exactly the frames that `S` tracks, with the
same value, and `S` has the recorded accesses of each of them; no timestamp is recorded for
two frames. -/
structure SpecSim (S : SpecReplacer) (r : LRUKReplacer) (g : AccessLog) : Prop where
  clock : S.clock = g.clock
  flags : S.flags = r.frame_evictable_
  hist : ∀ e ∈ S.frames, e.2.1 = g.log e.1
  apart : ∀ f f' t, t ∈ g.log f → t ∈ g.log f' → f = f'

end bustub

namespace bustub

/-! ## Extendible hash table (src/container/hash/extendible_hash_table.cpp) -/

/-- The fields of `ExtendibleHashTable::Bucket`. -/
structure Bucket (K V : Type) where
  size_ : Nat
  depth_ : Nat
  list_ : List (K × V)
deriving DecidableEq, Repr

/-- The fields of `ExtendibleHashTable`. A `std::shared_ptr<Bucket>` is an index into `heap`,
the list of all buckets allocated so far (`std::make_shared` appends to it); a bucket that no
directory slot refers to any more stays in the list. The depths are `int`s of the code; they
are natural numbers here and stay at most 30, because `split` is not defined where the `int`
arithmetic of the directory doubling would overflow. -/
structure ExtendibleHashTable (K V : Type) where
  global_depth_ : Nat
  bucket_size_ : Nat
  num_buckets_ : Nat
  dir_ : List Nat
  heap : List (Bucket K V)
deriving DecidableEq, Repr

section hashTable
variable {K V : Type} [DecidableEq K]

/-- The constructor `ExtendibleHashTable(bucket_size)`. -/
def ExtendibleHashTable.new (bucket_size : Nat) : ExtendibleHashTable K V :=
  { global_depth_ := 0, bucket_size_ := bucket_size, num_buckets_ := 1,
    dir_ := [0], heap := [{ size_ := bucket_size, depth_ := 0, list_ := [] }] }

/-- The number of values of a non-negative `int` (32 bits): `INT_MAX + 1`. -/
def INT_RANGE : Nat := 2 ^ 31

/-- `ExtendibleHashTable::IndexOf`, with `hash` for `std::hash<K>()`. The mask
`(1 << global_depth_) - 1` is an `int`; it is computed without overflow up to depth 30, which
no table that the model reaches exceeds. -/
def ExtendibleHashTable.IndexOf (hash : K → Nat) (t : ExtendibleHashTable K V) (key : K) : Nat :=
  hash key &&& ((1 <<< t.global_depth_) - 1)

/-- Modelled from the spec: `Bucket::IsFull` is declared in extendible_hash_table.h, which is
not among the sources; a bucket is full when it holds `bucket_size` entries. -/
def Bucket.IsFull (b : Bucket K V) : Bool := decide (b.list_.length = b.size_)

/-- `Bucket::Find`: the value of the first entry with the key. -/
def Bucket.Find (b : Bucket K V) (key : K) : Option V := ufind b.list_ key

/-- The list without its first entry for `key`; `none` when there is no such entry. -/
def eraseFirst : List (K × V) → K → Option (List (K × V))
  | [], _ => none
  | e :: r, key =>
    if e.1 = key then some r
    else match eraseFirst r key with
      | some r' => some (e :: r')
      | none => none

/-- The list with the value of its first entry for `key` replaced; `none` when there is no
such entry. -/
def replaceFirst : List (K × V) → K → V → Option (List (K × V))
  | [], _, _ => none
  | e :: r, key, value =>
    if e.1 = key then some ((e.1, value) :: r)
    else match replaceFirst r key value with
      | some r' => some (e :: r')
      | none => none

/-- `Bucket::Remove`. -/
def Bucket.Remove (b : Bucket K V) (key : K) : Bucket K V × Bool :=
  match eraseFirst b.list_ key with
  | some l => ({ b with list_ := l }, true)
  | none => (b, false)

/-- `Bucket::Insert`. -/
def Bucket.Insert (b : Bucket K V) (key : K) (value : V) : Bucket K V × Bool :=
  match replaceFirst b.list_ key value with
  | some l => ({ b with list_ := l }, true)
  | none =>
    if b.IsFull then (b, false)
    else ({ b with list_ := b.list_ ++ [(key, value)] }, true)

/-- `ExtendibleHashTable::Find`: `none` is an access outside `dir_`, `some none` is
`return false`, `some (some v)` is `return true` with `value = v`. -/
def ExtendibleHashTable.Find (hash : K → Nat) (t : ExtendibleHashTable K V) (key : K) :
    Option (Option V) := do
  let p ← t.dir_[t.IndexOf hash key]?
  let b ← t.heap[p]?
  pure (b.Find key)

/-- `ExtendibleHashTable::Remove`. -/
def ExtendibleHashTable.Remove (hash : K → Nat) (t : ExtendibleHashTable K V) (key : K) :
    Option (ExtendibleHashTable K V × Bool) := do
  let p ← t.dir_[t.IndexOf hash key]?
  let b ← t.heap[p]?
  let res := b.Remove key
  pure ({ t with heap := t.heap.set p res.1 }, res.2)

/-- The loop `for (i...) if (dir_[i] == target_bucket) dir_[i] = (i & mask) == 0 ? bucket_0 :
bucket_1` of `Insert`, from index `i` on. -/
def redirect (p p0 p1 mask : Nat) : Nat → List Nat → List Nat
  | _, [] => []
  | i, q :: rest =>
    (if q = p then (if i &&& mask = 0 then p0 else p1) else q) ::
      redirect p p0 p1 mask (i + 1) rest

/-- The body `dir_[IndexOf(item.first)]->Insert(item.first, item.second)` of the loop over
the items of the split bucket. -/
def ExtendibleHashTable.reinsert (hash : K → Nat) (t : ExtendibleHashTable K V)
    (item : K × V) : Option (ExtendibleHashTable K V) := do
  let q ← t.dir_[t.IndexOf hash item.1]?
  let b ← t.heap[q]?
  pure { t with heap := t.heap.set q (b.Insert item.1 item.2).1 }

/-- The loop over the items of the split bucket. -/
def ExtendibleHashTable.reinsertAll (hash : K → Nat) :
    ExtendibleHashTable K V → List (K × V) → Option (ExtendibleHashTable K V)
  | t, [] => some t
  | t, item :: rest =>
    match t.reinsert hash item with
    | some t' => ExtendibleHashTable.reinsertAll hash t' rest
    | none => none

/-- The directory doubling of `Insert`: `global_depth_++; int length = dir_.size();
dir_.resize(length << 1); dir_[i + length] = dir_[i]`. `none` where `length << 1` is not an
`int`: the directory then has `2^30` slots and the call does not return. -/
def ExtendibleHashTable.double (t : ExtendibleHashTable K V) :
    Option (ExtendibleHashTable K V) :=
  if t.dir_.length * 2 < INT_RANGE then
    some { t with global_depth_ := t.global_depth_ + 1, dir_ := t.dir_ ++ t.dir_ }
  else none

/-- The body of the `while` loop of `Insert`: the split of the bucket `b` at `dir_[...] = p`,
after the directory has been doubled if the local depth of `b` is the global depth. -/
def ExtendibleHashTable.split (hash : K → Nat) (t : ExtendibleHashTable K V) (p : Nat)
    (b : Bucket K V) : Option (ExtendibleHashTable K V) :=
  match (if b.depth_ = t.global_depth_ then t.double else some t) with
  | none => none
  | some t1 =>
    let depth := b.depth_ + 1
    let heap1 := t1.heap.set p { b with depth_ := depth }
    let mask := 1 <<< (depth - 1)
    let bucket_0 := heap1.length
    let bucket_1 := heap1.length + 1
    let t2 : ExtendibleHashTable K V :=
      { t1 with
          heap := heap1 ++ [{ size_ := t.bucket_size_, depth_ := depth, list_ := [] },
                            { size_ := t.bucket_size_, depth_ := depth, list_ := [] }]
          num_buckets_ := t1.num_buckets_ + 1
          dir_ := redirect p bucket_0 bucket_1 mask 0 t1.dir_ }
    ExtendibleHashTable.reinsertAll hash t2 b.list_

/-- `ExtendibleHashTable::Insert` with its `while` loop run at most `fuel` times:
`none` when the loop has not ended by then (or on an access outside `dir_`). -/
def ExtendibleHashTable.InsertFuel (hash : K → Nat) :
    Nat → ExtendibleHashTable K V → K → V → Option (ExtendibleHashTable K V)
  | 0, _, _, _ => none
  | fuel + 1, t, key, value =>
    match t.dir_[t.IndexOf hash key]? with
    | none => none
    | some p =>
      match t.heap[p]? with
      | none => none
      | some b =>
        let res := b.Insert key value
        if res.2 then some { t with heap := t.heap.set p res.1 }
        else
          match t.split hash p b with
          | none => none
          | some t3 => ExtendibleHashTable.InsertFuel hash fuel t3 key value

/-- A bound on the number of bits of the hash of `key` and of every entry of the list:
the largest of these hashes. -/
def hashBits (hash : K → Nat) (key : K) (l : List (K × V)) : Nat :=
  l.foldl (fun m e => max m (hash e.1)) (hash key)

/-- `ExtendibleHashTable::Insert`: the loop is given one round more than `hashBits` of `key`
and of the entries of its bucket, which is enough for it to end whenever it ends at all. -/
def ExtendibleHashTable.Insert (hash : K → Nat) (t : ExtendibleHashTable K V) (key : K)
    (value : V) : Option (ExtendibleHashTable K V) :=
  match t.dir_[t.IndexOf hash key]? with
  | none => none
  | some p =>
    match t.heap[p]? with
    | none => none
    | some b => t.InsertFuel hash (hashBits hash key b.list_ + 1) key value

/-- `GetGlobalDepth`. -/
def ExtendibleHashTable.GetGlobalDepth (t : ExtendibleHashTable K V) : Nat := t.global_depth_

/-- `GetNumBuckets`. -/
def ExtendibleHashTable.GetNumBuckets (t : ExtendibleHashTable K V) : Nat := t.num_buckets_

/-- `GetLocalDepth`. -/
def ExtendibleHashTable.GetLocalDepth (t : ExtendibleHashTable K V) (dir_index : Nat) :
    Option Nat := do
  let p ← t.dir_[dir_index]?
  let b ← t.heap[p]?
  pure b.depth_

/-! ### Sequences of calls and the finite map they specify -/

/-- A call of the table's interface that changes it. -/
inductive HashOp (K V : Type) where
  | insert (key : K) (value : V)
  | remove (key : K)
deriving DecidableEq, Repr

/-- The key of a call. -/
def HashOp.key : HashOp K V → K
  | .insert k _ => k
  | .remove k => k

/-- The table after a call and what the call returns (`Remove` returns a `bool`). -/
def ExtendibleHashTable.step (hash : K → Nat) (t : ExtendibleHashTable K V) :
    HashOp K V → Option (ExtendibleHashTable K V × Option Bool)
  | .insert k v =>
    match t.Insert hash k v with
    | some t' => some (t', none)
    | none => none
  | .remove k =>
    match t.Remove hash k with
    | some res => some (res.1, some res.2)
    | none => none

/-- Runs a sequence of calls: the final table and what each call returned. -/
def ExtendibleHashTable.run (hash : K → Nat) :
    ExtendibleHashTable K V → List (HashOp K V) →
      Option (ExtendibleHashTable K V × List (Option Bool))
  | t, [] => some (t, [])
  | t, op :: ops =>
    match t.step hash op with
    | none => none
    | some (t', out) =>
      match ExtendibleHashTable.run hash t' ops with
      | none => none
      | some (t'', outs) => some (t'', out :: outs)

/-- Specification: a call on a finite map. `insert` binds the key (overwriting), `remove`
unbinds it and returns whether it was bound. -/
def specStep (m : K → Option V) : HashOp K V → (K → Option V) × Option Bool
  | .insert k v => (fun x => if k = x then some v else m x, none)
  | .remove k => (fun x => if k = x then none else m x, some (m k).isSome)

/-- Specification: a sequence of calls on a finite map. -/
def specRun : (K → Option V) → List (HashOp K V) → (K → Option V) × List (Option Bool)
  | m, [] => (m, [])
  | m, op :: ops =>
    ((specRun (specStep m op).1 ops).1, (specStep m op).2 :: (specRun (specStep m op).1 ops).2)

/-- Well-formedness of a table: the directory has `2^global_depth_` slots; the bucket of
slot `i` has local depth `d ≤ global_depth_`, the capacity of the table, at most that many
entries, no key twice, only keys whose hash agrees with `i` on the low `d` bits, and is the
bucket of exactly the slots that agree with `i` on the low `d` bits. -/
structure HashWF (hash : K → Nat) (t : ExtendibleHashTable K V) : Prop where
  dirLen : t.dir_.length = 2 ^ t.global_depth_
  slot : ∀ i, i < 2 ^ t.global_depth_ → ∃ p b, t.dir_[i]? = some p ∧ t.heap[p]? = some b ∧
    b.depth_ ≤ t.global_depth_ ∧ b.size_ = t.bucket_size_ ∧
    b.list_.length ≤ t.bucket_size_ ∧ (b.list_.map Prod.fst).Nodup ∧
    (∀ e ∈ b.list_, hash e.1 % 2 ^ b.depth_ = i % 2 ^ b.depth_) ∧
    (∀ j, j < 2 ^ t.global_depth_ →
      (t.dir_[j]? = some p ↔ j % 2 ^ b.depth_ = i % 2 ^ b.depth_))

/-- The number of times that the body of the `while` loop of `Insert` runs, each run being
one split, with the loop run at most `fuel` times: `InsertFuel` with a counter in place of
the table. -/
def ExtendibleHashTable.SplitCountFuel (hash : K → Nat) :
    Nat → ExtendibleHashTable K V → K → V → Option Nat
  | 0, _, _, _ => none
  | fuel + 1, t, key, value =>
    match t.dir_[t.IndexOf hash key]? with
    | none => none
    | some p =>
      match t.heap[p]? with
      | none => none
      | some b =>
        if (b.Insert key value).2 then some 0
        else
          match t.split hash p b with
          | none => none
          | some t3 =>
            (ExtendibleHashTable.SplitCountFuel hash fuel t3 key value).map (fun n => n + 1)

/-- The number of splits that `Insert` makes, with the fuel of `Insert`. -/
def ExtendibleHashTable.SplitCount (hash : K → Nat) (t : ExtendibleHashTable K V) (key : K)
    (value : V) : Option Nat :=
  match t.dir_[t.IndexOf hash key]? with
  | none => none
  | some p =>
    match t.heap[p]? with
    | none => none
    | some b => t.SplitCountFuel hash (hashBits hash key b.list_ + 1) key value

end hashTable

/-- The table and the results that the calls `ops` leave on a new table of natural numbers
hashed by themselves; the new table where the run is not defined. -/
def sampleTable (bucket_size : Nat) (ops : List (HashOp Nat Nat)) :
    ExtendibleHashTable Nat Nat × List (Option Bool) :=
  ((ExtendibleHashTable.new bucket_size).run (fun n => n) ops).getD
    (ExtendibleHashTable.new bucket_size, [])

end bustub

namespace bustub

/-! ## Buffer pool manager (src/buffer/buffer_pool_manager_instance.cpp) -/

/-- Modelled from the spec: `INVALID_PAGE_ID` is defined in common/config.h, which is not
among the sources; it is a sentinel that is no page identifier (page identifiers are
non-negative). -/
def INVALID_PAGE_ID : Int := -1

/-- Modelled from the spec: the class `Page` is declared in storage/page/page.h, which is not
among the sources. A frame is a byte buffer with the metadata `page_id`, `pin_count` and
`is_dirty`. `pin_count_` is an `int`; the model does not bound it. -/
structure Page where
  data_ : List Nat
  page_id_ : Int
  pin_count_ : Int
  is_dirty_ : Bool
deriving DecidableEq, Repr

/-- What the sources leave to the environment: `std::hash<page_id_t>` and the constant
`PAGE_SIZE` of common/config.h. -/
structure Env where
  hash : Int → Nat
  PAGE_SIZE : Nat

/-- The zeroed buffer that `Page::ResetMemory` leaves. -/
def Env.zeroData (env : Env) : List Nat := List.replicate env.PAGE_SIZE 0

/-- The `Page()` that the constructor of the pool places in every frame. -/
def Env.emptyPage (env : Env) : Page :=
  { data_ := env.zeroData, page_id_ := INVALID_PAGE_ID, pin_count_ := 0, is_dirty_ := false }

/-- Modelled from the spec: the disk manager is an external interface (`WritePage`,
`ReadPage`, `Deallocate`). The model keeps the bytes last written for each page id, the log of
the `WritePage` calls (oldest first) and the log of the deallocation notices. -/
structure DiskManager where
  store : List (Int × List Nat)
  writes : List (Int × List Nat)
  deallocated : List Int
deriving DecidableEq, Repr

/-- Modelled from the spec: `WritePage(page_id, bytes)`. -/
def DiskManager.WritePage (d : DiskManager) (page_id : Int) (bytes : List Nat) : DiskManager :=
  { d with store := uset d.store page_id bytes, writes := d.writes ++ [(page_id, bytes)] }

/-- Modelled from the spec: `ReadPage(page_id, bytes)` yields the bytes last written for the
page, zeroes for a page never written. -/
def DiskManager.ReadPage (env : Env) (d : DiskManager) (page_id : Int) : List Nat :=
  (ufind d.store page_id).getD env.zeroData

/-- Modelled from the spec: `page_id_t` is the 32-bit `int` of common/config.h, which is not
among the sources. The value that the counter `next_page_id_` holds when arithmetic gives
`x`: `x` wrapped into the range of `int`, as `next_page_id_++` on the atomic counter does
(`2147483647` is followed by `-2147483648`). -/
def wrapPageId (x : Int) : Int := (x + 2 ^ 31) % 2 ^ 32 - 2 ^ 31

/-- The fields of `BufferPoolManagerInstance`. `next_page_id_` is the counter of
`AllocatePage`, a `page_id_t`. -/
structure BufferPoolManagerInstance where
  pool_size_ : Nat
  pages_ : List Page
  page_table_ : ExtendibleHashTable Int Int
  replacer_ : LRUKReplacer
  free_list_ : List Int
  next_page_id_ : Int
  disk_manager_ : DiskManager

/-- The constructor. `bucket_size` is the constant `bucket_size_` of the header (not among
the sources); the page counter starts at 0. -/
def BufferPoolManagerInstance.new (env : Env) (pool_size replacer_k bucket_size : Nat) :
    BufferPoolManagerInstance :=
  { pool_size_ := pool_size
    pages_ := List.replicate pool_size env.emptyPage
    page_table_ := ExtendibleHashTable.new bucket_size
    replacer_ := LRUKReplacer.new pool_size replacer_k
    free_list_ := (List.range pool_size).map Int.ofNat
    next_page_id_ := 0
    disk_manager_ := { store := [], writes := [], deallocated := [] } }

namespace BufferPoolManagerInstance

/-- The frame `pages_[frame_id]`; `none` outside the array. -/
def getPage (s : BufferPoolManagerInstance) (frame_id : Int) : Option Page :=
  if 0 ≤ frame_id then s.pages_[frame_id.toNat]? else none

/-- The state with `pages_[frame_id]` replaced. -/
def setPage (s : BufferPoolManagerInstance) (frame_id : Int) (pg : Page) :
    BufferPoolManagerInstance :=
  { s with pages_ := s.pages_.set frame_id.toNat pg }

/-- The frame acquisition shared by `NewPgImp` and `FetchPgImp`: the front of the free list,
or else the victim of the replacer, written back if dirty and unmapped from the page table.
`none` where `Evict` returns false and `new_frame_id` is used uninitialised. -/
def acquireFrame (env : Env) (s : BufferPoolManagerInstance) :
    Option (BufferPoolManagerInstance × Int) :=
  match s.free_list_ with
  | f :: rest => some ({ s with free_list_ := rest }, f)
  | [] =>
    match s.replacer_.Evict with
    | (_, none) => none
    | (r', some f) =>
      match s.getPage f with
      | none => none
      | some pg =>
        let pg' : Page := if pg.is_dirty_ then { pg with is_dirty_ := false } else pg
        let disk' :=
          if pg.is_dirty_ then s.disk_manager_.WritePage pg.page_id_ pg.data_
          else s.disk_manager_
        match s.page_table_.Remove env.hash pg.page_id_ with
        | none => none
        | some res =>
          some ({ s with replacer_ := r', pages_ := s.pages_.set f.toNat pg'
                         disk_manager_ := disk', page_table_ := res.1 }, f)

/-- The calls `replacer_->RecordAccess(f); replacer_->SetEvictable(f, false)`. -/
def pinInReplacer (r : LRUKReplacer) (f : Int) : Option LRUKReplacer :=
  match r.RecordAccess f with
  | none => none
  | some r' => some (r'.SetEvictable f false)

/-- The statements that `NewPgImp` and `FetchPgImp` share after the frame acquisition:
`page_table_->Insert(page_id, f)`, the two calls of the replacer, and the update of the
frame, whose buffer receives `data`. -/
def installPage (env : Env) (s1 : BufferPoolManagerInstance) (f : Int) (page_id : Int)
    (data : List Nat) : Option BufferPoolManagerInstance :=
  match s1.page_table_.Insert env.hash page_id f with
  | none => none
  | some pt =>
    match pinInReplacer s1.replacer_ f with
    | none => none
    | some r =>
      match s1.getPage f with
      | none => none
      | some _ =>
        some { s1 with
          page_table_ := pt, replacer_ := r
          pages_ := s1.pages_.set f.toNat
            { data_ := data, page_id_ := page_id, pin_count_ := 1, is_dirty_ := false } }

/-- `BufferPoolManagerInstance::NewPgImp`: the new state and `(page_id, frame)` of the new
page, `none` for `nullptr`. `AllocatePage` is `next_page_id_++` on a `page_id_t`. -/
def NewPgImp (env : Env) (s : BufferPoolManagerInstance) :
    Option (BufferPoolManagerInstance × Option (Int × Int)) :=
  if s.free_list_.length = 0 ∧ s.replacer_.Size = 0 then some (s, none)
  else
    let new_page_id := s.next_page_id_
    match acquireFrame env { s with next_page_id_ := wrapPageId (s.next_page_id_ + 1) } with
    | none => none
    | some (s1, f) =>
      match installPage env s1 f new_page_id env.zeroData with
      | none => none
      | some s' => some (s', some (new_page_id, f))

/-- `BufferPoolManagerInstance::FetchPgImp`: the new state and the frame of the page,
`none` for `nullptr`. -/
def FetchPgImp (env : Env) (s : BufferPoolManagerInstance) (page_id : Int) :
    Option (BufferPoolManagerInstance × Option Int) :=
  match s.page_table_.Find env.hash page_id with
  | none => none
  | some (some f) =>
    match s.replacer_.RecordAccess f with
    | none => none
    | some r =>
      match s.getPage f with
      | none => none
      | some pg =>
        some ({ s with
          replacer_ := r.SetEvictable f false
          pages_ := s.pages_.set f.toNat { pg with pin_count_ := pg.pin_count_ + 1 } }, some f)
  | some none =>
    if s.free_list_.length = 0 ∧ s.replacer_.Size = 0 then some (s, none)
    else
      match acquireFrame env s with
      | none => none
      | some (s1, f) =>
        match installPage env s1 f page_id (s1.disk_manager_.ReadPage env page_id) with
        | none => none
        | some s' => some (s', some f)

/-- `BufferPoolManagerInstance::UnpinPgImp`. -/
def UnpinPgImp (env : Env) (s : BufferPoolManagerInstance) (page_id : Int) (is_dirty : Bool) :
    Option (BufferPoolManagerInstance × Bool) :=
  match s.page_table_.Find env.hash page_id with
  | none => none
  | some none => some (s, false)
  | some (some f) =>
    match s.getPage f with
    | none => none
    | some pg =>
      if pg.pin_count_ ≤ 0 then some (s, false)
      else
        let pin := pg.pin_count_ - 1
        let r := if pin = 0 then s.replacer_.SetEvictable f true else s.replacer_
        let dirty := if is_dirty then true else pg.is_dirty_
        some ({ s with
          replacer_ := r
          pages_ := s.pages_.set f.toNat { pg with pin_count_ := pin, is_dirty_ := dirty } },
          true)

/-- `BufferPoolManagerInstance::FlushPgImp`. -/
def FlushPgImp (env : Env) (s : BufferPoolManagerInstance) (page_id : Int) :
    Option (BufferPoolManagerInstance × Bool) :=
  match s.page_table_.Find env.hash page_id with
  | none => none
  | some none => some (s, false)
  | some (some f) =>
    match s.getPage f with
    | none => none
    | some pg =>
      if pg.is_dirty_ then
        some ({ s with
          pages_ := s.pages_.set f.toNat { pg with is_dirty_ := false }
          disk_manager_ := s.disk_manager_.WritePage pg.page_id_ pg.data_ }, true)
      else some (s, true)

/-- The body of the loop of `FlushAllPgsImp` for frame `i`. -/
def flushFrame (s : BufferPoolManagerInstance) (i : Nat) : Option BufferPoolManagerInstance :=
  match s.pages_[i]? with
  | none => none
  | some pg =>
    if pg.page_id_ ≠ INVALID_PAGE_ID ∧ pg.is_dirty_ = true then
      some { s with
        pages_ := s.pages_.set i { pg with is_dirty_ := false }
        disk_manager_ := s.disk_manager_.WritePage pg.page_id_ pg.data_ }
    else some s

/-- The loop of `FlushAllPgsImp` over the frames in the list. -/
def flushFrames : BufferPoolManagerInstance → List Nat → Option BufferPoolManagerInstance
  | s, [] => some s
  | s, i :: rest =>
    match s.flushFrame i with
    | none => none
    | some s' => flushFrames s' rest

/-- `BufferPoolManagerInstance::FlushAllPgsImp`. -/
def FlushAllPgsImp (s : BufferPoolManagerInstance) : Option BufferPoolManagerInstance :=
  flushFrames s (List.range s.pool_size_)

/-- Modelled from the spec: `DeallocatePage` is declared in the header, which is not among
the sources; it notifies the disk layer that the page is deallocated. -/
def DeallocatePage (s : BufferPoolManagerInstance) (page_id : Int) :
    BufferPoolManagerInstance :=
  { s with disk_manager_ :=
      { s.disk_manager_ with deallocated := s.disk_manager_.deallocated ++ [page_id] } }

/-- `BufferPoolManagerInstance::DeletePgImp`. The replacer is called with `page_id`, as in
the source (`replacer_->Remove(page_id)`). -/
def DeletePgImp (env : Env) (s : BufferPoolManagerInstance) (page_id : Int) :
    Option (BufferPoolManagerInstance × Bool) :=
  match s.page_table_.Find env.hash page_id with
  | none => none
  | some none => some (s, true)
  | some (some f) =>
    match s.getPage f with
    | none => none
    | some pg =>
      if pg.pin_count_ > 0 then some (s, false)
      else
        match s.page_table_.Remove env.hash page_id with
        | none => none
        | some res =>
          some (DeallocatePage { s with
            page_table_ := res.1
            replacer_ := s.replacer_.Remove page_id
            free_list_ := s.free_list_ ++ [f]
            pages_ := s.pages_.set f.toNat
              { data_ := env.zeroData, page_id_ := INVALID_PAGE_ID, pin_count_ := 0,
                is_dirty_ := false } } page_id, true)

/-- The caller stores bytes in a frame through the `Page *` it was handed. -/
def writeData (s : BufferPoolManagerInstance) (frame_id : Int) (bytes : List Nat) :
    BufferPoolManagerInstance :=
  match s.getPage frame_id with
  | none => s
  | some pg => { s with pages_ := s.pages_.set frame_id.toNat { pg with data_ := bytes } }

end BufferPoolManagerInstance

/-- A call of the public interface of the pool, or a store of the caller into a frame. -/
inductive BPMOp where
  | new_page
  | fetch_page (page_id : Int)
  | unpin_page (page_id : Int) (is_dirty : Bool)
  | flush_page (page_id : Int)
  | flush_all_pages
  | delete_page (page_id : Int)
  | write_data (frame_id : Int) (bytes : List Nat)
deriving DecidableEq, Repr

/-- What a call returns. -/
inductive BPMResult where
  | new_page (r : Option (Int × Int))
  | frame (r : Option Int)
  | bool (b : Bool)
  | unit
deriving DecidableEq, Repr

/-- The state after a call and what the call returns; `none` where the call has no defined
behaviour. -/
def BufferPoolManagerInstance.step (env : Env) (s : BufferPoolManagerInstance) :
    BPMOp → Option (BufferPoolManagerInstance × BPMResult)
  | .new_page =>
    match s.NewPgImp env with
    | none => none
    | some (s', r) => some (s', .new_page r)
  | .fetch_page p =>
    match s.FetchPgImp env p with
    | none => none
    | some (s', r) => some (s', .frame r)
  | .unpin_page p d =>
    match s.UnpinPgImp env p d with
    | none => none
    | some (s', b) => some (s', .bool b)
  | .flush_page p =>
    match s.FlushPgImp env p with
    | none => none
    | some (s', b) => some (s', .bool b)
  | .flush_all_pages =>
    match s.FlushAllPgsImp with
    | none => none
    | some s' => some (s', .unit)
  | .delete_page p =>
    match s.DeletePgImp env p with
    | none => none
    | some (s', b) => some (s', .bool b)
  | .write_data f bytes => some (s.writeData f bytes, .unit)

/-- Runs a sequence of calls: the final state and what each call returned. -/
def BufferPoolManagerInstance.run (env : Env) :
    BufferPoolManagerInstance → List BPMOp → Option (BufferPoolManagerInstance × List BPMResult)
  | s, [] => some (s, [])
  | s, op :: ops =>
    match s.step env op with
    | none => none
    | some (s', out) =>
      match BufferPoolManagerInstance.run env s' ops with
      | none => none
      | some (s'', outs) => some (s'', out :: outs)

/-- The invariant of the pool that every call keeps, whatever its arguments: the page table
is well formed; a page mapped to a frame is the page that the frame holds; a frame of the
free list is in range, unpinned, holds no page and is the frame of no page of the table; no
frame is twice in the free list; a frame that the replacer may evict is in range and
unpinned. -/
structure BPMInv (env : Env) (s : BufferPoolManagerInstance) : Prop where
  wf : HashWF env.hash s.page_table_
  i1 : ∀ p f, s.page_table_.Find env.hash p = some (some f) →
    ∃ pg, s.getPage f = some pg ∧ pg.page_id_ = p
  free : ∀ f ∈ s.free_list_,
    (∃ pg, s.getPage f = some pg ∧ pg.pin_count_ = 0 ∧ pg.page_id_ = INVALID_PAGE_ID) ∧
    ∀ p, s.page_table_.Find env.hash p ≠ some (some f)
  freeNodup : s.free_list_.Nodup
  ev : ∀ f, ufind s.replacer_.frame_evictable_ f = some true →
    ∃ pg, s.getPage f = some pg ∧ pg.pin_count_ ≤ 0

/-- The state between the acquisition of frame `f` and the installation of a page in it:
the invariant, with `f` in range, outside the free list and the frame of no page. -/
structure Detached (env : Env) (s : BufferPoolManagerInstance) (f : Int) : Prop where
  inv : BPMInv env s
  valid : ∃ pg, s.getPage f = some pg
  notFree : f ∉ s.free_list_
  unmapped : ∀ p, s.page_table_.Find env.hash p ≠ some (some f)

/-- The page ids that a call hands out: the id of a successful `NewPage`. -/
def BPMResult.newIds : BPMResult → List Int
  | .new_page (some (p, _)) => [p]
  | _ => []

/-- Whether the caller may issue the call when `ids` are the page ids that `NewPage` has
returned so far: `FetchPage` is called only with such an id. -/
def BPMOp.admitted (ids : List Int) : BPMOp → Bool
  | .fetch_page p => decide (p ∈ ids)
  | _ => true

/-- Runs a sequence of admitted calls from a state in which `NewPage` has returned `ids`:
the final state and the ids returned by then; `none` when a call is not admitted or has no
defined behaviour. -/
def BufferPoolManagerInstance.runPublic (env : Env) :
    BufferPoolManagerInstance → List Int → List BPMOp →
      Option (BufferPoolManagerInstance × List Int)
  | s, ids, [] => some (s, ids)
  | s, ids, op :: ops =>
    if op.admitted ids then
      match s.step env op with
      | none => none
      | some (s', out) => BufferPoolManagerInstance.runPublic env s' (ids ++ out.newIds) ops
    else none

/-- Page id `p` is one of the first `c` ids that the page counter hands out. -/
def Issued (c : Nat) (p : Int) : Prop := ∃ i : Nat, i < c ∧ p = wrapPageId (i : Int)

/-- The number of `NewPage` calls among the calls `ops`. -/
def newPageCalls (ops : List BPMOp) : Nat := (ops.filter (fun op => op == .new_page)).length

/-- The invariant of the pool under admitted calls, `c` being the number of page ids handed
out so far: `BPMInv`; the page counter has been advanced `c` times; a mapped page id was
handed out; a frame outside the free list is the frame that the page table gives for the
page it holds. -/
structure PoolInv (env : Env) (c : Nat) (s : BufferPoolManagerInstance) : Prop where
  inv : BPMInv env s
  count : s.next_page_id_ = wrapPageId (c : Int)
  mapped : ∀ p f, s.page_table_.Find env.hash p = some (some f) → Issued c p
  resident : ∀ g pg, s.getPage g = some pg → g ∉ s.free_list_ →
    s.page_table_.Find env.hash pg.page_id_ = some (some g)

/-- The effect of `acquireFrame` followed by `installPage`: frame `f`, unpinned, is taken
from the front of the free list, or is a victim whose page is written back if dirty and
unmapped; then page `n` with the bytes `data` is mapped to it and pinned once. -/
structure Reused (env : Env) (s s' : BufferPoolManagerInstance) (f n : Int)
    (data : List Nat) : Prop where
  victim : ∃ pgv, s.getPage f = some pgv ∧ pgv.pin_count_ ≤ 0 ∧
    ((s.free_list_ = f :: s'.free_list_ ∧
        (∀ p, s.page_table_.Find env.hash p ≠ some (some f)) ∧
        (∀ p, s'.page_table_.Find env.hash p =
          if n = p then some (some f) else s.page_table_.Find env.hash p) ∧
        s'.disk_manager_ = s.disk_manager_) ∨
     (s.free_list_ = [] ∧ s'.free_list_ = [] ∧
        (∀ p, s'.page_table_.Find env.hash p =
          if n = p then some (some f) else
            if pgv.page_id_ = p then some none else s.page_table_.Find env.hash p) ∧
        s'.disk_manager_ =
          if pgv.is_dirty_ then s.disk_manager_.WritePage pgv.page_id_ pgv.data_
          else s.disk_manager_))
  pages : ∀ g, s'.getPage g =
    if g = f then some { data_ := data, page_id_ := n, pin_count_ := 1, is_dirty_ := false }
    else s.getPage g

/-- The effect of a call on the one frame `f` it updates, from `pg` to `pg'`, when the page
table, the free list and the page counter stay as they are. -/
structure Patched (env : Env) (s s' : BufferPoolManagerInstance) (f : Int)
    (pg pg' : Page) : Prop where
  old : s.getPage f = some pg
  pages : ∀ g, s'.getPage g = if g = f then some pg' else s.getPage g
  table : s'.page_table_ = s.page_table_
  freeList : s'.free_list_ = s.free_list_
  next : s'.next_page_id_ = s.next_page_id_

/-- Page `p` keeps the bytes `B`: either it is in a frame whose buffer is `B` and which is
dirty or whose bytes the disk has, or it is in no frame and the disk has `B` for it. -/
def Keeps (env : Env) (s : BufferPoolManagerInstance) (p : Int) (B : List Nat) : Prop :=
  (∃ f pg, s.page_table_.Find env.hash p = some (some f) ∧ s.getPage f = some pg ∧
      pg.data_ = B ∧ (pg.is_dirty_ = true ∨ ufind s.disk_manager_.store p = some B)) ∨
  (s.page_table_.Find env.hash p = some none ∧ ufind s.disk_manager_.store p = some B)

/-- An environment for concrete runs: the hash of a page id is the id itself (as
`std::hash<int>` gives for the ids that `AllocatePage` returns), and a page has 2 bytes. -/
def sampleEnv : Env := { hash := Int.toNat, PAGE_SIZE := 2 }

/-- The state and the results that the calls `ops` leave on a new pool of `pool_size` frames
over `sampleEnv`, with `k = 2` and buckets of 4 entries; the new pool where the run is not
defined. -/
def sampleRun (pool_size : Nat) (ops : List BPMOp) :
    BufferPoolManagerInstance × List BPMResult :=
  ((BufferPoolManagerInstance.new sampleEnv pool_size 2 4).run sampleEnv ops).getD
    (BufferPoolManagerInstance.new sampleEnv pool_size 2 4, [])

/-- The state and the returned page ids that the admitted calls `ops` leave on the same new
pool; the new pool where the run is not defined. -/
def samplePublic (pool_size : Nat) (ops : List BPMOp) :
    BufferPoolManagerInstance × List Int :=
  ((BufferPoolManagerInstance.new sampleEnv pool_size 2 4).runPublic sampleEnv [] ops).getD
    (BufferPoolManagerInstance.new sampleEnv pool_size 2 4, [])

/-- The state and the result of one more call; the state itself where the call is not
defined. -/
def sampleStep (s : BufferPoolManagerInstance) (op : BPMOp) :
    BufferPoolManagerInstance × BPMResult :=
  (s.step sampleEnv op).getD (s, .unit)

/-- A call of the pool that is not made on page `p`: not a fetch, an unpin or a deletion of
`p`, and not a store of the caller into a frame. -/
def BPMOp.other (p : Int) : BPMOp → Bool
  | .new_page => true
  | .fetch_page q => decide (q ≠ p)
  | .unpin_page q _ => decide (q ≠ p)
  | .flush_page _ => true
  | .flush_all_pages => true
  | .delete_page q => decide (q ≠ p)
  | .write_data _ _ => false

/-- The state and the returned page ids that the admitted calls `ops` leave on state `s`, in
which `NewPage` has returned `ids`; `s` itself where the run is not defined. -/
def samplePublicFrom (s : BufferPoolManagerInstance) (ids : List Int) (ops : List BPMOp) :
    BufferPoolManagerInstance × List Int :=
  (s.runPublic sampleEnv ids ops).getD (s, ids)

/-- The invariant that ties the pins of the pool to the replacer: `BPMInv`; every frame with
an access count is tracked by the replacer; a frame with a positive pin count is tracked and
its evictable flag is not set. -/
structure PinInv (env : Env) (s : BufferPoolManagerInstance) : Prop where
  inv : BPMInv env s
  counted : s.replacer_.Counted
  pinned : ∀ f pg, s.getPage f = some pg → 0 < pg.pin_count_ →
    ufind s.replacer_.frame_evictable_ f = some false

/-- The state and the result that `NewPage` leaves on state `s` over `sampleEnv`; `s` itself
where the call is not defined. -/
def sampleNewPage (s : BufferPoolManagerInstance) :
    BufferPoolManagerInstance × Option (Int × Int) :=
  (s.NewPgImp sampleEnv).getD (s, none)

/-- The replacer of a pool after at most `n` calls of `RecordAccess`: the invariant `ReplInv`
holds of it with a record whose clock is at most `n`. -/
def Clocked (k n : Nat) (r : LRUKReplacer) : Prop :=
  ∃ g : AccessLog, ReplInv k r g ∧ g.clock ≤ n

/-- Specification: the change that a call with its result makes to the number of pins held
on page `p`: a `NewPage` that returns `p` and a `FetchPage(p)` that returns a frame add one, an
`UnpinPage(p, _)` that returns true takes one away. -/
def pinDelta (p : Int) : BPMOp → BPMResult → Int
  | .new_page, .new_page (some (q, _)) => if q = p then 1 else 0
  | .fetch_page q, .frame (some _) => if q = p then 1 else 0
  | .unpin_page q _, .bool true => if q = p then -1 else 0
  | _, _ => 0

/-- Specification: the number of pins taken on page `p` by the calls `ops` with the results
`outs` and not yet matched by a successful unpin. -/
def pinBalance (p : Int) : List BPMOp → List BPMResult → Int
  | op :: ops, out :: outs => pinDelta p op out + pinBalance p ops outs
  | _, _ => 0

/-- Specification, read to the letter: the number of `FetchPage(p)` calls among `ops` that
returned a frame and are not yet matched by a successful unpin; `NewPage` is not counted. -/
def fetchBalance (p : Int) : List BPMOp → List BPMResult → Int
  | .fetch_page q :: ops, .frame (some _) :: outs =>
    (if q = p then 1 else 0) + fetchBalance p ops outs
  | .unpin_page q _ :: ops, .bool true :: outs =>
    (if q = p then -1 else 0) + fetchBalance p ops outs
  | _ :: ops, _ :: outs => fetchBalance p ops outs
  | _, _ => 0

/-- Whether every `FetchPage` among the calls `ops` with the results `outs` is made with an id
that `NewPage` has returned before, `ids` being the ids returned before the first call. -/
def admittedFrom (ids : List Int) : List BPMOp → List BPMResult → Bool
  | op :: ops, out :: outs => op.admitted ids && admittedFrom (ids ++ out.newIds) ops outs
  | _, _ => true

/-- The invariant that ties the pin counts to the pins counted by `B`: `PoolInv`; no pin count
is negative; the frame of a page `p` of the page table has the pin count `B p`; `B p = 0` for
a page that is not in the page table. -/
structure PinBal (env : Env) (c : Nat) (s : BufferPoolManagerInstance) (B : Int → Int) :
    Prop where
  pool : PoolInv env c s
  nonneg : ∀ g pg, s.getPage g = some pg → 0 ≤ pg.pin_count_
  mapped : ∀ p f pg, s.page_table_.Find env.hash p = some (some f) → s.getPage f = some pg →
    pg.pin_count_ = B p
  unmapped : ∀ p, s.page_table_.Find env.hash p = some none → B p = 0

/-! ### A run that wraps the page counter -/

/-- An environment for runs that reach every page id: the hash of a page id is its
conversion to `size_t`, as `std::hash<int>` gives for every `int`, and a page has 2 bytes. -/
def wideEnv : Env := { hash := fun p => (p % 2 ^ 64).toNat, PAGE_SIZE := 2 }

/-- A state of a pool of 2 frames, with `k = 2` and buckets of 4 entries, in which frame 0
holds page 0, pinned once, and frame 1 holds page `pid` with the pin count `pin1`. The page
table has the entries `l` in its one bucket; the replacer has recorded frame 0 at time 0 and
frame 1 at time `ts`, its flag for frame 1 is `flag` and its two sizes are `rs`; the page
counter is `nxt`; the disk has not been written. -/
def churnState (pin1 : Int) (flag : Bool) (rs : Nat) (l : List (Int × Int)) (pid : Int)
    (ts : Nat) (nxt : Int) : BufferPoolManagerInstance :=
  { pool_size_ := 2
    pages_ := [{ data_ := [0, 0], page_id_ := 0, pin_count_ := 1, is_dirty_ := false },
               { data_ := [0, 0], page_id_ := pid, pin_count_ := pin1, is_dirty_ := false }]
    page_table_ := { global_depth_ := 0, bucket_size_ := 4, num_buckets_ := 1, dir_ := [0],
                     heap := [{ size_ := 4, depth_ := 0, list_ := l }] }
    replacer_ := { current_timestamp_ := ts + 1, curr_size_ := rs, replacer_size_ := rs,
                   k_ := 2, frame_timestamp_ := [(1, [ts]), (0, [0])],
                   frame_evictable_ := [(1, flag), (0, false)],
                   frame_k_ := [(1, 1), (0, 1)], new_frame_ := [1, 0],
                   new_frame_umap_ := [(1, ()), (0, ())], cache_frame_ := [],
                   cache_frame_umap_ := [] }
    free_list_ := []
    next_page_id_ := nxt
    disk_manager_ := { store := [], writes := [], deallocated := [] } }

/-- The state after the `m`-th page of frame 1 (`m ≥ 1`) has been created and unpinned: page
0 is pinned in frame 0, page `wrapPageId m` is unpinned in frame 1, and the page counter is
`wrapPageId (m + 1)`. -/
def churnIdle (m : Nat) : BufferPoolManagerInstance :=
  churnState 0 true 1 [(0, 0), (wrapPageId m, 1)] (wrapPageId m) m (wrapPageId (m + 1))

/-- The calls of `n` rounds of `NewPage` and `UnpinPage` of the page it returns, when the page
counter has handed out `c` ids: the first round unpins page `wrapPageId c`. -/
def churn : Nat → Nat → List BPMOp
  | 0, _ => []
  | n + 1, c => .new_page :: .unpin_page (wrapPageId c) false :: churn n (c + 1)

/-- The calls that pin page 0 in frame 0 of a pool of 2 frames, create page 1 in frame 1 and
unpin it, and then make `n` more rounds of `NewPage` and `UnpinPage` on frame 1. -/
def churnOps (n : Nat) : List BPMOp :=
  [.new_page, .new_page, .unpin_page 1 false] ++ churn n 2

end bustub

namespace bustub

/-! ## Lemmas on association lists -/

section umap
variable {κ α : Type} [DecidableEq κ]

@[simp] theorem ufind_nil (k : κ) : ufind ([] : List (κ × α)) k = none := rfl

theorem ufind_cons (e : κ × α) (m : List (κ × α)) (k : κ) :
    ufind (e :: m) k = if e.1 = k then some e.2 else ufind m k := by
  cases e; rfl

theorem ufind_uerase_same (m : List (κ × α)) (k : κ) : ufind (uerase m k) k = none := by
  induction m with
  | nil => rfl
  | cons e m ih =>
    obtain ⟨a, b⟩ := e
    by_cases h : a = k
    · simp [uerase, h, ih]
    · simp [uerase, h, ufind, ih]

theorem ufind_uerase_ne (m : List (κ × α)) {k k' : κ} (h : k ≠ k') :
    ufind (uerase m k) k' = ufind m k' := by
  induction m with
  | nil => rfl
  | cons e m ih =>
    obtain ⟨a, b⟩ := e
    by_cases h1 : a = k
    · subst h1
      simp [uerase, ufind, h, ih]
    · by_cases h2 : a = k'
      · subst h2
        simp [uerase, h1, ufind]
      · simp [uerase, h1, ufind, h2, ih]

theorem ufind_uerase (m : List (κ × α)) (k k' : κ) :
    ufind (uerase m k) k' = if k = k' then none else ufind m k' := by
  by_cases h : k = k'
  · subst h; simp [ufind_uerase_same]
  · simp [h, ufind_uerase_ne m h]

theorem ufind_uset (m : List (κ × α)) (k k' : κ) (v : α) :
    ufind (uset m k v) k' = if k = k' then some v else ufind m k' := by
  by_cases h : k = k'
  · simp [uset, ufind, h]
  · simp [uset, ufind, h, ufind_uerase_ne m h]

theorem ufind_uset_same (m : List (κ × α)) (k : κ) (v : α) : ufind (uset m k v) k = some v := by
  simp [ufind_uset]

theorem ufind_uset_ne (m : List (κ × α)) {k k' : κ} (v : α) (h : k ≠ k') :
    ufind (uset m k v) k' = ufind m k' := by
  simp [ufind_uset, h]

theorem ufind_eq_none_iff (m : List (κ × α)) (k : κ) :
    ufind m k = none ↔ k ∉ m.map Prod.fst := by
  induction m with
  | nil => simp
  | cons e m ih =>
    obtain ⟨a, b⟩ := e
    by_cases h : a = k
    · simp [ufind, h]
    · simp only [ufind, h, if_false, ih, List.map_cons, List.mem_cons]
      constructor
      · intro h1 h2
        rcases h2 with h2 | h2
        · exact h h2.symm
        · exact h1 h2
      · intro h1 h2
        exact h1 (Or.inr h2)

theorem mem_of_ufind {m : List (κ × α)} {k : κ} {v : α} (h : ufind m k = some v) :
    (k, v) ∈ m := by
  induction m with
  | nil => simp at h
  | cons e m ih =>
    obtain ⟨a, b⟩ := e
    by_cases h1 : a = k
    · simp [ufind, h1] at h
      simp [h1, h]
    · simp [ufind, h1] at h
      exact List.mem_cons_of_mem _ (ih h)

theorem ufind_of_mem {m : List (κ × α)} (hn : (m.map Prod.fst).Nodup) {k : κ} {v : α}
    (h : (k, v) ∈ m) : ufind m k = some v := by
  induction m with
  | nil => simp at h
  | cons e m ih =>
    obtain ⟨a, b⟩ := e
    simp only [List.map_cons, List.nodup_cons] at hn
    rcases List.mem_cons.1 h with h1 | h1
    · cases h1
      simp [ufind]
    · have hne : a ≠ k := by
        intro hak
        subst hak
        exact hn.1 (List.mem_map.2 ⟨(a, v), h1, rfl⟩)
      simp [ufind, hne, ih hn.2 h1]

theorem uerase_eq_filter (m : List (κ × α)) (k : κ) :
    uerase m k = m.filter (fun e => decide (e.1 ≠ k)) := by
  induction m with
  | nil => rfl
  | cons e m ih =>
    obtain ⟨a, b⟩ := e
    by_cases h : a = k
    · simp [uerase, h, ih]
    · simp [uerase, h, ih]

theorem mem_uerase {m : List (κ × α)} {k : κ} {e : κ × α} :
    e ∈ uerase m k ↔ e ∈ m ∧ e.1 ≠ k := by
  simp [uerase_eq_filter]

theorem uerase_keys_nodup {m : List (κ × α)} (hn : (m.map Prod.fst).Nodup) (k : κ) :
    ((uerase m k).map Prod.fst).Nodup := by
  rw [uerase_eq_filter]
  exact (List.Sublist.map _ (List.filter_sublist _)).nodup hn

theorem uset_keys_nodup {m : List (κ × α)} (hn : (m.map Prod.fst).Nodup) (k : κ) (v : α) :
    ((uset m k v).map Prod.fst).Nodup := by
  simp only [uset, List.map_cons, List.nodup_cons]
  refine ⟨?_, uerase_keys_nodup hn k⟩
  rw [← ufind_eq_none_iff]
  exact ufind_uerase_same m k

theorem length_uerase_le (m : List (κ × α)) (k : κ) : (uerase m k).length ≤ m.length := by
  rw [uerase_eq_filter]
  exact List.length_filter_le _ _

theorem length_uerase_lt {m : List (κ × α)} {k : κ} {v : α} (h : ufind m k = some v) :
    (uerase m k).length < m.length := by
  induction m with
  | nil => simp at h
  | cons e m ih =>
    obtain ⟨a, b⟩ := e
    by_cases h1 : a = k
    · simp only [uerase, h1, if_true, List.length_cons]
      exact Nat.lt_succ_of_le (length_uerase_le m k)
    · simp only [ufind, h1, if_false] at h
      simp only [uerase, h1, if_false, List.length_cons]
      exact Nat.succ_lt_succ (ih h)

end umap

theorem evCount_cons (e : Int × Bool) (m : List (Int × Bool)) :
    evCount (e :: m) = (if e.2 then 1 else 0) + evCount m := by
  unfold evCount
  cases h : e.2 <;> simp [List.filter_cons, h]
  omega

theorem evCount_le_length (m : List (Int × Bool)) : evCount m ≤ m.length :=
  List.length_filter_le _ _

theorem evCount_uerase {m : List (Int × Bool)} (hn : (m.map Prod.fst).Nodup) (k : Int) :
    evCount (uerase m k) + (if ufind m k = some true then 1 else 0) = evCount m := by
  induction m with
  | nil => simp [uerase, evCount]
  | cons e m ih =>
    obtain ⟨a, b⟩ := e
    simp only [List.map_cons, List.nodup_cons] at hn
    by_cases h : a = k
    · subst h
      have hnone : ufind m a = none := (ufind_eq_none_iff m a).2 hn.1
      have h2 := ih hn.2
      simp only [hnone] at h2
      have hem : uerase m a = m := by
        rw [uerase_eq_filter, List.filter_eq_self]
        intro e he
        have : e.1 ≠ a := fun hea => hn.1 (hea ▸ List.mem_map.2 ⟨e, he, rfl⟩)
        simpa using this
      simp only [uerase, if_true, ufind, evCount_cons, hem]
      cases b
      · simp
      · simp; omega
    · have h2 := ih hn.2
      simp only [uerase, h, if_false, ufind, evCount_cons]
      omega

theorem evCount_pos_of_ufind {m : List (Int × Bool)} {k : Int} (h : ufind m k = some true) :
    0 < evCount m := by
  have hm := mem_of_ufind h
  unfold evCount
  exact List.length_pos_of_mem (List.mem_filter.2 ⟨hm, rfl⟩)

end bustub

namespace bustub

/-! ## The scans of `EvictInstance` -/

theorem scanNew_spec (ev : List (Int × Bool)) (l : List Int)
    (hall : ∀ f ∈ l, ufind ev f ≠ none) :
    (scanNew ev l = (ev, none) ∧ ∀ f ∈ l, ufind ev f = some false) ∨
    (∃ f l1 l2, l = l1 ++ f :: l2 ∧ scanNew ev l = (ev, some f) ∧ ufind ev f = some true ∧
      ∀ g ∈ l1, ufind ev g = some false) := by
  induction l with
  | nil => left; exact ⟨rfl, by simp⟩
  | cons a l ih =>
    have ha := hall a (List.mem_cons_self _ _)
    have ih' := ih (fun f hf => hall f (List.mem_cons_of_mem _ hf))
    cases hfa : ufind ev a with
    | none => exact absurd hfa ha
    | some b =>
      cases b with
      | true =>
        right
        exact ⟨a, [], l, rfl, by simp [scanNew, hfa], hfa, by simp⟩
      | false =>
        rcases ih' with ⟨h1, h2⟩ | ⟨f, l1, l2, h1, h2, h3, h4⟩
        · left
          refine ⟨by simp [scanNew, hfa, h1], ?_⟩
          intro f hf
          rcases List.mem_cons.1 hf with rfl | hf
          · exact hfa
          · exact h2 f hf
        · right
          refine ⟨f, a :: l1, l2, by simp [h1], by simp [scanNew, hfa, h2], h3, ?_⟩
          intro g hg
          rcases List.mem_cons.1 hg with rfl | hg
          · exact hfa
          · exact h4 g hg

theorem scanCache_spec (ev : List (Int × Bool)) (l : List (Int × Nat))
    (hall : ∀ e ∈ l, ufind ev e.1 ≠ none) :
    (scanCache ev l = (ev, none) ∧ ∀ e ∈ l, ufind ev e.1 = some false) ∨
    (∃ e l1 l2, l = l1 ++ e :: l2 ∧ scanCache ev l = (ev, some e) ∧ ufind ev e.1 = some true ∧
      ∀ g ∈ l1, ufind ev g.1 = some false) := by
  induction l with
  | nil => left; exact ⟨rfl, by simp⟩
  | cons a l ih =>
    have ha := hall a (List.mem_cons_self _ _)
    have ih' := ih (fun f hf => hall f (List.mem_cons_of_mem _ hf))
    cases hfa : ufind ev a.1 with
    | none => exact absurd hfa ha
    | some b =>
      cases b with
      | true =>
        right
        exact ⟨a, [], l, rfl, by simp [scanCache, hfa], hfa, by simp⟩
      | false =>
        rcases ih' with ⟨h1, h2⟩ | ⟨f, l1, l2, h1, h2, h3, h4⟩
        · left
          refine ⟨by simp [scanCache, hfa, h1], ?_⟩
          intro f hf
          rcases List.mem_cons.1 hf with rfl | hf
          · exact hfa
          · exact h2 f hf
        · right
          refine ⟨f, a :: l1, l2, by simp [h1], by simp [scanCache, hfa, h2], h3, ?_⟩
          intro g hg
          rcases List.mem_cons.1 hg with rfl | hg
          · exact hfa
          · exact h4 g hg

/-- The three outcomes of `EvictInstance` in a state whose lists hold tracked frames only. -/
theorem EvictInstance_cases (r : LRUKReplacer)
    (hn : ∀ f ∈ r.new_frame_, ufind r.frame_evictable_ f ≠ none)
    (hc : ∀ e ∈ r.cache_frame_, ufind r.frame_evictable_ e.1 ≠ none) :
    (r.EvictInstance = (r, none) ∧
      (r.curr_size_ = 0 ∨ ((∀ f ∈ r.new_frame_, ufind r.frame_evictable_ f = some false) ∧
        ∀ e ∈ r.cache_frame_, ufind r.frame_evictable_ e.1 = some false))) ∨
    (r.curr_size_ ≠ 0 ∧ ∃ f l1 l2, r.new_frame_ = l1 ++ f :: l2 ∧
      r.EvictInstance = (r.dropNew f, some f) ∧ ufind r.frame_evictable_ f = some true ∧
      ∀ g ∈ l2, ufind r.frame_evictable_ g = some false) ∨
    (r.curr_size_ ≠ 0 ∧ (∀ f ∈ r.new_frame_, ufind r.frame_evictable_ f = some false) ∧
      ∃ e l1 l2, r.cache_frame_ = l1 ++ e :: l2 ∧
      r.EvictInstance = (r.dropCache e, some e.1) ∧ ufind r.frame_evictable_ e.1 = some true ∧
      ∀ g ∈ l1, ufind r.frame_evictable_ g.1 = some false) := by
  by_cases h0 : r.curr_size_ = 0
  · left
    exact ⟨by simp [LRUKReplacer.EvictInstance, h0], Or.inl h0⟩
  · have hn' : ∀ f ∈ r.new_frame_.reverse, ufind r.frame_evictable_ f ≠ none :=
      fun f hf => hn f (List.mem_reverse.1 hf)
    rcases scanNew_spec r.frame_evictable_ r.new_frame_.reverse hn' with
      ⟨h1, h2⟩ | ⟨f, l1, l2, h1, h2, h3, h4⟩
    · have h2' : ∀ f ∈ r.new_frame_, ufind r.frame_evictable_ f = some false :=
        fun f hf => h2 f (List.mem_reverse.2 hf)
      rcases scanCache_spec r.frame_evictable_ r.cache_frame_ hc with
        ⟨c1, c2⟩ | ⟨e, l1, l2, c1, c2, c3, c4⟩
      · left
        refine ⟨?_, Or.inr ⟨h2', c2⟩⟩
        simp [LRUKReplacer.EvictInstance, h0, h1, c1]
      · right; right
        refine ⟨h0, h2', e, l1, l2, c1, ?_, c3, c4⟩
        simp [LRUKReplacer.EvictInstance, h0, h1, c2, LRUKReplacer.dropCache]
    · right; left
      refine ⟨h0, f, l2.reverse, l1.reverse, ?_, ?_, h3, ?_⟩
      · have := congrArg List.reverse h1
        simpa using this
      · simp [LRUKReplacer.EvictInstance, h0, h2, LRUKReplacer.dropNew]
      · intro g hg
        exact h4 g (List.mem_reverse.1 hg)

end bustub

namespace bustub

/-! ## Preservation of the replacer invariant -/

theorem AccessLog.ext_log {g g' : AccessLog} (hc : g'.clock = g.clock)
    (hl : ∀ x, g'.log x = g.log x) : g' = g := by
  cases g; cases g'
  simp only [AccessLog.mk.injEq] at *
  exact ⟨hc, funext hl⟩

theorem szDec_succ (c : Nat) : szDec (c + 1) = c := by
  simp [szDec]

theorem szInc_eq {c : Nat} (h : c + 1 < SIZE_MOD) : szInc c = c + 1 := by
  simp [szInc, Nat.ne_of_lt h]

theorem szInc_eq_mod {c : Nat} (h : c < SIZE_MOD) : szInc c = (c + 1) % SIZE_MOD := by
  unfold szInc
  split
  · next h1 => rw [h1, Nat.mod_self]
  · next h1 => rw [Nat.mod_eq_of_lt (by omega)]

theorem szDec_eq_mod {c : Nat} (h : c < SIZE_MOD) :
    szDec c = (c + (SIZE_MOD - 1)) % SIZE_MOD := by
  unfold szDec
  have hpos : 0 < SIZE_MOD := by unfold SIZE_MOD; positivity
  split
  · next h1 => rw [h1, Nat.zero_add, Nat.mod_eq_of_lt (by omega)]
  · next h1 =>
    have : c + (SIZE_MOD - 1) = (c - 1) + SIZE_MOD := by omega
    rw [this, Nat.add_mod_right, Nat.mod_eq_of_lt (by omega)]

namespace ReplInv

variable {k : Nat} {r : LRUKReplacer} {g : AccessLog}

theorem tracked_of_mem_new (h : ReplInv k r g) {f : Int} (hf : f ∈ r.new_frame_) :
    ufind r.frame_evictable_ f ≠ none :=
  fun hn => (h.untr f hn).2.2.1 hf

theorem tracked_of_mem_cache (h : ReplInv k r g) {e : Int × Nat} (he : e ∈ r.cache_frame_) :
    ufind r.frame_evictable_ e.1 ≠ none :=
  fun hn => (h.untr e.1 hn).2.2.2.1 (List.mem_map.2 ⟨e, he, rfl⟩)

theorem evCount_lt (h : ReplInv k r g) : evCount r.frame_evictable_ < SIZE_MOD :=
  lt_of_le_of_lt (le_trans (evCount_le_length _) h.szb) h.clk

/-- Erasing an evictable frame `f` from the maps and from the list that holds it. -/
theorem drop (h : ReplInv k r g) {f : Int} (hf : ufind r.frame_evictable_ f = some true)
    (r' : LRUKReplacer) (hk' : r'.k_ = r.k_)
    (hts' : r'.current_timestamp_ = r.current_timestamp_)
    (hfe : r'.frame_evictable_ = uerase r.frame_evictable_ f)
    (hft : r'.frame_timestamp_ = uerase r.frame_timestamp_ f)
    (hfk : r'.frame_k_ = uerase r.frame_k_ f)
    (hcurr : r'.curr_size_ = szDec r.curr_size_)
    (hnew : r'.new_frame_ = r.new_frame_.filter (fun x => x ≠ f))
    (hsub : r'.cache_frame_.Sublist r.cache_frame_)
    (hcmem : ∀ e, e ∈ r'.cache_frame_ ↔ e ∈ r.cache_frame_ ∧ e.1 ≠ f)
    (hcu : ∀ x, x ≠ f → ufind r'.cache_frame_umap_ x = ufind r.cache_frame_umap_ x) :
    ReplInv k r' (g.restrict r') := by
  have hlog : ∀ x, (g.restrict r').log x = if f = x then [] else g.log x := by
    intro x
    simp only [AccessLog.restrict, LRUKReplacer.tracked, hfe, ufind_uerase]
    by_cases hx : f = x
    · simp [hx]
    · simp only [hx, if_false]
      cases hfx : ufind r.frame_evictable_ x with
      | none => simp [(h.untr x hfx).2.2.2.2]
      | some b => simp
  have hlog_ne : ∀ x, x ≠ f → (g.restrict r').log x = g.log x := by
    intro x hx
    rw [hlog x, if_neg (fun h' => hx h'.symm)]
  refine
    { hk := hk'.trans h.hk
      hts := hts'.trans h.hts
      clk := h.clk
      untr := ?_
      trk := ?_
      newOrd := ?_
      cacheOrd := h.cacheOrd.sublist hsub
      cacheVal := ?_
      cacheNodup := hsub.nodup h.cacheNodup
      evNodup := hfe ▸ uerase_keys_nodup h.evNodup f
      size := ?_
      szb := ?_ }
  · intro x hx
    rw [hfe, ufind_uerase] at hx
    rw [hfk, hft, hnew, hlog x, ufind_uerase, ufind_uerase]
    by_cases hxf : f = x
    · subst hxf
      refine ⟨by simp, by simp, by simp, ?_, by simp⟩
      intro hm
      obtain ⟨e, he, he1⟩ := List.mem_map.1 hm
      exact ((hcmem e).1 he).2 he1
    · simp only [hxf, if_false] at hx ⊢
      obtain ⟨h1, h2, h3, h4, h5⟩ := h.untr x hx
      refine ⟨h1, h2, ?_, ?_, h5⟩
      · intro hm
        exact h3 (List.mem_filter.1 hm).1
      · intro hm
        obtain ⟨e, he, he1⟩ := List.mem_map.1 hm
        exact h4 (List.mem_map.2 ⟨e, ((hcmem e).1 he).1, he1⟩)
  · intro x b hx
    rw [hfe, ufind_uerase] at hx
    by_cases hxf : f = x
    · simp [hxf] at hx
    · simp only [hxf, if_false] at hx
      have hxf' : x ≠ f := fun h' => hxf h'.symm
      obtain ⟨h1, h2, h3, h4, h5, h6, h7⟩ := h.trk x b hx
      rw [hlog_ne x hxf', hfk, hft, ufind_uerase_ne _ hxf, ufind_uerase_ne _ hxf, hnew,
        hcu x hxf']
      refine ⟨h1, h2, h3, h4, h5, ?_, ?_⟩
      · intro hlt
        obtain ⟨a1, a2⟩ := h6 hlt
        refine ⟨List.mem_filter.2 ⟨a1, by simpa using hxf'⟩, ?_⟩
        intro hm
        obtain ⟨e, he, he1⟩ := List.mem_map.1 hm
        exact a2 (List.mem_map.2 ⟨e, ((hcmem e).1 he).1, he1⟩)
      · intro hle
        obtain ⟨a1, a2, a3⟩ := h7 hle
        refine ⟨fun hm => a1 (List.mem_filter.1 hm).1, (hcmem _).2 ⟨a2, hxf'⟩, a3⟩
  · rw [hnew]
    refine List.Pairwise.imp_of_mem ?_ (h.newOrd.filter _)
    intro a b ha hb hab
    have ha' : a ≠ f := by simpa using (List.mem_filter.1 ha).2
    have hb' : b ≠ f := by simpa using (List.mem_filter.1 hb).2
    rw [hlog_ne a ha', hlog_ne b hb']
    exact hab
  · intro e he
    obtain ⟨he1, he2⟩ := (hcmem e).1 he
    rw [hlog_ne e.1 he2]
    exact h.cacheVal e he1
  · rw [hcurr, hfe, h.size]
    have hc := evCount_uerase h.evNodup f
    simp only [hf, if_true] at hc
    rw [← hc]
    exact szDec_succ _
  · rw [hfe]
    exact le_trans (length_uerase_le _ _) h.szb

theorem dropNew (h : ReplInv k r g) {f : Int} (hf : ufind r.frame_evictable_ f = some true)
    (hmem : f ∈ r.new_frame_) : ReplInv k (r.dropNew f) (g.restrict (r.dropNew f)) := by
  have hnc : f ∉ r.cache_frame_.map Prod.fst := by
    obtain ⟨_, _, _, _, _, h6, h7⟩ := h.trk f true hf
    by_cases hlt : (g.log f).length < k
    · exact (h6 hlt).2
    · exact absurd hmem (h7 (Nat.le_of_not_lt hlt)).1
  refine h.drop hf (r.dropNew f) (by simp only [LRUKReplacer.dropNew])
    (by simp only [LRUKReplacer.dropNew]) (by simp only [LRUKReplacer.dropNew])
    (by simp only [LRUKReplacer.dropNew]) (by simp only [LRUKReplacer.dropNew])
    (by simp only [LRUKReplacer.dropNew]) (by simp only [LRUKReplacer.dropNew])
    (List.Sublist.refl _) ?_ (fun _ _ => by simp only [LRUKReplacer.dropNew])
  intro e
  constructor
  · intro he
    exact ⟨he, fun h1 => hnc (List.mem_map.2 ⟨e, he, h1⟩)⟩
  · exact fun he => he.1

theorem dropCache (h : ReplInv k r g) {e : Int × Nat}
    (hf : ufind r.frame_evictable_ e.1 = some true)
    (hmem : e ∈ r.cache_frame_) : ReplInv k (r.dropCache e) (g.restrict (r.dropCache e)) := by
  obtain ⟨_, _, _, _, _, h6, h7⟩ := h.trk e.1 true hf
  have hle : k ≤ (g.log e.1).length := by
    by_contra hlt
    exact (h6 (Nat.lt_of_not_le hlt)).2 (List.mem_map.2 ⟨e, hmem, rfl⟩)
  have hnn : e.1 ∉ r.new_frame_ := (h7 hle).1
  refine h.drop hf (r.dropCache e) (by simp only [LRUKReplacer.dropCache])
    (by simp only [LRUKReplacer.dropCache]) (by simp only [LRUKReplacer.dropCache])
    (by simp only [LRUKReplacer.dropCache]) (by simp only [LRUKReplacer.dropCache])
    (by simp only [LRUKReplacer.dropCache]) ?_ (List.filter_sublist _) ?_ ?_
  · simp only [LRUKReplacer.dropCache]
    symm
    rw [List.filter_eq_self]
    intro a ha
    have : a ≠ e.1 := fun h1 => hnn (h1 ▸ ha)
    simpa using this
  · intro e'
    simp only [LRUKReplacer.dropCache, List.mem_filter, decide_eq_true_eq]
    constructor
    · rintro ⟨h1, h2⟩
      refine ⟨h1, fun h3 => h2 ?_⟩
      have v1 := h.cacheVal e' h1
      have v2 := h.cacheVal e hmem
      rw [h3] at v1
      exact Prod.ext h3 (v1.trans v2.symm)
    · rintro ⟨h1, h2⟩
      exact ⟨h1, fun h3 => h2 (h3 ▸ rfl)⟩
  · intro x hx
    simp only [LRUKReplacer.dropCache]
    exact ufind_uerase_ne _ (fun h' => hx h'.symm)

end ReplInv

end bustub

namespace bustub

namespace ReplInv

variable {k : Nat} {r : LRUKReplacer} {g : AccessLog}

theorem restrict_self (h : ReplInv k r g) : g.restrict r = g := by
  have hc : (g.restrict r).clock = g.clock := rfl
  refine AccessLog.ext_log hc ?_
  intro x
  simp only [AccessLog.restrict, LRUKReplacer.tracked]
  by_cases hx : ufind r.frame_evictable_ x = none
  · simp [(h.untr x hx).2.2.2.2]
  · obtain ⟨b, hb⟩ := Option.ne_none_iff_exists'.1 hx
    simp [hb]

theorem restrict_of_tracked_eq (h : ReplInv k r g) {r' : LRUKReplacer}
    (ht : ∀ x, r'.tracked x = r.tracked x) : g.restrict r' = g := by
  have : g.restrict r' = g.restrict r := by
    have hc : (g.restrict r').clock = (g.restrict r).clock := rfl
    refine AccessLog.ext_log hc ?_
    intro x
    simp only [AccessLog.restrict, ht x]
  rw [this, h.restrict_self]

/-- `SetEvictable` keeps the invariant and the record. -/
theorem setEvictable (h : ReplInv k r g) (f : Int) (b : Bool) :
    ReplInv k (r.SetEvictable f b) g := by
  unfold LRUKReplacer.SetEvictable
  cases hf : ufind r.frame_evictable_ f with
  | none => exact h
  | some b0 =>
    simp only
    by_cases hb : b0 = b
    · simp only [hb, if_true]
      exact h
    · simp only [hb, if_false]
      have hfind : ∀ x, ufind (uset r.frame_evictable_ f b) x =
          if f = x then some b else ufind r.frame_evictable_ x := fun x => ufind_uset _ _ _ _
      have hlen : (uset r.frame_evictable_ f b).length ≤ r.frame_evictable_.length := by
        simp only [uset, List.length_cons]
        exact length_uerase_lt hf
      have hcnt : evCount (uset r.frame_evictable_ f b) + (if b0 then 1 else 0) =
          evCount r.frame_evictable_ + (if b then 1 else 0) := by
        have := evCount_uerase h.evNodup f
        simp only [hf] at this
        simp only [uset, evCount_cons]
        cases b0 <;> cases b <;> simp_all <;> omega
      have huntr : ∀ x, ufind (uset r.frame_evictable_ f b) x = none →
          ufind r.frame_evictable_ x = none := by
        intro x hx
        rw [hfind] at hx
        by_cases hxf : f = x
        · simp [hxf] at hx
        · simpa [hxf] using hx
      have htrk : ∀ x b', ufind (uset r.frame_evictable_ f b) x = some b' →
          ∃ b'', ufind r.frame_evictable_ x = some b'' := by
        intro x b' hx
        rw [hfind] at hx
        by_cases hxf : f = x
        · exact ⟨b0, hxf ▸ hf⟩
        · exact ⟨b', by simpa [hxf] using hx⟩
      have hsize : (if b = true then szInc r.curr_size_ else szDec r.curr_size_) =
          evCount (uset r.frame_evictable_ f b) := by
        rw [h.size]
        cases b with
        | true =>
          have hb0 : b0 = false := by cases b0 <;> simp_all
          subst hb0
          simp only [if_true] at hcnt ⊢
          simp only [Bool.false_eq_true, if_false, Nat.add_zero] at hcnt
          rw [hcnt]
          apply szInc_eq
          rw [← hcnt]
          have h1 : evCount (uset r.frame_evictable_ f true) ≤ g.clock :=
            le_trans (evCount_le_length _) (le_trans hlen h.szb)
          have h2 := h.clk
          omega
        | false =>
          have hb0 : b0 = true := by cases b0 <;> simp_all
          subst hb0
          simp only [Bool.false_eq_true, if_false, Nat.add_zero, if_true] at hcnt ⊢
          rw [← hcnt]
          exact szDec_succ _
      cases b with
      | true =>
        simp only [if_true] at hsize ⊢
        exact
          { hk := h.hk, hts := h.hts, clk := h.clk
            untr := fun x hx => h.untr x (huntr x hx)
            trk := fun x b' hx => by
              obtain ⟨b'', hb''⟩ := htrk x b' hx
              exact h.trk x b'' hb''
            newOrd := h.newOrd, cacheOrd := h.cacheOrd, cacheVal := h.cacheVal
            cacheNodup := h.cacheNodup
            evNodup := uset_keys_nodup h.evNodup f true
            size := hsize
            szb := le_trans hlen h.szb }
      | false =>
        simp only [Bool.false_eq_true, if_false] at hsize ⊢
        exact
          { hk := h.hk, hts := h.hts, clk := h.clk
            untr := fun x hx => h.untr x (huntr x hx)
            trk := fun x b' hx => by
              obtain ⟨b'', hb''⟩ := htrk x b' hx
              exact h.trk x b'' hb''
            newOrd := h.newOrd, cacheOrd := h.cacheOrd, cacheVal := h.cacheVal
            cacheNodup := h.cacheNodup
            evNodup := uset_keys_nodup h.evNodup f false
            size := hsize
            szb := le_trans hlen h.szb }

theorem setEvictable_tracked (r : LRUKReplacer) (f : Int) (b : Bool) (x : Int) :
    (r.SetEvictable f b).tracked x = r.tracked x := by
  unfold LRUKReplacer.SetEvictable LRUKReplacer.tracked
  cases hf : ufind r.frame_evictable_ f with
  | none => rfl
  | some b0 =>
    simp only
    by_cases hb : b0 = b
    · simp [hb]
    · by_cases hxf : f = x
      · subst hxf
        cases b <;> simp [hb, ufind_uset, hf]
      · cases b <;> simp [hb, ufind_uset, hxf]

/-- `Remove` keeps the invariant, the record being restricted to the frames still tracked. -/
theorem remove_frame (h : ReplInv k r g) (f : Int) :
    ReplInv k (r.Remove f) (g.restrict (r.Remove f)) := by
  unfold LRUKReplacer.Remove
  cases hf : ufind r.frame_evictable_ f with
  | none => simp only; rw [h.restrict_self]; exact h
  | some b =>
    cases b with
    | false => simp only; rw [h.restrict_self]; exact h
    | true =>
      simp only
      by_cases hm : f ∈ r.new_frame_
      · simp only [hm, if_true]
        exact h.dropNew hf hm
      · simp only [hm, if_false]
        obtain ⟨_, _, _, _, _, h6, h7⟩ := h.trk f true hf
        have hle : k ≤ (g.log f).length := by
          by_contra hlt
          exact hm (h6 (Nat.lt_of_not_le hlt)).1
        have hin := (h7 hle).2.1
        cases hfind : r.cache_frame_.find? (fun e => decide (e.1 = f)) with
        | none =>
          have := List.find?_eq_none.1 hfind _ hin
          simp at this
        | some e =>
          have he1 : e.1 = f := by simpa using List.find?_some hfind
          have hemem : e ∈ r.cache_frame_ := List.mem_of_find?_eq_some hfind
          simp only
          have := h.dropCache (he1 ▸ hf) hemem
          simpa only [LRUKReplacer.dropCache, he1] using this

/-- `EvictInstance` keeps the invariant, the record being restricted to the frames still
tracked. -/
theorem evict (h : ReplInv k r g) :
    ReplInv k r.EvictInstance.1 (g.restrict r.EvictInstance.1) := by
  rcases EvictInstance_cases r (fun f hf => h.tracked_of_mem_new hf)
      (fun e he => h.tracked_of_mem_cache he) with
    ⟨h1, _⟩ | ⟨_, f, l1, l2, h1, h2, h3, _⟩ | ⟨_, _, e, l1, l2, h1, h2, h3, _⟩
  · rw [h1]; simp only; rw [h.restrict_self]; exact h
  · rw [h2]
    exact h.dropNew h3 (h1 ▸ List.mem_append_right _ (List.mem_cons_self _ _))
  · rw [h2]
    exact h.dropCache h3 (h1 ▸ List.mem_append_right _ (List.mem_cons_self _ _))

end ReplInv

end bustub

namespace bustub

/-! ## `upperInsert` and the shape of access logs -/

theorem upperInsert_perm (x : Int × Nat) (l : List (Int × Nat)) :
    (upperInsert x l).Perm (x :: l) := by
  induction l with
  | nil => exact List.Perm.refl _
  | cons e l ih =>
    unfold upperInsert
    split
    · exact List.Perm.refl _
    · exact (List.Perm.cons e ih).trans (List.Perm.swap x e l)

theorem mem_upperInsert {x e : Int × Nat} {l : List (Int × Nat)} :
    e ∈ upperInsert x l ↔ e = x ∨ e ∈ l := by
  rw [(upperInsert_perm x l).mem_iff, List.mem_cons]

theorem upperInsert_sorted (x : Int × Nat) {l : List (Int × Nat)}
    (h : l.Pairwise (fun a b => a.2 ≤ b.2)) :
    (upperInsert x l).Pairwise (fun a b => a.2 ≤ b.2) := by
  induction l with
  | nil => simp [upperInsert]
  | cons e l ih =>
    rw [List.pairwise_cons] at h
    unfold upperInsert
    split
    · next hlt =>
      rw [List.pairwise_cons]
      refine ⟨?_, List.pairwise_cons.2 h⟩
      intro y hy
      rcases List.mem_cons.1 hy with rfl | hy
      · exact Nat.le_of_lt hlt
      · exact le_trans (Nat.le_of_lt hlt) (h.1 y hy)
    · next hge =>
      rw [List.pairwise_cons]
      refine ⟨?_, ih h.2⟩
      intro y hy
      rcases mem_upperInsert.1 hy with rfl | hy
      · exact Nat.le_of_not_lt hge
      · exact h.1 y hy

theorem earliest_append {l : List Nat} (h : l ≠ []) (c : Nat) :
    earliest (l ++ [c]) = earliest l := by
  cases l with
  | nil => exact absurd rfl h
  | cons a l => rfl

theorem head?_eq_kthRecent {k : Nat} {l : List Nat} (hk : k ≤ l.length) (h1 : 1 ≤ k) :
    (l.drop (l.length - k)).head? = some (kthRecent k l) := by
  have hlt : l.length - k < l.length := by omega
  rw [List.head?_drop, kthRecent, List.getD_eq_getElem?_getD, List.getElem?_eq_getElem hlt]
  rfl

theorem tail_hist {k : Nat} {l : List Nat} (hk : k ≤ l.length) (h1 : 1 ≤ k) (c : Nat) :
    (l.drop (l.length - k) ++ [c]).tail = (l ++ [c]).drop (l.length + 1 - k) := by
  have hlt : l.length - k < l.length := by omega
  have e1 : l.length + 1 - k = (l.length - k) + 1 := by omega
  rw [e1, List.drop_append_of_le_length (by omega), ← List.drop_drop]
  have hne : l.drop (l.length - k) ≠ [] := by
    intro h
    have := congrArg List.length h
    simp at this
    omega
  cases hd : l.drop (l.length - k) with
  | nil => exact absurd hd hne
  | cons a t => simp

end bustub

namespace bustub

namespace ReplInv

variable {k : Nat} {r : LRUKReplacer} {g : AccessLog}

/-- The first access of a frame that is not tracked, in relational form. -/
theorem fresh (h : ReplInv k r g) (hk2 : 2 ≤ k) {f : Int}
    (hf : ufind r.frame_evictable_ f = none) (hclk : g.clock + 1 < SIZE_MOD)
    (r' : LRUKReplacer) (hk' : r'.k_ = r.k_)
    (hts' : r'.current_timestamp_ = szInc r.current_timestamp_)
    (hfe : r'.frame_evictable_ = uset r.frame_evictable_ f true)
    (hfk : ∀ x, ufind r'.frame_k_ x = if f = x then some 1 else ufind r.frame_k_ x)
    (hft : ∀ x, ufind r'.frame_timestamp_ x =
      if f = x then some [r.current_timestamp_] else ufind r.frame_timestamp_ x)
    (hcurr : r'.curr_size_ = szInc r.curr_size_)
    (hnew : r'.new_frame_ = f :: r.new_frame_)
    (hcache : r'.cache_frame_ = r.cache_frame_)
    (hcu : r'.cache_frame_umap_ = r.cache_frame_umap_)
    (g' : AccessLog) (hgc : g'.clock = g.clock + 1)
    (hgl : ∀ x, g'.log x = if f = x then [g.clock] else g.log x) : ReplInv k r' g' := by
  obtain ⟨u1, u2, u3, u4, u5⟩ := h.untr f hf
  have hlog_ne : ∀ x, x ≠ f → g'.log x = g.log x := by
    intro x hx
    rw [hgl x, if_neg (fun h' => hx h'.symm)]
  have hlogf : g'.log f = [g.clock] := by rw [hgl f, if_pos rfl]
  have hfind : ∀ x, ufind r'.frame_evictable_ x =
      if f = x then some true else ufind r.frame_evictable_ x := by
    intro x; rw [hfe]; exact ufind_uset _ _ _ _
  have hcnt : evCount r'.frame_evictable_ = evCount r.frame_evictable_ + 1 := by
    have := evCount_uerase h.evNodup f
    simp only [hf] at this
    rw [hfe]
    simp only [uset, evCount_cons, if_true]
    simp only [reduceCtorEq, if_false, Nat.add_zero] at this
    rw [this]
    omega
  have hlen : r'.frame_evictable_.length ≤ r.frame_evictable_.length + 1 := by
    rw [hfe]
    simp only [uset, List.length_cons]
    exact Nat.succ_le_succ (length_uerase_le _ _)
  have hmem_ne : ∀ x, x ∈ r.new_frame_ → x ≠ f := fun x hx hxf => u3 (hxf ▸ hx)
  refine
    { hk := hk'.trans h.hk
      hts := by rw [hts', h.hts, hgc]; exact szInc_eq hclk
      clk := by rw [hgc]; exact hclk
      untr := ?_
      trk := ?_
      newOrd := ?_
      cacheOrd := hcache ▸ h.cacheOrd
      cacheVal := ?_
      cacheNodup := hcache ▸ h.cacheNodup
      evNodup := hfe ▸ uset_keys_nodup h.evNodup f true
      size := ?_
      szb := ?_ }
  · intro x hx
    rw [hfind] at hx
    by_cases hxf : f = x
    · simp [hxf] at hx
    · simp only [hxf, if_false] at hx
      have hxf' : x ≠ f := fun h' => hxf h'.symm
      obtain ⟨h1, h2, h3, h4, h5⟩ := h.untr x hx
      rw [hfk, hft, if_neg hxf, if_neg hxf, hnew, hcache, hlog_ne x hxf']
      refine ⟨h1, h2, ?_, h4, h5⟩
      intro hm
      rcases List.mem_cons.1 hm with h' | h'
      · exact hxf' h'
      · exact h3 h'
  · intro x b hx
    rw [hfind] at hx
    by_cases hxf : f = x
    · subst hxf
      rw [hlogf, hfk, hft, if_pos rfl, if_pos rfl, hnew, hcache, hgc]
      have hk0 : 1 - k = 0 := by omega
      refine ⟨by simp, ?_, by simp, by simp, ?_, ?_, ?_⟩
      · intro t ht
        simp only [List.mem_singleton] at ht
        omega
      · simp [hk0, h.hts]
      · intro _
        exact ⟨List.mem_cons_self _ _, u4⟩
      · intro hle
        simp only [List.length_singleton] at hle
        omega
    · simp only [hxf, if_false] at hx
      have hxf' : x ≠ f := fun h' => hxf h'.symm
      obtain ⟨h1, h2, h3, h4, h5, h6, h7⟩ := h.trk x b hx
      rw [hlog_ne x hxf', hfk, hft, if_neg hxf, if_neg hxf, hnew, hcache, hcu, hgc]
      refine ⟨h1, fun t ht => Nat.lt_succ_of_lt (h2 t ht), Nat.le_succ_of_le h3, h4, h5, ?_, ?_⟩
      · intro hlt
        exact ⟨List.mem_cons_of_mem _ (h6 hlt).1, (h6 hlt).2⟩
      · intro hle
        obtain ⟨a1, a2, a3⟩ := h7 hle
        refine ⟨?_, a2, a3⟩
        intro hm
        rcases List.mem_cons.1 hm with h' | h'
        · exact hxf' h'
        · exact a1 h'
  · rw [hnew, List.pairwise_cons]
    constructor
    · intro b hb
      have hbf := hmem_ne b hb
      rw [hlog_ne b hbf, hlogf]
      obtain ⟨bb, hbb⟩ := Option.ne_none_iff_exists'.1 (h.tracked_of_mem_new hb)
      obtain ⟨h1, h2, _⟩ := h.trk b bb hbb
      cases hl : g.log b with
      | nil => exact absurd hl h1
      | cons a t =>
        have := h2 a (by rw [hl]; exact List.mem_cons_self _ _)
        simp only [earliest, List.headD_cons]
        omega
    · refine List.Pairwise.imp_of_mem ?_ h.newOrd
      intro a b ha hb hab
      rw [hlog_ne a (hmem_ne a ha), hlog_ne b (hmem_ne b hb)]
      exact hab
  · intro e he
    rw [hcache] at he
    have hef : e.1 ≠ f := fun h' => u4 (h' ▸ List.mem_map.2 ⟨e, he, rfl⟩)
    rw [hlog_ne e.1 hef]
    exact h.cacheVal e he
  · rw [hcurr, hcnt, h.size]
    apply szInc_eq
    have := evCount_le_length r.frame_evictable_
    have := h.szb
    omega
  · rw [hgc]
    exact le_trans hlen (Nat.succ_le_succ h.szb)

/-- A further access of a tracked frame, in relational form. -/
theorem touch (h : ReplInv k r g) {f : Int} {b : Bool}
    (hf : ufind r.frame_evictable_ f = some b) (hclk : g.clock + 1 < SIZE_MOD)
    (r' : LRUKReplacer) (hk' : r'.k_ = r.k_)
    (hts' : r'.current_timestamp_ = szInc r.current_timestamp_)
    (hfe : r'.frame_evictable_ = r.frame_evictable_)
    (hcurr : r'.curr_size_ = r.curr_size_)
    (hfk : ∀ x, ufind r'.frame_k_ x =
      if f = x then some ((g.log f).length + 1) else ufind r.frame_k_ x)
    (hft : ∀ x, ufind r'.frame_timestamp_ x =
      if f = x then some ((g.log f ++ [g.clock]).drop ((g.log f).length + 1 - k))
      else ufind r.frame_timestamp_ x)
    (hnewsub : r'.new_frame_.Sublist r.new_frame_)
    (hnewmem : ∀ x, x ∈ r'.new_frame_ ↔ x ∈ r.new_frame_ ∧ (x = f → (g.log f).length + 1 < k))
    (hcord : r'.cache_frame_.Pairwise (fun a b => a.2 ≤ b.2))
    (hcnd : r'.cache_frame_.Nodup)
    (hcmem : ∀ e, e ∈ r'.cache_frame_ ↔ (e ∈ r.cache_frame_ ∧ e.1 ≠ f) ∨
      (k ≤ (g.log f).length + 1 ∧ e = (f, kthRecent k (g.log f ++ [g.clock]))))
    (hcu : ∀ x, x ≠ f → ufind r'.cache_frame_umap_ x = ufind r.cache_frame_umap_ x)
    (hcuf : k ≤ (g.log f).length + 1 →
      ufind r'.cache_frame_umap_ f = some (f, kthRecent k (g.log f ++ [g.clock])))
    (g' : AccessLog) (hgc : g'.clock = g.clock + 1)
    (hgl : ∀ x, g'.log x = if f = x then g.log f ++ [g.clock] else g.log x) :
    ReplInv k r' g' := by
  obtain ⟨t1, t2, t3, t4, t5, t6, t7⟩ := h.trk f b hf
  have hlog_ne : ∀ x, x ≠ f → g'.log x = g.log x := by
    intro x hx
    rw [hgl x, if_neg (fun h' => hx h'.symm)]
  have hlogf : g'.log f = g.log f ++ [g.clock] := by rw [hgl f, if_pos rfl]
  have hearl : ∀ x, earliest (g'.log x) = earliest (g.log x) := by
    intro x
    by_cases hx : x = f
    · subst hx; rw [hlogf]; exact earliest_append t1 _
    · rw [hlog_ne x hx]
  refine
    { hk := hk'.trans h.hk
      hts := by rw [hts', h.hts, hgc]; exact szInc_eq hclk
      clk := by rw [hgc]; exact hclk
      untr := ?_
      trk := ?_
      newOrd := ?_
      cacheOrd := hcord
      cacheVal := ?_
      cacheNodup := hcnd
      evNodup := hfe ▸ h.evNodup
      size := by rw [hcurr, hfe]; exact h.size
      szb := by rw [hfe, hgc]; exact Nat.le_succ_of_le h.szb }
  · intro x hx
    rw [hfe] at hx
    have hxf : x ≠ f := by
      intro h'; subst h'; rw [hf] at hx; exact Option.noConfusion hx
    have hxf' : ¬ f = x := fun h' => hxf h'.symm
    obtain ⟨h1, h2, h3, h4, h5⟩ := h.untr x hx
    rw [hfk, hft, if_neg hxf', if_neg hxf', hlog_ne x hxf]
    refine ⟨h1, h2, fun hm => h3 (hnewsub.subset hm), ?_, h5⟩
    intro hm
    obtain ⟨e, he, he1⟩ := List.mem_map.1 hm
    rcases (hcmem e).1 he with ⟨a1, _⟩ | ⟨_, a2⟩
    · exact h4 (List.mem_map.2 ⟨e, a1, he1⟩)
    · rw [a2] at he1
      exact hxf he1.symm
  · intro x b' hx
    rw [hfe] at hx
    by_cases hxf : f = x
    · subst hxf
      rw [hlogf, hfk, hft, if_pos rfl, if_pos rfl, hgc]
      refine ⟨by simp, ?_, ?_, by simp, by simp, ?_, ?_⟩
      · intro t ht
        rcases List.mem_append.1 ht with h' | h'
        · exact Nat.lt_succ_of_lt (t2 t h')
        · simp only [List.mem_singleton] at h'
          omega
      · simp only [List.length_append, List.length_singleton]
        omega
      · intro hlt
        simp only [List.length_append, List.length_singleton] at hlt
        refine ⟨(hnewmem f).2 ⟨(t6 (by omega)).1, fun _ => hlt⟩, ?_⟩
        intro hm
        obtain ⟨e, he, he1⟩ := List.mem_map.1 hm
        rcases (hcmem e).1 he with ⟨_, a2⟩ | ⟨a1, _⟩
        · exact a2 he1
        · omega
      · intro hle
        simp only [List.length_append, List.length_singleton] at hle
        refine ⟨?_, (hcmem _).2 (Or.inr ⟨hle, rfl⟩), hcuf hle⟩
        intro hm
        have := ((hnewmem f).1 hm).2 rfl
        omega
    · have hxf' : x ≠ f := fun h' => hxf h'.symm
      obtain ⟨h1, h2, h3, h4, h5, h6, h7⟩ := h.trk x b' hx
      rw [hlog_ne x hxf', hfk, hft, if_neg hxf, if_neg hxf, hcu x hxf', hgc]
      refine ⟨h1, fun t ht => Nat.lt_succ_of_lt (h2 t ht), Nat.le_succ_of_le h3, h4, h5, ?_, ?_⟩
      · intro hlt
        refine ⟨(hnewmem x).2 ⟨(h6 hlt).1, fun h' => absurd h' hxf'⟩, ?_⟩
        intro hm
        obtain ⟨e, he, he1⟩ := List.mem_map.1 hm
        rcases (hcmem e).1 he with ⟨a1, _⟩ | ⟨_, a2⟩
        · exact (h6 hlt).2 (List.mem_map.2 ⟨e, a1, he1⟩)
        · rw [a2] at he1
          exact hxf he1
      · intro hle
        obtain ⟨a1, a2, a3⟩ := h7 hle
        exact ⟨fun hm => a1 ((hnewmem x).1 hm).1, (hcmem _).2 (Or.inl ⟨a2, hxf'⟩), a3⟩
  · refine List.Pairwise.imp ?_ (h.newOrd.sublist hnewsub)
    intro a b hab
    rw [hearl a, hearl b]
    exact hab
  · intro e he
    rcases (hcmem e).1 he with ⟨a1, a2⟩ | ⟨_, a2⟩
    · rw [hlog_ne e.1 a2]
      exact h.cacheVal e a1
    · rw [a2, hlogf]

end ReplInv

end bustub

namespace bustub

theorem szInc_zero : szInc 0 = 1 := by decide

namespace ReplInv

variable {k : Nat} {r : LRUKReplacer} {g : AccessLog}

theorem step_log_tracked (h : ReplInv k r g) {f : Int} {b : Bool}
    (hf : ufind r.frame_evictable_ f = some b) (r' : LRUKReplacer)
    (hfe : r'.frame_evictable_ = r.frame_evictable_) (x : Int) :
    (g.step (.record_access f) r').log x = if f = x then g.log f ++ [g.clock] else g.log x := by
  simp only [AccessLog.step, LRUKReplacer.tracked, hfe]
  by_cases hx : ufind r.frame_evictable_ x = none
  · have hxf : ¬ f = x := by
      intro h'; subst h'; rw [hf] at hx; exact Option.noConfusion hx
    simp [hx, hxf, (h.untr x hx).2.2.2.2]
  · obtain ⟨b', hb'⟩ := Option.ne_none_iff_exists'.1 hx
    by_cases hxf : f = x
    · subst hxf; simp [hb']
    · simp [hb', hxf]

/-- `RecordAccess` of a tracked frame. -/
theorem recordAccess_tracked (h : ReplInv k r g) (hk2 : 2 ≤ k) (hclk : g.clock + 1 < SIZE_MOD)
    {f : Int} {b : Bool} (hf : ufind r.frame_evictable_ f = some b) :
    ∃ r', r.RecordAccess f = some r' ∧ ReplInv k r' (g.step (.record_access f) r') := by
  obtain ⟨t1, t2, t3, t4, t5, t6, t7⟩ := h.trk f b hf
  have hlen1 : 1 ≤ (g.log f).length := by
    cases hl : g.log f with
    | nil => exact absurd hl t1
    | cons a t => simp
  have hcnt : szInc (g.log f).length = (g.log f).length + 1 := szInc_eq (by omega)
  have hne1 : ¬ (g.log f).length + 1 = 1 := by omega
  have hk := h.hk
  have hts := h.hts
  by_cases hA : (g.log f).length + 1 < k
  · -- fewer than `k` accesses after this one
    have hd0 : (g.log f).length - k = 0 := by omega
    have hd1 : (g.log f).length + 1 - k = 0 := by omega
    have hA1 : ¬ (g.log f).length + 1 = r.k_ := by omega
    have hA2 : ¬ r.k_ < (g.log f).length + 1 := by omega
    have hres : r.RecordAccess f = some { r with
        frame_k_ := uset r.frame_k_ f ((g.log f).length + 1)
        frame_timestamp_ := uset r.frame_timestamp_ f (g.log f ++ [r.current_timestamp_])
        current_timestamp_ := szInc r.current_timestamp_ } := by
      unfold LRUKReplacer.RecordAccess
      simp only [t4, t5, Option.getD_some, hcnt, hne1, if_false, hA1, hA2, hd0, List.drop_zero]
    refine ⟨_, hres, ?_⟩
    refine h.touch hf hclk _ ?_ ?_ ?_ ?_ ?_ ?_ ?_ ?_ ?_ ?_ ?_ ?_ ?_ _ ?_
      (h.step_log_tracked hf _ ?_)
    · rfl
    · rfl
    · rfl
    · rfl
    · intro x
      simp only [ufind_uset]
    · intro x
      simp only [ufind_uset, hd1, List.drop_zero, hts]
    · exact List.Sublist.refl _
    · intro x
      constructor
      · exact fun hx => ⟨hx, fun _ => hA⟩
      · exact fun hx => hx.1
    · exact h.cacheOrd
    · exact h.cacheNodup
    · intro e
      constructor
      · intro he
        left
        refine ⟨he, fun h' => (t6 (by omega)).2 (h' ▸ List.mem_map.2 ⟨e, he, rfl⟩)⟩
      · rintro (⟨he, _⟩ | ⟨hle, _⟩)
        · exact he
        · omega
    · exact fun _ _ => rfl
    · intro hle
      omega
    · rfl
    · rfl
  · by_cases hB : (g.log f).length + 1 = k
    · -- the `k`-th access: the frame moves to `cache_frame_`
      have hd0 : (g.log f).length - k = 0 := by omega
      have hd1 : (g.log f).length + 1 - k = 0 := by omega
      have hB1 : r.k_ = (g.log f).length + 1 := by omega
      have hnc : f ∉ r.cache_frame_.map Prod.fst := (t6 (by omega)).2
      have hhead : (g.log f ++ [g.clock]).head? =
          some (kthRecent k (g.log f ++ [g.clock])) := by
        have := head?_eq_kthRecent (k := k) (l := g.log f ++ [g.clock]) (by simp; omega)
          (by omega)
        simpa [hd1] using this
      have hres : r.RecordAccess f = some { r with
          frame_k_ := uset r.frame_k_ f ((g.log f).length + 1)
          frame_timestamp_ := uset r.frame_timestamp_ f (g.log f ++ [r.current_timestamp_])
          current_timestamp_ := szInc r.current_timestamp_
          new_frame_ := r.new_frame_.filter (fun x => x ≠ f)
          new_frame_umap_ := uerase r.new_frame_umap_ f
          cache_frame_ :=
            upperInsert (f, kthRecent k (g.log f ++ [g.clock])) r.cache_frame_
          cache_frame_umap_ :=
            uset r.cache_frame_umap_ f (f, kthRecent k (g.log f ++ [g.clock])) } := by
        unfold LRUKReplacer.RecordAccess
        simp only [t4, t5, Option.getD_some, hcnt, hne1, if_false, hB1, if_true,
          hd0, List.drop_zero, hhead, hts]
      refine ⟨_, hres, ?_⟩
      refine h.touch hf hclk _ ?_ ?_ ?_ ?_ ?_ ?_ ?_ ?_ ?_ ?_ ?_ ?_ ?_ _ ?_
        (h.step_log_tracked hf _ ?_)
      · rfl
      · rfl
      · rfl
      · rfl
      · intro x
        simp only [ufind_uset]
      · intro x
        simp only [ufind_uset, hd1, List.drop_zero, hts]
      · exact List.filter_sublist _
      · intro x
        simp only [List.mem_filter, decide_eq_true_eq]
        constructor
        · exact fun hx => ⟨hx.1, fun h' => absurd h' hx.2⟩
        · exact fun hx => ⟨hx.1, fun h' => by have := hx.2 h'; omega⟩
      · exact upperInsert_sorted _ h.cacheOrd
      · show (upperInsert _ _).Nodup
        rw [(upperInsert_perm _ _).nodup_iff, List.nodup_cons]
        exact ⟨fun hm => hnc (List.mem_map.2 ⟨_, hm, rfl⟩), h.cacheNodup⟩
      · intro e
        show e ∈ upperInsert _ _ ↔ _
        rw [mem_upperInsert]
        constructor
        · rintro (he | he)
          · exact Or.inr ⟨by omega, he⟩
          · exact Or.inl ⟨he, fun h' => hnc (h' ▸ List.mem_map.2 ⟨e, he, rfl⟩)⟩
        · rintro (⟨he, _⟩ | ⟨_, he⟩)
          · exact Or.inr he
          · exact Or.inl he
      · intro x hx
        exact ufind_uset_ne _ _ (fun h' => hx h'.symm)
      · intro _
        exact ufind_uset_same _ _ _
      · rfl
      · rfl
    · -- more than `k` accesses: the frame is moved inside `cache_frame_`
      have hC : k ≤ (g.log f).length := by omega
      obtain ⟨c1, c2, c3⟩ := t7 hC
      have hlt : r.k_ < (g.log f).length + 1 := by omega
      have hB1 : ¬ (g.log f).length + 1 = r.k_ := by omega
      have htail := tail_hist hC (by omega : 1 ≤ k) g.clock
      have hhead : ((g.log f ++ [g.clock]).drop ((g.log f).length + 1 - k)).head? =
          some (kthRecent k (g.log f ++ [g.clock])) := by
        have := head?_eq_kthRecent (k := k) (l := g.log f ++ [g.clock]) (by simp; omega)
          (by omega)
        simpa using this
      have hres : r.RecordAccess f = some { r with
          frame_k_ := uset r.frame_k_ f ((g.log f).length + 1)
          frame_timestamp_ := uset (uset r.frame_timestamp_ f
              (List.drop ((g.log f).length - k) (g.log f) ++ [g.clock])) f
            ((g.log f ++ [g.clock]).drop ((g.log f).length + 1 - k))
          current_timestamp_ := szInc r.current_timestamp_
          cache_frame_ := upperInsert (f, kthRecent k (g.log f ++ [g.clock]))
            (r.cache_frame_.erase (f, kthRecent k (g.log f)))
          cache_frame_umap_ :=
            uset r.cache_frame_umap_ f (f, kthRecent k (g.log f ++ [g.clock])) } := by
        unfold LRUKReplacer.RecordAccess
        simp only [t4, t5, Option.getD_some, hcnt, hne1, if_false, hB1, hlt, if_true,
          c3, hts, htail, hhead]
      refine ⟨_, hres, ?_⟩
      refine h.touch hf hclk _ ?_ ?_ ?_ ?_ ?_ ?_ ?_ ?_ ?_ ?_ ?_ ?_ ?_ _ ?_
        (h.step_log_tracked hf _ ?_)
      · rfl
      · rfl
      · rfl
      · rfl
      · intro x
        simp only [ufind_uset]
      · intro x
        simp only [ufind_uset]
        by_cases hx : f = x
        · simp only [hx, if_true]
        · simp only [hx, if_false]
      · exact List.Sublist.refl _
      · intro x
        constructor
        · exact fun hx => ⟨hx, fun h' => absurd (h' ▸ hx) c1⟩
        · exact fun hx => hx.1
      · exact upperInsert_sorted _ (h.cacheOrd.sublist (List.erase_sublist _ _))
      · show (upperInsert _ _).Nodup
        rw [(upperInsert_perm _ _).nodup_iff, List.nodup_cons]
        refine ⟨?_, h.cacheNodup.sublist (List.erase_sublist _ _)⟩
        intro hm
        have hm' := (h.cacheNodup.mem_erase_iff.1 hm)
        have := h.cacheVal _ hm'.2
        exact hm'.1 (Prod.ext rfl this)
      · intro e
        show e ∈ upperInsert _ _ ↔ _
        rw [mem_upperInsert, h.cacheNodup.mem_erase_iff]
        constructor
        · rintro (he | ⟨he1, he2⟩)
          · exact Or.inr ⟨by omega, he⟩
          · refine Or.inl ⟨he2, fun h' => he1 ?_⟩
            have := h.cacheVal e he2
            rw [h'] at this
            exact Prod.ext h' this
        · rintro (⟨he1, he2⟩ | ⟨_, he⟩)
          · exact Or.inr ⟨fun h' => he2 (by rw [h']), he1⟩
          · exact Or.inl he
      · intro x hx
        exact ufind_uset_ne _ _ (fun h' => hx h'.symm)
      · intro _
        exact ufind_uset_same _ _ _
      · rfl
      · rfl

end ReplInv

end bustub

namespace bustub

namespace ReplInv

variable {k : Nat} {r : LRUKReplacer} {g : AccessLog}

theorem step_log_fresh (h : ReplInv k r g) {f : Int}
    (hf : ufind r.frame_evictable_ f = none) (r0 r' : LRUKReplacer)
    (hfe : r'.frame_evictable_ = uset r0.frame_evictable_ f true) (x : Int) :
    (g.step (.record_access f) r').log x =
      if f = x then [(g.restrict r0).clock] else (g.restrict r0).log x := by
  simp only [AccessLog.step, AccessLog.restrict, LRUKReplacer.tracked, hfe, ufind_uset]
  by_cases hxf : f = x
  · subst hxf
    simp [(h.untr f hf).2.2.2.2]
  · simp [hxf]

/-- The state of `RecordAccess` after its first four statements, for a frame that has no
entry in `frame_k_` and `frame_timestamp_`. -/
theorem recordAccess_untracked_eq (r : LRUKReplacer) (f : Int)
    (h1 : ufind r.frame_k_ f = none) (h2 : ufind r.frame_timestamp_ f = none) :
    r.RecordAccess f = some
      (LRUKReplacer.enterNew
        (if r.curr_size_ = r.replacer_size_ then
          (r.stampFirst f).EvictInstance.1
        else r.stampFirst f) f) := by
  unfold LRUKReplacer.RecordAccess
  simp only [h1, h2, ufind_uset_same, Option.getD_some, Option.getD_none, szInc_zero, if_true,
    List.nil_append, LRUKReplacer.enterNew, LRUKReplacer.stampFirst]

/-- `RecordAccess` of a frame that is not tracked. -/
theorem recordAccess_untracked (h : ReplInv k r g) (hk2 : 2 ≤ k)
    (hclk : g.clock + 1 < SIZE_MOD) {f : Int} (hf : ufind r.frame_evictable_ f = none) :
    ∃ r', r.RecordAccess f = some r' ∧ ReplInv k r' (g.step (.record_access f) r') := by
  obtain ⟨u1, u2, u3, u4, u5⟩ := h.untr f hf
  refine ⟨_, recordAccess_untracked_eq r f u1 u2, ?_⟩
  -- the state without the defensive eviction
  have hplain : ReplInv k
      ((r.stampFirst f).enterNew f)
      (g.step (.record_access f) ((r.stampFirst f).enterNew f)) := by
    refine h.fresh hk2 hf hclk _ ?_ ?_ ?_ ?_ ?_ ?_ ?_ ?_ ?_ _ ?_ ?_
    · rfl
    · rfl
    · rfl
    · intro x
      simp only [LRUKReplacer.enterNew, LRUKReplacer.stampFirst, ufind_uset]
      by_cases hx : f = x
      · simp only [hx, if_true]
      · simp only [hx, if_false]
    · intro x
      simp only [LRUKReplacer.enterNew, LRUKReplacer.stampFirst, ufind_uset]
    · rfl
    · rfl
    · rfl
    · rfl
    · rfl
    · intro x
      have := h.step_log_fresh hf r ((r.stampFirst f).enterNew f) rfl x
      rw [this, h.restrict_self]
  by_cases hfull : r.curr_size_ = r.replacer_size_
  · rw [if_pos hfull]
    rcases EvictInstance_cases (r.stampFirst f)
        (fun x hx => h.tracked_of_mem_new hx) (fun e he => h.tracked_of_mem_cache he) with
      ⟨e1, _⟩ | ⟨_, v, l1, l2, e1, e2, e3, _⟩ | ⟨_, _, e, l1, l2, e1, e2, e3, _⟩
    · rw [e1]
      exact hplain
    · rw [e2]
      have hvmem : v ∈ r.new_frame_ := by
        have : v ∈ l1 ++ v :: l2 := List.mem_append_right _ (List.mem_cons_self _ _)
        exact e1 ▸ this
      have hvf : v ≠ f := fun h' => u3 (h' ▸ hvmem)
      have h0 := h.dropNew e3 hvmem
      have hf0 : ufind (r.dropNew v).frame_evictable_ f = none := by
        simp only [LRUKReplacer.dropNew, ufind_uerase, hf, ite_self]
      refine h0.fresh hk2 hf0 hclk _ ?_ ?_ ?_ ?_ ?_ ?_ ?_ ?_ ?_ _ ?_ ?_
      · rfl
      · rfl
      · rfl
      · intro x
        simp only [LRUKReplacer.enterNew, LRUKReplacer.stampFirst, LRUKReplacer.dropNew, ufind_uset, ufind_uerase]
        by_cases hx : f = x
        · have : ¬ v = x := fun h' => hvf (h'.trans hx.symm)
          simp only [hx, this, if_true, if_false]
        · simp only [hx, if_false]
      · intro x
        simp only [LRUKReplacer.enterNew, LRUKReplacer.stampFirst, LRUKReplacer.dropNew, ufind_uset, ufind_uerase]
        by_cases hx : f = x
        · have : ¬ v = x := fun h' => hvf (h'.trans hx.symm)
          simp only [hx, this, if_true, if_false]
        · simp only [hx, if_false]
      · rfl
      · rfl
      · rfl
      · rfl
      · rfl
      · intro x
        exact h.step_log_fresh hf (r.dropNew v) _ (by rfl) x
    · rw [e2]
      have hemem : e ∈ r.cache_frame_ := by
        have : e ∈ l1 ++ e :: l2 := List.mem_append_right _ (List.mem_cons_self _ _)
        exact e1 ▸ this
      have hvf : e.1 ≠ f := fun h' => u4 (h' ▸ List.mem_map.2 ⟨e, hemem, rfl⟩)
      have h0 := h.dropCache e3 hemem
      have hf0 : ufind (r.dropCache e).frame_evictable_ f = none := by
        simp only [LRUKReplacer.dropCache, ufind_uerase, hf, ite_self]
      refine h0.fresh hk2 hf0 hclk _ ?_ ?_ ?_ ?_ ?_ ?_ ?_ ?_ ?_ _ ?_ ?_
      · rfl
      · rfl
      · rfl
      · intro x
        simp only [LRUKReplacer.enterNew, LRUKReplacer.stampFirst, LRUKReplacer.dropCache, ufind_uset, ufind_uerase]
        by_cases hx : f = x
        · have : ¬ e.1 = x := fun h' => hvf (h'.trans hx.symm)
          simp only [hx, this, if_true, if_false]
        · simp only [hx, if_false]
      · intro x
        simp only [LRUKReplacer.enterNew, LRUKReplacer.stampFirst, LRUKReplacer.dropCache, ufind_uset, ufind_uerase]
        by_cases hx : f = x
        · have : ¬ e.1 = x := fun h' => hvf (h'.trans hx.symm)
          simp only [hx, this, if_true, if_false]
        · simp only [hx, if_false]
      · rfl
      · rfl
      · rfl
      · rfl
      · rfl
      · intro x
        exact h.step_log_fresh hf (r.dropCache e) _ (by rfl) x
  · rw [if_neg hfull]
    exact hplain

/-- `RecordAccess` is defined and keeps the invariant as long as the clock does not wrap. -/
theorem recordAccess (h : ReplInv k r g) (hk2 : 2 ≤ k) (hclk : g.clock + 1 < SIZE_MOD)
    (f : Int) :
    ∃ r', r.RecordAccess f = some r' ∧ ReplInv k r' (g.step (.record_access f) r') := by
  cases hf : ufind r.frame_evictable_ f with
  | none => exact h.recordAccess_untracked hk2 hclk hf
  | some b => exact h.recordAccess_tracked hk2 hclk hf

/-- Every call is defined and keeps the invariant as long as the clock does not wrap. -/
theorem apply (h : ReplInv k r g) (hk2 : 2 ≤ k) (hclk : g.clock + 1 < SIZE_MOD)
    (op : ReplacerOp) :
    ∃ r', r.apply op = some r' ∧ ReplInv k r' (g.step op r') ∧
      (g.step op r').clock ≤ g.clock + 1 := by
  cases op with
  | record_access f =>
    obtain ⟨r', h1, h2⟩ := h.recordAccess hk2 hclk f
    exact ⟨r', h1, h2, Nat.le_refl _⟩
  | set_evictable f b =>
    refine ⟨_, rfl, ?_, Nat.le_succ _⟩
    have : g.step (.set_evictable f b) (r.SetEvictable f b) = g :=
      h.restrict_of_tracked_eq (setEvictable_tracked r f b)
    rw [this]
    exact h.setEvictable f b
  | remove f => exact ⟨_, rfl, h.remove_frame f, Nat.le_succ _⟩
  | evict => exact ⟨_, rfl, h.evict, Nat.le_succ _⟩

/-- The invariant holds of a new replacer. -/
theorem new_replacer (num_frames : Nat) {k : Nat} (hk : k < SIZE_MOD) :
    ReplInv k (LRUKReplacer.new num_frames k) AccessLog.empty :=
  { hk := Nat.mod_eq_of_lt hk
    hts := rfl
    clk := by decide
    untr := fun f _ => ⟨rfl, rfl, by simp [LRUKReplacer.new], by simp [LRUKReplacer.new], rfl⟩
    trk := fun f b hf => by simp [LRUKReplacer.new] at hf
    newOrd := List.Pairwise.nil
    cacheOrd := List.Pairwise.nil
    cacheVal := fun e he => by simp [LRUKReplacer.new] at he
    cacheNodup := List.nodup_nil
    evNodup := List.nodup_nil
    size := rfl
    szb := Nat.le_refl _ }

/-- A run of fewer than `2^64` calls is defined throughout and keeps the invariant. -/
theorem runOps (ops : List ReplacerOp) : ∀ {r : LRUKReplacer} {g : AccessLog},
    ReplInv k r g → 2 ≤ k → g.clock + ops.length < SIZE_MOD →
    ∃ s, bustub.runOps (r, g) ops = some s ∧ ReplInv k s.1 s.2 := by
  induction ops with
  | nil => intro r g h _ _; exact ⟨(r, g), rfl, h⟩
  | cons op ops ih =>
    intro r g h hk2 hlen
    simp only [List.length_cons] at hlen
    obtain ⟨r', h1, h2, h3⟩ := h.apply hk2 (by omega) op
    obtain ⟨s, hs1, hs2⟩ := ih h2 hk2 (by omega)
    refine ⟨s, ?_, hs2⟩
    simp only [bustub.runOps, h1]
    exact hs1

end ReplInv

end bustub

namespace bustub

/-! ## Bit arithmetic of directory indices -/

theorem land_one_shiftLeft_eq_zero (i d : Nat) :
    i &&& (1 <<< d) = 0 ↔ i / 2 ^ d % 2 = 0 := by
  rw [Nat.one_shiftLeft, Nat.and_two_pow]
  have hpos : 0 < 2 ^ d := Nat.two_pow_pos _
  cases h : i.testBit d
  · have := Nat.testBit_to_div_mod (x := i) (i := d)
    rw [h] at this
    have h2 : ¬ i / 2 ^ d % 2 = 1 := by simpa using this.symm
    simp
    omega
  · have := Nat.testBit_to_div_mod (x := i) (i := d)
    rw [h] at this
    have h2 : i / 2 ^ d % 2 = 1 := by simpa using this.symm
    simp [h2]

theorem mod_pow_succ_eq_iff (i j d : Nat) :
    j % 2 ^ (d + 1) = i % 2 ^ (d + 1) ↔
      j % 2 ^ d = i % 2 ^ d ∧ j / 2 ^ d % 2 = i / 2 ^ d % 2 := by
  rw [Nat.mod_pow_succ, Nat.mod_pow_succ]
  have hpos : 0 < 2 ^ d := Nat.two_pow_pos _
  have hj : j % 2 ^ d < 2 ^ d := Nat.mod_lt _ hpos
  have hi : i % 2 ^ d < 2 ^ d := Nat.mod_lt _ hpos
  constructor
  · intro h
    have h1 : (j % 2 ^ d + 2 ^ d * (j / 2 ^ d % 2)) % 2 ^ d =
        (i % 2 ^ d + 2 ^ d * (i / 2 ^ d % 2)) % 2 ^ d := by rw [h]
    rw [Nat.add_mul_mod_self_left, Nat.add_mul_mod_self_left, Nat.mod_mod, Nat.mod_mod] at h1
    refine ⟨h1, ?_⟩
    rw [h1] at h
    have := Nat.add_left_cancel h
    exact Nat.eq_of_mul_eq_mul_left hpos this
  · rintro ⟨h1, h2⟩
    rw [h1, h2]

theorem mod_pow_of_mod_pow {a b d e : Nat} (hde : d ≤ e) (h : a % 2 ^ e = b % 2 ^ e) :
    a % 2 ^ d = b % 2 ^ d := by
  have hdvd : 2 ^ d ∣ 2 ^ e := pow_dvd_pow 2 hde
  rw [← Nat.mod_mod_of_dvd a hdvd, ← Nat.mod_mod_of_dvd b hdvd, h]

theorem IndexOf_eq {K V : Type} (hash : K → Nat) (t : ExtendibleHashTable K V) (key : K) :
    t.IndexOf hash key = hash key % 2 ^ t.global_depth_ := by
  simp [ExtendibleHashTable.IndexOf, Nat.one_shiftLeft]

theorem IndexOf_lt {K V : Type} (hash : K → Nat) (t : ExtendibleHashTable K V) (key : K) :
    t.IndexOf hash key < 2 ^ t.global_depth_ := by
  rw [IndexOf_eq]
  exact Nat.mod_lt _ (Nat.two_pow_pos _)

/-! ## Lists of bucket entries -/

section hashTable
variable {K V : Type} [DecidableEq K]

theorem replaceFirst_eq_none {l : List (K × V)} {k : K} {v : V} :
    replaceFirst l k v = none ↔ ufind l k = none := by
  induction l with
  | nil => simp [replaceFirst]
  | cons e l ih =>
    by_cases h : e.1 = k
    · simp [replaceFirst, ufind_cons, h]
    · simp only [replaceFirst, h, if_false, ufind_cons]
      cases hr : replaceFirst l k v with
      | none => simpa using ih.1 hr
      | some r =>
        simp only [reduceCtorEq, false_iff]
        intro hn
        rw [ih.2 hn] at hr
        exact Option.noConfusion hr

theorem replaceFirst_some {l l' : List (K × V)} {k : K} {v : V}
    (h : replaceFirst l k v = some l') :
    l'.map Prod.fst = l.map Prod.fst ∧ l'.length = l.length ∧
      ∀ k', ufind l' k' = if k = k' then some v else ufind l k' := by
  induction l generalizing l' with
  | nil => simp [replaceFirst] at h
  | cons e l ih =>
    by_cases he : e.1 = k
    · simp only [replaceFirst, he, if_true, Option.some.injEq] at h
      subst h
      refine ⟨by simp [he], by simp, ?_⟩
      intro k'
      simp only [ufind_cons, he]
      by_cases hk : k = k' <;> simp [hk]
    · simp only [replaceFirst, he, if_false] at h
      cases hr : replaceFirst l k v with
      | none => rw [hr] at h; exact Option.noConfusion h
      | some r =>
        rw [hr] at h
        simp only [Option.some.injEq] at h
        subst h
        obtain ⟨h1, h2, h3⟩ := ih hr
        refine ⟨by simp [h1], by simp [h2], ?_⟩
        intro k'
        simp only [ufind_cons, h3]
        by_cases hk : k = k'
        · subst hk; simp [he]
        · simp [hk]

theorem eraseFirst_eq_none {l : List (K × V)} {k : K} :
    eraseFirst l k = none ↔ ufind l k = none := by
  induction l with
  | nil => simp [eraseFirst]
  | cons e l ih =>
    by_cases h : e.1 = k
    · simp [eraseFirst, ufind_cons, h]
    · simp only [eraseFirst, h, if_false, ufind_cons]
      cases hr : eraseFirst l k with
      | none => simpa using ih.1 hr
      | some r =>
        simp only [reduceCtorEq, false_iff]
        intro hn
        rw [ih.2 hn] at hr
        exact Option.noConfusion hr

theorem eraseFirst_some {l l' : List (K × V)} {k : K} (hn : (l.map Prod.fst).Nodup)
    (h : eraseFirst l k = some l') :
    l'.Sublist l ∧ ∀ k', ufind l' k' = if k = k' then none else ufind l k' := by
  induction l generalizing l' with
  | nil => simp [eraseFirst] at h
  | cons e l ih =>
    simp only [List.map_cons, List.nodup_cons] at hn
    by_cases he : e.1 = k
    · simp only [eraseFirst, he, if_true, Option.some.injEq] at h
      subst h
      refine ⟨List.sublist_cons_self _ _, ?_⟩
      intro k'
      simp only [ufind_cons, he]
      by_cases hk : k = k'
      · subst hk
        simp only [if_true]
        rw [ufind_eq_none_iff]
        exact he ▸ hn.1
      · simp [hk]
    · simp only [eraseFirst, he, if_false] at h
      cases hr : eraseFirst l k with
      | none => rw [hr] at h; exact Option.noConfusion h
      | some r =>
        rw [hr] at h
        simp only [Option.some.injEq] at h
        subst h
        obtain ⟨h1, h3⟩ := ih hn.2 hr
        refine ⟨h1.cons₂ _, ?_⟩
        intro k'
        simp only [ufind_cons, h3]
        by_cases hk : k = k'
        · subst hk; simp [he]
        · simp [hk]

theorem ufind_append_singleton (l : List (K × V)) (k k' : K) (v : V) :
    ufind (l ++ [(k, v)]) k' =
      match ufind l k' with
      | some x => some x
      | none => if k = k' then some v else none := by
  induction l with
  | nil => simp [ufind]
  | cons e l ih =>
    simp only [List.cons_append, ufind_cons]
    by_cases he : e.1 = k'
    · simp [he]
    · simp [he, ih]

end hashTable

end bustub

namespace bustub

section hashTable
variable {K V : Type} [DecidableEq K] {hash : K → Nat} {t : ExtendibleHashTable K V}

theorem Find_of_slot {p : Nat} {b : Bucket K V} {k : K}
    (hp : t.dir_[t.IndexOf hash k]? = some p) (hb : t.heap[p]? = some b) :
    t.Find hash k = some (ufind b.list_ k) := by
  simp [ExtendibleHashTable.Find, hp, hb, Bucket.Find]

namespace HashWF

/-- The bucket of the slot of a key. -/
theorem slotOf (h : HashWF hash t) (k : K) :
    ∃ p b, t.dir_[t.IndexOf hash k]? = some p ∧ t.heap[p]? = some b ∧
      b.depth_ ≤ t.global_depth_ ∧ b.size_ = t.bucket_size_ ∧
      b.list_.length ≤ t.bucket_size_ ∧ (b.list_.map Prod.fst).Nodup ∧
      (∀ e ∈ b.list_, hash e.1 % 2 ^ b.depth_ = hash k % 2 ^ b.depth_) ∧
      (∀ j, j < 2 ^ t.global_depth_ →
        (t.dir_[j]? = some p ↔ j % 2 ^ b.depth_ = hash k % 2 ^ b.depth_)) ∧
      t.Find hash k = some (ufind b.list_ k) := by
  obtain ⟨p, b, h1, h2, h3, h4, h5, h6, h7, h8⟩ := h.slot _ (IndexOf_lt hash t k)
  have hmod : t.IndexOf hash k % 2 ^ b.depth_ = hash k % 2 ^ b.depth_ := by
    rw [IndexOf_eq]
    exact Nat.mod_mod_of_dvd _ (pow_dvd_pow 2 h3)
  refine ⟨p, b, h1, h2, h3, h4, h5, h6, ?_, ?_, Find_of_slot h1 h2⟩
  · intro e he
    rw [h7 e he, hmod]
  · intro j hj
    rw [h8 j hj, hmod]

/-- Replacing the entries of one bucket by a list that fits the bucket. -/
theorem setList (h : HashWF hash t) {i0 p : Nat} {b : Bucket K V}
    (hi0 : i0 < 2 ^ t.global_depth_) (hp : t.dir_[i0]? = some p) (hb : t.heap[p]? = some b)
    (l' : List (K × V)) (hlen : l'.length ≤ t.bucket_size_) (hnd : (l'.map Prod.fst).Nodup)
    (hh : ∀ e ∈ l', hash e.1 % 2 ^ b.depth_ = i0 % 2 ^ b.depth_) :
    HashWF hash { t with heap := t.heap.set p { b with list_ := l' } } ∧
    ∀ k', ExtendibleHashTable.Find hash { t with heap := t.heap.set p { b with list_ := l' } } k'
      = if t.dir_[t.IndexOf hash k']? = some p then some (ufind l' k') else t.Find hash k' := by
  have hplt : p < t.heap.length := (List.getElem?_eq_some_iff.1 hb).1
  constructor
  · refine ⟨h.dirLen, ?_⟩
    intro i hi
    obtain ⟨q, c, h1, h2, h3, h4, h5, h6, h7, h8⟩ := h.slot i hi
    by_cases hq : q = p
    · subst hq
      have hcb : c = b := Option.some.inj (h2.symm.trans hb)
      subst hcb
      have hi0i : i0 % 2 ^ c.depth_ = i % 2 ^ c.depth_ := (h8 i0 hi0).1 hp
      refine ⟨q, { c with list_ := l' }, h1, List.getElem?_set_self hplt, h3, h4, hlen, hnd,
        ?_, h8⟩
      intro e he
      rw [hh e he, hi0i]
    · refine ⟨q, c, h1, ?_, h3, h4, h5, h6, h7, h8⟩
      show (t.heap.set p _)[q]? = some c
      rw [List.getElem?_set_ne (fun h' => hq h'.symm)]
      exact h2
  · intro k'
    simp only [ExtendibleHashTable.Find, ExtendibleHashTable.IndexOf]
    cases hq : t.dir_[hash k' &&& (1 <<< t.global_depth_) - 1]? with
    | none => simp
    | some q =>
      by_cases hqp : q = p
      · subst hqp
        simp [List.getElem?_set_self hplt, Bucket.Find]
      · have : ¬ some q = some p := fun h' => hqp (Option.some.inj h')
        simp [List.getElem?_set_ne (fun h' => hqp h'.symm), this]

/-- `Bucket::Insert` that returns true, as a step on the table. -/
theorem insert_ok (h : HashWF hash t) {p : Nat} {b : Bucket K V} {k : K} (v : V)
    (hp : t.dir_[t.IndexOf hash k]? = some p) (hb : t.heap[p]? = some b)
    (hok : (b.Insert k v).2 = true) :
    HashWF hash { t with heap := t.heap.set p (b.Insert k v).1 } ∧
    ∀ k', ExtendibleHashTable.Find hash { t with heap := t.heap.set p (b.Insert k v).1 } k' =
      if k = k' then some (some v) else t.Find hash k' := by
  obtain ⟨p', b', s1, s2, s3, s4, s5, s6, s7, s8, s9⟩ := h.slotOf k
  have hpp : p' = p := Option.some.inj (s1.symm.trans hp)
  subst hpp
  have hbb : b' = b := Option.some.inj (s2.symm.trans hb)
  subst hbb
  have hmod : t.IndexOf hash k % 2 ^ b'.depth_ = hash k % 2 ^ b'.depth_ := by
    rw [IndexOf_eq]
    exact Nat.mod_mod_of_dvd _ (pow_dvd_pow 2 s3)
  -- the new list of the bucket
  have key : ∃ l', (b'.Insert k v).1 = { b' with list_ := l' } ∧ l'.length ≤ t.bucket_size_ ∧
      (l'.map Prod.fst).Nodup ∧
      (∀ e ∈ l', hash e.1 % 2 ^ b'.depth_ = t.IndexOf hash k % 2 ^ b'.depth_) ∧
      ∀ k', ufind l' k' = if k = k' then some v else ufind b'.list_ k' := by
    unfold Bucket.Insert at hok ⊢
    cases hr : replaceFirst b'.list_ k v with
    | some l' =>
      obtain ⟨r1, r2, r3⟩ := replaceFirst_some hr
      refine ⟨l', rfl, r2 ▸ s5, r1 ▸ s6, ?_, r3⟩
      intro e he
      have : e.1 ∈ b'.list_.map Prod.fst := r1 ▸ List.mem_map.2 ⟨e, he, rfl⟩
      obtain ⟨e0, he0, he01⟩ := List.mem_map.1 this
      rw [← he01, s7 e0 he0, hmod]
    | none =>
      rw [hr] at hok
      have hnone : ufind b'.list_ k = none := replaceFirst_eq_none.1 hr
      by_cases hfull : b'.IsFull = true
      · simp [hfull] at hok
      · simp only [hfull, Bool.false_eq_true, if_false]
        have hlt : b'.list_.length < t.bucket_size_ := by
          have : b'.list_.length ≠ b'.size_ := by simpa [Bucket.IsFull] using hfull
          rw [s4] at this
          omega
        refine ⟨_, rfl, by simp; omega, ?_, ?_, ?_⟩
        · rw [List.map_append, List.nodup_append]
          refine ⟨s6, by simp, ?_⟩
          intro a ha hb'
          simp only [List.map_cons, List.map_nil, List.mem_singleton] at hb'
          subst hb'
          exact (ufind_eq_none_iff _ _).1 hnone ha
        · intro e he
          rcases List.mem_append.1 he with he | he
          · rw [s7 e he, hmod]
          · simp only [List.mem_singleton] at he
            subst he
            rw [hmod]
        · intro k'
          rw [ufind_append_singleton]
          by_cases hk : k = k'
          · subst hk; simp [hnone]
          · simp only [hk, if_false]
            cases ufind b'.list_ k' <;> rfl
  obtain ⟨l', hl', k1, k2, k3, k4⟩ := key
  rw [hl']
  obtain ⟨w1, w2⟩ := h.setList (IndexOf_lt hash t k) hp hb l' k1 k2 k3
  refine ⟨w1, ?_⟩
  intro k'
  rw [w2 k', k4 k']
  by_cases hk : k = k'
  · subst hk
    simp [hp]
  · simp only [hk, if_false]
    split
    · next hq => exact (Find_of_slot hq hb).symm
    · rfl

/-- `ExtendibleHashTable::Remove` keeps the table well formed, unbinds the key and returns
whether it was bound. -/
theorem remove_key (h : HashWF hash t) (k : K) :
    ∃ t' res, t.Remove hash k = some (t', res) ∧ HashWF hash t' ∧
      (res = true ↔ ∃ v, t.Find hash k = some (some v)) ∧
      ∀ k', t'.Find hash k' = if k = k' then some none else t.Find hash k' := by
  obtain ⟨p, b, s1, s2, s3, s4, s5, s6, s7, s8, s9⟩ := h.slotOf k
  have hmod : t.IndexOf hash k % 2 ^ b.depth_ = hash k % 2 ^ b.depth_ := by
    rw [IndexOf_eq]
    exact Nat.mod_mod_of_dvd _ (pow_dvd_pow 2 s3)
  cases hr : eraseFirst b.list_ k with
  | none =>
    have hnone : ufind b.list_ k = none := eraseFirst_eq_none.1 hr
    have hb' : { b with list_ := b.list_ } = b := rfl
    obtain ⟨w1, w2⟩ := h.setList (IndexOf_lt hash t k) s1 s2 b.list_ s5 s6
      (fun e he => by rw [s7 e he, hmod])
    refine ⟨_, false, ?_, w1, ?_, ?_⟩
    · simp [ExtendibleHashTable.Remove, s1, s2, Bucket.Remove, hr]
    · rw [s9, hnone]
      simp
    · intro k'
      rw [w2 k']
      by_cases hk : k = k'
      · subst hk
        simp [s1, hnone]
      · simp only [hk, if_false]
        split
        · next hq => exact (Find_of_slot hq s2).symm
        · rfl
  | some l' =>
    obtain ⟨r1, r2⟩ := eraseFirst_some s6 hr
    obtain ⟨w1, w2⟩ := h.setList (IndexOf_lt hash t k) s1 s2 l'
      (le_trans r1.length_le s5) ((r1.map _).nodup s6)
      (fun e he => by rw [s7 e (r1.subset he), hmod])
    refine ⟨_, true, ?_, w1, ?_, ?_⟩
    · simp [ExtendibleHashTable.Remove, s1, s2, Bucket.Remove, hr]
    · rw [s9]
      have : ufind b.list_ k ≠ none := fun hn => by
        rw [eraseFirst_eq_none.2 hn] at hr
        exact Option.noConfusion hr
      obtain ⟨v, hv⟩ := Option.ne_none_iff_exists'.1 this
      simp [hv]
    · intro k'
      rw [w2 k', r2 k']
      by_cases hk : k = k'
      · subst hk
        simp [s1]
      · simp only [hk, if_false]
        split
        · next hq => exact (Find_of_slot hq s2).symm
        · rfl

/-- A new table is well formed and empty. -/
theorem new_table (hash : K → Nat) (bucket_size : Nat) :
    HashWF hash (ExtendibleHashTable.new bucket_size : ExtendibleHashTable K V) := by
  refine ⟨rfl, ?_⟩
  intro i hi
  have hi0 : i = 0 := by
    simp [ExtendibleHashTable.new] at hi
    exact hi
  subst hi0
  refine ⟨0, { size_ := bucket_size, depth_ := 0, list_ := [] }, rfl, rfl, Nat.le_refl _, rfl,
    Nat.zero_le _, List.nodup_nil, ?_, ?_⟩
  · intro e he
    simp at he
  · intro j hj
    have hj0 : j = 0 := by
      simp [ExtendibleHashTable.new] at hj
      exact hj
    subst hj0
    simp [ExtendibleHashTable.new]

end HashWF

theorem Find_new (hash : K → Nat) (bucket_size : Nat) (k : K) :
    (ExtendibleHashTable.new bucket_size : ExtendibleHashTable K V).Find hash k = some none := by
  simp [ExtendibleHashTable.Find, ExtendibleHashTable.new, ExtendibleHashTable.IndexOf,
    Bucket.Find]

end hashTable

end bustub

namespace bustub

theorem getElem?_redirect (p p0 p1 mask : Nat) (l : List Nat) : ∀ (i j : Nat),
    (redirect p p0 p1 mask i l)[j]? =
      (l[j]?).map (fun q => if q = p then (if (i + j) &&& mask = 0 then p0 else p1) else q) := by
  induction l with
  | nil => intro i j; simp [redirect]
  | cons q l ih =>
    intro i j
    cases j with
    | zero => simp [redirect]
    | succ j =>
      simp only [redirect, List.getElem?_cons_succ]
      rw [ih (i + 1) j]
      have : i + 1 + j = i + (j + 1) := by omega
      rw [this]

theorem length_redirect (p p0 p1 mask : Nat) (l : List Nat) : ∀ (i : Nat),
    (redirect p p0 p1 mask i l).length = l.length := by
  induction l with
  | nil => intro i; rfl
  | cons q l ih => intro i; simp [redirect, ih]

theorem getElem?_double {l : List Nat} {G : Nat} (hl : l.length = 2 ^ G) {j : Nat}
    (hj : j < 2 ^ (G + 1)) : (l ++ l)[j]? = l[j % 2 ^ G]? := by
  rw [List.getElem?_append]
  rw [pow_succ] at hj
  by_cases h : j < l.length
  · rw [if_pos h, Nat.mod_eq_of_lt (hl ▸ h)]
  · rw [if_neg h]
    have h1 : 2 ^ G ≤ j := by omega
    have h2 : j % 2 ^ G = j - 2 ^ G := by
      rw [Nat.mod_eq_sub_mod h1, Nat.mod_eq_of_lt (by omega)]
    rw [h2, hl]

section hashTable
variable {K V : Type} [DecidableEq K] {hash : K → Nat} {t : ExtendibleHashTable K V}

namespace HashWF

/-- Doubling the directory keeps the table well formed and every lookup. -/
theorem double (h : HashWF hash t) :
    HashWF hash { t with global_depth_ := t.global_depth_ + 1, dir_ := t.dir_ ++ t.dir_ } ∧
    (∀ j, j < 2 ^ (t.global_depth_ + 1) →
      (t.dir_ ++ t.dir_)[j]? = t.dir_[j % 2 ^ t.global_depth_]?) ∧
    ∀ k', ExtendibleHashTable.Find hash
      { t with global_depth_ := t.global_depth_ + 1, dir_ := t.dir_ ++ t.dir_ } k' =
        t.Find hash k' := by
  have hget : ∀ j, j < 2 ^ (t.global_depth_ + 1) →
      (t.dir_ ++ t.dir_)[j]? = t.dir_[j % 2 ^ t.global_depth_]? :=
    fun j hj => getElem?_double h.dirLen hj
  have hpos : 0 < 2 ^ t.global_depth_ := Nat.two_pow_pos _
  refine ⟨⟨?_, ?_⟩, hget, ?_⟩
  · show (t.dir_ ++ t.dir_).length = 2 ^ (t.global_depth_ + 1)
    rw [List.length_append, h.dirLen, pow_succ]
    omega
  · intro i hi
    obtain ⟨p, b, h1, h2, h3, h4, h5, h6, h7, h8⟩ :=
      h.slot (i % 2 ^ t.global_depth_) (Nat.mod_lt _ hpos)
    have hm : ∀ j, j % 2 ^ t.global_depth_ % 2 ^ b.depth_ = j % 2 ^ b.depth_ :=
      fun j => Nat.mod_mod_of_dvd _ (pow_dvd_pow 2 h3)
    refine ⟨p, b, (hget i hi).trans h1, h2, Nat.le_succ_of_le h3, h4, h5, h6, ?_, ?_⟩
    · intro e he
      rw [h7 e he, hm]
    · intro j hj
      show (t.dir_ ++ t.dir_)[j]? = some p ↔ _
      rw [hget j hj, h8 _ (Nat.mod_lt _ hpos), hm, hm]
  · intro k'
    have hidx : (hash k' % 2 ^ (t.global_depth_ + 1)) % 2 ^ t.global_depth_ =
        hash k' % 2 ^ t.global_depth_ :=
      Nat.mod_mod_of_dvd _ (pow_dvd_pow 2 (Nat.le_succ _))
    simp only [ExtendibleHashTable.Find, IndexOf_eq]
    rw [hget _ (Nat.mod_lt _ (Nat.two_pow_pos _)), hidx]

/-- The directory after the bucket `p` of depth `d < global_depth_` has been replaced by two
empty buckets of depth `d + 1`. -/
theorem redirected (h : HashWF hash t) {i0 p : Nat} {b : Bucket K V}
    (hi0 : i0 < 2 ^ t.global_depth_) (hp : t.dir_[i0]? = some p) (hb : t.heap[p]? = some b)
    (hd : b.depth_ < t.global_depth_) (n : Nat) :
    HashWF hash { t with
      heap := t.heap.set p { b with depth_ := b.depth_ + 1 } ++
        [{ size_ := t.bucket_size_, depth_ := b.depth_ + 1, list_ := [] },
         { size_ := t.bucket_size_, depth_ := b.depth_ + 1, list_ := [] }]
      num_buckets_ := n
      dir_ := redirect p t.heap.length (t.heap.length + 1) (1 <<< b.depth_) 0 t.dir_ } ∧
    (∀ j, j < 2 ^ t.global_depth_ → t.dir_[j]? = some p →
      (redirect p t.heap.length (t.heap.length + 1) (1 <<< b.depth_) 0 t.dir_)[j]? =
        some (if j / 2 ^ b.depth_ % 2 = 0 then t.heap.length else t.heap.length + 1)) ∧
    (∀ j q, j < 2 ^ t.global_depth_ → t.dir_[j]? = some q → q ≠ p →
      (redirect p t.heap.length (t.heap.length + 1) (1 <<< b.depth_) 0 t.dir_)[j]? = some q ∧
      q < t.heap.length) ∧
    (∀ q, q = t.heap.length ∨ q = t.heap.length + 1 →
      (t.heap.set p { b with depth_ := b.depth_ + 1 } ++
        [({ size_ := t.bucket_size_, depth_ := b.depth_ + 1, list_ := [] } : Bucket K V),
         { size_ := t.bucket_size_, depth_ := b.depth_ + 1, list_ := [] }])[q]? =
        some { size_ := t.bucket_size_, depth_ := b.depth_ + 1, list_ := [] }) ∧
    (∀ q, q < t.heap.length → q ≠ p →
      (t.heap.set p { b with depth_ := b.depth_ + 1 } ++
        [({ size_ := t.bucket_size_, depth_ := b.depth_ + 1, list_ := [] } : Bucket K V),
         { size_ := t.bucket_size_, depth_ := b.depth_ + 1, list_ := [] }])[q]? =
        t.heap[q]?) := by
  have hget : ∀ j q, t.dir_[j]? = some q →
      (redirect p t.heap.length (t.heap.length + 1) (1 <<< b.depth_) 0 t.dir_)[j]? =
        some (if q = p then (if j / 2 ^ b.depth_ % 2 = 0 then t.heap.length
          else t.heap.length + 1) else q) := by
    intro j q hq
    rw [getElem?_redirect, hq]
    simp only [Option.map_some', Nat.zero_add, land_one_shiftLeft_eq_zero]
  have hA : ∀ j, j < 2 ^ t.global_depth_ → t.dir_[j]? = some p →
      (redirect p t.heap.length (t.heap.length + 1) (1 <<< b.depth_) 0 t.dir_)[j]? =
        some (if j / 2 ^ b.depth_ % 2 = 0 then t.heap.length else t.heap.length + 1) := by
    intro j _ hq
    rw [hget j p hq, if_pos rfl]
  have hB : ∀ j q, j < 2 ^ t.global_depth_ → t.dir_[j]? = some q → q ≠ p →
      (redirect p t.heap.length (t.heap.length + 1) (1 <<< b.depth_) 0 t.dir_)[j]? = some q ∧
      q < t.heap.length := by
    intro j q hj hq hqp
    rw [hget j q hq, if_neg hqp]
    obtain ⟨q', c, h1, h2, _⟩ := h.slot j hj
    have : q' = q := Option.some.inj (h1.symm.trans hq)
    subst this
    exact ⟨rfl, (List.getElem?_eq_some_iff.1 h2).1⟩
  have hlen1 : (t.heap.set p { b with depth_ := b.depth_ + 1 }).length = t.heap.length :=
    List.length_set _ _ _
  have hnew0 : (t.heap.set p { b with depth_ := b.depth_ + 1 } ++
      [({ size_ := t.bucket_size_, depth_ := b.depth_ + 1, list_ := [] } : Bucket K V),
       { size_ := t.bucket_size_, depth_ := b.depth_ + 1, list_ := [] }])[t.heap.length]? =
      some { size_ := t.bucket_size_, depth_ := b.depth_ + 1, list_ := [] } := by
    rw [List.getElem?_append_right (by rw [hlen1]), hlen1, Nat.sub_self]
    rfl
  have hnew1 : (t.heap.set p { b with depth_ := b.depth_ + 1 } ++
      [({ size_ := t.bucket_size_, depth_ := b.depth_ + 1, list_ := [] } : Bucket K V),
       { size_ := t.bucket_size_, depth_ := b.depth_ + 1, list_ := [] }])[t.heap.length + 1]? =
      some { size_ := t.bucket_size_, depth_ := b.depth_ + 1, list_ := [] } := by
    rw [List.getElem?_append_right (by rw [hlen1]; omega), hlen1, Nat.add_sub_cancel_left]
    rfl
  have hold : ∀ q, q < t.heap.length → q ≠ p →
      (t.heap.set p { b with depth_ := b.depth_ + 1 } ++
      [({ size_ := t.bucket_size_, depth_ := b.depth_ + 1, list_ := [] } : Bucket K V),
       { size_ := t.bucket_size_, depth_ := b.depth_ + 1, list_ := [] }])[q]? = t.heap[q]? := by
    intro q hq hqp
    rw [List.getElem?_append_left (by rw [hlen1]; exact hq),
      List.getElem?_set_ne (fun h' => hqp h'.symm)]
  refine ⟨⟨?_, ?_⟩, hA, hB, ?_, hold⟩
  rotate_left 2
  · rintro q (rfl | rfl)
    · exact hnew0
    · exact hnew1
  · show (redirect _ _ _ _ _ _).length = _
    rw [length_redirect]
    exact h.dirLen
  · intro i hi
    obtain ⟨q, c, h1, h2, h3, h4, h5, h6, h7, h8⟩ := h.slot i hi
    by_cases hq : q = p
    · subst hq
      have hcb : c = b := Option.some.inj (h2.symm.trans hb)
      subst hcb
      refine ⟨_, { size_ := t.bucket_size_, depth_ := c.depth_ + 1, list_ := [] },
        hA i hi h1, ?_, hd, rfl, Nat.zero_le _, List.nodup_nil, fun e he => by simp at he, ?_⟩
      · show (_ ++ _)[if i / 2 ^ c.depth_ % 2 = 0 then t.heap.length
          else t.heap.length + 1]? = _
        split
        · exact hnew0
        · exact hnew1
      · intro j hj
        show (redirect _ _ _ _ _ _)[j]? = _ ↔ j % 2 ^ (c.depth_ + 1) = i % 2 ^ (c.depth_ + 1)
        rw [mod_pow_succ_eq_iff]
        obtain ⟨qj, cj, j1, j2, _⟩ := h.slot j hj
        by_cases hqj : qj = q
        · subst hqj
          have hji : j % 2 ^ c.depth_ = i % 2 ^ c.depth_ := (h8 j hj).1 j1
          rw [hA j hj j1]
          have hb2 : ∀ x : Nat, x % 2 = 0 ∨ x % 2 = 1 := fun x => Nat.mod_two_eq_zero_or_one x
          rcases hb2 (j / 2 ^ c.depth_) with hj2 | hj2 <;>
            rcases hb2 (i / 2 ^ c.depth_) with hi2 | hi2 <;>
            simp [hj2, hi2, hji]
        · have hne := (hB j qj hj j1 hqj)
          rw [hne.1]
          have hji : ¬ j % 2 ^ c.depth_ = i % 2 ^ c.depth_ := by
            intro h'
            have := (h8 j hj).2 h'
            exact hqj (Option.some.inj (j1.symm.trans this))
          have hlt := hne.2
          constructor
          · intro h'
            have := Option.some.inj h'
            split at this <;> omega
          · intro h'
            exact absurd h'.1 hji
    · have hq' := hB i q hi h1 hq
      refine ⟨q, c, hq'.1, (hold q hq'.2 hq).trans h2, h3, h4, h5, h6, h7, ?_⟩
      intro j hj
      show (redirect _ _ _ _ _ _)[j]? = _ ↔ _
      rw [← h8 j hj]
      obtain ⟨qj, cj, j1, j2, _⟩ := h.slot j hj
      by_cases hqj : qj = p
      · subst hqj
        rw [hA j hj j1, j1]
        constructor
        · intro h'
          have := Option.some.inj h'
          have hlt := hq'.2
          split at this <;> omega
        · intro h'
          exact absurd (Option.some.inj h').symm hq
      · rw [(hB j qj hj j1 hqj).1, j1]

end HashWF

end hashTable

end bustub

namespace bustub

section hashTable
variable {K V : Type} [DecidableEq K] {hash : K → Nat}

theorem Bucket.Insert_fresh {c : Bucket K V} {k : K} (v : V) (hnone : ufind c.list_ k = none)
    (hlt : c.list_.length ≠ c.size_) :
    c.Insert k v = ({ c with list_ := c.list_ ++ [(k, v)] }, true) := by
  unfold Bucket.Insert
  rw [replaceFirst_eq_none.2 hnone]
  simp [Bucket.IsFull, hlt]

theorem Bucket.Insert_full {c : Bucket K V} {k : K} {v : V} (h : (c.Insert k v).2 = false) :
    ufind c.list_ k = none ∧ c.list_.length = c.size_ := by
  unfold Bucket.Insert at h
  cases hr : replaceFirst c.list_ k v with
  | some l => rw [hr] at h; simp at h
  | none =>
    rw [hr] at h
    refine ⟨replaceFirst_eq_none.1 hr, ?_⟩
    by_cases hf : c.IsFull = true
    · simpa [Bucket.IsFull] using hf
    · simp [hf] at h

namespace HashWF

/-- The loop that rehashes the entries of a split bucket: every entry finds room. -/
theorem reinsertAll (items : List (K × V)) : ∀ (t : ExtendibleHashTable K V),
    HashWF hash t → (items.map Prod.fst).Nodup →
    (∀ e ∈ items, ∃ q c, t.dir_[t.IndexOf hash e.1]? = some q ∧ t.heap[q]? = some c ∧
      c.list_.length + items.length ≤ t.bucket_size_ ∧ ufind c.list_ e.1 = none) →
    ∃ t', ExtendibleHashTable.reinsertAll hash t items = some t' ∧ HashWF hash t' ∧
      t'.dir_ = t.dir_ ∧ t'.global_depth_ = t.global_depth_ ∧
      t'.bucket_size_ = t.bucket_size_ ∧ t'.num_buckets_ = t.num_buckets_ ∧
      (∀ k', t'.Find hash k' =
        match ufind items k' with
        | some v => some (some v)
        | none => t.Find hash k') ∧
      (∀ (q : Nat) (c : Bucket K V), t.heap[q]? = some c →
        ∃ c', t'.heap[q]? = some c' ∧ c'.depth_ = c.depth_ ∧
        ∀ x ∈ c'.list_, x ∈ c.list_ ∨ x ∈ items) := by
  induction items with
  | nil =>
    intro t h _ _
    exact ⟨t, rfl, h, rfl, rfl, rfl, rfl, fun k' => rfl,
      fun q c hc => ⟨c, hc, rfl, fun x hx => Or.inl hx⟩⟩
  | cons e rest ih =>
    intro t h hnd hall
    rw [List.map_cons, List.nodup_cons] at hnd
    obtain ⟨q, c, hq, hc, hlen, hnone⟩ := hall e (List.mem_cons_self _ _)
    obtain ⟨q', c', s1, s2, _, s4, _⟩ := h.slotOf e.1
    have hqq : q' = q := Option.some.inj (s1.symm.trans hq)
    subst hqq
    have hcc : c' = c := Option.some.inj (s2.symm.trans hc)
    subst hcc
    simp only [List.length_cons] at hlen
    have hins : c'.Insert e.1 e.2 = ({ c' with list_ := c'.list_ ++ [e] }, true) :=
      Bucket.Insert_fresh e.2 hnone (by rw [s4]; omega)
    have hplt : q' < t.heap.length := (List.getElem?_eq_some_iff.1 hc).1
    obtain ⟨w1, w2⟩ := h.insert_ok e.2 hq hc (by rw [hins])
    rw [hins] at w1 w2
    have hstep : t.reinsert hash e =
        some { t with heap := t.heap.set q' { c' with list_ := c'.list_ ++ [e] } } := by
      simp [ExtendibleHashTable.reinsert, hq, hc, hins]
    have hall' : ∀ e' ∈ rest, ∃ q2 c2,
        t.dir_[ExtendibleHashTable.IndexOf hash
          { t with heap := t.heap.set q' { c' with list_ := c'.list_ ++ [e] } } e'.1]? = some q2 ∧
        (t.heap.set q' { c' with list_ := c'.list_ ++ [e] })[q2]? = some c2 ∧
        c2.list_.length + rest.length ≤ t.bucket_size_ ∧ ufind c2.list_ e'.1 = none := by
      intro e' he'
      obtain ⟨q2, c2, a1, a2, a3, a4⟩ := hall e' (List.mem_cons_of_mem _ he')
      simp only [List.length_cons] at a3
      by_cases hq2 : q2 = q'
      · subst hq2
        have : c2 = c' := Option.some.inj (a2.symm.trans hc)
        subst this
        refine ⟨q2, { c2 with list_ := c2.list_ ++ [e] }, a1, List.getElem?_set_self hplt,
          by simp; omega, ?_⟩
        show ufind (c2.list_ ++ [e]) e'.1 = none
        have hne : ¬ e.1 = e'.1 := fun h' => hnd.1 (h' ▸ List.mem_map.2 ⟨e', he', rfl⟩)
        have := ufind_append_singleton c2.list_ e.1 e'.1 e.2
        rw [this, a4]
        simp [hne]
      · refine ⟨q2, c2, a1, ?_, by omega, a4⟩
        rw [List.getElem?_set_ne (fun h' => hq2 h'.symm)]
        exact a2
    obtain ⟨t', r1, r2, r3, r4, r5, r6, r7, r8⟩ := ih _ w1 hnd.2 hall'
    refine ⟨t', ?_, r2, r3, r4, r5, r6, ?_, ?_⟩
    · simp only [ExtendibleHashTable.reinsertAll, hstep]
      exact r1
    · intro k'
      rw [r7 k', w2 k', ufind_cons]
      by_cases hk : e.1 = k'
      · have : ufind rest k' = none := by
          rw [ufind_eq_none_iff]
          exact hk ▸ hnd.1
        simp [hk, this]
      · simp [hk]
    · intro q2 c2 hc2
      by_cases hq2 : q2 = q'
      · subst hq2
        have : c2 = c' := Option.some.inj (hc2.symm.trans hc)
        subst this
        obtain ⟨c3, b1, b2, b3⟩ := r8 q2 { c2 with list_ := c2.list_ ++ [e] }
          (List.getElem?_set_self hplt)
        refine ⟨c3, b1, b2, ?_⟩
        intro x hx
        rcases b3 x hx with h' | h'
        · rcases List.mem_append.1 h' with h'' | h''
          · exact Or.inl h''
          · exact Or.inr (by simp at h''; simp [h''])
        · exact Or.inr (List.mem_cons_of_mem _ h')
      · obtain ⟨c3, b1, b2, b3⟩ := r8 q2 c2
          (by rw [List.getElem?_set_ne (fun h' => hq2 h'.symm)]; exact hc2)
        refine ⟨c3, b1, b2, ?_⟩
        intro x hx
        rcases b3 x hx with h' | h'
        · exact Or.inl h'
        · exact Or.inr (List.mem_cons_of_mem _ h')

end HashWF

end hashTable

end bustub

namespace bustub

section hashTable
variable {K V : Type} [DecidableEq K] {hash : K → Nat}

namespace HashWF

/-- The split of a bucket whose depth is below the global depth: the table stays well
formed, no lookup changes, and the bucket of `k` is now one level deeper and holds entries
of the split bucket only. -/
theorem split_core {t1 : ExtendibleHashTable K V} (h1 : HashWF hash t1) (k : K) {p : Nat}
    {b : Bucket K V} (hp : t1.dir_[t1.IndexOf hash k]? = some p) (hb : t1.heap[p]? = some b)
    (hd : b.depth_ < t1.global_depth_) :
    ∃ t3, ExtendibleHashTable.reinsertAll hash { t1 with
        heap := t1.heap.set p { b with depth_ := b.depth_ + 1 } ++
          [{ size_ := t1.bucket_size_, depth_ := b.depth_ + 1, list_ := [] },
           { size_ := t1.bucket_size_, depth_ := b.depth_ + 1, list_ := [] }]
        num_buckets_ := t1.num_buckets_ + 1
        dir_ := redirect p t1.heap.length (t1.heap.length + 1) (1 <<< b.depth_) 0 t1.dir_ }
        b.list_ = some t3 ∧
      HashWF hash t3 ∧ t3.bucket_size_ = t1.bucket_size_ ∧
      t3.global_depth_ = t1.global_depth_ ∧ t3.num_buckets_ = t1.num_buckets_ + 1 ∧
      (∀ k', t3.Find hash k' = t1.Find hash k') ∧
      ∃ p' b', t3.dir_[t3.IndexOf hash k]? = some p' ∧ t3.heap[p']? = some b' ∧
        b'.depth_ = b.depth_ + 1 ∧ ∀ x ∈ b'.list_, x ∈ b.list_ := by
  obtain ⟨p0, b0, s1, s2, s3, s4, s5, s6, s7, s8, s9⟩ := h1.slotOf k
  have hpp : p0 = p := Option.some.inj (s1.symm.trans hp)
  subst hpp
  have hbb : b0 = b := Option.some.inj (s2.symm.trans hb)
  subst hbb
  obtain ⟨w, hA, hB, hnew, hold⟩ := h1.redirected (IndexOf_lt hash t1 k) hp hb hd
    (t1.num_buckets_ + 1)
  -- the slot of a key whose hash agrees with that of `k` on the low bits
  have hslot : ∀ x : K, hash x % 2 ^ b0.depth_ = hash k % 2 ^ b0.depth_ →
      t1.dir_[t1.IndexOf hash x]? = some p0 := by
    intro x hx
    refine (s8 _ (IndexOf_lt hash t1 x)).2 ?_
    rw [IndexOf_eq, Nat.mod_mod_of_dvd _ (pow_dvd_pow 2 s3), hx]
  have hslot' : ∀ x : K, t1.dir_[t1.IndexOf hash x]? = some p0 →
      ∃ q, (q = t1.heap.length ∨ q = t1.heap.length + 1) ∧
        (redirect p0 t1.heap.length (t1.heap.length + 1) (1 <<< b0.depth_) 0 t1.dir_)[
          t1.IndexOf hash x]? = some q := by
    intro x hx
    refine ⟨_, ?_, hA _ (IndexOf_lt hash t1 x) hx⟩
    split
    · exact Or.inl rfl
    · exact Or.inr rfl
  have hall : ∀ e ∈ b0.list_, ∃ q c,
      (redirect p0 t1.heap.length (t1.heap.length + 1) (1 <<< b0.depth_) 0 t1.dir_)[
        t1.IndexOf hash e.1]? = some q ∧
      (t1.heap.set p0 { b0 with depth_ := b0.depth_ + 1 } ++
        [({ size_ := t1.bucket_size_, depth_ := b0.depth_ + 1, list_ := [] } : Bucket K V),
         { size_ := t1.bucket_size_, depth_ := b0.depth_ + 1, list_ := [] }])[q]? = some c ∧
      c.list_.length + b0.list_.length ≤ t1.bucket_size_ ∧ ufind c.list_ e.1 = none := by
    intro e he
    obtain ⟨q, hq1, hq2⟩ := hslot' e.1 (hslot e.1 (s7 e he))
    exact ⟨q, _, hq2, hnew q hq1, by simpa using s5, rfl⟩
  obtain ⟨t3, r1, r2, r3, r4, r5, r6, r7, r8⟩ := w.reinsertAll b0.list_ _ s6 hall
  refine ⟨t3, r1, r2, r5, r4, r6, ?_, ?_⟩
  · intro k'
    rw [r7 k']
    obtain ⟨q, c, c1, c2, _⟩ := h1.slot _ (IndexOf_lt hash t1 k')
    by_cases hq : q = p0
    · subst hq
      have hcc : c = b0 := Option.some.inj (c2.symm.trans hb)
      subst hcc
      obtain ⟨q', hq1, hq2⟩ := hslot' k' c1
      have e2 := Find_of_slot (k := k') (t := { t1 with
        heap := t1.heap.set q { c with depth_ := c.depth_ + 1 } ++
          [{ size_ := t1.bucket_size_, depth_ := c.depth_ + 1, list_ := [] },
           { size_ := t1.bucket_size_, depth_ := c.depth_ + 1, list_ := [] }]
        num_buckets_ := t1.num_buckets_ + 1
        dir_ := redirect q t1.heap.length (t1.heap.length + 1) (1 <<< c.depth_) 0 t1.dir_ })
        hq2 (hnew q' hq1)
      rw [e2, Find_of_slot c1 c2]
      cases ufind c.list_ k' <;> rfl
    · have hq' := hB _ q (IndexOf_lt hash t1 k') c1 hq
      have e2 := Find_of_slot (k := k') (t := { t1 with
        heap := t1.heap.set p0 { b0 with depth_ := b0.depth_ + 1 } ++
          [{ size_ := t1.bucket_size_, depth_ := b0.depth_ + 1, list_ := [] },
           { size_ := t1.bucket_size_, depth_ := b0.depth_ + 1, list_ := [] }]
        num_buckets_ := t1.num_buckets_ + 1
        dir_ := redirect p0 t1.heap.length (t1.heap.length + 1) (1 <<< b0.depth_) 0 t1.dir_ })
        hq'.1 ((hold q hq'.2 hq).trans c2)
      have hnone : ufind b0.list_ k' = none := by
        cases hf : ufind b0.list_ k' with
        | none => rfl
        | some v =>
          have hm := mem_of_ufind hf
          have := hslot k' (s7 _ hm)
          exact absurd (Option.some.inj (c1.symm.trans this)) hq
      rw [hnone, e2, Find_of_slot c1 c2]
  · obtain ⟨q, hq1, hq2⟩ := hslot' k hp
    obtain ⟨c', d1, d2, d3⟩ := r8 q _ (hnew q hq1)
    refine ⟨q, c', ?_, d1, d2, ?_⟩
    · have : t3.IndexOf hash k = t1.IndexOf hash k := by
        rw [IndexOf_eq, IndexOf_eq, r4]
      rw [this, r3]
      exact hq2
    · intro x hx
      rcases d3 x hx with h' | h'
      · simp at h'
      · exact h'

/-- The body of the loop of `Insert`: a split succeeds, keeps the table well formed and every
lookup, adds one bucket, and leaves `k` with a bucket one level deeper that holds entries
of the split bucket only. -/
theorem split_spec {t : ExtendibleHashTable K V} (h : HashWF hash t) (k : K) {p : Nat}
    {b : Bucket K V} (hp : t.dir_[t.IndexOf hash k]? = some p) (hb : t.heap[p]? = some b)
    (hroom : b.depth_ = t.global_depth_ → t.global_depth_ < 30) :
    ∃ t3, t.split hash p b = some t3 ∧ HashWF hash t3 ∧ t3.bucket_size_ = t.bucket_size_ ∧
      t3.global_depth_ = max t.global_depth_ (b.depth_ + 1) ∧
      t3.num_buckets_ = t.num_buckets_ + 1 ∧
      (∀ k', t3.Find hash k' = t.Find hash k') ∧
      ∃ p' b', t3.dir_[t3.IndexOf hash k]? = some p' ∧ t3.heap[p']? = some b' ∧
        b'.depth_ = b.depth_ + 1 ∧ ∀ x ∈ b'.list_, x ∈ b.list_ := by
  obtain ⟨p0, b0, s1, s2, s3, s4, s5, s6, s7, s8, s9⟩ := h.slotOf k
  have hpp : p0 = p := Option.some.inj (s1.symm.trans hp)
  subst hpp
  have hbb : b0 = b := Option.some.inj (s2.symm.trans hb)
  subst hbb
  by_cases hd : b0.depth_ = t.global_depth_
  · obtain ⟨w1, w2, w3⟩ := h.double
    have hp1 : (t.dir_ ++ t.dir_)[ExtendibleHashTable.IndexOf hash
        { t with global_depth_ := t.global_depth_ + 1, dir_ := t.dir_ ++ t.dir_ } k]? =
        some p0 := by
      rw [w2 _ (IndexOf_lt hash _ k), IndexOf_eq]
      have : hash k % 2 ^ (t.global_depth_ + 1) % 2 ^ t.global_depth_ =
          hash k % 2 ^ t.global_depth_ :=
        Nat.mod_mod_of_dvd _ (pow_dvd_pow 2 (Nat.le_succ _))
      show t.dir_[hash k % 2 ^ (t.global_depth_ + 1) % 2 ^ t.global_depth_]? = some p0
      rw [this, ← IndexOf_eq]
      exact hp
    obtain ⟨t3, r1, r2, r3, r4, r5, r6, r7⟩ := w1.split_core k hp1 hb
      (by show b0.depth_ < t.global_depth_ + 1; omega)
    refine ⟨t3, ?_, r2, r3, ?_, r5, fun k' => (r6 k').trans (w3 k'), r7⟩
    · have hlen : t.dir_.length * 2 < INT_RANGE := by
        rw [h.dirLen]
        have : 2 ^ t.global_depth_ * 2 ≤ 2 ^ 30 := by
          rw [← pow_succ]
          exact Nat.pow_le_pow_right (by decide) (hroom hd)
        exact lt_of_le_of_lt this (by decide)
      simp only [ExtendibleHashTable.split, ExtendibleHashTable.double, hd, if_true, hlen]
      rw [← hd]
      simp only [Nat.add_sub_cancel]
      rw [hd]
      simp only [List.length_set]
      rw [hd] at r1
      exact r1
    · rw [r4, hd]
      show t.global_depth_ + 1 = _
      omega
  · have hlt : b0.depth_ < t.global_depth_ := by omega
    obtain ⟨t3, r1, r2, r3, r4, r5, r6, r7⟩ := h.split_core k hp hb hlt
    refine ⟨t3, ?_, r2, r3, ?_, r5, r6, r7⟩
    · simp only [ExtendibleHashTable.split, hd, if_false, Nat.add_sub_cancel, List.length_set]
      exact r1
    · rw [r4]
      omega

/-- A split that returns has doubled the directory, if at all, below depth 30. -/
theorem split_room {t t3 : ExtendibleHashTable K V} (h : HashWF hash t) {p : Nat}
    {b : Bucket K V} (hs : t.split hash p b = some t3) :
    b.depth_ = t.global_depth_ → t.global_depth_ < 30 := by
  intro hd
  by_contra hge
  have hlen : ¬ t.dir_.length * 2 < INT_RANGE := by
    rw [h.dirLen]
    have : 2 ^ 30 ≤ 2 ^ t.global_depth_ := Nat.pow_le_pow_right (by decide) (by omega)
    have h31 : INT_RANGE = 2 ^ 30 * 2 := by decide
    rw [h31]
    omega
  simp [ExtendibleHashTable.split, ExtendibleHashTable.double, hd, hlen] at hs

/-- A split at the global depth 30 does not return: the directory cannot be doubled. -/
theorem split_overflow {t : ExtendibleHashTable K V} (h : HashWF hash t) (p : Nat)
    {b : Bucket K V} (hd : b.depth_ = t.global_depth_) (hG : 30 ≤ t.global_depth_) :
    t.split hash p b = none := by
  cases hs : t.split hash p b with
  | none => rfl
  | some t3 =>
    have := h.split_room hs hd
    omega

/-- Partial correctness of `Insert`: if the loop ends within the fuel, the table is well
formed and `k` is bound to `v`, every other key as before. -/
theorem insertFuel (k : K) (v : V) : ∀ (fuel : Nat) (t t' : ExtendibleHashTable K V),
    HashWF hash t → t.InsertFuel hash fuel k v = some t' →
    HashWF hash t' ∧ t'.bucket_size_ = t.bucket_size_ ∧
    (∀ k', t'.Find hash k' = if k = k' then some (some v) else t.Find hash k') ∧
    (t.global_depth_ ≤ 30 → t'.global_depth_ ≤ 30) := by
  intro fuel
  induction fuel with
  | zero => intro t t' _ h; simp [ExtendibleHashTable.InsertFuel] at h
  | succ fuel ih =>
    intro t t' h hrun
    obtain ⟨p, b, s1, s2, s3, _⟩ := h.slotOf k
    simp only [ExtendibleHashTable.InsertFuel, s1, s2] at hrun
    by_cases hok : (b.Insert k v).2 = true
    · simp only [hok, if_true, Option.some.injEq] at hrun
      subst hrun
      obtain ⟨w1, w2⟩ := h.insert_ok v s1 s2 hok
      exact ⟨w1, rfl, w2, fun hG => hG⟩
    · simp only [hok, Bool.false_eq_true, if_false] at hrun
      cases hs : t.split hash p b with
      | none => rw [hs] at hrun; exact Option.noConfusion hrun
      | some t3' =>
        have hroom := h.split_room hs
        obtain ⟨t3, r1, r2, r3, r4, _, r6, _⟩ := h.split_spec k s1 s2 hroom
        rw [r1] at hrun
        obtain ⟨a1, a2, a3, a4⟩ := ih t3 t' r2 hrun
        refine ⟨a1, a2.trans r3, ?_, ?_⟩
        · intro k'
          rw [a3 k', r6 k']
        · intro hG
          refine a4 ?_
          rw [r4]
          by_cases hd : b.depth_ = t.global_depth_
          · have := hroom hd
            omega
          · omega

/-- A full bucket that lacks `k` has an entry, and its entries agree with `k` on the low
bits up to its depth: if they differ from `k` in the low `B` bits, the depth is below `B`. -/
theorem full_depth_lt (h : HashWF hash t) (hbs : 1 ≤ t.bucket_size_) (k : K) (v : V)
    {p : Nat} {b : Bucket K V} (hp : t.dir_[t.IndexOf hash k]? = some p)
    (hb : t.heap[p]? = some b) (hok : ¬ (b.Insert k v).2 = true) (B : Nat)
    (hdiff : ∀ e ∈ b.list_, e.1 ≠ k → hash e.1 % 2 ^ B ≠ hash k % 2 ^ B) :
    b.depth_ < B := by
  by_contra hB
  obtain ⟨f1, f2⟩ := Bucket.Insert_full (by simpa using hok)
  obtain ⟨p0, b0, s1, s2, s3, s4, s5, s6, s7, s8, s9⟩ := h.slotOf k
  have hpp : p0 = p := Option.some.inj (s1.symm.trans hp)
  subst hpp
  have hbb : b0 = b := Option.some.inj (s2.symm.trans hb)
  subst hbb
  have hne : b0.list_ ≠ [] := by
    intro h'
    rw [h'] at f2
    simp at f2
    omega
  obtain ⟨e, he⟩ := List.exists_mem_of_ne_nil _ hne
  have hek : e.1 ≠ k := by
    intro h'
    have := (ufind_eq_none_iff _ _).1 f1
    exact this (h' ▸ List.mem_map.2 ⟨e, he, rfl⟩)
  exact hdiff e he hek (mod_pow_of_mod_pow (by omega) (s7 e he))

/-- Termination of `Insert`: with capacity at least one, the loop ends within `n + 1` rounds
when the entries of the bucket of `k` that have another key differ from `k` in one of the
low `B` bits of the hash, `B` being at most 30 and at most `n` above the depth of the
bucket. -/
theorem insertFuel_terminates (k : K) (v : V) (B : Nat) (hB30 : B ≤ 30) : ∀ (n : Nat)
    (t : ExtendibleHashTable K V), HashWF hash t → 1 ≤ t.bucket_size_ →
    ∀ (p : Nat) (b : Bucket K V), t.dir_[t.IndexOf hash k]? = some p → t.heap[p]? = some b →
    B ≤ b.depth_ + n →
    (∀ e ∈ b.list_, e.1 ≠ k → hash e.1 % 2 ^ B ≠ hash k % 2 ^ B) →
    ∀ fuel, n + 1 ≤ fuel → ∃ t', t.InsertFuel hash fuel k v = some t' := by
  intro n
  induction n with
  | zero =>
    intro t h hbs p b hp hb hB hdiff fuel hfuel
    obtain ⟨fuel', rfl⟩ : ∃ f, fuel = f + 1 := ⟨fuel - 1, by omega⟩
    simp only [ExtendibleHashTable.InsertFuel, hp, hb]
    by_cases hok : (b.Insert k v).2 = true
    · simp [hok]
    · exfalso
      have := h.full_depth_lt hbs k v hp hb hok B hdiff
      omega
  | succ n ih =>
    intro t h hbs p b hp hb hB hdiff fuel hfuel
    obtain ⟨fuel', rfl⟩ : ∃ f, fuel = f + 1 := ⟨fuel - 1, by omega⟩
    simp only [ExtendibleHashTable.InsertFuel, hp, hb]
    by_cases hok : (b.Insert k v).2 = true
    · simp [hok]
    · simp only [hok, Bool.false_eq_true, if_false]
      have hlt := h.full_depth_lt hbs k v hp hb hok B hdiff
      obtain ⟨t3, r1, r2, r3, _, _, _, p', b', r7, r8, r9, r10⟩ := h.split_spec k hp hb
        (fun hd => by omega)
      rw [r1]
      exact ih t3 r2 (by rw [r3]; exact hbs) p' b' r7 r8 (by rw [r9]; omega)
        (fun e he hek => hdiff e (r10 e he) hek) fuel' (by omega)

end HashWF

theorem le_foldl_max (hash : K → Nat) (l : List (K × V)) : ∀ (m : Nat),
    m ≤ l.foldl (fun m e => max m (hash e.1)) m ∧
    ∀ e ∈ l, hash e.1 ≤ l.foldl (fun m e => max m (hash e.1)) m := by
  induction l with
  | nil => intro m; exact ⟨Nat.le_refl _, fun e he => by simp at he⟩
  | cons a l ih =>
    intro m
    obtain ⟨h1, h2⟩ := ih (max m (hash a.1))
    simp only [List.foldl_cons]
    refine ⟨le_trans (le_max_left _ _) h1, ?_⟩
    intro e he
    rcases List.mem_cons.1 he with rfl | he
    · exact le_trans (le_max_right _ _) h1
    · exact h2 e he

theorem lt_pow_hashBits (hash : K → Nat) (key : K) (l : List (K × V)) :
    hash key < 2 ^ hashBits hash key l ∧ ∀ e ∈ l, hash e.1 < 2 ^ hashBits hash key l := by
  obtain ⟨h1, h2⟩ := le_foldl_max hash l (hash key)
  have := Nat.lt_two_pow (l.foldl (fun m e => max m (hash e.1)) (hash key))
  exact ⟨lt_of_le_of_lt h1 this, fun e he => lt_of_le_of_lt (h2 e he) this⟩

/-- `Insert` into a well-formed table of capacity at least one returns when no entry of the
bucket of `k` with another key agrees with `k` on the low 30 bits of the hash; the table stays
well formed, `k` is bound to `v` and every other key as before. -/
theorem HashWF.insert {t : ExtendibleHashTable K V} (h : HashWF hash t)
    (hbs : 1 ≤ t.bucket_size_) (k : K) (v : V)
    (hdiff : ∀ k', k' ≠ k → (∃ v', t.Find hash k' = some (some v')) →
      hash k' % 2 ^ 30 ≠ hash k % 2 ^ 30) :
    ∃ t', t.Insert hash k v = some t' ∧ HashWF hash t' ∧ t'.bucket_size_ = t.bucket_size_ ∧
      (∀ k', t'.Find hash k' = if k = k' then some (some v) else t.Find hash k') ∧
      (t.global_depth_ ≤ 30 → t'.global_depth_ ≤ 30) := by
  obtain ⟨p, b, s1, s2, s3, s4, s5, s6, s7, s8, s9⟩ := h.slotOf k
  obtain ⟨b1, b2⟩ := lt_pow_hashBits hash k b.list_
  have hfind : ∀ e ∈ b.list_, t.Find hash e.1 = some (some e.2) := by
    intro e he
    have hslot : t.dir_[t.IndexOf hash e.1]? = some p := by
      refine (s8 _ (IndexOf_lt hash t e.1)).2 ?_
      rw [IndexOf_eq, Nat.mod_mod_of_dvd _ (pow_dvd_pow 2 s3), s7 e he]
    rw [Find_of_slot hslot s2, ufind_of_mem s6 he]
  obtain ⟨t', ht'⟩ := h.insertFuel_terminates k v (min (hashBits hash k b.list_) 30)
    (Nat.min_le_right _ _) (hashBits hash k b.list_) t hbs p b s1 s2
    (le_trans (Nat.min_le_left _ _) (Nat.le_add_left _ _))
    (fun e he hek heq => by
      have hd := hdiff e.1 hek ⟨e.2, hfind e he⟩
      rcases Nat.le_total (hashBits hash k b.list_) 30 with hle | hle
      · rw [Nat.min_eq_left hle, Nat.mod_eq_of_lt (b2 e he), Nat.mod_eq_of_lt b1] at heq
        exact hd (by rw [heq])
      · rw [Nat.min_eq_right hle] at heq
        exact hd heq)
    (hashBits hash k b.list_ + 1) (Nat.le_refl _)
  have hrun : t.Insert hash k v = some t' := by
    simp only [ExtendibleHashTable.Insert, s1, s2]
    exact ht'
  obtain ⟨a1, a2, a3, a4⟩ := h.insertFuel k v _ t t' ht'
  exact ⟨t', hrun, a1, a2, a3, a4⟩

end hashTable

end bustub

namespace bustub

/-! ## The evictable flags under the calls of the replacer (no invariant assumed) -/

theorem scanNew_flags (l : List Int) : ∀ (ev : List (Int × Bool)),
    (∀ g, ufind (scanNew ev l).1 g = some true ↔ ufind ev g = some true) ∧
    (∀ f, (scanNew ev l).2 = some f → ufind ev f = some true) := by
  induction l with
  | nil => intro ev; exact ⟨fun g => Iff.rfl, fun f hf => by simp [scanNew] at hf⟩
  | cons a l ih =>
    intro ev
    cases ha : ufind ev a with
    | none =>
      obtain ⟨h1, h2⟩ := ih (uset ev a false)
      have key : ∀ g, ufind (uset ev a false) g = some true ↔ ufind ev g = some true := by
        intro g
        rw [ufind_uset]
        by_cases hg : a = g
        · subst hg; simp [ha]
        · simp [hg]
      simp only [scanNew, ha]
      exact ⟨fun g => (h1 g).trans (key g), fun f hf => (key f).1 (h2 f hf)⟩
    | some b =>
      cases b with
      | true =>
        simp only [scanNew, ha]
        refine ⟨by simp, ?_⟩
        intro f hf
        simp only [Option.some.injEq] at hf
        exact hf ▸ ha
      | false =>
        simp only [scanNew, ha]
        exact ih ev

theorem scanCache_flags (l : List (Int × Nat)) : ∀ (ev : List (Int × Bool)),
    (∀ g, ufind (scanCache ev l).1 g = some true ↔ ufind ev g = some true) ∧
    (∀ e, (scanCache ev l).2 = some e → ufind ev e.1 = some true) := by
  induction l with
  | nil => intro ev; exact ⟨fun g => Iff.rfl, fun f hf => by simp [scanCache] at hf⟩
  | cons a l ih =>
    intro ev
    cases ha : ufind ev a.1 with
    | none =>
      obtain ⟨h1, h2⟩ := ih (uset ev a.1 false)
      have key : ∀ g, ufind (uset ev a.1 false) g = some true ↔ ufind ev g = some true := by
        intro g
        rw [ufind_uset]
        by_cases hg : a.1 = g
        · subst hg; simp [ha]
        · simp [hg]
      simp only [scanCache, ha]
      exact ⟨fun g => (h1 g).trans (key g), fun f hf => (key f.1).1 (h2 f hf)⟩
    | some b =>
      cases b with
      | true =>
        simp only [scanCache, ha]
        refine ⟨by simp, ?_⟩
        intro f hf
        simp only [Option.some.injEq] at hf
        exact hf ▸ ha
      | false =>
        simp only [scanCache, ha]
        exact ih ev

/-- `EvictInstance` returns a frame whose flag was set, and sets no flag. -/
theorem EvictInstance_flags (r : LRUKReplacer) :
    (∀ g, ufind r.EvictInstance.1.frame_evictable_ g = some true →
      ufind r.frame_evictable_ g = some true ∧ r.EvictInstance.2 ≠ some g) ∧
    (∀ f, r.EvictInstance.2 = some f → ufind r.frame_evictable_ f = some true) ∧
    (r.EvictInstance.2 = none → r.curr_size_ = 0 ∨
      ∀ g, ufind r.EvictInstance.1.frame_evictable_ g = some true ↔
        ufind r.frame_evictable_ g = some true) := by
  unfold LRUKReplacer.EvictInstance
  by_cases h0 : r.curr_size_ = 0
  · simp only [h0, if_true]
    exact ⟨fun g hg => ⟨hg, by simp⟩, fun f hf => by simp at hf, fun _ => Or.inl trivial⟩
  · simp only [h0, if_false]
    obtain ⟨n1, n2⟩ := scanNew_flags r.new_frame_.reverse r.frame_evictable_
    cases hs : scanNew r.frame_evictable_ r.new_frame_.reverse with
    | mk ev res =>
      rw [hs] at n1 n2
      cases res with
      | some f =>
        simp only
        refine ⟨?_, ?_, fun h => by simp at h⟩
        · intro g hg
          rw [ufind_uerase] at hg
          by_cases hfg : f = g
          · simp [hfg] at hg
          · simp only [hfg, if_false] at hg
            exact ⟨(n1 g).1 hg, fun h' => hfg (Option.some.inj h')⟩
        · intro f' hf'
          simp only [Option.some.injEq] at hf'
          exact hf' ▸ n2 f rfl
      | none =>
        simp only
        obtain ⟨c1, c2⟩ := scanCache_flags r.cache_frame_ ev
        cases hc : scanCache ev r.cache_frame_ with
        | mk ev2 res2 =>
          rw [hc] at c1 c2
          cases res2 with
          | some e =>
            simp only
            refine ⟨?_, ?_, fun h => by simp at h⟩
            · intro g hg
              rw [ufind_uerase] at hg
              by_cases hfg : e.1 = g
              · simp [hfg] at hg
              · simp only [hfg, if_false] at hg
                exact ⟨(n1 g).1 ((c1 g).1 hg), fun h' => hfg (Option.some.inj h')⟩
            · intro f' hf'
              simp only [Option.some.injEq] at hf'
              exact hf' ▸ (n1 e.1).1 (c2 e rfl)
          | none =>
            simp only
            exact ⟨fun g hg => ⟨(n1 g).1 ((c1 g).1 hg), by simp⟩, fun f hf => by simp at hf,
              fun _ => Or.inr (fun g => (c1 g).trans (n1 g))⟩

/-- `RecordAccess` sets the flag of no frame but the accessed one. -/
theorem RecordAccess_flags {r r' : LRUKReplacer} {f : Int} (h : r.RecordAccess f = some r')
    (g : Int) (hg : g ≠ f) (hev : ufind r'.frame_evictable_ g = some true) :
    ufind r.frame_evictable_ g = some true := by
  unfold LRUKReplacer.RecordAccess at h
  simp only at h
  split at h
  · -- first access
    simp only [Option.some.injEq] at h
    subst h
    have hfg : ¬ f = g := fun h' => hg h'.symm
    simp only [ufind_uset, hfg, if_false] at hev
    by_cases hc : r.curr_size_ = r.replacer_size_
    · rw [if_pos hc] at hev
      exact ((EvictInstance_flags _).1 g hev).1
    · rw [if_neg hc] at hev
      exact hev
  · split at h
    · split at h
      · exact Option.noConfusion h
      · simp only [Option.some.injEq] at h
        subst h
        exact hev
    · split at h
      · split at h
        · exact Option.noConfusion h
        · split at h
          · exact Option.noConfusion h
          · simp only [Option.some.injEq] at h
            subst h
            exact hev
      · simp only [Option.some.injEq] at h
        subst h
        exact hev

/-- The flags after `SetEvictable`. -/
theorem SetEvictable_flags (r : LRUKReplacer) (f : Int) (b : Bool) (g : Int) :
    ufind (r.SetEvictable f b).frame_evictable_ g =
      if f = g ∧ ufind r.frame_evictable_ f ≠ none then some b
      else ufind r.frame_evictable_ g := by
  unfold LRUKReplacer.SetEvictable
  cases hf : ufind r.frame_evictable_ f with
  | none => simp
  | some b0 =>
    simp only
    by_cases hb : b0 = b
    · subst hb
      simp only [if_true]
      by_cases hfg : f = g
      · subst hfg; simp [hf]
      · simp [hfg]
    · simp only [hb, if_false]
      cases b with
      | true =>
        simp only [if_true, ufind_uset]
        by_cases hfg : f = g <;> simp [hfg]
      | false =>
        simp only [Bool.false_eq_true, if_false, ufind_uset]
        by_cases hfg : f = g <;> simp [hfg]

/-- `Remove` sets no flag. -/
theorem Remove_flags (r : LRUKReplacer) (x g : Int)
    (hev : ufind (r.Remove x).frame_evictable_ g = some true) :
    ufind r.frame_evictable_ g = some true := by
  unfold LRUKReplacer.Remove at hev
  cases hx : ufind r.frame_evictable_ x with
  | none => simpa [hx] using hev
  | some b =>
    cases b with
    | false => simpa [hx] using hev
    | true =>
      simp only [hx] at hev
      have key : ∀ r2 : LRUKReplacer, r2.frame_evictable_ = uerase r.frame_evictable_ x →
          ufind r2.frame_evictable_ g = some true → ufind r.frame_evictable_ g = some true := by
        intro r2 h2 h3
        rw [h2, ufind_uerase] at h3
        by_cases hxg : x = g
        · simp [hxg] at h3
        · simpa [hxg] using h3
      split at hev
      · exact key _ rfl hev
      · split at hev
        · exact key _ rfl hev
        · exact key _ rfl hev

end bustub

namespace bustub

/-! ## Frames of the pool -/

namespace BufferPoolManagerInstance

theorem getPage_nonneg {s : BufferPoolManagerInstance} {f : Int} {pg : Page}
    (h : s.getPage f = some pg) : 0 ≤ f := by
  unfold getPage at h
  by_contra hf
  simp [hf] at h

theorem getPage_eq_of_pages {s s' : BufferPoolManagerInstance} (h : s'.pages_ = s.pages_)
    (f : Int) : s'.getPage f = s.getPage f := by
  simp [getPage, h]

/-- The frames after `pages_[g]` has been assigned. -/
theorem getPage_of_set {s : BufferPoolManagerInstance} (s' : BufferPoolManagerInstance)
    {g : Int} {pg0 : Page} (pg : Page)
    (hg : s.getPage g = some pg0) (hs : s'.pages_ = s.pages_.set g.toNat pg) (f : Int) :
    s'.getPage f = if f = g then some pg else s.getPage f := by
  have hg0 := getPage_nonneg hg
  unfold getPage at hg ⊢
  simp only [hg0, if_true] at hg
  have hlt : g.toNat < s.pages_.length := (List.getElem?_eq_some_iff.1 hg).1
  rw [hs]
  by_cases hf0 : 0 ≤ f
  · simp only [hf0, if_true]
    by_cases hfg : f = g
    · subst hfg
      simp [List.getElem?_set_self hlt]
    · have : g.toNat ≠ f.toNat := by omega
      simp [hfg, List.getElem?_set_ne this]
  · have hfg : f ≠ g := by omega
    simp [hf0, hfg]

end BufferPoolManagerInstance

/-! ## The page table as a map -/

section hashTable
variable {K V : Type} [DecidableEq K] {hash : K → Nat} {t : ExtendibleHashTable K V}

theorem HashWF.find_total (h : HashWF hash t) (k : K) : ∃ o, t.Find hash k = some o := by
  obtain ⟨p, b, _, _, _, _, _, _, _, _, s9⟩ := h.slotOf k
  exact ⟨_, s9⟩

/-- `Insert` that returns keeps the table well formed and binds the key. -/
theorem HashWF.insert_of_some (h : HashWF hash t) {k : K} {v : V}
    {t' : ExtendibleHashTable K V} (hr : t.Insert hash k v = some t') :
    HashWF hash t' ∧
      ∀ k', t'.Find hash k' = if k = k' then some (some v) else t.Find hash k' := by
  obtain ⟨p, b, s1, s2, _⟩ := h.slotOf k
  simp only [ExtendibleHashTable.Insert, s1, s2] at hr
  obtain ⟨a1, _, a3, _⟩ := h.insertFuel k v _ t t' hr
  exact ⟨a1, a3⟩

/-- `Remove` that returns keeps the table well formed and unbinds the key. -/
theorem HashWF.remove_of_some (h : HashWF hash t) {k : K}
    {res : ExtendibleHashTable K V × Bool} (hr : t.Remove hash k = some res) :
    HashWF hash res.1 ∧
      (∀ k', res.1.Find hash k' = if k = k' then some none else t.Find hash k') ∧
      (res.2 = true ↔ ∃ v, t.Find hash k = some (some v)) := by
  obtain ⟨t', b, r1, r2, r3, r4⟩ := h.remove_key k
  rw [r1] at hr
  have := Option.some.inj hr
  subst this
  exact ⟨r2, r4, r3⟩

theorem HashWF.remove_total (h : HashWF hash t) (k : K) :
    ∃ res, t.Remove hash k = some res := by
  obtain ⟨t', b, r1, _⟩ := h.remove_key k
  exact ⟨_, r1⟩

end hashTable

/-- The counter of page ids does not wrap below `2^31`. -/
theorem wrapPageId_eq {x : Int} (h0 : -2 ^ 31 ≤ x) (h1 : x < 2 ^ 31) : wrapPageId x = x := by
  unfold wrapPageId
  omega

theorem wrapPageId_succ (c : Nat) :
    wrapPageId (wrapPageId (c : Int) + 1) = wrapPageId (((c + 1 : Nat) : Int)) := by
  unfold wrapPageId
  push_cast
  omega

/-- The page counter hands out distinct ids until it has wrapped around. -/
theorem wrapPageId_inj {i j : Nat} (hi : i < 2 ^ 32) (hj : j < 2 ^ 32)
    (h : wrapPageId (i : Int) = wrapPageId (j : Int)) : i = j := by
  have hi' : ((i : Nat) : Int) < 2 ^ 32 := by exact_mod_cast hi
  have hj' : ((j : Nat) : Int) < 2 ^ 32 := by exact_mod_cast hj
  unfold wrapPageId at h
  omega

/-- Below `2^31` the page counter hands out the numbers themselves. -/
theorem wrapPageId_small {i : Nat} (hi : i < 2 ^ 31) : wrapPageId (i : Int) = (i : Int) := by
  have hi' : ((i : Nat) : Int) < 2 ^ 31 := by exact_mod_cast hi
  unfold wrapPageId
  omega

/-- The page counter does not hand out `INVALID_PAGE_ID` before its `2^32`-th id. -/
theorem wrapPageId_ne_invalid {i : Nat} (hi : i + 1 < 2 ^ 32) :
    wrapPageId (i : Int) ≠ INVALID_PAGE_ID := by
  have hi' : ((i : Nat) : Int) + 1 < 2 ^ 32 := by exact_mod_cast hi
  unfold wrapPageId INVALID_PAGE_ID
  omega

theorem Issued.of_le {c c' : Nat} {p : Int} (h : Issued c p) (hc : c ≤ c') : Issued c' p := by
  obtain ⟨i, hi, hp⟩ := h
  exact ⟨i, by omega, hp⟩

/-- The id that the page counter hands out next was not handed out before, as long as fewer
than `2^32` ids have been handed out. -/
theorem Issued.ne_next {c : Nat} {p : Int} (h : Issued c p) (hc : c < 2 ^ 32) :
    p ≠ wrapPageId (c : Int) := by
  obtain ⟨i, hi, hp⟩ := h
  intro e
  rw [hp] at e
  have := wrapPageId_inj (by omega) hc e
  omega

theorem Issued.last (c : Nat) : Issued (c + 1) (wrapPageId (c : Int)) := ⟨c, by omega, rfl⟩

end bustub

namespace bustub

open BufferPoolManagerInstance

variable {env : Env} {s s1 s' : BufferPoolManagerInstance}

/-- The two ways in which `acquireFrame` yields a frame. -/
theorem acquireFrame_cases {f : Int} (h : acquireFrame env s = some (s1, f)) :
    (∃ rest, s.free_list_ = f :: rest ∧ s1 = { s with free_list_ := rest }) ∨
    (s.free_list_ = [] ∧ ∃ pg res, s.replacer_.Evict.2 = some f ∧ s.getPage f = some pg ∧
      s.page_table_.Remove env.hash pg.page_id_ = some res ∧
      s1 = { s with
        replacer_ := s.replacer_.Evict.1
        pages_ := s.pages_.set f.toNat
          (if pg.is_dirty_ then { pg with is_dirty_ := false } else pg)
        disk_manager_ :=
          if pg.is_dirty_ then s.disk_manager_.WritePage pg.page_id_ pg.data_
          else s.disk_manager_
        page_table_ := res.1 }) := by
  unfold acquireFrame at h
  cases hfl : s.free_list_ with
  | cons a rest =>
    rw [hfl] at h
    simp only [Option.some.injEq, Prod.mk.injEq] at h
    left
    exact ⟨rest, by rw [h.2], h.1.symm⟩
  | nil =>
    rw [hfl] at h
    right
    refine ⟨rfl, ?_⟩
    cases hev : s.replacer_.Evict with
    | mk r' o =>
      rw [hev] at h
      cases o with
      | none => exact Option.noConfusion h
      | some f' =>
        simp only at h
        cases hpg : s.getPage f' with
        | none => rw [hpg] at h; exact Option.noConfusion h
        | some pg =>
          rw [hpg] at h
          simp only at h
          cases hrm : s.page_table_.Remove env.hash pg.page_id_ with
          | none => rw [hrm] at h; exact Option.noConfusion h
          | some res =>
            rw [hrm] at h
            simp only [Option.some.injEq, Prod.mk.injEq] at h
            obtain ⟨h1, h2⟩ := h
            subst h2
            exact ⟨pg, res, rfl, hpg, hrm, h1.symm⟩

/-- The flags of the replacer after `RecordAccess(f); SetEvictable(f, false)`. -/
theorem pinInReplacer_flags {r r' : LRUKReplacer} {f : Int}
    (h : pinInReplacer r f = some r') (g : Int)
    (hg : ufind r'.frame_evictable_ g = some true) :
    g ≠ f ∧ ufind r.frame_evictable_ g = some true := by
  unfold pinInReplacer at h
  cases hra : r.RecordAccess f with
  | none => rw [hra] at h; exact Option.noConfusion h
  | some r0 =>
    rw [hra] at h
    simp only [Option.some.injEq] at h
    subst h
    rw [SetEvictable_flags] at hg
    have hgf : g ≠ f := by
      intro hgf
      subst hgf
      by_cases ht : ufind r0.frame_evictable_ g = none
      · simp [ht] at hg
      · simp [ht] at hg
    have : ¬ (f = g ∧ ufind r0.frame_evictable_ f ≠ none) := fun h' => hgf h'.1.symm
    rw [if_neg this] at hg
    exact ⟨hgf, RecordAccess_flags hra g hgf hg⟩

/-- The state after a frame has been acquired. -/
theorem BPMInv.acquire (h : BPMInv env s) {f : Int}
    (ha : acquireFrame env s = some (s1, f)) : Detached env s1 f := by
  rcases acquireFrame_cases ha with ⟨rest, hfl, rfl⟩ | ⟨hfl, pg, res, hev, hpg, hrm, rfl⟩
  · -- from the free list
    have hnd := h.freeNodup
    rw [hfl, List.nodup_cons] at hnd
    have hf := h.free f (by rw [hfl]; exact List.mem_cons_self _ _)
    refine
      { inv :=
          { wf := h.wf, i1 := h.i1
            free := fun g hg => h.free g (by rw [hfl]; exact List.mem_cons_of_mem _ hg)
            freeNodup := hnd.2
            ev := h.ev }
        valid := ⟨_, hf.1.choose_spec.1⟩
        notFree := hnd.1
        unmapped := hf.2 }
  · -- the victim of the replacer
    have hflag := (EvictInstance_flags s.replacer_).2.1 f hev
    obtain ⟨w1, w2, _⟩ := h.wf.remove_of_some hrm
    have hset : ∀ g, getPage { s with
        replacer_ := s.replacer_.Evict.1
        pages_ := s.pages_.set f.toNat
          (if pg.is_dirty_ then { pg with is_dirty_ := false } else pg)
        disk_manager_ :=
          if pg.is_dirty_ then s.disk_manager_.WritePage pg.page_id_ pg.data_
          else s.disk_manager_
        page_table_ := res.1 } g =
        if g = f then some (if pg.is_dirty_ then { pg with is_dirty_ := false } else pg)
        else s.getPage g := fun g => getPage_of_set _ _ hpg rfl g
    have hid : (if pg.is_dirty_ then { pg with is_dirty_ := false } else pg).page_id_ =
        pg.page_id_ := by split <;> rfl
    have hpin : (if pg.is_dirty_ then { pg with is_dirty_ := false } else pg).pin_count_ =
        pg.pin_count_ := by split <;> rfl
    have hunm : ∀ p, res.1.Find env.hash p ≠ some (some f) := by
      intro p hp
      rw [w2 p] at hp
      by_cases hq : pg.page_id_ = p
      · simp [hq] at hp
      · simp only [hq, if_false] at hp
        obtain ⟨pg2, h1, h2⟩ := h.i1 p f hp
        rw [hpg] at h1
        exact hq (by rw [← h2, ← Option.some.inj h1])
    refine
      { inv :=
          { wf := w1
            i1 := ?_
            free := fun g hg => by rw [hfl] at hg; simp at hg
            freeNodup := by show s.free_list_.Nodup; rw [hfl]; exact List.nodup_nil
            ev := ?_ }
        valid := ⟨_, by rw [hset f, if_pos rfl]⟩
        notFree := by show f ∉ s.free_list_; rw [hfl]; simp
        unmapped := hunm }
    · intro p g hp
      have hgf : g ≠ f := fun hgf => hunm p (hgf ▸ hp)
      rw [hset g, if_neg hgf]
      have hp' : s.page_table_.Find env.hash p = some (some g) := by
        have := w2 p
        rw [hp] at this
        by_cases hq : pg.page_id_ = p
        · simp [hq] at this
        · simpa [hq] using this.symm
      exact h.i1 p g hp'
    · intro g hg
      obtain ⟨e1, e2⟩ := (EvictInstance_flags s.replacer_).1 g hg
      have hgf : g ≠ f := fun hgf => e2 (hgf ▸ hev)
      rw [hset g, if_neg hgf]
      exact h.ev g e1

/-- The state after a page has been installed in an acquired frame. -/
theorem Detached.install {f : Int} (h : Detached env s1 f) {p : Int} {data : List Nat}
    (hi : installPage env s1 f p data = some s') :
    BPMInv env s' ∧ s'.free_list_ = s1.free_list_ ∧
    s'.next_page_id_ = s1.next_page_id_ ∧ s'.disk_manager_ = s1.disk_manager_ ∧
    (∀ p', s'.page_table_.Find env.hash p' =
      if p = p' then some (some f) else s1.page_table_.Find env.hash p') ∧
    (∀ g, s'.getPage g =
      if g = f then some { data_ := data, page_id_ := p, pin_count_ := 1, is_dirty_ := false }
      else s1.getPage g) ∧
    (∀ g, ufind s'.replacer_.frame_evictable_ g = some true →
      g ≠ f ∧ ufind s1.replacer_.frame_evictable_ g = some true) := by
  unfold installPage at hi
  cases hins : s1.page_table_.Insert env.hash p f with
  | none => rw [hins] at hi; exact Option.noConfusion hi
  | some pt =>
    rw [hins] at hi
    simp only at hi
    cases hpin : pinInReplacer s1.replacer_ f with
    | none => rw [hpin] at hi; exact Option.noConfusion hi
    | some r =>
      rw [hpin] at hi
      simp only at hi
      obtain ⟨pg0, hpg0⟩ := h.valid
      rw [hpg0] at hi
      simp only [Option.some.injEq] at hi
      subst hi
      obtain ⟨w1, w2⟩ := h.inv.wf.insert_of_some hins
      have hset : ∀ g, getPage { s1 with
          page_table_ := pt, replacer_ := r
          pages_ := s1.pages_.set f.toNat
            { data_ := data, page_id_ := p, pin_count_ := 1, is_dirty_ := false } } g =
          if g = f then
            some { data_ := data, page_id_ := p, pin_count_ := 1, is_dirty_ := false }
          else s1.getPage g := fun g => getPage_of_set _ _ hpg0 rfl g
      have hflags := fun g => pinInReplacer_flags hpin g
      refine ⟨?_, rfl, rfl, rfl, w2, hset, hflags⟩
      refine
        { wf := w1
          i1 := ?_
          free := ?_
          freeNodup := h.inv.freeNodup
          ev := ?_ }
      · intro p' g hp'
        rw [w2 p'] at hp'
        rw [hset g]
        by_cases hpp : p = p'
        · simp only [hpp, if_true, Option.some.injEq] at hp'
          subst hp'
          subst hpp
          simp
        · simp only [hpp, if_false] at hp'
          have hgf : g ≠ f := fun hgf => h.unmapped p' (hgf ▸ hp')
          rw [if_neg hgf]
          exact h.inv.i1 p' g hp'
      · intro g hg
        have hgf : g ≠ f := fun hgf => h.notFree (hgf ▸ hg)
        obtain ⟨a1, a2⟩ := h.inv.free g hg
        refine ⟨by rw [hset g, if_neg hgf]; exact a1, ?_⟩
        intro p' hp'
        rw [w2 p'] at hp'
        by_cases hpp : p = p'
        · simp only [hpp, if_true, Option.some.injEq] at hp'
          exact hgf hp'.symm
        · simp only [hpp, if_false] at hp'
          exact a2 p' hp'
      · intro g hg
        obtain ⟨hgf, hg'⟩ := hflags g hg
        rw [hset g, if_neg hgf]
        exact h.inv.ev g hg'


end bustub

namespace bustub

open BufferPoolManagerInstance

variable {env : Env} {s s' : BufferPoolManagerInstance}

/-- A change of the buffers and dirty flags of frames keeps the invariant. -/
theorem BPMInv.of_meta (h : BPMInv env s) (hpt : s'.page_table_ = s.page_table_)
    (hfl : s'.free_list_ = s.free_list_) (hr : s'.replacer_ = s.replacer_)
    (hp : ∀ g pg, s.getPage g = some pg → ∃ pg', s'.getPage g = some pg' ∧
      pg'.page_id_ = pg.page_id_ ∧ pg'.pin_count_ = pg.pin_count_) : BPMInv env s' := by
  refine
    { wf := hpt ▸ h.wf
      i1 := ?_
      free := ?_
      freeNodup := hfl ▸ h.freeNodup
      ev := ?_ }
  · intro p f hf
    rw [hpt] at hf
    obtain ⟨pg, h1, h2⟩ := h.i1 p f hf
    obtain ⟨pg', a1, a2, _⟩ := hp f pg h1
    exact ⟨pg', a1, a2.trans h2⟩
  · intro f hf
    rw [hfl] at hf
    obtain ⟨⟨pg, h1, h2, h3⟩, h4⟩ := h.free f hf
    obtain ⟨pg', a1, a2, a3⟩ := hp f pg h1
    refine ⟨⟨pg', a1, a3.trans h2, a2.trans h3⟩, ?_⟩
    rw [hpt]
    exact h4
  · intro f hf
    rw [hr] at hf
    obtain ⟨pg, h1, h2⟩ := h.ev f hf
    obtain ⟨pg', a1, _, a3⟩ := hp f pg h1
    exact ⟨pg', a1, a3 ▸ h2⟩

theorem BPMInv.newPg (h : BPMInv env s) {r : Option (Int × Int)}
    (hr : s.NewPgImp env = some (s', r)) : BPMInv env s' := by
  unfold NewPgImp at hr
  split at hr
  · simp only [Option.some.injEq, Prod.mk.injEq] at hr
    exact hr.1 ▸ h
  · simp only at hr
    have h0 : BPMInv env { s with next_page_id_ := wrapPageId (s.next_page_id_ + 1) } :=
      ⟨h.wf, h.i1, h.free, h.freeNodup, h.ev⟩
    cases ha : acquireFrame env { s with next_page_id_ := wrapPageId (s.next_page_id_ + 1) } with
    | none => rw [ha] at hr; exact Option.noConfusion hr
    | some res =>
      obtain ⟨s1, f⟩ := res
      rw [ha] at hr
      simp only at hr
      cases hi : installPage env s1 f s.next_page_id_ env.zeroData with
      | none => rw [hi] at hr; exact Option.noConfusion hr
      | some s2 =>
        rw [hi] at hr
        simp only [Option.some.injEq, Prod.mk.injEq] at hr
        exact hr.1 ▸ ((h0.acquire ha).install hi).1

theorem BPMInv.fetchPg (h : BPMInv env s) {p : Int} {r : Option Int}
    (hr : s.FetchPgImp env p = some (s', r)) : BPMInv env s' := by
  unfold FetchPgImp at hr
  obtain ⟨o, ho⟩ := h.wf.find_total p
  rw [ho] at hr
  cases o with
  | some f =>
    simp only at hr
    cases hra : s.replacer_.RecordAccess f with
    | none => rw [hra] at hr; exact Option.noConfusion hr
    | some r0 =>
      rw [hra] at hr
      simp only at hr
      obtain ⟨pg, hpg, hid⟩ := h.i1 p f ho
      rw [hpg] at hr
      simp only [Option.some.injEq, Prod.mk.injEq] at hr
      obtain ⟨hs, _⟩ := hr
      subst hs
      have hset : ∀ g, getPage { s with
          replacer_ := r0.SetEvictable f false
          pages_ := s.pages_.set f.toNat { pg with pin_count_ := pg.pin_count_ + 1 } } g =
          if g = f then some { pg with pin_count_ := pg.pin_count_ + 1 } else s.getPage g :=
        fun g => getPage_of_set _ _ hpg rfl g
      have hpin : pinInReplacer s.replacer_ f = some (r0.SetEvictable f false) := by
        simp [pinInReplacer, hra]
      refine
        { wf := h.wf
          i1 := ?_
          free := ?_
          freeNodup := h.freeNodup
          ev := ?_ }
      · intro p' g hp'
        rw [hset g]
        obtain ⟨pg', a1, a2⟩ := h.i1 p' g hp'
        by_cases hgf : g = f
        · subst hgf
          rw [hpg] at a1
          rw [if_pos rfl]
          exact ⟨_, rfl, by rw [← a2, ← Option.some.inj a1]⟩
        · rw [if_neg hgf]
          exact ⟨pg', a1, a2⟩
      · intro g hg
        obtain ⟨a1, a2⟩ := h.free g hg
        have hgf : g ≠ f := fun hgf => a2 p (hgf ▸ ho)
        exact ⟨by rw [hset g, if_neg hgf]; exact a1, a2⟩
      · intro g hg
        obtain ⟨hgf, hg'⟩ := pinInReplacer_flags hpin g hg
        rw [hset g, if_neg hgf]
        exact h.ev g hg'
  | none =>
    simp only at hr
    split at hr
    · simp only [Option.some.injEq, Prod.mk.injEq] at hr
      exact hr.1 ▸ h
    · cases ha : acquireFrame env s with
      | none => rw [ha] at hr; exact Option.noConfusion hr
      | some res =>
        obtain ⟨s1, f⟩ := res
        rw [ha] at hr
        simp only at hr
        cases hi : installPage env s1 f p (s1.disk_manager_.ReadPage env p) with
        | none => rw [hi] at hr; exact Option.noConfusion hr
        | some s2 =>
          rw [hi] at hr
          simp only [Option.some.injEq, Prod.mk.injEq] at hr
          exact hr.1 ▸ ((h.acquire ha).install hi).1

theorem BPMInv.unpinPg (h : BPMInv env s) {p : Int} {d b : Bool}
    (hr : s.UnpinPgImp env p d = some (s', b)) : BPMInv env s' := by
  unfold UnpinPgImp at hr
  obtain ⟨o, ho⟩ := h.wf.find_total p
  rw [ho] at hr
  cases o with
  | none =>
    simp only [Option.some.injEq, Prod.mk.injEq] at hr
    exact hr.1 ▸ h
  | some f =>
    simp only at hr
    obtain ⟨pg, hpg, hid⟩ := h.i1 p f ho
    rw [hpg] at hr
    simp only at hr
    split at hr
    · simp only [Option.some.injEq, Prod.mk.injEq] at hr
      exact hr.1 ▸ h
    · next hpos =>
      simp only [Option.some.injEq, Prod.mk.injEq] at hr
      obtain ⟨hs, _⟩ := hr
      subst hs
      have hset : ∀ g, getPage { s with
          replacer_ := if pg.pin_count_ - 1 = 0 then s.replacer_.SetEvictable f true
            else s.replacer_
          pages_ := s.pages_.set f.toNat { pg with
            pin_count_ := pg.pin_count_ - 1
            is_dirty_ := if d = true then true else pg.is_dirty_ } } g =
          if g = f then some { pg with
            pin_count_ := pg.pin_count_ - 1
            is_dirty_ := if d = true then true else pg.is_dirty_ } else s.getPage g :=
        fun g => getPage_of_set _ _ hpg rfl g
      refine
        { wf := h.wf
          i1 := ?_
          free := ?_
          freeNodup := h.freeNodup
          ev := ?_ }
      · intro p' g hp'
        rw [hset g]
        obtain ⟨pg', a1, a2⟩ := h.i1 p' g hp'
        by_cases hgf : g = f
        · subst hgf
          rw [hpg] at a1
          rw [if_pos rfl]
          exact ⟨_, rfl, by rw [← a2, ← Option.some.inj a1]⟩
        · rw [if_neg hgf]
          exact ⟨pg', a1, a2⟩
      · intro g hg
        obtain ⟨a1, a2⟩ := h.free g hg
        have hgf : g ≠ f := fun hgf => a2 p (hgf ▸ ho)
        exact ⟨by rw [hset g, if_neg hgf]; exact a1, a2⟩
      · intro g hg
        rw [hset g]
        by_cases hgf : g = f
        · subst hgf
          rw [if_pos rfl]
          refine ⟨_, rfl, ?_⟩
          show pg.pin_count_ - 1 ≤ 0
          by_cases hz : pg.pin_count_ - 1 = 0
          · omega
          · simp only [hz, if_false] at hg
            obtain ⟨pg', a1, a2⟩ := h.ev g hg
            rw [hpg] at a1
            rw [← Option.some.inj a1] at a2
            omega
        · rw [if_neg hgf]
          by_cases hz : pg.pin_count_ - 1 = 0
          · simp only [hz, if_true] at hg
            rw [SetEvictable_flags] at hg
            have : ¬ (f = g ∧ ufind s.replacer_.frame_evictable_ f ≠ none) :=
              fun h' => hgf h'.1.symm
            rw [if_neg this] at hg
            exact h.ev g hg
          · simp only [hz, if_false] at hg
            exact h.ev g hg

theorem BPMInv.flushPg (h : BPMInv env s) {p : Int} {b : Bool}
    (hr : s.FlushPgImp env p = some (s', b)) : BPMInv env s' := by
  unfold FlushPgImp at hr
  obtain ⟨o, ho⟩ := h.wf.find_total p
  rw [ho] at hr
  cases o with
  | none =>
    simp only [Option.some.injEq, Prod.mk.injEq] at hr
    exact hr.1 ▸ h
  | some f =>
    simp only at hr
    obtain ⟨pg, hpg, hid⟩ := h.i1 p f ho
    rw [hpg] at hr
    simp only at hr
    split at hr
    · simp only [Option.some.injEq, Prod.mk.injEq] at hr
      obtain ⟨hs, _⟩ := hr
      subst hs
      refine h.of_meta rfl rfl rfl ?_
      intro g pg' hg
      have := getPage_of_set { s with
        pages_ := s.pages_.set f.toNat { pg with is_dirty_ := false }
        disk_manager_ := s.disk_manager_.WritePage pg.page_id_ pg.data_ } _ hpg rfl g
      rw [this]
      by_cases hgf : g = f
      · subst hgf
        rw [hpg] at hg
        rw [if_pos rfl, ← Option.some.inj hg]
        exact ⟨_, rfl, rfl, rfl⟩
      · rw [if_neg hgf]
        exact ⟨pg', hg, rfl, rfl⟩
    · simp only [Option.some.injEq, Prod.mk.injEq] at hr
      exact hr.1 ▸ h

theorem BPMInv.flushFrame (h : BPMInv env s) {i : Nat} (hr : s.flushFrame i = some s') :
    BPMInv env s' ∧ s'.pool_size_ = s.pool_size_ := by
  unfold BufferPoolManagerInstance.flushFrame at hr
  cases hpg : s.pages_[i]? with
  | none => rw [hpg] at hr; exact Option.noConfusion hr
  | some pg =>
    rw [hpg] at hr
    simp only at hr
    split at hr
    · simp only [Option.some.injEq] at hr
      subst hr
      refine ⟨h.of_meta rfl rfl rfl ?_, rfl⟩
      intro g pg' hg
      have hpg2 : s.getPage (i : Int) = some pg := by
        simp [getPage, hpg]
      have := getPage_of_set { s with
        pages_ := s.pages_.set i { pg with is_dirty_ := false }
        disk_manager_ := s.disk_manager_.WritePage pg.page_id_ pg.data_ }
        { pg with is_dirty_ := false } hpg2 (by simp) g
      rw [this]
      by_cases hgf : g = (i : Int)
      · subst hgf
        rw [hpg2] at hg
        rw [if_pos rfl, ← Option.some.inj hg]
        exact ⟨_, rfl, rfl, rfl⟩
      · rw [if_neg hgf]
        exact ⟨pg', hg, rfl, rfl⟩
    · simp only [Option.some.injEq] at hr
      exact hr ▸ ⟨h, rfl⟩

theorem BPMInv.flushFrames (l : List Nat) : ∀ {s s' : BufferPoolManagerInstance},
    BPMInv env s → flushFrames s l = some s' → BPMInv env s' := by
  induction l with
  | nil =>
    intro s s' h hr
    simp only [BufferPoolManagerInstance.flushFrames, Option.some.injEq] at hr
    exact hr ▸ h
  | cons i l ih =>
    intro s s' h hr
    simp only [BufferPoolManagerInstance.flushFrames] at hr
    cases hf : s.flushFrame i with
    | none => rw [hf] at hr; exact Option.noConfusion hr
    | some s1 =>
      rw [hf] at hr
      exact ih (h.flushFrame hf).1 hr

theorem BPMInv.deletePg (h : BPMInv env s) {p : Int} {b : Bool}
    (hr : s.DeletePgImp env p = some (s', b)) : BPMInv env s' := by
  unfold DeletePgImp at hr
  obtain ⟨o, ho⟩ := h.wf.find_total p
  rw [ho] at hr
  cases o with
  | none =>
    simp only [Option.some.injEq, Prod.mk.injEq] at hr
    exact hr.1 ▸ h
  | some f =>
    simp only at hr
    obtain ⟨pg, hpg, hid⟩ := h.i1 p f ho
    rw [hpg] at hr
    simp only at hr
    split at hr
    · simp only [Option.some.injEq, Prod.mk.injEq] at hr
      exact hr.1 ▸ h
    · cases hrm : s.page_table_.Remove env.hash p with
      | none => rw [hrm] at hr; exact Option.noConfusion hr
      | some res =>
        rw [hrm] at hr
        simp only [Option.some.injEq, Prod.mk.injEq] at hr
        obtain ⟨hs, _⟩ := hr
        subst hs
        obtain ⟨w1, w2, _⟩ := h.wf.remove_of_some hrm
        have hset : ∀ g, getPage (DeallocatePage { s with
            page_table_ := res.1
            replacer_ := s.replacer_.Remove p
            free_list_ := s.free_list_ ++ [f]
            pages_ := s.pages_.set f.toNat
              { data_ := env.zeroData, page_id_ := INVALID_PAGE_ID, pin_count_ := 0,
                is_dirty_ := false } } p) g =
            if g = f then
              some { data_ := env.zeroData, page_id_ := INVALID_PAGE_ID, pin_count_ := 0,
                     is_dirty_ := false }
            else s.getPage g := fun g => getPage_of_set _ _ hpg rfl g
        have hunm : ∀ p', res.1.Find env.hash p' ≠ some (some f) := by
          intro p' hp'
          rw [w2 p'] at hp'
          by_cases hq : p = p'
          · simp [hq] at hp'
          · simp only [hq, if_false] at hp'
            obtain ⟨pg2, h1, h2⟩ := h.i1 p' f hp'
            rw [hpg] at h1
            exact hq (by rw [← hid, ← h2, ← Option.some.inj h1])
        have hfind : ∀ p' g, res.1.Find env.hash p' = some (some g) →
            s.page_table_.Find env.hash p' = some (some g) := by
          intro p' g hp'
          rw [w2 p'] at hp'
          by_cases hq : p = p'
          · simp [hq] at hp'
          · simpa [hq] using hp'
        have hfnot : f ∉ s.free_list_ := fun hf => (h.free f hf).2 p ho
        refine
          { wf := w1
            i1 := ?_
            free := ?_
            freeNodup := ?_
            ev := ?_ }
        · intro p' g hp'
          have hgf : g ≠ f := fun hgf => hunm p' (hgf ▸ hp')
          rw [hset g, if_neg hgf]
          exact h.i1 p' g (hfind p' g hp')
        · intro g hg
          have hg' : g ∈ s.free_list_ ++ [f] := hg
          rcases List.mem_append.1 hg' with hg1 | hg1
          · obtain ⟨a1, a2⟩ := h.free g hg1
            have hgf : g ≠ f := fun hgf => hfnot (hgf ▸ hg1)
            refine ⟨by rw [hset g, if_neg hgf]; exact a1, ?_⟩
            intro p' hp'
            exact a2 p' (hfind p' g hp')
          · simp only [List.mem_singleton] at hg1
            subst hg1
            refine ⟨by rw [hset g, if_pos rfl]; exact ⟨_, rfl, rfl, rfl⟩, hunm⟩
        · show (s.free_list_ ++ [f]).Nodup
          rw [List.nodup_append]
          refine ⟨h.freeNodup, List.nodup_singleton _, ?_⟩
          intro a ha hb
          simp only [List.mem_singleton] at hb
          exact hfnot (hb ▸ ha)
        · intro g hg
          have hg' := Remove_flags s.replacer_ p g hg
          obtain ⟨pg', a1, a2⟩ := h.ev g hg'
          rw [hset g]
          by_cases hgf : g = f
          · rw [if_pos hgf]
            exact ⟨_, rfl, Int.le_refl _⟩
          · rw [if_neg hgf]
            exact ⟨pg', a1, a2⟩

theorem BPMInv.writeData (h : BPMInv env s) (f : Int) (bytes : List Nat) :
    BPMInv env (s.writeData f bytes) := by
  unfold BufferPoolManagerInstance.writeData
  cases hpg : s.getPage f with
  | none => exact h
  | some pg =>
    simp only
    refine h.of_meta rfl rfl rfl ?_
    intro g pg' hg
    have := getPage_of_set { s with
      pages_ := s.pages_.set f.toNat { pg with data_ := bytes } } _ hpg rfl g
    rw [this]
    by_cases hgf : g = f
    · subst hgf
      rw [hpg] at hg
      rw [if_pos rfl, ← Option.some.inj hg]
      exact ⟨_, rfl, rfl, rfl⟩
    · rw [if_neg hgf]
      exact ⟨pg', hg, rfl, rfl⟩

/-- Every call keeps the invariant. -/
theorem BPMInv.step (h : BPMInv env s) {op : BPMOp} {out : BPMResult}
    (hr : s.step env op = some (s', out)) : BPMInv env s' := by
  cases op with
  | new_page =>
    simp only [BufferPoolManagerInstance.step] at hr
    cases h1 : s.NewPgImp env with
    | none => rw [h1] at hr; exact Option.noConfusion hr
    | some res =>
      rw [h1] at hr
      simp only [Option.some.injEq, Prod.mk.injEq] at hr
      exact hr.1 ▸ h.newPg (r := res.2) h1
  | fetch_page p =>
    simp only [BufferPoolManagerInstance.step] at hr
    cases h1 : s.FetchPgImp env p with
    | none => rw [h1] at hr; exact Option.noConfusion hr
    | some res =>
      rw [h1] at hr
      simp only [Option.some.injEq, Prod.mk.injEq] at hr
      exact hr.1 ▸ h.fetchPg (r := res.2) h1
  | unpin_page p d =>
    simp only [BufferPoolManagerInstance.step] at hr
    cases h1 : s.UnpinPgImp env p d with
    | none => rw [h1] at hr; exact Option.noConfusion hr
    | some res =>
      rw [h1] at hr
      simp only [Option.some.injEq, Prod.mk.injEq] at hr
      exact hr.1 ▸ h.unpinPg (b := res.2) h1
  | flush_page p =>
    simp only [BufferPoolManagerInstance.step] at hr
    cases h1 : s.FlushPgImp env p with
    | none => rw [h1] at hr; exact Option.noConfusion hr
    | some res =>
      rw [h1] at hr
      simp only [Option.some.injEq, Prod.mk.injEq] at hr
      exact hr.1 ▸ h.flushPg (b := res.2) h1
  | flush_all_pages =>
    simp only [BufferPoolManagerInstance.step] at hr
    cases h1 : s.FlushAllPgsImp with
    | none => rw [h1] at hr; exact Option.noConfusion hr
    | some res =>
      rw [h1] at hr
      simp only [Option.some.injEq, Prod.mk.injEq] at hr
      exact hr.1 ▸ BPMInv.flushFrames _ h h1
  | delete_page p =>
    simp only [BufferPoolManagerInstance.step] at hr
    cases h1 : s.DeletePgImp env p with
    | none => rw [h1] at hr; exact Option.noConfusion hr
    | some res =>
      rw [h1] at hr
      simp only [Option.some.injEq, Prod.mk.injEq] at hr
      exact hr.1 ▸ h.deletePg (b := res.2) h1
  | write_data f bytes =>
    simp only [BufferPoolManagerInstance.step, Option.some.injEq, Prod.mk.injEq] at hr
    exact hr.1 ▸ h.writeData f bytes

/-- A run keeps the invariant. -/
theorem BPMInv.run (ops : List BPMOp) : ∀ {s s' : BufferPoolManagerInstance}
    {outs : List BPMResult}, BPMInv env s → s.run env ops = some (s', outs) →
    BPMInv env s' := by
  induction ops with
  | nil =>
    intro s s' outs h hr
    simp only [BufferPoolManagerInstance.run, Option.some.injEq, Prod.mk.injEq] at hr
    exact hr.1 ▸ h
  | cons op ops ih =>
    intro s s' outs h hr
    simp only [BufferPoolManagerInstance.run] at hr
    cases h1 : s.step env op with
    | none => rw [h1] at hr; exact Option.noConfusion hr
    | some res =>
      obtain ⟨s1, out⟩ := res
      rw [h1] at hr
      simp only at hr
      cases h2 : BufferPoolManagerInstance.run env s1 ops with
      | none => rw [h2] at hr; exact Option.noConfusion hr
      | some res2 =>
        obtain ⟨s2, outs2⟩ := res2
        rw [h2] at hr
        simp only [Option.some.injEq, Prod.mk.injEq] at hr
        exact hr.1 ▸ ih (h.step h1) h2

/-- A new pool satisfies the invariant. -/
theorem BPMInv.new_pool (env : Env) (pool_size replacer_k bucket_size : Nat) :
    BPMInv env (BufferPoolManagerInstance.new env pool_size replacer_k bucket_size) := by
  refine
    { wf := HashWF.new_table env.hash bucket_size
      i1 := ?_
      free := ?_
      freeNodup := ?_
      ev := ?_ }
  · intro p f hf
    have := Find_new (V := Int) env.hash bucket_size p
    simp only [BufferPoolManagerInstance.new] at hf
    rw [this] at hf
    exact Option.noConfusion (Option.some.inj hf)
  · intro f hf
    simp only [BufferPoolManagerInstance.new, List.mem_map, List.mem_range] at hf
    obtain ⟨i, hi, rfl⟩ := hf
    refine ⟨⟨env.emptyPage, ?_, rfl, rfl⟩, ?_⟩
    · simp [getPage, BufferPoolManagerInstance.new, hi, List.getElem?_replicate]
    · intro p hp
      have := Find_new (V := Int) env.hash bucket_size p
      simp only [BufferPoolManagerInstance.new] at hp
      rw [this] at hp
      exact Option.noConfusion (Option.some.inj hp)
  · simp only [BufferPoolManagerInstance.new]
    exact (List.nodup_range _).map (fun a b hab => Int.ofNat.inj hab)
  · intro f hf
    simp [BufferPoolManagerInstance.new, LRUKReplacer.new] at hf


end bustub

namespace bustub

open BufferPoolManagerInstance

variable {env : Env} {s s1 s' : BufferPoolManagerInstance}

/-- What `acquireFrame` followed by `installPage` does to the pool. -/
theorem BPMInv.reuse (h : BPMInv env s) {f n : Int} {data : List Nat}
    (ha : acquireFrame env s = some (s1, f))
    (hi : installPage env s1 f n data = some s') :
    Reused env s s' f n data ∧ s'.next_page_id_ = s.next_page_id_ ∧
      s'.disk_manager_ = s1.disk_manager_ := by
  obtain ⟨_, hfl, hnx, hdk, hfind, hpages, _⟩ := (h.acquire ha).install hi
  rcases acquireFrame_cases ha with ⟨rest, hfl0, rfl⟩ | ⟨hfl0, pg, res, hev, hpg, hrm, rfl⟩
  · obtain ⟨⟨pgv, a1, a2, _⟩, a4⟩ := h.free f (by rw [hfl0]; exact List.mem_cons_self _ _)
    refine ⟨⟨⟨pgv, a1, by omega, Or.inl ⟨?_, a4, hfind, hdk⟩⟩, hpages⟩, hnx, hdk⟩
    rw [hfl0, hfl]
  · have hflag := (EvictInstance_flags s.replacer_).2.1 f hev
    obtain ⟨pg2, b1, b2⟩ := h.ev f hflag
    rw [hpg] at b1
    have b3 : pg.pin_count_ ≤ 0 := by rw [Option.some.inj b1]; exact b2
    obtain ⟨_, w2, _⟩ := h.wf.remove_of_some hrm
    refine ⟨⟨⟨pg, hpg, b3, Or.inr ⟨hfl0, ?_, ?_, hdk⟩⟩, ?_⟩, hnx, hdk⟩
    · rw [hfl]; exact hfl0
    · intro p
      rw [hfind p]
      by_cases hn : n = p
      · simp [hn]
      · simp only [hn, if_false]
        exact w2 p
    · intro g
      rw [hpages g]
      by_cases hg : g = f
      · simp [hg]
      · simp only [hg, if_false]
        have := getPage_of_set { s with
          replacer_ := s.replacer_.Evict.1
          pages_ := s.pages_.set f.toNat
            (if pg.is_dirty_ then { pg with is_dirty_ := false } else pg)
          disk_manager_ :=
            if pg.is_dirty_ then s.disk_manager_.WritePage pg.page_id_ pg.data_
            else s.disk_manager_
          page_table_ := res.1 } _ hpg rfl g
        rw [this, if_neg hg]

/-- What `NewPgImp` does. -/
theorem BPMInv.newPg_effect (h : BPMInv env s) {r : Option (Int × Int)}
    (hr : s.NewPgImp env = some (s', r)) :
    (r = none ∧ s' = s ∧ s.free_list_ = [] ∧ s.replacer_.Size = 0) ∨
    (∃ f, r = some (s.next_page_id_, f) ∧ Reused env s s' f s.next_page_id_ env.zeroData ∧
      s'.next_page_id_ = wrapPageId (s.next_page_id_ + 1)) := by
  unfold NewPgImp at hr
  split at hr
  · next hc =>
    simp only [Option.some.injEq, Prod.mk.injEq] at hr
    exact Or.inl ⟨hr.2.symm, hr.1.symm, List.length_eq_zero.1 hc.1, hc.2⟩
  · simp only at hr
    have h0 : BPMInv env { s with next_page_id_ := wrapPageId (s.next_page_id_ + 1) } :=
      ⟨h.wf, h.i1, h.free, h.freeNodup, h.ev⟩
    cases ha : acquireFrame env { s with next_page_id_ := wrapPageId (s.next_page_id_ + 1) } with
    | none => rw [ha] at hr; exact Option.noConfusion hr
    | some res =>
      obtain ⟨s1, f⟩ := res
      rw [ha] at hr
      simp only at hr
      cases hi : installPage env s1 f s.next_page_id_ env.zeroData with
      | none => rw [hi] at hr; exact Option.noConfusion hr
      | some s2 =>
        rw [hi] at hr
        simp only [Option.some.injEq, Prod.mk.injEq] at hr
        obtain ⟨e1, e2⟩ := hr
        subst e1
        obtain ⟨a1, a2, _⟩ := h0.reuse ha hi
        exact Or.inr ⟨f, e2.symm, ⟨a1.victim, a1.pages⟩, a2⟩

/-- What `FetchPgImp` does. -/
theorem BPMInv.fetchPg_effect (h : BPMInv env s) {p : Int} {r : Option Int}
    (hr : s.FetchPgImp env p = some (s', r)) :
    (∃ f pg, s.page_table_.Find env.hash p = some (some f) ∧ r = some f ∧
      s'.disk_manager_ = s.disk_manager_ ∧
      Patched env s s' f pg { pg with pin_count_ := pg.pin_count_ + 1 }) ∨
    (s.page_table_.Find env.hash p = some none ∧
      ((r = none ∧ s' = s ∧ s.free_list_ = [] ∧ s.replacer_.Size = 0) ∨
       ∃ f, r = some f ∧ Reused env s s' f p (s'.disk_manager_.ReadPage env p) ∧
        s'.next_page_id_ = s.next_page_id_)) := by
  unfold FetchPgImp at hr
  obtain ⟨o, ho⟩ := h.wf.find_total p
  rw [ho] at hr
  cases o with
  | some f =>
    simp only at hr
    cases hra : s.replacer_.RecordAccess f with
    | none => rw [hra] at hr; exact Option.noConfusion hr
    | some r0 =>
      rw [hra] at hr
      simp only at hr
      obtain ⟨pg, hpg, hid⟩ := h.i1 p f ho
      rw [hpg] at hr
      simp only [Option.some.injEq, Prod.mk.injEq] at hr
      obtain ⟨hs, hr2⟩ := hr
      subst hs
      exact Or.inl ⟨f, pg, ho, hr2.symm, rfl,
        ⟨hpg, fun g => getPage_of_set _ _ hpg rfl g, rfl, rfl, rfl⟩⟩
  | none =>
    simp only at hr
    right
    refine ⟨ho, ?_⟩
    split at hr
    · next hc =>
      simp only [Option.some.injEq, Prod.mk.injEq] at hr
      exact Or.inl ⟨hr.2.symm, hr.1.symm, List.length_eq_zero.1 hc.1, hc.2⟩
    · cases ha : acquireFrame env s with
      | none => rw [ha] at hr; exact Option.noConfusion hr
      | some res =>
        obtain ⟨s1, f⟩ := res
        rw [ha] at hr
        simp only at hr
        cases hi : installPage env s1 f p (s1.disk_manager_.ReadPage env p) with
        | none => rw [hi] at hr; exact Option.noConfusion hr
        | some s2 =>
          rw [hi] at hr
          simp only [Option.some.injEq, Prod.mk.injEq] at hr
          obtain ⟨e1, e2⟩ := hr
          subst e1
          obtain ⟨a1, a2, a3⟩ := h.reuse ha hi
          rw [← a3] at a1
          exact Or.inr ⟨f, e2.symm, a1, a2⟩

/-- What `UnpinPgImp` does. -/
theorem BPMInv.unpinPg_effect (h : BPMInv env s) {p : Int} {d b : Bool}
    (hr : s.UnpinPgImp env p d = some (s', b)) :
    (b = false ∧ s' = s ∧
      (s.page_table_.Find env.hash p = some none ∨
        ∃ f pg, s.page_table_.Find env.hash p = some (some f) ∧ s.getPage f = some pg ∧
          pg.pin_count_ ≤ 0)) ∨
    (∃ f pg, s.page_table_.Find env.hash p = some (some f) ∧ 0 < pg.pin_count_ ∧ b = true ∧
      s'.disk_manager_ = s.disk_manager_ ∧
      Patched env s s' f pg { pg with
        pin_count_ := pg.pin_count_ - 1
        is_dirty_ := if d = true then true else pg.is_dirty_ }) := by
  unfold UnpinPgImp at hr
  obtain ⟨o, ho⟩ := h.wf.find_total p
  rw [ho] at hr
  cases o with
  | none =>
    simp only [Option.some.injEq, Prod.mk.injEq] at hr
    exact Or.inl ⟨hr.2.symm, hr.1.symm, Or.inl ho⟩
  | some f =>
    simp only at hr
    obtain ⟨pg, hpg, hid⟩ := h.i1 p f ho
    rw [hpg] at hr
    simp only at hr
    split at hr
    · next hle =>
      simp only [Option.some.injEq, Prod.mk.injEq] at hr
      exact Or.inl ⟨hr.2.symm, hr.1.symm, Or.inr ⟨f, pg, ho, hpg, hle⟩⟩
    · next hpos =>
      simp only [Option.some.injEq, Prod.mk.injEq] at hr
      obtain ⟨hs, hb⟩ := hr
      subst hs
      exact Or.inr ⟨f, pg, ho, by omega, hb.symm, rfl,
        ⟨hpg, fun g => getPage_of_set _ _ hpg rfl g, rfl, rfl, rfl⟩⟩

/-- What `FlushPgImp` does. -/
theorem BPMInv.flushPg_effect (h : BPMInv env s) {p : Int} {b : Bool}
    (hr : s.FlushPgImp env p = some (s', b)) :
    (s.page_table_.Find env.hash p = some none ∧ b = false ∧ s' = s) ∨
    (∃ f pg, s.page_table_.Find env.hash p = some (some f) ∧ s.getPage f = some pg ∧
      pg.page_id_ = p ∧ b = true ∧
      ((pg.is_dirty_ = false ∧ s' = s) ∨
       (pg.is_dirty_ = true ∧
        s'.disk_manager_ = s.disk_manager_.WritePage pg.page_id_ pg.data_ ∧
        Patched env s s' f pg { pg with is_dirty_ := false }))) := by
  unfold FlushPgImp at hr
  obtain ⟨o, ho⟩ := h.wf.find_total p
  rw [ho] at hr
  cases o with
  | none =>
    simp only [Option.some.injEq, Prod.mk.injEq] at hr
    exact Or.inl ⟨ho, hr.2.symm, hr.1.symm⟩
  | some f =>
    simp only at hr
    obtain ⟨pg, hpg, hid⟩ := h.i1 p f ho
    rw [hpg] at hr
    simp only at hr
    right
    refine ⟨f, pg, ho, hpg, hid, ?_⟩
    split at hr
    · next hd =>
      simp only [Option.some.injEq, Prod.mk.injEq] at hr
      obtain ⟨hs, hb⟩ := hr
      subst hs
      exact ⟨hb.symm, Or.inr ⟨hd, rfl,
        ⟨hpg, fun g => getPage_of_set _ _ hpg rfl g, rfl, rfl, rfl⟩⟩⟩
    · next hd =>
      simp only [Option.some.injEq, Prod.mk.injEq] at hr
      exact ⟨hr.2.symm, Or.inl ⟨by simpa using hd, hr.1.symm⟩⟩

/-- What the body of the loop of `FlushAllPgsImp` does. -/
theorem flushFrame_effect (env : Env) {i : Nat} (hr : s.flushFrame i = some s') :
    s' = s ∨
    (∃ pg, pg.is_dirty_ = true ∧ pg.page_id_ ≠ INVALID_PAGE_ID ∧
      s'.disk_manager_ = s.disk_manager_.WritePage pg.page_id_ pg.data_ ∧
      Patched env s s' (i : Int) pg { pg with is_dirty_ := false }) := by
  unfold BufferPoolManagerInstance.flushFrame at hr
  cases hpg : s.pages_[i]? with
  | none => rw [hpg] at hr; exact Option.noConfusion hr
  | some pg =>
    rw [hpg] at hr
    simp only at hr
    split at hr
    · next hc =>
      simp only [Option.some.injEq] at hr
      subst hr
      have hpg2 : s.getPage (i : Int) = some pg := by
        simp [getPage, hpg]
      exact Or.inr ⟨pg, hc.2, hc.1, rfl,
        ⟨hpg2, fun g => getPage_of_set _ { pg with is_dirty_ := false } hpg2 (by simp) g,
          rfl, rfl, rfl⟩⟩
    · simp only [Option.some.injEq] at hr
      exact Or.inl hr.symm

/-- What `DeletePgImp` does. -/
theorem BPMInv.deletePg_effect (h : BPMInv env s) {p : Int} {b : Bool}
    (hr : s.DeletePgImp env p = some (s', b)) :
    (s' = s) ∨
    (∃ f pg, b = true ∧ s.page_table_.Find env.hash p = some (some f) ∧
      s.getPage f = some pg ∧ pg.pin_count_ ≤ 0 ∧
      (∀ q, s'.page_table_.Find env.hash q =
        if p = q then some none else s.page_table_.Find env.hash q) ∧
      s'.free_list_ = s.free_list_ ++ [f] ∧ s'.next_page_id_ = s.next_page_id_ ∧
      s'.disk_manager_.store = s.disk_manager_.store ∧
      s'.disk_manager_.writes = s.disk_manager_.writes ∧
      s'.replacer_ = s.replacer_.Remove p ∧
      (∀ g, s'.getPage g =
        if g = f then
          some { data_ := env.zeroData, page_id_ := INVALID_PAGE_ID, pin_count_ := 0,
                 is_dirty_ := false }
        else s.getPage g)) := by
  unfold DeletePgImp at hr
  obtain ⟨o, ho⟩ := h.wf.find_total p
  rw [ho] at hr
  cases o with
  | none =>
    simp only [Option.some.injEq, Prod.mk.injEq] at hr
    exact Or.inl hr.1.symm
  | some f =>
    simp only at hr
    obtain ⟨pg, hpg, hid⟩ := h.i1 p f ho
    rw [hpg] at hr
    simp only at hr
    split at hr
    · simp only [Option.some.injEq, Prod.mk.injEq] at hr
      exact Or.inl hr.1.symm
    · next hpin =>
      cases hrm : s.page_table_.Remove env.hash p with
      | none => rw [hrm] at hr; exact Option.noConfusion hr
      | some res =>
        rw [hrm] at hr
        simp only [Option.some.injEq, Prod.mk.injEq] at hr
        obtain ⟨hs, hb⟩ := hr
        subst hs
        obtain ⟨_, w2, _⟩ := h.wf.remove_of_some hrm
        exact Or.inr ⟨f, pg, hb.symm, ho, hpg, by omega, w2, rfl, rfl, rfl, rfl, rfl,
          fun g => getPage_of_set _ _ hpg rfl g⟩

/-- What a store of the caller into a frame does. -/
theorem writeData_effect (env : Env) (s : BufferPoolManagerInstance) (f : Int) (bytes : List Nat) :
    s.writeData f bytes = s ∨
    (∃ pg, (s.writeData f bytes).disk_manager_ = s.disk_manager_ ∧
      Patched env s (s.writeData f bytes) f pg { pg with data_ := bytes }) := by
  unfold BufferPoolManagerInstance.writeData
  cases hpg : s.getPage f with
  | none => exact Or.inl rfl
  | some pg =>
    exact Or.inr ⟨pg, rfl, ⟨hpg, fun g => getPage_of_set _ _ hpg rfl g, rfl, rfl, rfl⟩⟩

end bustub

namespace bustub

open BufferPoolManagerInstance

variable {env : Env} {s s' : BufferPoolManagerInstance}

/-- The page table after a reuse, for a page other than the new one. -/
theorem Reused.find_other {f n : Int} {data : List Nat}
    (hr : Reused env s s' f n data) {p : Int} (hn : n ≠ p) :
    s'.page_table_.Find env.hash p =
      if s.free_list_ = [] ∧ (∃ pgv, s.getPage f = some pgv ∧ pgv.page_id_ = p) then some none
      else s.page_table_.Find env.hash p := by
  obtain ⟨pgv, hv, _, ⟨hfl, hun, hfind, _⟩ | ⟨hfl, _, hfind, _⟩⟩ := hr.victim
  · rw [hfind p, if_neg hn, if_neg]
    rintro ⟨h1, _⟩
    rw [h1] at hfl
    exact List.noConfusion hfl
  · rw [hfind p, if_neg hn]
    by_cases hq : pgv.page_id_ = p
    · rw [if_pos hq, if_pos ⟨hfl, pgv, hv, hq⟩]
    · rw [if_neg hq, if_neg]
      rintro ⟨_, pg2, h2, h3⟩
      rw [hv] at h2
      exact hq (by rw [Option.some.inj h2]; exact h3)

/-- A reuse keeps the invariant of admitted calls. -/
theorem PoolInv.of_reused {c c' : Nat} (h : PoolInv env c s) (hb : BPMInv env s')
    {f n : Int} {data : List Nat} (hr : Reused env s s' f n data)
    (hn : s.page_table_.Find env.hash n = some none)
    (hni : Issued c' n) (hc : c ≤ c')
    (hnx : s'.next_page_id_ = wrapPageId (c' : Int)) : PoolInv env c' s' := by
  obtain ⟨pgv, hv, hpin, hcase⟩ := hr.victim
  refine
    { inv := hb
      count := hnx
      mapped := ?_
      resident := ?_ }
  · intro p g hp
    by_cases hnp : n = p
    · subst hnp
      exact hni
    · have hlt : ∀ g', s.page_table_.Find env.hash p = some (some g') →
          Issued c' p := fun g' hg' => (h.mapped p g' hg').of_le hc
      rcases hcase with ⟨_, _, hfind, _⟩ | ⟨_, _, hfind, _⟩
      · rw [hfind p, if_neg hnp] at hp
        exact hlt g hp
      · rw [hfind p, if_neg hnp] at hp
        by_cases hq : pgv.page_id_ = p
        · rw [if_pos hq] at hp
          exact Option.noConfusion (Option.some.inj hp)
        · rw [if_neg hq] at hp
          exact hlt g hp
  · intro g pg hg hgf
    rw [hr.pages g] at hg
    by_cases hgf' : g = f
    · subst hgf'
      rw [if_pos rfl] at hg
      rw [← Option.some.inj hg]
      rcases hcase with ⟨_, _, hfind, _⟩ | ⟨_, _, hfind, _⟩
      · rw [hfind n, if_pos rfl]
      · rw [hfind n, if_pos rfl]
    · rw [if_neg hgf'] at hg
      have hgs : g ∉ s.free_list_ := by
        rcases hcase with ⟨hfl, _⟩ | ⟨hfl, _⟩
        · rw [hfl]
          simp only [List.mem_cons, not_or]
          exact ⟨hgf', hgf⟩
        · rw [hfl]; simp
      have hres := h.resident g pg hg hgs
      have hnp : n ≠ pg.page_id_ := by
        intro e
        rw [← e, hn] at hres
        exact Option.noConfusion (Option.some.inj hres)
      rcases hcase with ⟨_, _, hfind, _⟩ | ⟨hfl, _, hfind, _⟩
      · rw [hfind _, if_neg hnp]
        exact hres
      · rw [hfind _, if_neg hnp]
        have hvm := h.resident f pgv hv (by rw [hfl]; simp)
        have hq : pgv.page_id_ ≠ pg.page_id_ := by
          intro e
          rw [e, hres] at hvm
          exact hgf' (Option.some.inj (Option.some.inj hvm))
        rw [if_neg hq]
        exact hres

/-- An update of one frame that keeps its page id keeps the invariant of admitted calls. -/
theorem PoolInv.of_patched {c : Nat} (h : PoolInv env c s) (hb : BPMInv env s') {f : Int}
    {pg pg' : Page} (hp : Patched env s s' f pg pg') (hid : pg'.page_id_ = pg.page_id_) :
    PoolInv env c s' := by
  refine
    { inv := hb
      count := by rw [hp.next]; exact h.count
      mapped := by rw [hp.table]; exact h.mapped
      resident := ?_ }
  intro g pg2 hg hgf
  rw [hp.table]
  rw [hp.freeList] at hgf
  rw [hp.pages g] at hg
  by_cases hgf' : g = f
  · subst hgf'
    rw [if_pos rfl] at hg
    rw [← Option.some.inj hg, hid]
    exact h.resident g pg hp.old hgf
  · rw [if_neg hgf'] at hg
    exact h.resident g pg2 hg hgf

/-- The deletion of a page keeps the invariant of admitted calls. -/
theorem PoolInv.delete_page {c : Nat} (h : PoolInv env c s) {p : Int} {b : Bool}
    (hr : s.DeletePgImp env p = some (s', b)) : PoolInv env c s' := by
  have hb := h.inv.deletePg hr
  rcases h.inv.deletePg_effect hr with rfl | ⟨f, pg, _, hf, hpg, _, hfind, hfl, hnx, _, _, _, hpages⟩
  · exact h
  · obtain ⟨pg1, c1, c2⟩ := h.inv.i1 p f hf
    rw [hpg] at c1
    have hid : pg.page_id_ = p := by rw [Option.some.inj c1]; exact c2
    refine
      { inv := hb
        count := by rw [hnx]; exact h.count
        mapped := ?_
        resident := ?_ }
    · intro q g hq
      rw [hfind q] at hq
      by_cases hpq : p = q
      · rw [if_pos hpq] at hq
        exact Option.noConfusion (Option.some.inj hq)
      · rw [if_neg hpq] at hq
        exact h.mapped q g hq
    · intro g pg2 hg hgf
      rw [hfl] at hgf
      simp only [List.mem_append, List.mem_singleton, not_or] at hgf
      rw [hpages g, if_neg hgf.2] at hg
      have hres := h.resident g pg2 hg hgf.1
      rw [hfind _]
      have hpq : p ≠ pg2.page_id_ := by
        intro e
        rw [← e, hf] at hres
        exact hgf.2 (Option.some.inj (Option.some.inj hres)).symm
      rw [if_neg hpq]
      exact hres

/-- The loop of `FlushAllPgsImp` keeps the invariant of admitted calls. -/
theorem PoolInv.flush_loop {c : Nat} (l : List Nat) : ∀ {s s' : BufferPoolManagerInstance},
    PoolInv env c s → flushFrames s l = some s' →
    PoolInv env c s' ∧ s'.next_page_id_ = s.next_page_id_ := by
  induction l with
  | nil =>
    intro s s' h hr
    simp only [BufferPoolManagerInstance.flushFrames, Option.some.injEq] at hr
    exact hr ▸ ⟨h, rfl⟩
  | cons i l ih =>
    intro s s' h hr
    simp only [BufferPoolManagerInstance.flushFrames] at hr
    cases hf : s.flushFrame i with
    | none => rw [hf] at hr; exact Option.noConfusion hr
    | some s1 =>
      rw [hf] at hr
      have hb := (h.inv.flushFrame hf).1
      rcases flushFrame_effect env hf with rfl | ⟨pg, _, _, _, hp⟩
      · exact ih h hr
      · obtain ⟨a1, a2⟩ := ih (h.of_patched hb hp rfl) hr
        exact ⟨a1, by rw [a2, hp.next]⟩

/-- The id that the page counter hands out next is not in the page table, as long as fewer
than `2^32` ids have been handed out. -/
theorem PoolInv.next_unmapped {c : Nat} (h : PoolInv env c s) (hc : c < 2 ^ 32) :
    s.page_table_.Find env.hash s.next_page_id_ = some none := by
  obtain ⟨o, ho⟩ := h.inv.wf.find_total s.next_page_id_
  cases o with
  | none => exact ho
  | some g => exact absurd h.count ((h.mapped _ g ho).ne_next hc)

/-- Every admitted call keeps the invariant, `NewPage` as long as fewer than `2^32` ids have
been handed out; an id that the call returns is the next of the page counter. -/
theorem PoolInv.step_admitted {c : Nat} (h : PoolInv env c s) {op : BPMOp} {out : BPMResult}
    (hadm : ∀ q, op = .fetch_page q → Issued c q)
    (hroom : op = .new_page → c < 2 ^ 32)
    (hr : s.step env op = some (s', out)) :
    PoolInv env (c + out.newIds.length) s' ∧
      ∀ p ∈ out.newIds, p = wrapPageId (c : Int) := by
  have hb := h.inv.step hr
  cases op with
  | new_page =>
    simp only [BufferPoolManagerInstance.step] at hr
    cases h1 : s.NewPgImp env with
    | none => rw [h1] at hr; exact Option.noConfusion hr
    | some res =>
      obtain ⟨s1, r⟩ := res
      rw [h1] at hr
      simp only [Option.some.injEq, Prod.mk.injEq] at hr
      obtain ⟨e1, e2⟩ := hr
      subst e1 e2
      rcases h.inv.newPg_effect h1 with ⟨rfl, rfl, _⟩ | ⟨f, rfl, hre, hnx⟩
      · exact ⟨h, by simp [BPMResult.newIds]⟩
      · have hn := h.next_unmapped (hroom rfl)
        rw [h.count, wrapPageId_succ] at hnx
        rw [h.count] at hre hn
        refine ⟨h.of_reused hb hre hn (Issued.last c) (Nat.le_succ c) hnx, ?_⟩
        intro p hp
        simp only [BPMResult.newIds, List.mem_singleton] at hp
        rw [hp, h.count]
  | fetch_page p =>
    simp only [BufferPoolManagerInstance.step] at hr
    cases h1 : s.FetchPgImp env p with
    | none => rw [h1] at hr; exact Option.noConfusion hr
    | some res =>
      obtain ⟨s1, r⟩ := res
      rw [h1] at hr
      simp only [Option.some.injEq, Prod.mk.injEq] at hr
      obtain ⟨e1, e2⟩ := hr
      subst e1 e2
      refine ⟨?_, by simp [BPMResult.newIds]⟩
      rcases h.inv.fetchPg_effect h1 with ⟨f, pg, _, _, _, hp⟩ |
        ⟨hn, ⟨_, rfl, _⟩ | ⟨f, _, hre, hnx⟩⟩
      · exact h.of_patched hb hp rfl
      · exact h
      · exact h.of_reused hb hre hn (hadm p rfl) (Nat.le_refl _) (by rw [hnx]; exact h.count)
  | unpin_page p d =>
    simp only [BufferPoolManagerInstance.step] at hr
    cases h1 : s.UnpinPgImp env p d with
    | none => rw [h1] at hr; exact Option.noConfusion hr
    | some res =>
      obtain ⟨s1, r⟩ := res
      rw [h1] at hr
      simp only [Option.some.injEq, Prod.mk.injEq] at hr
      obtain ⟨e1, e2⟩ := hr
      subst e1 e2
      rcases h.inv.unpinPg_effect h1 with ⟨_, rfl, _⟩ | ⟨f, pg, _, _, _, _, hp⟩
      · exact ⟨h, by simp [BPMResult.newIds]⟩
      · exact ⟨h.of_patched hb hp rfl, by simp [BPMResult.newIds]⟩
  | flush_page p =>
    simp only [BufferPoolManagerInstance.step] at hr
    cases h1 : s.FlushPgImp env p with
    | none => rw [h1] at hr; exact Option.noConfusion hr
    | some res =>
      obtain ⟨s1, r⟩ := res
      rw [h1] at hr
      simp only [Option.some.injEq, Prod.mk.injEq] at hr
      obtain ⟨e1, e2⟩ := hr
      subst e1 e2
      rcases h.inv.flushPg_effect h1 with ⟨_, _, rfl⟩ |
        ⟨f, pg, _, _, _, _, ⟨_, rfl⟩ | ⟨_, _, hp⟩⟩
      · exact ⟨h, by simp [BPMResult.newIds]⟩
      · exact ⟨h, by simp [BPMResult.newIds]⟩
      · exact ⟨h.of_patched hb hp rfl, by simp [BPMResult.newIds]⟩
  | flush_all_pages =>
    simp only [BufferPoolManagerInstance.step] at hr
    cases h1 : s.FlushAllPgsImp with
    | none => rw [h1] at hr; exact Option.noConfusion hr
    | some res =>
      rw [h1] at hr
      simp only [Option.some.injEq, Prod.mk.injEq] at hr
      obtain ⟨e1, e2⟩ := hr
      subst e1 e2
      obtain ⟨a1, a2⟩ := PoolInv.flush_loop _ h h1
      exact ⟨a1, by simp [BPMResult.newIds]⟩
  | delete_page p =>
    simp only [BufferPoolManagerInstance.step] at hr
    cases h1 : s.DeletePgImp env p with
    | none => rw [h1] at hr; exact Option.noConfusion hr
    | some res =>
      obtain ⟨s1, r⟩ := res
      rw [h1] at hr
      simp only [Option.some.injEq, Prod.mk.injEq] at hr
      obtain ⟨e1, e2⟩ := hr
      subst e1 e2
      exact ⟨h.delete_page h1, by simp [BPMResult.newIds]⟩
  | write_data f bytes =>
    simp only [BufferPoolManagerInstance.step, Option.some.injEq, Prod.mk.injEq] at hr
    obtain ⟨e1, e2⟩ := hr
    subst e1 e2
    rcases writeData_effect env s f bytes with e | ⟨pg, _, hp⟩
    · rw [e]
      exact ⟨h, by simp [BPMResult.newIds]⟩
    · exact ⟨h.of_patched hb hp rfl, by simp [BPMResult.newIds]⟩

theorem newPageCalls_cons (op : BPMOp) (ops : List BPMOp) :
    newPageCalls (op :: ops) = newPageCalls [op] + newPageCalls ops := by
  unfold newPageCalls
  by_cases h : (op == BPMOp.new_page) = true
  · simp [List.filter_cons, h]
    omega
  · simp [List.filter_cons, h]

theorem newPageCalls_single_le (op : BPMOp) : newPageCalls [op] ≤ 1 := by
  unfold newPageCalls
  exact le_trans (List.length_filter_le _ _) (Nat.le_refl _)

theorem newPageCalls_other {op : BPMOp} (h : op ≠ .new_page) : newPageCalls [op] = 0 := by
  unfold newPageCalls
  simp [List.filter_cons, h]

/-- Only `NewPage` hands out an id, and one at most. -/
theorem step_newIds_le {op : BPMOp} {out : BPMResult}
    (hr : s.step env op = some (s', out)) : out.newIds.length ≤ newPageCalls [op] := by
  cases op with
  | new_page =>
    simp only [BufferPoolManagerInstance.step] at hr
    cases h1 : s.NewPgImp env with
    | none => rw [h1] at hr; exact Option.noConfusion hr
    | some res =>
      rw [h1] at hr
      simp only [Option.some.injEq, Prod.mk.injEq] at hr
      rw [← hr.2]
      obtain ⟨s1, r⟩ := res
      cases r with
      | none => simp [BPMResult.newIds]
      | some x => simp [BPMResult.newIds, newPageCalls]
  | fetch_page p =>
    simp only [BufferPoolManagerInstance.step] at hr
    cases h1 : s.FetchPgImp env p with
    | none => rw [h1] at hr; exact Option.noConfusion hr
    | some res =>
      rw [h1] at hr
      simp only [Option.some.injEq, Prod.mk.injEq] at hr
      rw [← hr.2]
      simp [BPMResult.newIds]
  | unpin_page p d =>
    simp only [BufferPoolManagerInstance.step] at hr
    cases h1 : s.UnpinPgImp env p d with
    | none => rw [h1] at hr; exact Option.noConfusion hr
    | some res =>
      rw [h1] at hr
      simp only [Option.some.injEq, Prod.mk.injEq] at hr
      rw [← hr.2]
      simp [BPMResult.newIds]
  | flush_page p =>
    simp only [BufferPoolManagerInstance.step] at hr
    cases h1 : s.FlushPgImp env p with
    | none => rw [h1] at hr; exact Option.noConfusion hr
    | some res =>
      rw [h1] at hr
      simp only [Option.some.injEq, Prod.mk.injEq] at hr
      rw [← hr.2]
      simp [BPMResult.newIds]
  | flush_all_pages =>
    simp only [BufferPoolManagerInstance.step] at hr
    cases h1 : s.FlushAllPgsImp with
    | none => rw [h1] at hr; exact Option.noConfusion hr
    | some res =>
      rw [h1] at hr
      simp only [Option.some.injEq, Prod.mk.injEq] at hr
      rw [← hr.2]
      simp [BPMResult.newIds]
  | delete_page p =>
    simp only [BufferPoolManagerInstance.step] at hr
    cases h1 : s.DeletePgImp env p with
    | none => rw [h1] at hr; exact Option.noConfusion hr
    | some res =>
      rw [h1] at hr
      simp only [Option.some.injEq, Prod.mk.injEq] at hr
      rw [← hr.2]
      simp [BPMResult.newIds]
  | write_data f bytes =>
    simp only [BufferPoolManagerInstance.step, Option.some.injEq, Prod.mk.injEq] at hr
    rw [← hr.2]
    simp [BPMResult.newIds]

end bustub

namespace bustub

open BufferPoolManagerInstance

variable {env : Env} {s s' : BufferPoolManagerInstance}

/-- A new pool satisfies the invariant of admitted calls. -/
theorem PoolInv.initial (env : Env) (pool_size replacer_k bucket_size : Nat) :
    PoolInv env 0 (BufferPoolManagerInstance.new env pool_size replacer_k bucket_size) := by
  refine
    { inv := BPMInv.new_pool env pool_size replacer_k bucket_size
      count := by simp [BufferPoolManagerInstance.new, wrapPageId]
      mapped := ?_
      resident := ?_ }
  · intro p f hf
    have := Find_new (V := Int) env.hash bucket_size p
    simp only [BufferPoolManagerInstance.new] at hf
    rw [this] at hf
    exact Option.noConfusion (Option.some.inj hf)
  · intro g pg hg hgf
    exfalso
    apply hgf
    have h0 := getPage_nonneg hg
    simp only [getPage, BufferPoolManagerInstance.new, h0, if_true] at hg
    have hlt : g.toNat < pool_size := by
      by_contra hge
      rw [List.getElem?_eq_none (by simpa using hge)] at hg
      exact Option.noConfusion hg
    simp only [BufferPoolManagerInstance.new, List.mem_map, List.mem_range]
    exact ⟨g.toNat, hlt, Int.toNat_of_nonneg h0⟩

/-- A run of admitted calls in which the page counter is not advanced more than `2^32` times
keeps the invariant, and the ids that `NewPage` has returned are ids handed out. -/
theorem PoolInv.reachable (ops : List BPMOp) :
    ∀ {s s' : BufferPoolManagerInstance} {ids ids' : List Int} {c : Nat}, PoolInv env c s →
      (∀ p ∈ ids, Issued c p) → c + newPageCalls ops ≤ 2 ^ 32 →
      s.runPublic env ids ops = some (s', ids') →
      ∃ c', PoolInv env c' s' ∧ (∀ p ∈ ids', Issued c' p) ∧ c ≤ c' ∧
        c' ≤ c + newPageCalls ops := by
  induction ops with
  | nil =>
    intro s s' ids ids' c h hids _ hr
    simp only [BufferPoolManagerInstance.runPublic, Option.some.injEq, Prod.mk.injEq] at hr
    obtain ⟨e1, e2⟩ := hr
    subst e1 e2
    exact ⟨c, h, hids, Nat.le_refl _, Nat.le_add_right _ _⟩
  | cons op ops ih =>
    intro s s' ids ids' c h hids hlen hr
    rw [newPageCalls_cons] at hlen ⊢
    simp only [BufferPoolManagerInstance.runPublic] at hr
    split at hr
    · next hadm =>
      cases h1 : s.step env op with
      | none => rw [h1] at hr; exact Option.noConfusion hr
      | some res =>
        obtain ⟨s1, out⟩ := res
        rw [h1] at hr
        simp only at hr
        have hadm' : ∀ q, op = .fetch_page q → Issued c q := by
          intro q hq
          subst hq
          simp only [BPMOp.admitted, decide_eq_true_eq] at hadm
          exact hids q hadm
        have hle := step_newIds_le h1
        have hroom : op = .new_page → c < 2 ^ 32 := by
          intro e
          subst e
          have : newPageCalls [BPMOp.new_page] = 1 := rfl
          omega
        obtain ⟨a1, a3⟩ := h.step_admitted hadm' hroom h1
        obtain ⟨c', b1, b2, b3, b4⟩ := ih a1 (by
          intro p hp
          rcases List.mem_append.1 hp with hp | hp
          · exact (hids p hp).of_le (Nat.le_add_right _ _)
          · have hpos : 0 < out.newIds.length := List.length_pos_of_mem hp
            rw [a3 p hp]
            have : out.newIds.length = 1 := by
              have := newPageCalls_single_le op
              omega
            rw [this]
            exact Issued.last c) (by omega) hr
        exact ⟨c', b1, b2, by omega, by omega⟩
    · exact Option.noConfusion hr

/-- A pinned page stays where it is when a frame is reused. -/
theorem PoolInv.pinned_of_reused {c : Nat} (h : PoolInv env c s) {g n : Int}
    {data : List Nat}
    (hr : Reused env s s' g n data)
    (hn : s.page_table_.Find env.hash n = some none) {p f : Int} {pg : Page}
    (hmap : s.page_table_.Find env.hash p = some (some f)) (hpg : s.getPage f = some pg)
    (hpin : 0 < pg.pin_count_) :
    g ≠ f ∧ s'.page_table_.Find env.hash p = some (some f) ∧ s'.getPage f = some pg := by
  obtain ⟨pgv, hv, hvpin, hcase⟩ := hr.victim
  have hgf : g ≠ f := by
    intro e
    subst e
    rw [hpg] at hv
    rw [Option.some.inj hv] at hpin
    omega
  have hnp : n ≠ p := by
    intro e
    rw [e, hmap] at hn
    exact Option.noConfusion (Option.some.inj hn)
  refine ⟨hgf, ?_, by rw [hr.pages f, if_neg (Ne.symm hgf)]; exact hpg⟩
  rw [hr.find_other hnp, if_neg]
  · exact hmap
  · rintro ⟨hfl, pg2, h2, h3⟩
    have := h.resident g pg2 h2 (by rw [hfl]; simp)
    rw [h3, hmap] at this
    exact hgf (Option.some.inj (Option.some.inj this)).symm

/-- A pinned page stays where it is when one frame is updated without a change of its page
id, its pin count not decreasing if it is the frame of the page. -/
theorem pinned_of_patched {g : Int} {pg0 pg0' : Page}
    (hp : Patched env s s' g pg0 pg0') (hid : pg0'.page_id_ = pg0.page_id_)
    {p f : Int} {pg : Page} (hpin : g = f → pg0.pin_count_ ≤ pg0'.pin_count_)
    (hmap : s.page_table_.Find env.hash p = some (some f)) (hpg : s.getPage f = some pg)
    (hpid : pg.page_id_ = p) :
    s'.page_table_.Find env.hash p = some (some f) ∧
      ∃ pg', s'.getPage f = some pg' ∧ pg'.page_id_ = p ∧
        pg.pin_count_ ≤ pg'.pin_count_ := by
  refine ⟨by rw [hp.table]; exact hmap, ?_⟩
  rw [hp.pages f]
  by_cases hgf : f = g
  · subst hgf
    rw [if_pos rfl]
    have h1 := hp.old
    rw [hpg] at h1
    have h2 := Option.some.inj h1
    subst h2
    exact ⟨pg0', rfl, by rw [hid]; exact hpid, hpin rfl⟩
  · rw [if_neg hgf]
    exact ⟨pg, hpg, hpid, le_refl _⟩

/-- The loop of `FlushAllPgsImp` leaves every page where it is, with its pin count. -/
theorem pinned_flushFrames (l : List Nat) : ∀ {s s' : BufferPoolManagerInstance}
    {p f : Int} {pg : Page}, flushFrames s l = some s' →
    s.page_table_.Find env.hash p = some (some f) → s.getPage f = some pg →
    pg.page_id_ = p →
    s'.page_table_.Find env.hash p = some (some f) ∧
      ∃ pg', s'.getPage f = some pg' ∧ pg'.page_id_ = p ∧
        pg.pin_count_ ≤ pg'.pin_count_ := by
  induction l with
  | nil =>
    intro s s' p f pg hr hmap hpg hpid
    simp only [BufferPoolManagerInstance.flushFrames, Option.some.injEq] at hr
    subst hr
    exact ⟨hmap, pg, hpg, hpid, le_refl _⟩
  | cons i l ih =>
    intro s s' p f pg hr hmap hpg hpid
    simp only [BufferPoolManagerInstance.flushFrames] at hr
    cases hf : s.flushFrame i with
    | none => rw [hf] at hr; exact Option.noConfusion hr
    | some s1 =>
      rw [hf] at hr
      rcases flushFrame_effect env hf with rfl | ⟨pg0, _, _, _, hp⟩
      · exact ih hr hmap hpg hpid
      · obtain ⟨a1, pg1, a2, a3, a4⟩ :=
          pinned_of_patched hp rfl (fun _ => le_refl _) hmap hpg hpid
        obtain ⟨b1, pg2, b2, b3, b4⟩ := ih hr a1 a2 a3
        exact ⟨b1, pg2, b2, b3, le_trans a4 b4⟩

end bustub

namespace bustub

open BufferPoolManagerInstance

variable {env : Env} {s s' : BufferPoolManagerInstance}

/-- A reuse changes what the disk has only for the page of the victim. -/
theorem Reused.store_other {c : Nat} (h : PoolInv env c s) {g n : Int} {data : List Nat}
    (hr : Reused env s s' g n data) {p : Int}
    (hne : s.page_table_.Find env.hash p ≠ some (some g)) :
    ufind s'.disk_manager_.store p = ufind s.disk_manager_.store p := by
  obtain ⟨pgv, hv, _, ⟨_, _, _, hdisk⟩ | ⟨hfl, _, _, hdisk⟩⟩ := hr.victim
  · rw [hdisk]
  · rw [hdisk]
    by_cases hd : pgv.is_dirty_ = true
    · rw [if_pos hd]
      have hvm := h.resident g pgv hv (by rw [hfl]; simp)
      have hq : pgv.page_id_ ≠ p := fun e => hne (e ▸ hvm)
      simp only [DiskManager.WritePage]
      exact ufind_uset_ne _ _ hq
    · rw [if_neg hd]

/-- A reuse for another page keeps the bytes of page `p`. -/
theorem Keeps.reuse_other {c : Nat} (h : PoolInv env c s) {g n : Int} {data : List Nat}
    (hr : Reused env s s' g n data) {p : Int} {B : List Nat} (hnp : n ≠ p)
    (hk : Keeps env s p B) : Keeps env s' p B := by
  rcases hk with ⟨f, pg, hmap, hpg, hdata, hsafe⟩ | ⟨hmap, hst⟩
  · by_cases hgf : g = f
    · subst hgf
      obtain ⟨pgv, hv, _, ⟨_, hun, _, _⟩ | ⟨_, _, hfind, hdisk⟩⟩ := hr.victim
      · exact absurd hmap (hun p)
      · rw [hpg] at hv
        have e := Option.some.inj hv
        subst e
        obtain ⟨pg1, c1, c2⟩ := h.inv.i1 p g hmap
        rw [hpg] at c1
        have hid : pg.page_id_ = p := by rw [Option.some.inj c1]; exact c2
        right
        refine ⟨by rw [hfind p, if_neg hnp, if_pos hid], ?_⟩
        rw [hdisk]
        by_cases hd : pg.is_dirty_ = true
        · rw [if_pos hd, hid, hdata]
          simp only [DiskManager.WritePage]
          exact ufind_uset_same _ _ _
        · rw [if_neg hd]
          rcases hsafe with hd' | hst
          · exact absurd hd' hd
          · exact hst
    · have hne : s.page_table_.Find env.hash p ≠ some (some g) := by
        rw [hmap]
        intro e
        exact hgf (Option.some.inj (Option.some.inj e)).symm
      left
      refine ⟨f, pg, ?_, by rw [hr.pages f, if_neg (Ne.symm hgf)]; exact hpg, hdata, ?_⟩
      · rw [hr.find_other hnp, if_neg]
        · exact hmap
        · rintro ⟨hfl, pg2, h2, h3⟩
          have := h.resident g pg2 h2 (by rw [hfl]; simp)
          rw [h3] at this
          exact hne this
      · rw [hr.store_other h hne]
        exact hsafe
  · have hne : s.page_table_.Find env.hash p ≠ some (some g) := by
      rw [hmap]
      intro e
      exact Option.noConfusion (Option.some.inj e)
    right
    refine ⟨?_, by rw [hr.store_other h hne]; exact hst⟩
    rw [hr.find_other hnp]
    split
    · rfl
    · exact hmap

/-- An update of a frame that holds another page, with no write for `p`, keeps the bytes of
page `p`. -/
theorem Keeps.of_patched_other (h : BPMInv env s) {g : Int} {pg0 pg0' : Page}
    (hp : Patched env s s' g pg0 pg0') {p : Int} {B : List Nat}
    (hne : pg0.page_id_ ≠ p)
    (hst : ufind s'.disk_manager_.store p = ufind s.disk_manager_.store p)
    (hk : Keeps env s p B) : Keeps env s' p B := by
  rcases hk with ⟨f, pg, hmap, hpg, hdata, hsafe⟩ | ⟨hmap, hst0⟩
  · have hfg : f ≠ g := by
      intro e
      subst e
      obtain ⟨pg1, c1, c2⟩ := h.i1 p f hmap
      have h1 := hp.old
      rw [c1] at h1
      rw [← Option.some.inj h1] at hne
      exact hne c2
    left
    refine ⟨f, pg, by rw [hp.table]; exact hmap, ?_, hdata, by rw [hst]; exact hsafe⟩
    rw [hp.pages f, if_neg hfg]
    exact hpg
  · right
    exact ⟨by rw [hp.table]; exact hmap, by rw [hst]; exact hst0⟩

/-- The write-back of a dirty frame keeps the bytes of page `p`. -/
theorem Keeps.of_flushed {c : Nat} (h : PoolInv env c s) {g : Int} {pg0 : Page}
    (hp : Patched env s s' g pg0 { pg0 with is_dirty_ := false })
    (hd : s'.disk_manager_ = s.disk_manager_.WritePage pg0.page_id_ pg0.data_)
    {p : Int} {B : List Nat} (hp0 : p ≠ INVALID_PAGE_ID) (hk : Keeps env s p B) :
    Keeps env s' p B := by
  by_cases hid : pg0.page_id_ = p
  · have hgfree : g ∉ s.free_list_ := by
      intro hg
      obtain ⟨⟨pg1, c1, _, c3⟩, _⟩ := h.inv.free g hg
      rw [hp.old] at c1
      rw [← Option.some.inj c1, hid] at c3
      exact hp0 c3
    have hres := h.resident g pg0 hp.old hgfree
    rw [hid] at hres
    rcases hk with ⟨f, pg, hmap, hpg, hdata, hsafe⟩ | ⟨hmap, hst0⟩
    · rw [hmap] at hres
      have e := Option.some.inj (Option.some.inj hres)
      subst e
      have h1 := hp.old
      rw [hpg] at h1
      have e2 := Option.some.inj h1
      subst e2
      left
      refine ⟨f, { pg with is_dirty_ := false }, by rw [hp.table]; exact hmap,
        by rw [hp.pages f, if_pos rfl], hdata, Or.inr ?_⟩
      rw [hd, hid, hdata]
      simp only [DiskManager.WritePage]
      exact ufind_uset_same _ _ _
    · rw [hmap] at hres
      exact Option.noConfusion (Option.some.inj hres)
  · refine Keeps.of_patched_other h.inv hp hid ?_ hk
    rw [hd]
    simp only [DiskManager.WritePage]
    exact ufind_uset_ne _ _ hid

/-- The loop of `FlushAllPgsImp` keeps the bytes of page `p`. -/
theorem Keeps.flush_all {c : Nat} (l : List Nat) : ∀ {s s' : BufferPoolManagerInstance}
    {p : Int} {B : List Nat}, PoolInv env c s → p ≠ INVALID_PAGE_ID → Keeps env s p B →
    flushFrames s l = some s' → Keeps env s' p B := by
  induction l with
  | nil =>
    intro s s' p B h hp0 hk hr
    simp only [BufferPoolManagerInstance.flushFrames, Option.some.injEq] at hr
    exact hr ▸ hk
  | cons i l ih =>
    intro s s' p B h hp0 hk hr
    simp only [BufferPoolManagerInstance.flushFrames] at hr
    cases hf : s.flushFrame i with
    | none => rw [hf] at hr; exact Option.noConfusion hr
    | some s1 =>
      rw [hf] at hr
      have hb := (h.inv.flushFrame hf).1
      rcases flushFrame_effect env hf with rfl | ⟨pg, _, _, hd, hp⟩
      · exact ih h hp0 hk hr
      · exact ih (h.of_patched hb hp rfl) hp0 (Keeps.of_flushed h hp hd hp0 hk) hr

/-- The deletion of another page keeps the bytes of page `p`. -/
theorem Keeps.of_delete {c : Nat} (h : PoolInv env c s) {q : Int} {b : Bool}
    (hr : s.DeletePgImp env q = some (s', b)) {p : Int} {B : List Nat} (hqp : q ≠ p)
    (hk : Keeps env s p B) : Keeps env s' p B := by
  rcases h.inv.deletePg_effect hr with rfl |
    ⟨g, pg0, _, hq, hg, _, hfind, _, _, hstore, _, _, hpages⟩
  · exact hk
  · rcases hk with ⟨f, pg, hmap, hpg, hdata, hsafe⟩ | ⟨hmap, hst0⟩
    · have hfg : f ≠ g := by
        intro e
        subst e
        obtain ⟨pg1, c1, c2⟩ := h.inv.i1 p f hmap
        obtain ⟨pg2, d1, d2⟩ := h.inv.i1 q f hq
        rw [c1] at d1
        rw [← Option.some.inj d1, c2] at d2
        exact hqp d2.symm
      left
      refine ⟨f, pg, by rw [hfind p, if_neg hqp]; exact hmap, ?_, hdata,
        by rw [hstore]; exact hsafe⟩
      rw [hpages f, if_neg hfg]
      exact hpg
    · right
      exact ⟨by rw [hfind p, if_neg hqp]; exact hmap, by rw [hstore]; exact hst0⟩

/-- Every call that is not made on page `p` keeps the bytes of `p`. -/
theorem Keeps.step_other {c : Nat} (h : PoolInv env c s) {p : Int} {B : List Nat}
    (hp0 : p ≠ INVALID_PAGE_ID) (hp1 : Issued c p) (hc : c < 2 ^ 32) (hk : Keeps env s p B)
    {op : BPMOp} {out : BPMResult} (hoth : op.other p = true)
    (hr : s.step env op = some (s', out)) : Keeps env s' p B := by
  cases op with
  | new_page =>
    simp only [BufferPoolManagerInstance.step] at hr
    cases h1 : s.NewPgImp env with
    | none => rw [h1] at hr; exact Option.noConfusion hr
    | some res =>
      obtain ⟨s1, r⟩ := res
      rw [h1] at hr
      simp only [Option.some.injEq, Prod.mk.injEq] at hr
      obtain ⟨e1, _⟩ := hr
      subst e1
      rcases h.inv.newPg_effect h1 with ⟨_, rfl, _⟩ | ⟨g, _, hre, _⟩
      · exact hk
      · exact Keeps.reuse_other h hre (by rw [h.count]; exact (hp1.ne_next hc).symm) hk
  | fetch_page q =>
    simp only [BPMOp.other, decide_eq_true_eq] at hoth
    simp only [BufferPoolManagerInstance.step] at hr
    cases h1 : s.FetchPgImp env q with
    | none => rw [h1] at hr; exact Option.noConfusion hr
    | some res =>
      obtain ⟨s1, r⟩ := res
      rw [h1] at hr
      simp only [Option.some.injEq, Prod.mk.injEq] at hr
      obtain ⟨e1, _⟩ := hr
      subst e1
      rcases h.inv.fetchPg_effect h1 with ⟨g, pg0, hq, _, hd, hp⟩ |
        ⟨_, ⟨_, rfl, _⟩ | ⟨g, _, hre, _⟩⟩
      · obtain ⟨pg1, c1, c2⟩ := h.inv.i1 q g hq
        have h2 := hp.old
        rw [c1] at h2
        have hne : pg0.page_id_ ≠ p := by
          rw [← Option.some.inj h2, c2]
          exact hoth
        exact Keeps.of_patched_other h.inv hp hne (by rw [hd]) hk
      · exact hk
      · exact Keeps.reuse_other h hre hoth hk
  | unpin_page q d =>
    simp only [BPMOp.other, decide_eq_true_eq] at hoth
    simp only [BufferPoolManagerInstance.step] at hr
    cases h1 : s.UnpinPgImp env q d with
    | none => rw [h1] at hr; exact Option.noConfusion hr
    | some res =>
      obtain ⟨s1, r⟩ := res
      rw [h1] at hr
      simp only [Option.some.injEq, Prod.mk.injEq] at hr
      obtain ⟨e1, _⟩ := hr
      subst e1
      rcases h.inv.unpinPg_effect h1 with ⟨_, rfl, _⟩ | ⟨g, pg0, hq, _, _, hd, hp⟩
      · exact hk
      · obtain ⟨pg1, c1, c2⟩ := h.inv.i1 q g hq
        have h2 := hp.old
        rw [c1] at h2
        have hne : pg0.page_id_ ≠ p := by
          rw [← Option.some.inj h2, c2]
          exact hoth
        exact Keeps.of_patched_other h.inv hp hne (by rw [hd]) hk
  | flush_page q =>
    simp only [BufferPoolManagerInstance.step] at hr
    cases h1 : s.FlushPgImp env q with
    | none => rw [h1] at hr; exact Option.noConfusion hr
    | some res =>
      obtain ⟨s1, r⟩ := res
      rw [h1] at hr
      simp only [Option.some.injEq, Prod.mk.injEq] at hr
      obtain ⟨e1, _⟩ := hr
      subst e1
      rcases h.inv.flushPg_effect h1 with ⟨_, _, rfl⟩ |
        ⟨g, pg0, _, _, _, _, ⟨_, rfl⟩ | ⟨_, hd, hp⟩⟩
      · exact hk
      · exact hk
      · exact Keeps.of_flushed h hp hd hp0 hk
  | flush_all_pages =>
    simp only [BufferPoolManagerInstance.step] at hr
    cases h1 : s.FlushAllPgsImp with
    | none => rw [h1] at hr; exact Option.noConfusion hr
    | some res =>
      rw [h1] at hr
      simp only [Option.some.injEq, Prod.mk.injEq] at hr
      obtain ⟨e1, _⟩ := hr
      subst e1
      exact Keeps.flush_all _ h hp0 hk h1
  | delete_page q =>
    simp only [BPMOp.other, decide_eq_true_eq] at hoth
    simp only [BufferPoolManagerInstance.step] at hr
    cases h1 : s.DeletePgImp env q with
    | none => rw [h1] at hr; exact Option.noConfusion hr
    | some res =>
      obtain ⟨s1, r⟩ := res
      rw [h1] at hr
      simp only [Option.some.injEq, Prod.mk.injEq] at hr
      obtain ⟨e1, _⟩ := hr
      subst e1
      exact Keeps.of_delete h h1 hoth hk
  | write_data g bytes =>
    simp only [BPMOp.other] at hoth
    exact Bool.noConfusion hoth

/-- A run of admitted calls, none of them made on page `p`, keeps the bytes of `p`, as long
as the page counter is advanced fewer than `2^32` times. -/
theorem Keeps.run_other (ops : List BPMOp) :
    ∀ {s s' : BufferPoolManagerInstance} {ids ids' : List Int} {p : Int} {B : List Nat}
      {c : Nat},
      PoolInv env c s → (∀ x ∈ ids, Issued c x) →
      c + newPageCalls ops < 2 ^ 32 →
      p ≠ INVALID_PAGE_ID → Issued c p → Keeps env s p B →
      (∀ op ∈ ops, op.other p = true) →
      s.runPublic env ids ops = some (s', ids') →
      ∃ c', PoolInv env c' s' ∧ Keeps env s' p B := by
  induction ops with
  | nil =>
    intro s s' ids ids' p B c h hids _ hp0 hp1 hk hoth hr
    simp only [BufferPoolManagerInstance.runPublic, Option.some.injEq, Prod.mk.injEq] at hr
    obtain ⟨e1, _⟩ := hr
    subst e1
    exact ⟨c, h, hk⟩
  | cons op ops ih =>
    intro s s' ids ids' p B c h hids hlen hp0 hp1 hk hoth hr
    rw [newPageCalls_cons] at hlen
    simp only [BufferPoolManagerInstance.runPublic] at hr
    split at hr
    · next hadm =>
      cases h1 : s.step env op with
      | none => rw [h1] at hr; exact Option.noConfusion hr
      | some res =>
        obtain ⟨s1, out⟩ := res
        rw [h1] at hr
        simp only at hr
        have hadm' : ∀ q, op = .fetch_page q → Issued c q := by
          intro q hq
          subst hq
          simp only [BPMOp.admitted, decide_eq_true_eq] at hadm
          exact hids q hadm
        have hle := step_newIds_le h1
        obtain ⟨a1, a3⟩ := h.step_admitted hadm' (fun _ => by omega) h1
        have hk1 := Keeps.step_other h hp0 hp1 (by omega) hk
          (hoth op (List.mem_cons_self _ _)) h1
        refine ih a1 ?_ (by omega) hp0 (hp1.of_le (Nat.le_add_right _ _)) hk1
          (fun o ho => hoth o (List.mem_cons_of_mem _ ho)) hr
        intro x hx
        rcases List.mem_append.1 hx with hx | hx
        · exact (hids x hx).of_le (Nat.le_add_right _ _)
        · have hpos : 0 < out.newIds.length := List.length_pos_of_mem hx
          rw [a3 x hx]
          have : out.newIds.length = 1 := by
            have := newPageCalls_single_le op
            omega
          rw [this]
          exact Issued.last c
    · exact Option.noConfusion hr

/-- A fetch of page `p` that succeeds returns a frame with the bytes kept for `p`. -/
theorem Keeps.fetch {c : Nat} (h : PoolInv env c s) {p : Int} {B : List Nat}
    (hk : Keeps env s p B) {f : Int}
    (hr : s.FetchPgImp env p = some (s', some f)) :
    ∃ pg, s'.getPage f = some pg ∧ pg.data_ = B ∧ pg.page_id_ = p := by
  rcases h.inv.fetchPg_effect hr with ⟨g, pg0, hq, e, _, hp⟩ |
    ⟨hmiss, ⟨e, _⟩ | ⟨g, e, hre, _⟩⟩
  · have e' := Option.some.inj e
    subst e'
    rcases hk with ⟨f', pg, hmap, hpg, hdata, _⟩ | ⟨hmap, _⟩
    · rw [hq] at hmap
      have e2 := Option.some.inj (Option.some.inj hmap)
      subst e2
      have h1 := hp.old
      rw [hpg] at h1
      have e3 := Option.some.inj h1
      subst e3
      obtain ⟨pg1, c1, c2⟩ := h.inv.i1 p f hq
      rw [hpg] at c1
      refine ⟨{ pg with pin_count_ := pg.pin_count_ + 1 }, by rw [hp.pages f, if_pos rfl],
        hdata, ?_⟩
      show pg.page_id_ = p
      rw [Option.some.inj c1]
      exact c2
    · rw [hq] at hmap
      exact Option.noConfusion (Option.some.inj hmap)
  · exact Option.noConfusion e
  · have e' := Option.some.inj e
    subst e'
    rcases hk with ⟨f', pg, hmap, _⟩ | ⟨hmap, hst⟩
    · rw [hmiss] at hmap
      exact Option.noConfusion (Option.some.inj hmap)
    · have hne : s.page_table_.Find env.hash p ≠ some (some f) := by
        rw [hmap]
        intro e
        exact Option.noConfusion (Option.some.inj e)
      refine ⟨_, by rw [hre.pages f, if_pos rfl], ?_, rfl⟩
      show s'.disk_manager_.ReadPage env p = B
      unfold DiskManager.ReadPage
      rw [hre.store_other h hne, hst]
      rfl

end bustub

namespace bustub

open BufferPoolManagerInstance

variable {env : Env} {s s' : BufferPoolManagerInstance}

/-- A page with a positive pin count stays in its frame, with its pin count not decreased,
through every call other than an unpin of that page. -/
theorem PoolInv.pinned_step {c : Nat} (h : PoolInv env c s) (hc : c < 2 ^ 32)
    {p f : Int} {pg : Page}
    (hmap : s.page_table_.Find env.hash p = some (some f)) (hpg : s.getPage f = some pg)
    (hpin : 0 < pg.pin_count_) {op : BPMOp} (hop : ∀ d, op ≠ .unpin_page p d)
    {out : BPMResult} (hr : s.step env op = some (s', out)) :
    s'.page_table_.Find env.hash p = some (some f) ∧
      ∃ pg', s'.getPage f = some pg' ∧ pg'.page_id_ = p ∧
        pg.pin_count_ ≤ pg'.pin_count_ := by
  have hpid : pg.page_id_ = p := by
    obtain ⟨pg1, c1, c2⟩ := h.inv.i1 p f hmap
    rw [hpg] at c1
    rw [Option.some.inj c1]
    exact c2
  have hsame : s.page_table_.Find env.hash p = some (some f) ∧
      ∃ pg', s.getPage f = some pg' ∧ pg'.page_id_ = p ∧
        pg.pin_count_ ≤ pg'.pin_count_ := ⟨hmap, pg, hpg, hpid, le_refl _⟩
  have hfresh : ∀ n, s.page_table_.Find env.hash n = some none → ∀ g data,
      Reused env s s' g n data →
      s'.page_table_.Find env.hash p = some (some f) ∧
        ∃ pg', s'.getPage f = some pg' ∧ pg'.page_id_ = p ∧
          pg.pin_count_ ≤ pg'.pin_count_ := by
    intro n hn g data hre
    obtain ⟨_, a2, a3⟩ := h.pinned_of_reused hre hn hmap hpg hpin
    exact ⟨a2, pg, a3, hpid, le_refl _⟩
  cases op with
  | new_page =>
    simp only [BufferPoolManagerInstance.step] at hr
    cases h1 : s.NewPgImp env with
    | none => rw [h1] at hr; exact Option.noConfusion hr
    | some res =>
      obtain ⟨s1, r⟩ := res
      rw [h1] at hr
      simp only [Option.some.injEq, Prod.mk.injEq] at hr
      obtain ⟨e1, _⟩ := hr
      subst e1
      rcases h.inv.newPg_effect h1 with ⟨_, rfl, _⟩ | ⟨g, _, hre, _⟩
      · exact hsame
      · exact hfresh _ (h.next_unmapped hc) g _ hre
  | fetch_page q =>
    simp only [BufferPoolManagerInstance.step] at hr
    cases h1 : s.FetchPgImp env q with
    | none => rw [h1] at hr; exact Option.noConfusion hr
    | some res =>
      obtain ⟨s1, r⟩ := res
      rw [h1] at hr
      simp only [Option.some.injEq, Prod.mk.injEq] at hr
      obtain ⟨e1, _⟩ := hr
      subst e1
      rcases h.inv.fetchPg_effect h1 with ⟨g, pg0, _, _, _, hp⟩ |
        ⟨hn, ⟨_, rfl, _⟩ | ⟨g, _, hre, _⟩⟩
      · exact pinned_of_patched hp rfl (fun _ => by simp) hmap hpg hpid
      · exact hsame
      · exact hfresh _ hn g _ hre
  | unpin_page q d =>
    simp only [BufferPoolManagerInstance.step] at hr
    cases h1 : s.UnpinPgImp env q d with
    | none => rw [h1] at hr; exact Option.noConfusion hr
    | some res =>
      obtain ⟨s1, r⟩ := res
      rw [h1] at hr
      simp only [Option.some.injEq, Prod.mk.injEq] at hr
      obtain ⟨e1, _⟩ := hr
      subst e1
      rcases h.inv.unpinPg_effect h1 with ⟨_, rfl, _⟩ | ⟨g, pg0, hq, _, _, _, hp⟩
      · exact hsame
      · refine pinned_of_patched hp rfl ?_ hmap hpg hpid
        intro hgf
        exfalso
        subst hgf
        obtain ⟨pg1, c1, c2⟩ := h.inv.i1 q g hq
        rw [hpg] at c1
        rw [← Option.some.inj c1, hpid] at c2
        exact hop d (by rw [c2])
  | flush_page q =>
    simp only [BufferPoolManagerInstance.step] at hr
    cases h1 : s.FlushPgImp env q with
    | none => rw [h1] at hr; exact Option.noConfusion hr
    | some res =>
      obtain ⟨s1, r⟩ := res
      rw [h1] at hr
      simp only [Option.some.injEq, Prod.mk.injEq] at hr
      obtain ⟨e1, _⟩ := hr
      subst e1
      rcases h.inv.flushPg_effect h1 with ⟨_, _, rfl⟩ |
        ⟨g, pg0, _, _, _, _, ⟨_, rfl⟩ | ⟨_, _, hp⟩⟩
      · exact hsame
      · exact hsame
      · exact pinned_of_patched hp rfl (fun _ => le_refl _) hmap hpg hpid
  | flush_all_pages =>
    simp only [BufferPoolManagerInstance.step] at hr
    cases h1 : s.FlushAllPgsImp with
    | none => rw [h1] at hr; exact Option.noConfusion hr
    | some res =>
      rw [h1] at hr
      simp only [Option.some.injEq, Prod.mk.injEq] at hr
      obtain ⟨e1, _⟩ := hr
      subst e1
      exact pinned_flushFrames _ h1 hmap hpg hpid
  | delete_page q =>
    simp only [BufferPoolManagerInstance.step] at hr
    cases h1 : s.DeletePgImp env q with
    | none => rw [h1] at hr; exact Option.noConfusion hr
    | some res =>
      obtain ⟨s1, r⟩ := res
      rw [h1] at hr
      simp only [Option.some.injEq, Prod.mk.injEq] at hr
      obtain ⟨e1, _⟩ := hr
      subst e1
      rcases h.inv.deletePg_effect h1 with rfl |
        ⟨g, pg0, _, hq, hg, hg0, hfind, _, _, _, _, _, hpages⟩
      · exact hsame
      · have hgf : f ≠ g := by
          intro e
          subst e
          rw [hpg] at hg
          rw [Option.some.inj hg] at hpin
          omega
        have hqp : q ≠ p := by
          intro e
          rw [e, hmap] at hq
          exact hgf (Option.some.inj (Option.some.inj hq))
        refine ⟨by rw [hfind p, if_neg hqp]; exact hmap, pg, ?_, hpid, le_refl _⟩
        rw [hpages f, if_neg hgf]
        exact hpg
  | write_data g bytes =>
    simp only [BufferPoolManagerInstance.step, Option.some.injEq, Prod.mk.injEq] at hr
    obtain ⟨e1, _⟩ := hr
    subst e1
    rcases writeData_effect env s g bytes with e | ⟨pg0, _, hp⟩
    · rw [e]
      exact hsame
    · exact pinned_of_patched hp rfl (fun _ => le_refl _) hmap hpg hpid

/-- C3: a pinned page is never evicted before the page counter has wrapped around. In every
state that admitted calls reach from a new pool (FetchPage only with ids that NewPage has
returned), fewer than `2^32` of them being `NewPage`, for a page `p` resident in frame `f`
with a positive pin count, every call other than `UnpinPage(p, _)` leaves `p` mapped to `f`,
leaves `p` the page id of frame `f`, and does not decrease the pin count. -/
theorem C3_pinned_page_never_evicted (env : Env) (pool_size replacer_k bucket_size : Nat)
    (ops : List BPMOp) (hlen : newPageCalls ops < 2 ^ 32) (s : BufferPoolManagerInstance)
    (ids : List Int)
    (hreach : (BufferPoolManagerInstance.new env pool_size replacer_k bucket_size).runPublic
      env [] ops = some (s, ids))
    (p f : Int) (pg : Page)
    (hmap : s.page_table_.Find env.hash p = some (some f)) (hpg : s.getPage f = some pg)
    (hpin : 0 < pg.pin_count_) (op : BPMOp) (hop : ∀ d, op ≠ .unpin_page p d)
    (s' : BufferPoolManagerInstance) (out : BPMResult)
    (hstep : s.step env op = some (s', out)) :
    s'.page_table_.Find env.hash p = some (some f) ∧
      ∃ pg', s'.getPage f = some pg' ∧ pg'.page_id_ = p ∧
        pg.pin_count_ ≤ pg'.pin_count_ := by
  obtain ⟨c, hinv, _, _, hc⟩ := PoolInv.reachable ops
    (PoolInv.initial env pool_size replacer_k bucket_size) (by simp) (by omega) hreach
  exact hinv.pinned_step (by omega) hmap hpg hpin hop hstep

/-- C4: in every state that calls of the pool reach from a new pool, a page that the page
table maps to a frame is the page that the frame holds; hence no two pages are mapped to one
frame. -/
theorem C4_directory_entry_names_frame_page (env : Env)
    (pool_size replacer_k bucket_size : Nat) (ops : List BPMOp)
    (s : BufferPoolManagerInstance) (outs : List BPMResult)
    (hreach : (BufferPoolManagerInstance.new env pool_size replacer_k bucket_size).run
      env ops = some (s, outs))
    (p f : Int) (hmap : s.page_table_.Find env.hash p = some (some f)) :
    (∃ pg, s.getPage f = some pg ∧ pg.page_id_ = p) ∧
      ∀ q, s.page_table_.Find env.hash q = some (some f) → q = p := by
  have hinv := BPMInv.run ops (BPMInv.new_pool env pool_size replacer_k bucket_size) hreach
  obtain ⟨pg, h1, h2⟩ := hinv.i1 p f hmap
  refine ⟨⟨pg, h1, h2⟩, ?_⟩
  intro q hq
  obtain ⟨pg2, c1, c2⟩ := hinv.i1 q f hq
  rw [h1] at c1
  rw [← c2, ← Option.some.inj c1, h2]

/-- A defined run is the run that `sampleRun` names. -/
theorem sampleRun_eq (pool_size : Nat) (ops : List BPMOp)
    (h : ((BufferPoolManagerInstance.new sampleEnv pool_size 2 4).run sampleEnv
      ops).isSome = true) :
    (BufferPoolManagerInstance.new sampleEnv pool_size 2 4).run sampleEnv ops =
      some ((sampleRun pool_size ops).1, (sampleRun pool_size ops).2) := by
  unfold sampleRun
  cases hx : (BufferPoolManagerInstance.new sampleEnv pool_size 2 4).run sampleEnv ops with
  | none => rw [hx] at h; exact Bool.noConfusion h
  | some x => rfl

/-- A defined run of admitted calls is the run that `samplePublic` names. -/
theorem samplePublic_eq (pool_size : Nat) (ops : List BPMOp)
    (h : ((BufferPoolManagerInstance.new sampleEnv pool_size 2 4).runPublic sampleEnv []
      ops).isSome = true) :
    (BufferPoolManagerInstance.new sampleEnv pool_size 2 4).runPublic sampleEnv [] ops =
      some ((samplePublic pool_size ops).1, (samplePublic pool_size ops).2) := by
  unfold samplePublic
  cases hx : (BufferPoolManagerInstance.new sampleEnv pool_size 2 4).runPublic sampleEnv []
      ops with
  | none => rw [hx] at h; exact Bool.noConfusion h
  | some x => rfl

/-- A defined call is the call that `sampleStep` names. -/
theorem sampleStep_eq (s : BufferPoolManagerInstance) (op : BPMOp)
    (h : (s.step sampleEnv op).isSome = true) :
    s.step sampleEnv op = some ((sampleStep s op).1, (sampleStep s op).2) := by
  unfold sampleStep
  cases hx : s.step sampleEnv op with
  | none => rw [hx] at h; exact Bool.noConfusion h
  | some x => rfl

/-- C3 on a pool of 2 frames: page 0 is pinned in frame 0 and page 1 is unpinned in frame 1;
`NewPage` evicts page 1 and leaves page 0 in frame 0, pinned. -/
theorem C3_pinned_page_never_evicted_witness :
    (samplePublic 2 [.new_page, .new_page, .unpin_page 1 false]).1.getPage 0 =
        some { data_ := [0, 0], page_id_ := 0, pin_count_ := 1, is_dirty_ := false } ∧
      (sampleStep (samplePublic 2 [.new_page, .new_page, .unpin_page 1 false]).1
          .new_page).1.page_table_.Find sampleEnv.hash 0 = some (some 0) ∧
      ∃ pg', (sampleStep (samplePublic 2 [.new_page, .new_page, .unpin_page 1 false]).1
          .new_page).1.getPage 0 = some pg' ∧ pg'.page_id_ = 0 ∧
        (1 : Int) ≤ pg'.pin_count_ :=
  ⟨by decide,
    C3_pinned_page_never_evicted sampleEnv 2 2 4 [.new_page, .new_page, .unpin_page 1 false]
      (by decide) _ _ (samplePublic_eq 2 _ (by decide)) 0 0
      { data_ := [0, 0], page_id_ := 0, pin_count_ := 1, is_dirty_ := false }
      (by decide) (by decide) (by decide) .new_page (by decide) _ _
      (sampleStep_eq _ _ (by decide))⟩

/-- C4 on a pool of 2 frames, after page 2 has taken the frame of page 0: frame 0 holds
page 2, and page 2 is the only page mapped to it. -/
theorem C4_directory_entry_names_frame_page_witness :
    (∃ pg, (sampleRun 2 [.new_page, .new_page, .unpin_page 0 true, .new_page]).1.getPage 0 =
        some pg ∧ pg.page_id_ = 2) ∧
      ∀ q, (sampleRun 2 [.new_page, .new_page, .unpin_page 0 true,
          .new_page]).1.page_table_.Find sampleEnv.hash q = some (some 0) → q = 2 :=
  C4_directory_entry_names_frame_page sampleEnv 2 2 4
    [.new_page, .new_page, .unpin_page 0 true, .new_page] _ _
    (sampleRun_eq 2 _ (by decide)) 2 0 (by decide)

end bustub

namespace bustub

open BufferPoolManagerInstance

variable {env : Env} {s s' : BufferPoolManagerInstance}

/-- What a reuse does when the free list is empty: the victim is written back if it is
dirty and only then, its page is unmapped, and the frame holds the new page, clean. -/
theorem Reused.evicted {f n : Int} {data : List Nat} (hr : Reused env s s' f n data)
    (hfree : s.free_list_ = []) {pgv : Page} (hv : s.getPage f = some pgv) :
    s'.disk_manager_.writes =
        s.disk_manager_.writes ++
          (if pgv.is_dirty_ then [(pgv.page_id_, pgv.data_)] else []) ∧
      (pgv.is_dirty_ = true →
        ufind s'.disk_manager_.store pgv.page_id_ = some pgv.data_) ∧
      s'.page_table_.Find env.hash pgv.page_id_ =
        (if pgv.page_id_ = n then some (some f) else some none) ∧
      s'.getPage f =
        some { data_ := data, page_id_ := n, pin_count_ := 1, is_dirty_ := false } := by
  obtain ⟨pg2, hv2, _, ⟨hfl, _⟩ | ⟨_, _, hfind, hdisk⟩⟩ := hr.victim
  · rw [hfree] at hfl
    exact List.noConfusion hfl
  · rw [hv] at hv2
    have e := Option.some.inj hv2
    subst e
    refine ⟨?_, ?_, ?_, by rw [hr.pages f, if_pos rfl]⟩
    · rw [hdisk]
      by_cases hd : pgv.is_dirty_ = true
      · simp [hd, DiskManager.WritePage]
      · simp [hd]
    · intro hd
      rw [hdisk, if_pos hd]
      simp [DiskManager.WritePage, ufind_uset_same]
    · rw [hfind]
      by_cases hq : pgv.page_id_ = n
      · rw [if_pos hq.symm, if_pos hq]
      · rw [if_neg (Ne.symm hq), if_pos rfl, if_neg hq]

/-- C5: eviction never loses dirty data. In every state that calls reach from a new pool,
when the free list is empty and NewPage, or FetchPage of a page that is not resident, puts
page `n` in frame `f`, which held page `q` with bytes `B`: the disk interface receives
exactly `WritePage(q, B)` if the victim was dirty and no write otherwise; the disk then has
`B` for `q`; `q` is no longer mapped (unless `q` is `n`); and frame `f` holds `n`, pinned
once, with the dirty flag cleared. -/
theorem C5_eviction_writes_back_dirty_victim (env : Env)
    (pool_size replacer_k bucket_size : Nat) (ops : List BPMOp)
    (s : BufferPoolManagerInstance) (outs : List BPMResult)
    (hreach : (BufferPoolManagerInstance.new env pool_size replacer_k bucket_size).run
      env ops = some (s, outs))
    (hfree : s.free_list_ = []) (op : BPMOp) (n f : Int)
    (s' : BufferPoolManagerInstance) (out : BPMResult)
    (hstep : s.step env op = some (s', out))
    (hcase : (op = .new_page ∧ out = .new_page (some (n, f))) ∨
      (op = .fetch_page n ∧ s.page_table_.Find env.hash n = some none ∧
        out = .frame (some f)))
    (pgv : Page) (hv : s.getPage f = some pgv) :
    s'.disk_manager_.writes =
        s.disk_manager_.writes ++
          (if pgv.is_dirty_ then [(pgv.page_id_, pgv.data_)] else []) ∧
      (pgv.is_dirty_ = true →
        ufind s'.disk_manager_.store pgv.page_id_ = some pgv.data_) ∧
      s'.page_table_.Find env.hash pgv.page_id_ =
        (if pgv.page_id_ = n then some (some f) else some none) ∧
      ∃ pg', s'.getPage f = some pg' ∧ pg'.page_id_ = n ∧ pg'.pin_count_ = 1 ∧
        pg'.is_dirty_ = false := by
  have hinv := BPMInv.run ops (BPMInv.new_pool env pool_size replacer_k bucket_size) hreach
  have key : ∃ data, Reused env s s' f n data := by
    rcases hcase with ⟨rfl, rfl⟩ | ⟨rfl, hmiss, rfl⟩
    · simp only [BufferPoolManagerInstance.step] at hstep
      cases h1 : s.NewPgImp env with
      | none => rw [h1] at hstep; exact Option.noConfusion hstep
      | some res =>
        obtain ⟨s1, r⟩ := res
        rw [h1] at hstep
        simp only [Option.some.injEq, Prod.mk.injEq, BPMResult.new_page.injEq] at hstep
        obtain ⟨e1, e2⟩ := hstep
        subst e1 e2
        rcases hinv.newPg_effect h1 with ⟨e, _⟩ | ⟨g, e, hre, _⟩
        · exact Option.noConfusion e
        · simp only [Option.some.injEq, Prod.mk.injEq] at e
          obtain ⟨e3, e4⟩ := e
          subst e3 e4
          exact ⟨_, hre⟩
    · simp only [BufferPoolManagerInstance.step] at hstep
      cases h1 : s.FetchPgImp env n with
      | none => rw [h1] at hstep; exact Option.noConfusion hstep
      | some res =>
        obtain ⟨s1, r⟩ := res
        rw [h1] at hstep
        simp only [Option.some.injEq, Prod.mk.injEq, BPMResult.frame.injEq] at hstep
        obtain ⟨e1, e2⟩ := hstep
        subst e1 e2
        rcases hinv.fetchPg_effect h1 with ⟨g, pg0, hhit, _⟩ |
          ⟨_, ⟨e, _⟩ | ⟨g, e, hre, _⟩⟩
        · rw [hmiss] at hhit
          exact Option.noConfusion (Option.some.inj hhit)
        · exact Option.noConfusion e
        · simp only [Option.some.injEq] at e
          subst e
          exact ⟨_, hre⟩
  obtain ⟨data, hre⟩ := key
  obtain ⟨a1, a2, a3, a4⟩ := hre.evicted hfree hv
  exact ⟨a1, a2, a3, _, a4, rfl, rfl, rfl⟩

/-- C5 on the run of the specification (3 frames, `k = 2`): `NewPage` three times, the
bytes `[7, 9]` stored in page 0, `UnpinPage(0, true)`; the next `NewPage` returns page 3 in
frame 0 after `WritePage(0, [7, 9])`. -/
theorem C5_eviction_writes_back_dirty_victim_witness :
    (sampleStep (sampleRun 3 [.new_page, .write_data 0 [7, 9], .new_page, .new_page,
          .unpin_page 0 true]).1 .new_page).1.disk_manager_.writes =
        (sampleRun 3 [.new_page, .write_data 0 [7, 9], .new_page, .new_page,
          .unpin_page 0 true]).1.disk_manager_.writes ++
          (if (Page.mk [7, 9] 0 0 true).is_dirty_ then [((0 : Int), [7, 9])] else []) ∧
      ((Page.mk [7, 9] 0 0 true).is_dirty_ = true →
        ufind (sampleStep (sampleRun 3 [.new_page, .write_data 0 [7, 9], .new_page, .new_page,
          .unpin_page 0 true]).1 .new_page).1.disk_manager_.store 0 = some [7, 9]) ∧
      (sampleStep (sampleRun 3 [.new_page, .write_data 0 [7, 9], .new_page, .new_page,
          .unpin_page 0 true]).1 .new_page).1.page_table_.Find sampleEnv.hash 0 =
        (if (0 : Int) = 3 then some (some 0) else some none) ∧
      ∃ pg', (sampleStep (sampleRun 3 [.new_page, .write_data 0 [7, 9], .new_page, .new_page,
          .unpin_page 0 true]).1 .new_page).1.getPage 0 = some pg' ∧
        pg'.page_id_ = 3 ∧ pg'.pin_count_ = 1 ∧ pg'.is_dirty_ = false :=
  C5_eviction_writes_back_dirty_victim sampleEnv 3 2 4
    [.new_page, .write_data 0 [7, 9], .new_page, .new_page, .unpin_page 0 true] _ _
    (sampleRun_eq 3 _ (by decide)) (by decide) .new_page 3 0 _ _
    (sampleStep_eq _ _ (by decide)) (Or.inl ⟨rfl, by decide⟩)
    (Page.mk [7, 9] 0 0 true) (by decide)

end bustub

namespace bustub

open BufferPoolManagerInstance

/-- C6: on a pool of 2 frames, after page 0 has come back into frame 1 and is deleted there,
`DeletePgImp` has removed frame 0 (the page id) from the replacer; once frame 1 is pinned
again, NewPage returns no page although frame 0 holds page 2 with pin count 0. -/
theorem C6_new_page_fails_with_unpinned_frame :
    ((BufferPoolManagerInstance.new sampleEnv 2 2 4).runPublic sampleEnv []
        [.new_page, .new_page, .unpin_page 0 false, .unpin_page 1 false, .new_page,
          .unpin_page 2 false, .fetch_page 0, .unpin_page 0 false, .delete_page 0,
          .new_page]).isSome = true ∧
      (sampleRun 2 [.new_page, .new_page, .unpin_page 0 false, .unpin_page 1 false, .new_page,
          .unpin_page 2 false, .fetch_page 0, .unpin_page 0 false, .delete_page 0,
          .new_page]).2 =
        [.new_page (some (0, 0)), .new_page (some (1, 1)), .bool true, .bool true,
          .new_page (some (2, 0)), .bool true, .frame (some 1), .bool true, .bool true,
          .new_page (some (3, 1))] ∧
      (sampleRun 2 [.new_page, .new_page, .unpin_page 0 false, .unpin_page 1 false, .new_page,
          .unpin_page 2 false, .fetch_page 0, .unpin_page 0 false, .delete_page 0,
          .new_page]).1.getPage 0 =
        some { data_ := [0, 0], page_id_ := 2, pin_count_ := 0, is_dirty_ := false } ∧
      (sampleStep (sampleRun 2 [.new_page, .new_page, .unpin_page 0 false,
          .unpin_page 1 false, .new_page, .unpin_page 2 false, .fetch_page 0,
          .unpin_page 0 false, .delete_page 0, .new_page]).1 .new_page).2 =
        .new_page none := by
  decide

/-- C7: on a pool of 1 frame, page 1 is resident in frame 0 with pin count 0;
`DeletePage(1)` returns true and appends frame 0 to the free list, but it calls the replacer
with the page id 1, so frame 0 is still tracked by the replacer, and evictable. -/
theorem C7_delete_leaves_frame_tracked :
    (sampleRun 1 [.new_page, .unpin_page 0 false, .new_page, .unpin_page 1 false]).2 =
        [.new_page (some (0, 0)), .bool true, .new_page (some (1, 0)), .bool true] ∧
      (sampleRun 1 [.new_page, .unpin_page 0 false, .new_page,
          .unpin_page 1 false]).1.page_table_.Find sampleEnv.hash 1 = some (some 0) ∧
      (sampleRun 1 [.new_page, .unpin_page 0 false, .new_page,
          .unpin_page 1 false]).1.getPage 0 =
        some { data_ := [0, 0], page_id_ := 1, pin_count_ := 0, is_dirty_ := false } ∧
      (sampleStep (sampleRun 1 [.new_page, .unpin_page 0 false, .new_page,
          .unpin_page 1 false]).1 (.delete_page 1)).2 = .bool true ∧
      (sampleStep (sampleRun 1 [.new_page, .unpin_page 0 false, .new_page,
          .unpin_page 1 false]).1 (.delete_page 1)).1.free_list_ = [0] ∧
      (sampleStep (sampleRun 1 [.new_page, .unpin_page 0 false, .new_page,
          .unpin_page 1 false]).1 (.delete_page 1)).1.replacer_.tracked 0 = true ∧
      (sampleStep (sampleRun 1 [.new_page, .unpin_page 0 false, .new_page,
          .unpin_page 1 false]).1 (.delete_page 1)).1.replacer_.evictable 0 = true := by
  decide

/-- C10: the state that `NewPage, Unpin(0), NewPage, Unpin(1), DeletePage(1)` reach on a
pool of 1 frame has frame 0 in the free list, with page id `INVALID_PAGE_ID`, and tracked by
the replacer. -/
theorem C10_free_frame_still_tracked :
    (sampleRun 1 [.new_page, .unpin_page 0 false, .new_page, .unpin_page 1 false,
          .delete_page 1]).2 =
        [.new_page (some (0, 0)), .bool true, .new_page (some (1, 0)), .bool true,
          .bool true] ∧
      (0 : Int) ∈ (sampleRun 1 [.new_page, .unpin_page 0 false, .new_page,
          .unpin_page 1 false, .delete_page 1]).1.free_list_ ∧
      ((sampleRun 1 [.new_page, .unpin_page 0 false, .new_page, .unpin_page 1 false,
          .delete_page 1]).1.getPage 0).map Page.page_id_ = some INVALID_PAGE_ID ∧
      (sampleRun 1 [.new_page, .unpin_page 0 false, .new_page, .unpin_page 1 false,
          .delete_page 1]).1.replacer_.tracked 0 = true := by
  decide

end bustub

namespace bustub

open BufferPoolManagerInstance

variable {env : Env} {s s' : BufferPoolManagerInstance}

/-- C8 (counterexample): FlushPage of a resident page that is clean returns true and issues
no write: on a pool of 1 frame, after `NewPage` has put page 0 in frame 0, the log of
`WritePage` calls is empty before and after `FlushPage(0)`. -/
theorem C8_flush_of_clean_page_issues_no_write :
    (sampleRun 1 [.new_page]).2 = [.new_page (some (0, 0))] ∧
      (sampleRun 1 [.new_page]).1.page_table_.Find sampleEnv.hash 0 = some (some 0) ∧
      (sampleRun 1 [.new_page]).1.disk_manager_.writes = [] ∧
      (sampleStep (sampleRun 1 [.new_page]).1 (.flush_page 0)).2 = .bool true ∧
      (sampleStep (sampleRun 1 [.new_page]).1 (.flush_page 0)).1.disk_manager_.writes = [] := by
  decide

/-- C8 (amended): in every state that calls reach from a new pool, for a page `p` that the
page table maps to frame `f`, FlushPage(p) returns true, issues exactly one
`WritePage(p, bytes of the frame)` if the dirty flag of the frame was set and no write
otherwise, and leaves the dirty flag false and the bytes as they were; for a page that is
not in the page table it returns false and changes nothing. -/
theorem C8_flush_writes_iff_dirty (env : Env) (pool_size replacer_k bucket_size : Nat)
    (ops : List BPMOp) (s : BufferPoolManagerInstance) (outs : List BPMResult)
    (hreach : (BufferPoolManagerInstance.new env pool_size replacer_k bucket_size).run
      env ops = some (s, outs)) (p : Int) :
    (∀ f, s.page_table_.Find env.hash p = some (some f) →
      ∃ pg s', s.getPage f = some pg ∧ s.FlushPgImp env p = some (s', true) ∧
        s'.disk_manager_.writes =
          s.disk_manager_.writes ++ (if pg.is_dirty_ then [(p, pg.data_)] else []) ∧
        ∃ pg', s'.getPage f = some pg' ∧ pg'.is_dirty_ = false ∧ pg'.data_ = pg.data_) ∧
    (s.page_table_.Find env.hash p = some none → s.FlushPgImp env p = some (s, false)) := by
  have hinv := BPMInv.run ops (BPMInv.new_pool env pool_size replacer_k bucket_size) hreach
  constructor
  · intro f hmap
    obtain ⟨pg, hpg, hid⟩ := hinv.i1 p f hmap
    by_cases hd : pg.is_dirty_ = true
    · refine ⟨pg, { s with
        pages_ := s.pages_.set f.toNat { pg with is_dirty_ := false }
        disk_manager_ := s.disk_manager_.WritePage pg.page_id_ pg.data_ }, hpg, ?_, ?_, ?_⟩
      · unfold FlushPgImp
        rw [hmap]
        simp only
        rw [hpg]
        simp only [hd, if_true]
      · simp [hd, DiskManager.WritePage, hid]
      · refine ⟨{ pg with is_dirty_ := false }, ?_, rfl, rfl⟩
        rw [getPage_of_set _ _ hpg rfl f, if_pos rfl]
    · refine ⟨pg, s, hpg, ?_, by simp [hd], pg, hpg, by simpa using hd, rfl⟩
      unfold FlushPgImp
      rw [hmap]
      simp only
      rw [hpg]
      simp only [hd]
      rfl
  · intro hmap
    unfold FlushPgImp
    rw [hmap]

/-- C8 (amended), on a pool of 1 frame whose page 0 holds `[7, 9]` and was unpinned dirty:
`FlushPage(0)` issues `WritePage(0, [7, 9])`. -/
theorem C8_flush_writes_iff_dirty_witness :
    ∃ pg s', (sampleRun 1 [.new_page, .write_data 0 [7, 9], .unpin_page 0 true]).1.getPage 0 =
        some pg ∧
      (sampleRun 1 [.new_page, .write_data 0 [7, 9], .unpin_page 0 true]).1.FlushPgImp
        sampleEnv 0 = some (s', true) ∧
      s'.disk_manager_.writes =
        (sampleRun 1 [.new_page, .write_data 0 [7, 9],
          .unpin_page 0 true]).1.disk_manager_.writes ++
          (if pg.is_dirty_ then [((0 : Int), pg.data_)] else []) ∧
      ∃ pg', s'.getPage 0 = some pg' ∧ pg'.is_dirty_ = false ∧ pg'.data_ = pg.data_ :=
  (C8_flush_writes_iff_dirty sampleEnv 1 2 4
    [.new_page, .write_data 0 [7, 9], .unpin_page 0 true] _ _
    (sampleRun_eq 1 _ (by decide)) 0).1 0 (by decide)

end bustub

namespace bustub

open BufferPoolManagerInstance

variable {env : Env} {s s' : BufferPoolManagerInstance}

/-- What `step` does on `NewPage`. -/
theorem step_new_page_inv {out : BPMResult} (h : s.step env .new_page = some (s', out)) :
    ∃ r, s.NewPgImp env = some (s', r) ∧ out = .new_page r := by
  simp only [BufferPoolManagerInstance.step] at h
  cases h1 : s.NewPgImp env with
  | none => rw [h1] at h; exact Option.noConfusion h
  | some res =>
    rw [h1] at h
    simp only [Option.some.injEq, Prod.mk.injEq] at h
    exact ⟨res.2, by rw [← h.1], h.2.symm⟩

/-- What `step` does on `FetchPage`. -/
theorem step_fetch_page_inv {p : Int} {out : BPMResult}
    (h : s.step env (.fetch_page p) = some (s', out)) :
    ∃ r, s.FetchPgImp env p = some (s', r) ∧ out = .frame r := by
  simp only [BufferPoolManagerInstance.step] at h
  cases h1 : s.FetchPgImp env p with
  | none => rw [h1] at h; exact Option.noConfusion h
  | some res =>
    rw [h1] at h
    simp only [Option.some.injEq, Prod.mk.injEq] at h
    exact ⟨res.2, by rw [← h.1], h.2.symm⟩

/-- What `step` does on `FlushPage`. -/
theorem step_flush_page_inv {p : Int} {out : BPMResult}
    (h : s.step env (.flush_page p) = some (s', out)) :
    ∃ b, s.FlushPgImp env p = some (s', b) ∧ out = .bool b := by
  simp only [BufferPoolManagerInstance.step] at h
  cases h1 : s.FlushPgImp env p with
  | none => rw [h1] at h; exact Option.noConfusion h
  | some res =>
    rw [h1] at h
    simp only [Option.some.injEq, Prod.mk.injEq] at h
    exact ⟨res.2, by rw [← h.1], h.2.symm⟩

/-- What `step` does on `UnpinPage`. -/
theorem step_unpin_page_inv {p : Int} {d : Bool} {out : BPMResult}
    (h : s.step env (.unpin_page p d) = some (s', out)) :
    ∃ b, s.UnpinPgImp env p d = some (s', b) ∧ out = .bool b := by
  simp only [BufferPoolManagerInstance.step] at h
  cases h1 : s.UnpinPgImp env p d with
  | none => rw [h1] at h; exact Option.noConfusion h
  | some res =>
    rw [h1] at h
    simp only [Option.some.injEq, Prod.mk.injEq] at h
    exact ⟨res.2, by rw [← h.1], h.2.symm⟩

/-- After `NewPage` has returned page `p` in frame `f`, the caller has stored `B` in the
frame, and `FlushPage(p)` and `UnpinPage(p, true)` have been called, page `p` keeps the
bytes `B`. -/
theorem Keeps.after_unpin_dirty {c : Nat} (h0 : PoolInv env c s) (hroom : c < 2 ^ 32)
    {p f : Int}
    {s1 s2 s3 : BufferPoolManagerInstance} {o2 o3 : BPMResult}
    (hnew : s.step env .new_page = some (s1, .new_page (some (p, f)))) (B : List Nat)
    (hflush : (s1.writeData f B).step env (.flush_page p) = some (s2, o2))
    (hunpin : s2.step env (.unpin_page p true) = some (s3, o3)) :
    PoolInv env (c + 1) s3 ∧ Keeps env s3 p B ∧ p = wrapPageId (c : Int) := by
  obtain ⟨h1, hid1⟩ :=
    h0.step_admitted (fun q hq => BPMOp.noConfusion hq) (fun _ => hroom) hnew
  have hpb := hid1 p (by simp [BPMResult.newIds])
  obtain ⟨r, hnew', er⟩ := step_new_page_inv hnew
  simp only [BPMResult.new_page.injEq] at er
  subst er
  have hpage1 : s1.getPage f =
      some { data_ := env.zeroData, page_id_ := p, pin_count_ := 1, is_dirty_ := false } ∧
      s1.page_table_.Find env.hash p = some (some f) := by
    rcases h0.inv.newPg_effect hnew' with ⟨e, _⟩ | ⟨g, e, hre, _⟩
    · exact Option.noConfusion e
    · simp only [Option.some.injEq, Prod.mk.injEq] at e
      obtain ⟨e3, e4⟩ := e
      subst e3 e4
      refine ⟨by rw [hre.pages f, if_pos rfl], ?_⟩
      obtain ⟨_, _, _, ⟨_, _, hfind, _⟩ | ⟨_, _, hfind, _⟩⟩ := hre.victim
      · rw [hfind, if_pos rfl]
      · rw [hfind, if_pos rfl]
  obtain ⟨hpg1, hmap1⟩ := hpage1
  -- the store of the caller
  have hw : s1.step env (.write_data f B) = some (s1.writeData f B, .unit) := rfl
  obtain ⟨hw1, _⟩ := h1.step_admitted (fun q hq => BPMOp.noConfusion hq)
    (fun hq => BPMOp.noConfusion hq) hw
  have hweq : s1.writeData f B = { s1 with
      pages_ := s1.pages_.set f.toNat
        { data_ := B, page_id_ := p, pin_count_ := 1, is_dirty_ := false } } := by
    unfold BufferPoolManagerInstance.writeData
    rw [hpg1]
  have hpgw : (s1.writeData f B).getPage f =
      some { data_ := B, page_id_ := p, pin_count_ := 1, is_dirty_ := false } := by
    rw [getPage_of_set _ _ hpg1 (by rw [hweq]) f, if_pos rfl]
  have hmapw : (s1.writeData f B).page_table_.Find env.hash p = some (some f) := by
    rw [hweq]
    exact hmap1
  -- the flush of a clean frame changes nothing
  obtain ⟨b2, hflush', _⟩ := step_flush_page_inv hflush
  have hs2 : s2 = s1.writeData f B := by
    rcases hw1.inv.flushPg_effect hflush' with ⟨hn, _⟩ |
      ⟨g, pg0, hq, hg, _, _, ⟨_, e⟩ | ⟨hd, _⟩⟩
    · rw [hmapw] at hn
      exact Option.noConfusion (Option.some.inj hn)
    · exact e
    · rw [hmapw] at hq
      have e2 := Option.some.inj (Option.some.inj hq)
      subst e2
      rw [hpgw] at hg
      rw [← Option.some.inj hg] at hd
      exact Bool.noConfusion hd
  subst hs2
  -- the unpin marks the frame dirty
  obtain ⟨h3, _⟩ := hw1.step_admitted (fun q hq => BPMOp.noConfusion hq)
    (fun hq => BPMOp.noConfusion hq) hunpin
  obtain ⟨b3, hunpin', eo3⟩ := step_unpin_page_inv hunpin
  subst eo3
  refine ⟨h3, ?_, hpb⟩
  rcases hw1.inv.unpinPg_effect hunpin' with ⟨_, _, hn | ⟨g, pg0, hq, hg, hpin⟩⟩ |
    ⟨g, pg0, hq, _, _, _, hp⟩
  · rw [hmapw] at hn
    exact Option.noConfusion (Option.some.inj hn)
  · rw [hmapw] at hq
    have e2 := Option.some.inj (Option.some.inj hq)
    subst e2
    rw [hpgw] at hg
    rw [← Option.some.inj hg] at hpin
    exact absurd (show (1 : Int) ≤ 0 from hpin) (by decide)
  · rw [hmapw] at hq
    have e2 := Option.some.inj (Option.some.inj hq)
    subst e2
    have hold := hp.old
    rw [hpgw] at hold
    have e3 := Option.some.inj hold
    subst e3
    left
    exact ⟨f, _, by rw [hp.table]; exact hmapw, by rw [hp.pages f, if_pos rfl], rfl,
      Or.inl rfl⟩

/-- A defined run of admitted calls from a state is the run that `samplePublicFrom` names. -/
theorem samplePublicFrom_eq (s : BufferPoolManagerInstance) (ids : List Int)
    (ops : List BPMOp) (h : (s.runPublic sampleEnv ids ops).isSome = true) :
    s.runPublic sampleEnv ids ops =
      some ((samplePublicFrom s ids ops).1, (samplePublicFrom s ids ops).2) := by
  unfold samplePublicFrom
  cases hx : s.runPublic sampleEnv ids ops with
  | none => rw [hx] at h; exact Bool.noConfusion h
  | some x => rfl

/-- C9 (counterexample): the round trip fails when the page is unpinned clean. On a pool of
1 frame, `NewPage` returns page 0 in frame 0, the caller stores `[7, 9]`, `FlushPage(0)` and
`UnpinPage(0, false)` return true, `NewPage` evicts page 0 for page 1, and after
`UnpinPage(1, false)` the call `FetchPage(0)` returns frame 0 with the bytes `[0, 0]`; no
`WritePage` was issued. -/
theorem C9_clean_unpin_loses_stored_bytes :
    ((BufferPoolManagerInstance.new sampleEnv 1 2 4).runPublic sampleEnv []
        [.new_page, .write_data 0 [7, 9], .flush_page 0, .unpin_page 0 false, .new_page,
          .unpin_page 1 false, .fetch_page 0]).isSome = true ∧
      (sampleRun 1 [.new_page, .write_data 0 [7, 9], .flush_page 0, .unpin_page 0 false,
          .new_page, .unpin_page 1 false, .fetch_page 0]).2 =
        [.new_page (some (0, 0)), .unit, .bool true, .bool true, .new_page (some (1, 0)),
          .bool true, .frame (some 0)] ∧
      (sampleRun 1 [.new_page, .write_data 0 [7, 9], .flush_page 0, .unpin_page 0 false,
          .new_page, .unpin_page 1 false, .fetch_page 0]).1.getPage 0 =
        some { data_ := [0, 0], page_id_ := 0, pin_count_ := 1, is_dirty_ := false } ∧
      (sampleRun 1 [.new_page, .write_data 0 [7, 9], .flush_page 0, .unpin_page 0 false,
          .new_page, .unpin_page 1 false, .fetch_page 0]).1.disk_manager_.writes = [] := by
  decide

/-- C9 (amended): round trip through eviction, with the disk a map from page id to bytes,
in runs of admitted calls (FetchPage called only with ids that NewPage has returned) in which
the page counter, a 32-bit `int`, has not handed out `2^32` ids. In every state that admitted calls `ops` reach from
a new pool, if NewPage returns page `p` in frame `f`, the caller stores the bytes `B` in the
frame and calls FlushPage(p) and UnpinPage(p, true), then after any admitted calls `mid` that
are not made on `p` (NewPage, FetchPage, UnpinPage and DeletePage of other pages, flushes),
which may evict `p`, a FetchPage(p) that succeeds returns a frame that holds `p` with
exactly the bytes `B`, provided NewPage is called fewer than `2^32` times in all: in `ops`,
for `p`, and in `mid`. -/
theorem C9_round_trip_after_dirty_unpin (env : Env) (pool_size replacer_k bucket_size : Nat)
    (ops : List BPMOp) (s0 : BufferPoolManagerInstance) (ids0 : List Int)
    (hreach : (BufferPoolManagerInstance.new env pool_size replacer_k bucket_size).runPublic
      env [] ops = some (s0, ids0))
    (p f : Int) (s1 : BufferPoolManagerInstance)
    (hnew : s0.step env .new_page = some (s1, .new_page (some (p, f))))
    (B : List Nat) (s2 : BufferPoolManagerInstance) (o2 : BPMResult)
    (hflush : (s1.writeData f B).step env (.flush_page p) = some (s2, o2))
    (s3 : BufferPoolManagerInstance) (o3 : BPMResult)
    (hunpin : s2.step env (.unpin_page p true) = some (s3, o3))
    (mid : List BPMOp) (hmid : ∀ op ∈ mid, op.other p = true)
    (hlen : newPageCalls ops + newPageCalls mid + 1 < 2 ^ 32)
    (s4 : BufferPoolManagerInstance) (ids4 : List Int)
    (hrun : s3.runPublic env (ids0 ++ [p]) mid = some (s4, ids4))
    (s5 : BufferPoolManagerInstance) (f' : Int)
    (hfetch : s4.step env (.fetch_page p) = some (s5, .frame (some f'))) :
    ∃ pg, s5.getPage f' = some pg ∧ pg.data_ = B ∧ pg.page_id_ = p := by
  obtain ⟨c, h0, hids0, _, hc⟩ := PoolInv.reachable ops
    (PoolInv.initial env pool_size replacer_k bucket_size) (by simp) (by omega) hreach
  obtain ⟨h3, hk3, hp⟩ := Keeps.after_unpin_dirty h0 (by omega) hnew B hflush hunpin
  have hp0 : p ≠ INVALID_PAGE_ID := by
    rw [hp]
    exact wrapPageId_ne_invalid (by omega)
  have hpi : Issued (c + 1) p := hp ▸ Issued.last c
  have hids : ∀ x ∈ ids0 ++ [p], Issued (c + 1) x := by
    intro x hx
    rcases List.mem_append.1 hx with hx | hx
    · exact (hids0 x hx).of_le (Nat.le_succ c)
    · simp only [List.mem_singleton] at hx
      subst hx
      exact hpi
  obtain ⟨c4, h4, hk4⟩ := Keeps.run_other mid h3 hids (by omega) hp0 hpi hk3 hmid hrun
  obtain ⟨r, hfetch', er⟩ := step_fetch_page_inv hfetch
  simp only [BPMResult.frame.injEq] at er
  subst er
  exact Keeps.fetch h4 hk4 hfetch'

/-- C9 (amended), on a pool of 1 frame: page 0 receives `[7, 9]`, is flushed and unpinned
dirty, is evicted by `NewPage`, and after `UnpinPage(1, false)` the call `FetchPage(0)`
returns frame 0 with `[7, 9]`. -/
theorem C9_round_trip_after_dirty_unpin_witness :
    ∃ pg, (sampleStep (samplePublicFrom (sampleStep (sampleStep
        ((sampleStep (samplePublic 1 []).1 .new_page).1.writeData 0 [7, 9])
          (.flush_page 0)).1 (.unpin_page 0 true)).1 ((samplePublic 1 []).2 ++ [0])
        [.new_page, .unpin_page 1 false]).1 (.fetch_page 0)).1.getPage 0 = some pg ∧
      pg.data_ = [7, 9] ∧ pg.page_id_ = 0 :=
  C9_round_trip_after_dirty_unpin sampleEnv 1 2 4 [] _ _ (samplePublic_eq 1 _ (by decide))
    0 0 _ (sampleStep_eq _ _ (by decide)) [7, 9] _ _ (sampleStep_eq _ _ (by decide))
    _ _ (sampleStep_eq _ _ (by decide)) [.new_page, .unpin_page 1 false] (by decide)
    (by decide) _ _ (samplePublicFrom_eq _ _ _ (by decide)) _ 0
    (sampleStep_eq _ _ (by decide))

end bustub

namespace bustub

/-! ## Tracked frames under the calls of the replacer (no invariant assumed) -/

/-- The first loop of `EvictInstance` changes no flag that is there. -/
theorem scanNew_keeps (l : List Int) : ∀ (ev : List (Int × Bool)) (g : Int) (b : Bool),
    ufind ev g = some b → ufind (scanNew ev l).1 g = some b := by
  induction l with
  | nil => intro ev g b h; exact h
  | cons a l ih =>
    intro ev g b h
    cases ha : ufind ev a with
    | none =>
      simp only [scanNew, ha]
      apply ih
      rw [ufind_uset]
      by_cases hg : a = g
      · subst hg; rw [ha] at h; exact Option.noConfusion h
      · simp [hg, h]
    | some c =>
      cases c with
      | true => simp only [scanNew, ha]; exact h
      | false => simp only [scanNew, ha]; exact ih ev g b h

/-- The second loop of `EvictInstance` changes no flag that is there. -/
theorem scanCache_keeps (l : List (Int × Nat)) : ∀ (ev : List (Int × Bool)) (g : Int) (b : Bool),
    ufind ev g = some b → ufind (scanCache ev l).1 g = some b := by
  induction l with
  | nil => intro ev g b h; exact h
  | cons a l ih =>
    intro ev g b h
    cases ha : ufind ev a.1 with
    | none =>
      simp only [scanCache, ha]
      apply ih
      rw [ufind_uset]
      by_cases hg : a.1 = g
      · rw [hg] at ha; rw [ha] at h; exact Option.noConfusion h
      · simp [hg, h]
    | some c =>
      cases c with
      | true => simp only [scanCache, ha]; exact h
      | false => simp only [scanCache, ha]; exact ih ev g b h

/-- `EvictInstance` keeps `replacer_size_`, removes the access count of the victim only, and
keeps the flag of every frame but the victim. -/
theorem EvictInstance_keeps (r : LRUKReplacer) :
    r.EvictInstance.1.replacer_size_ = r.replacer_size_ ∧
    (∀ g, r.EvictInstance.2 = some g → ufind r.EvictInstance.1.frame_k_ g = none) ∧
    (∀ g, r.EvictInstance.2 ≠ some g →
      ufind r.EvictInstance.1.frame_k_ g = ufind r.frame_k_ g) ∧
    (∀ g b, ufind r.frame_evictable_ g = some b → r.EvictInstance.2 ≠ some g →
      ufind r.EvictInstance.1.frame_evictable_ g = some b) := by
  unfold LRUKReplacer.EvictInstance
  by_cases h0 : r.curr_size_ = 0
  · simp only [h0, if_true]
    exact ⟨trivial, fun g hg => Option.noConfusion hg, fun g _ => trivial, fun g b h _ => h⟩
  · simp only [h0, if_false]
    have n1 := scanNew_keeps r.new_frame_.reverse r.frame_evictable_
    cases hs : scanNew r.frame_evictable_ r.new_frame_.reverse with
    | mk ev res =>
      rw [hs] at n1
      cases res with
      | some f =>
        simp only
        refine ⟨trivial, ?_, ?_, ?_⟩
        · intro g hg
          rw [Option.some.inj hg]
          exact ufind_uerase_same _ _
        · intro g hne
          have hfg : f ≠ g := fun e => hne (by rw [e])
          exact ufind_uerase_ne _ hfg
        · intro g b hg hne
          have hfg : f ≠ g := fun e => hne (by rw [e])
          rw [ufind_uerase_ne _ hfg]
          exact n1 g b hg
      | none =>
        simp only
        have c1 := scanCache_keeps r.cache_frame_ ev
        cases hc : scanCache ev r.cache_frame_ with
        | mk ev2 res2 =>
          rw [hc] at c1
          cases res2 with
          | some e =>
            simp only
            refine ⟨trivial, ?_, ?_, ?_⟩
            · intro g hg
              rw [Option.some.inj hg]
              exact ufind_uerase_same _ _
            · intro g hne
              have hfg : e.1 ≠ g := fun e' => hne (by rw [e'])
              exact ufind_uerase_ne _ hfg
            · intro g b hg hne
              have hfg : e.1 ≠ g := fun e' => hne (by rw [e'])
              rw [ufind_uerase_ne _ hfg]
              exact c1 g b (n1 g b hg)
          | none =>
            simp only
            exact ⟨trivial, fun g hg => Option.noConfusion hg, fun g _ => trivial,
              fun g b hg _ => c1 g b (n1 g b hg)⟩

/-- `EvictInstance` keeps a flag that is not set. -/
theorem EvictInstance_keeps_false (r : LRUKReplacer) {g : Int}
    (h : ufind r.frame_evictable_ g = some false) :
    ufind r.EvictInstance.1.frame_evictable_ g = some false := by
  apply (EvictInstance_keeps r).2.2.2 g false h
  intro hv
  have := (EvictInstance_flags r).2.1 g hv
  rw [h] at this
  exact Bool.noConfusion (Option.some.inj this)

/-- `EvictInstance` keeps every counted frame tracked. -/
theorem EvictInstance_counted {r : LRUKReplacer} (h : r.Counted) :
    r.EvictInstance.1.Counted := by
  intro g hg
  by_cases hv : r.EvictInstance.2 = some g
  · exact absurd ((EvictInstance_keeps r).2.1 g hv) hg
  · rw [(EvictInstance_keeps r).2.2.1 g hv] at hg
    have hf := h g hg
    obtain ⟨b, hb⟩ := Option.ne_none_iff_exists'.1 hf
    rw [(EvictInstance_keeps r).2.2.2 g b hb hv]
    exact Option.some_ne_none b

/-- `SetEvictable` keeps every counted frame tracked. -/
theorem SetEvictable_counted {r : LRUKReplacer} (h : r.Counted) (f : Int) (b : Bool) :
    (r.SetEvictable f b).Counted := by
  have hk : (r.SetEvictable f b).frame_k_ = r.frame_k_ := by
    unfold LRUKReplacer.SetEvictable
    split
    · rfl
    · split
      · rfl
      · split <;> rfl
  intro g hg
  rw [hk] at hg
  rw [SetEvictable_flags]
  split
  · exact Option.some_ne_none b
  · exact h g hg

/-- `Remove` keeps every counted frame tracked and keeps a flag that is not set. -/
theorem Remove_counted {r : LRUKReplacer} (h : r.Counted) (x : Int) :
    (r.Remove x).Counted ∧
      ∀ g, ufind r.frame_evictable_ g = some false →
        ufind (r.Remove x).frame_evictable_ g = some false := by
  unfold LRUKReplacer.Remove
  cases hx : ufind r.frame_evictable_ x with
  | none => exact ⟨h, fun g hg => hg⟩
  | some b =>
    cases b with
    | false => exact ⟨h, fun g hg => hg⟩
    | true =>
      simp only
      have key : ∀ r2 : LRUKReplacer, r2.frame_evictable_ = uerase r.frame_evictable_ x →
          r2.frame_k_ = uerase r.frame_k_ x →
          r2.Counted ∧ ∀ g, ufind r.frame_evictable_ g = some false →
            ufind r2.frame_evictable_ g = some false := by
        intro r2 h2 h3
        constructor
        · intro g hg
          rw [h3, ufind_uerase] at hg
          rw [h2, ufind_uerase]
          by_cases hxg : x = g
          · rw [if_pos hxg] at hg; exact absurd rfl hg
          · rw [if_neg hxg] at hg ⊢
            exact h g hg
        · intro g hg
          have hxg : x ≠ g := by
            intro e
            rw [e, hg] at hx
            exact Bool.noConfusion (Option.some.inj hx)
          rw [h2, ufind_uerase_ne _ hxg]
          exact hg
      split
      · exact key _ rfl rfl
      · split
        · exact key _ rfl rfl
        · exact key _ rfl rfl

/-- The access counts of the other frames after the first statements of `RecordAccess`. -/
theorem stamped_count_other (r : LRUKReplacer) (f : Int) {x : Int} (hx : x ≠ f) :
    ufind (r.stamped f).frame_k_ x = ufind r.frame_k_ x := by
  show ufind (uset _ f _) x = _
  rw [ufind_uset_ne _ _ (Ne.symm hx)]
  cases ufind r.frame_k_ f with
  | none => exact ufind_uset_ne _ _ (Ne.symm hx)
  | some _ => rfl

/-- The access count that `RecordAccess` computes is 1 for a frame without a count. -/
theorem countAfter_of_uncounted (r : LRUKReplacer) (f : Int) (h : ufind r.frame_k_ f = none) :
    r.countAfter f = 1 := by
  unfold LRUKReplacer.countAfter
  rw [h]
  simp only [ufind_uset_same, Option.getD_some]
  decide

/-- The branch `cnt == 1` of `RecordAccess`. -/
theorem RecordAccess_first {r : LRUKReplacer} {f : Int} (h : r.countAfter f = 1) :
    r.RecordAccess f = some (LRUKReplacer.enterNew
      (if (r.stamped f).curr_size_ = (r.stamped f).replacer_size_ then
        (r.stamped f).EvictInstance.1
      else r.stamped f) f) := by
  unfold LRUKReplacer.RecordAccess
  simp only
  split
  · rfl
  · next hn => exact absurd h hn

/-- The branches of `RecordAccess` other than `cnt == 1`: the flags, the sizes and the list
`new_frame_` up to the removal of the frame are as before. -/
theorem RecordAccess_later {r r' : LRUKReplacer} {f : Int} (h : r.countAfter f ≠ 1)
    (hr : r.RecordAccess f = some r') :
    r'.frame_evictable_ = r.frame_evictable_ ∧ r'.replacer_size_ = r.replacer_size_ ∧
      r'.curr_size_ = r.curr_size_ ∧ r'.frame_k_ = (r.stamped f).frame_k_ ∧
      r'.k_ = r.k_ ∧ r'.current_timestamp_ = szInc r.current_timestamp_ := by
  unfold LRUKReplacer.RecordAccess at hr
  simp only at hr
  split at hr
  · next hp => exact absurd hp h
  · split at hr
    · split at hr
      · exact Option.noConfusion hr
      · simp only [Option.some.injEq] at hr
        subst hr
        exact ⟨rfl, rfl, rfl, rfl, rfl, rfl⟩
    · split at hr
      · split at hr
        · exact Option.noConfusion hr
        · split at hr
          · exact Option.noConfusion hr
          · simp only [Option.some.injEq] at hr
            subst hr
            exact ⟨rfl, rfl, rfl, rfl, rfl, rfl⟩
      · simp only [Option.some.injEq] at hr
        subst hr
        exact ⟨rfl, rfl, rfl, rfl, rfl, rfl⟩

/-- `RecordAccess` keeps every counted frame tracked, leaves the accessed frame tracked,
keeps `replacer_size_`, and keeps a flag of another frame that is not set. -/
theorem RecordAccess_counted {r r' : LRUKReplacer} {f : Int} (hc : r.Counted)
    (h : r.RecordAccess f = some r') :
    r'.Counted ∧ ufind r'.frame_evictable_ f ≠ none ∧
      r'.replacer_size_ = r.replacer_size_ ∧
      ∀ g, g ≠ f → ufind r.frame_evictable_ g = some false →
        ufind r'.frame_evictable_ g = some false := by
  by_cases hcnt : r.countAfter f = 1
  · rw [RecordAccess_first hcnt, Option.some.injEq] at h
    subst h
    -- the state before the frame enters `new_frame_`
    have key : ∀ r2 : LRUKReplacer, r2.replacer_size_ = r.replacer_size_ →
        (∀ x, x ≠ f → ufind r2.frame_k_ x ≠ none → ufind r2.frame_evictable_ x ≠ none) →
        (∀ g, ufind r.frame_evictable_ g = some false →
          ufind r2.frame_evictable_ g = some false) →
        (LRUKReplacer.enterNew r2 f).Counted ∧
          ufind (LRUKReplacer.enterNew r2 f).frame_evictable_ f ≠ none ∧
          (LRUKReplacer.enterNew r2 f).replacer_size_ = r.replacer_size_ ∧
          ∀ g, g ≠ f → ufind r.frame_evictable_ g = some false →
            ufind (LRUKReplacer.enterNew r2 f).frame_evictable_ g = some false := by
      intro r2 h1 h2 h3
      refine ⟨?_, ?_, h1, ?_⟩
      · intro x hx
        show ufind (uset r2.frame_evictable_ f true) x ≠ none
        rw [ufind_uset]
        by_cases hxf : f = x
        · rw [if_pos hxf]; exact Option.some_ne_none _
        · rw [if_neg hxf]
          exact h2 x (Ne.symm hxf) hx
      · show ufind (uset r2.frame_evictable_ f true) f ≠ none
        rw [ufind_uset_same]
        exact Option.some_ne_none _
      · intro g hg hfalse
        show ufind (uset r2.frame_evictable_ f true) g = some false
        rw [ufind_uset_ne _ _ (Ne.symm hg)]
        exact h3 g hfalse
    have hst : ∀ x, x ≠ f → ufind (r.stamped f).frame_k_ x ≠ none →
        ufind (r.stamped f).frame_evictable_ x ≠ none := by
      intro x hxf hx
      rw [stamped_count_other r f hxf] at hx
      exact hc x hx
    split
    · refine key _ (EvictInstance_keeps _).1 ?_ (fun g hg => EvictInstance_keeps_false _ hg)
      intro x hxf hx
      by_cases hv : (r.stamped f).EvictInstance.2 = some x
      · exact absurd ((EvictInstance_keeps _).2.1 x hv) hx
      · rw [(EvictInstance_keeps _).2.2.1 x hv] at hx
        obtain ⟨b, hb⟩ := Option.ne_none_iff_exists'.1 (hst x hxf hx)
        rw [(EvictInstance_keeps _).2.2.2 x b hb hv]
        exact Option.some_ne_none b
    · exact key _ rfl hst (fun g hg => hg)
  · obtain ⟨a1, a2, _, a4, _⟩ := RecordAccess_later hcnt h
    have hf : ufind r.frame_k_ f ≠ none := fun e => hcnt (countAfter_of_uncounted r f e)
    refine ⟨?_, by rw [a1]; exact hc f hf, a2, fun g _ hg => by rw [a1]; exact hg⟩
    intro x hx
    rw [a1]
    by_cases hxf : x = f
    · rw [hxf]; exact hc f hf
    · rw [a4, stamped_count_other r f hxf] at hx
      exact hc x hx

end bustub

namespace bustub

/-! ## The two sizes of the replacer -/

theorem falseCount_cons (e : Int × Bool) (m : List (Int × Bool)) :
    falseCount (e :: m) = (if e.2 then 0 else 1) + falseCount m := by
  unfold falseCount
  cases h : e.2 <;> simp [List.filter_cons, h]
  omega

theorem falseCount_uerase {m : List (Int × Bool)} (hn : (m.map Prod.fst).Nodup) (k : Int) :
    falseCount (uerase m k) + (if ufind m k = some false then 1 else 0) = falseCount m := by
  induction m with
  | nil => simp [uerase, falseCount]
  | cons e m ih =>
    obtain ⟨a, b⟩ := e
    simp only [List.map_cons, List.nodup_cons] at hn
    by_cases h : a = k
    · subst h
      have hem : uerase m a = m := by
        rw [uerase_eq_filter, List.filter_eq_self]
        intro e he
        have : e.1 ≠ a := fun hea => hn.1 (hea ▸ List.mem_map.2 ⟨e, he, rfl⟩)
        simpa using this
      simp only [uerase, if_true, ufind, falseCount_cons, hem]
      cases b
      · simp; omega
      · simp
    · have h2 := ih hn.2
      simp only [uerase, h, if_false, ufind, falseCount_cons]
      omega

theorem szInc_add_mod (x y : Nat) : (szInc x + y) % SIZE_MOD = (x + 1 + y) % SIZE_MOD := by
  unfold szInc
  split
  · next h => rw [h, Nat.zero_add, Nat.add_mod_left]
  · rfl

theorem szDec_add_mod (x y : Nat) :
    (szDec x + (y + 1)) % SIZE_MOD = (x + y) % SIZE_MOD := by
  unfold szDec
  have hpos : 0 < SIZE_MOD := by unfold SIZE_MOD; positivity
  split
  · next h =>
    rw [h, Nat.zero_add]
    have : SIZE_MOD - 1 + (y + 1) = y + SIZE_MOD := by omega
    rw [this, Nat.add_mod_right]
  · next h =>
    have : x - 1 + (y + 1) = x + y := by omega
    rw [this]

namespace SizeInv

variable {N : Nat} {r r' : LRUKReplacer}

/-- The sizes after an evictable frame has been erased. -/
theorem erase (h : SizeInv N r) {v : Int} (hv : ufind r.frame_evictable_ v = some true)
    (hfe : r'.frame_evictable_ = uerase r.frame_evictable_ v)
    (hcurr : r'.curr_size_ = szDec r.curr_size_)
    (hrs : r'.replacer_size_ = r.replacer_size_) : SizeInv N r' := by
  have h1 := evCount_uerase h.evNodup v
  have h2 := falseCount_uerase h.evNodup v
  rw [hv] at h1 h2
  simp only [if_true] at h1
  have h3 : falseCount (uerase r.frame_evictable_ v) = falseCount r.frame_evictable_ := by
    simpa using h2
  refine ⟨by rw [hfe]; exact uerase_keys_nodup h.evNodup v, ?_, ?_⟩
  · rw [hcurr, hfe, h.size, ← h1, szDec_succ]
  · rw [hrs, hfe, h3]
    exact h.cap

/-- The sizes after `EvictInstance`. -/
theorem evict_sizes (h : SizeInv N r)
    (hn : ∀ f ∈ r.new_frame_, ufind r.frame_evictable_ f ≠ none)
    (hc : ∀ e ∈ r.cache_frame_, ufind r.frame_evictable_ e.1 ≠ none) :
    SizeInv N r.EvictInstance.1 := by
  rcases EvictInstance_cases r hn hc with ⟨e, _⟩ | ⟨_, f, l1, l2, _, e, hf, _⟩ |
    ⟨_, _, e0, l1, l2, _, e, hf, _⟩
  · rw [e]; exact h
  · rw [e]; exact h.erase hf rfl rfl rfl
  · rw [e]; exact h.erase hf rfl rfl rfl

/-- The sizes after an untracked frame has entered `new_frame_`. -/
theorem enter (h : SizeInv N r) {f : Int} (hf : ufind r.frame_evictable_ f = none)
    (hlen : r.frame_evictable_.length + 1 < SIZE_MOD) :
    SizeInv N (LRUKReplacer.enterNew r f) := by
  have h1 := evCount_uerase h.evNodup f
  have h2 := falseCount_uerase h.evNodup f
  rw [hf] at h1 h2
  simp only [Option.some.injEq, Bool.true_eq_false, Bool.false_eq_true, if_false,
    Nat.add_zero, reduceCtorEq] at h1 h2
  refine ⟨uset_keys_nodup h.evNodup f true, ?_, ?_⟩
  · show szInc r.curr_size_ = evCount (uset r.frame_evictable_ f true)
    have hb : evCount r.frame_evictable_ + 1 < SIZE_MOD :=
      lt_of_le_of_lt (Nat.succ_le_succ (evCount_le_length _)) hlen
    rw [uset, evCount_cons, h1, h.size, szInc_eq hb]
    simp only [if_true]
    omega
  · show (r.replacer_size_ + falseCount (uset r.frame_evictable_ f true)) % SIZE_MOD = _
    rw [uset, falseCount_cons, h2]
    simp only [if_true, Nat.zero_add]
    exact h.cap

/-- The sizes after `SetEvictable`. -/
theorem set_evictable (h : SizeInv N r) (hlen : r.frame_evictable_.length + 1 < SIZE_MOD)
    (f : Int) (b : Bool) : SizeInv N (r.SetEvictable f b) := by
  unfold LRUKReplacer.SetEvictable
  cases hf : ufind r.frame_evictable_ f with
  | none => exact h
  | some b0 =>
    simp only
    by_cases hb : b0 = b
    · rw [if_pos hb]; exact h
    · rw [if_neg hb]
      have h1 := evCount_uerase h.evNodup f
      have h2 := falseCount_uerase h.evNodup f
      rw [hf] at h1 h2
      have hb1 : evCount r.frame_evictable_ + 1 < SIZE_MOD :=
        lt_of_le_of_lt (Nat.succ_le_succ (evCount_le_length _)) hlen
      cases b with
      | true =>
        have hb0 : b0 = false := by cases b0 <;> simp_all
        subst hb0
        simp only [Option.some.injEq, Bool.false_eq_true, if_false, Nat.add_zero,
          if_true, reduceCtorEq] at h1 h2
        simp only [if_true]
        refine ⟨uset_keys_nodup h.evNodup f true, ?_, ?_⟩
        · show szInc r.curr_size_ = evCount (uset r.frame_evictable_ f true)
          rw [uset, evCount_cons, h1, h.size, szInc_eq hb1]
          simp only [if_true]
          omega
        · show (szInc r.replacer_size_ + falseCount (uset r.frame_evictable_ f true))
            % SIZE_MOD = _
          rw [uset, falseCount_cons, szInc_add_mod]
          simp only [if_true, Nat.zero_add]
          rw [← h.cap, ← h2]
          congr 1
          omega
      | false =>
        have hb0 : b0 = true := by cases b0 <;> simp_all
        subst hb0
        simp only [Option.some.injEq, Bool.true_eq_false, if_false, Nat.add_zero,
          if_true, reduceCtorEq] at h1 h2
        simp only [Bool.false_eq_true, if_false]
        refine ⟨uset_keys_nodup h.evNodup f false, ?_, ?_⟩
        · show szDec r.curr_size_ = evCount (uset r.frame_evictable_ f false)
          rw [uset, evCount_cons, h.size, ← h1, szDec_succ]
          simp
        · show (szDec r.replacer_size_ + falseCount (uset r.frame_evictable_ f false))
            % SIZE_MOD = _
          rw [uset, falseCount_cons]
          simp only [Bool.false_eq_true, if_false]
          rw [Nat.add_comm 1, szDec_add_mod, h2]
          exact h.cap

/-- The sizes after `Remove`. -/
theorem remove_sizes (h : SizeInv N r) (x : Int) : SizeInv N (r.Remove x) := by
  unfold LRUKReplacer.Remove
  cases hx : ufind r.frame_evictable_ x with
  | none => exact h
  | some b =>
    cases b with
    | false => exact h
    | true =>
      simp only
      split
      · exact h.erase hx rfl rfl rfl
      · split
        · exact h.erase hx rfl rfl rfl
        · exact h.erase hx rfl rfl rfl

/-- The sizes after `RecordAccess`, when the frames of the two lists are tracked and only an
untracked frame is given the access count 1. -/
theorem record_access (h : SizeInv N r)
    (hn : ∀ f ∈ r.new_frame_, ufind r.frame_evictable_ f ≠ none)
    (hc : ∀ e ∈ r.cache_frame_, ufind r.frame_evictable_ e.1 ≠ none)
    (hK : ∀ f, ufind r.frame_evictable_ f ≠ none → r.countAfter f ≠ 1)
    (hlen : r.frame_evictable_.length + 1 < SIZE_MOD) {f : Int}
    (hr : r.RecordAccess f = some r') : SizeInv N r' := by
  by_cases hcnt : r.countAfter f = 1
  · rw [RecordAccess_first hcnt, Option.some.injEq] at hr
    subst hr
    have hf : ufind r.frame_evictable_ f = none := by
      by_contra hne
      exact hK f hne hcnt
    have hst : SizeInv N (r.stamped f) := ⟨h.evNodup, h.size, h.cap⟩
    split
    · have h2 := hst.evict_sizes hn hc
      refine h2.enter ?_ ?_
      · by_contra hne
        obtain ⟨b, hb⟩ := Option.ne_none_iff_exists'.1 hne
        cases b with
        | true =>
          have := ((EvictInstance_flags (r.stamped f)).1 f hb).1
          rw [show (r.stamped f).frame_evictable_ = r.frame_evictable_ from rfl, hf] at this
          exact Option.noConfusion this
        | false =>
          rcases EvictInstance_cases (r.stamped f) hn hc with ⟨e, _⟩ |
            ⟨_, v, l1, l2, _, e, hv, _⟩ | ⟨_, _, e0, l1, l2, _, e, hv, _⟩
          · rw [e] at hb
            rw [show (r.stamped f).frame_evictable_ = r.frame_evictable_ from rfl, hf] at hb
            exact Option.noConfusion hb
          · rw [e] at hb
            have hb' : ufind (uerase r.frame_evictable_ v) f = some false := hb
            rw [ufind_uerase] at hb'
            split at hb'
            · exact Option.noConfusion hb'
            · rw [hf] at hb'; exact Option.noConfusion hb'
          · rw [e] at hb
            have hb' : ufind (uerase r.frame_evictable_ e0.1) f = some false := hb
            rw [ufind_uerase] at hb'
            split at hb'
            · exact Option.noConfusion hb'
            · rw [hf] at hb'; exact Option.noConfusion hb'
      · rcases EvictInstance_cases (r.stamped f) hn hc with ⟨e, _⟩ |
          ⟨_, v, l1, l2, _, e, hv, _⟩ | ⟨_, _, e0, l1, l2, _, e, hv, _⟩
        · rw [e]; exact hlen
        · rw [e]
          exact lt_of_le_of_lt (Nat.succ_le_succ (length_uerase_le r.frame_evictable_ v)) hlen
        · rw [e]
          exact lt_of_le_of_lt
            (Nat.succ_le_succ (length_uerase_le r.frame_evictable_ e0.1)) hlen
    · exact hst.enter hf hlen
  · obtain ⟨a1, a2, a3, _⟩ := RecordAccess_later hcnt hr
    exact ⟨by rw [a1]; exact h.evNodup, by rw [a3, a1]; exact h.size,
      by rw [a2, a1]; exact h.cap⟩

end SizeInv

end bustub

namespace bustub

/-! ## The replacer with `k ≤ 1` -/

/-- With `k ≤ 1` and no entry in `cache_frame_umap_`, the access that gives a frame the count
2 has no defined behaviour. -/
theorem RecordAccess_second {r : LRUKReplacer} {f : Int} (hcnt : r.countAfter f = 2)
    (hk : r.k_ ≤ 1) (hu : r.cache_frame_umap_ = []) : r.RecordAccess f = none := by
  unfold LRUKReplacer.RecordAccess
  simp only
  split
  · next h1 =>
    have : r.countAfter f = 1 := h1
    omega
  · split
    · next h2 =>
      have : r.countAfter f = r.k_ := h2
      omega
    · split
      · rw [hu]
        rfl
      · next h3 =>
        exfalso
        apply h3
        show r.k_ < r.countAfter f
        omega

/-- The length of the flags after an assignment. -/
theorem length_uset_le {κ α : Type} [DecidableEq κ] (m : List (κ × α)) (k : κ) (v : α) :
    (uset m k v).length ≤ m.length + 1 := by
  simp only [uset, List.length_cons]
  exact Nat.succ_le_succ (length_uerase_le m k)

theorem length_uset_of_mem {κ α : Type} [DecidableEq κ] {m : List (κ × α)} {k : κ} {v0 : α}
    (h : ufind m k = some v0) (v : α) : (uset m k v).length ≤ m.length := by
  simp only [uset, List.length_cons]
  exact length_uerase_lt h

namespace LruInv

variable {r r' : LRUKReplacer}

/-- The invariant after a tracked frame has been erased from the maps and from
`new_frame_`. -/
theorem erase_lru (h : LruInv r) {v : Int} (hk : r'.k_ = r.k_)
    (hts : r'.current_timestamp_ = r.current_timestamp_)
    (hfe : r'.frame_evictable_ = uerase r.frame_evictable_ v)
    (hfk : r'.frame_k_ = uerase r.frame_k_ v)
    (hnew : ∀ f ∈ r'.new_frame_, f ∈ r.new_frame_ ∧ f ≠ v)
    (hcache : r'.cache_frame_ = []) (hu : r'.cache_frame_umap_ = []) : LruInv r' := by
  refine ⟨by rw [hk]; exact h.hk, hcache, hu, ?_, ?_, ?_, ?_⟩
  · intro x hx
    rw [hfk, ufind_uerase] at hx
    rw [hfe, ufind_uerase]
    by_cases hvx : v = x
    · rw [if_pos hvx] at hx; exact absurd rfl hx
    · rw [if_neg hvx] at hx ⊢
      exact h.counted x hx
  · intro x hx
    obtain ⟨a1, a2⟩ := hnew x hx
    rw [hfe, ufind_uerase_ne _ (Ne.symm a2)]
    exact h.members x a1
  · intro x hx
    rw [hfe, ufind_uerase] at hx
    rw [hfk, ufind_uerase]
    by_cases hvx : v = x
    · rw [if_pos hvx] at hx; exact absurd rfl hx
    · rw [if_neg hvx] at hx ⊢
      exact h.once x hx
  · rw [hfe, hts]
    exact le_trans (length_uerase_le _ _) h.szb

/-- `EvictInstance` keeps the invariant. -/
theorem evict_lru (h : LruInv r) : LruInv r.EvictInstance.1 := by
  have hc : ∀ e ∈ r.cache_frame_, ufind r.frame_evictable_ e.1 ≠ none := by
    rw [h.cache]; intro e he; exact absurd he (List.not_mem_nil _)
  rcases EvictInstance_cases r h.members hc with ⟨e, _⟩ | ⟨_, f, l1, l2, _, e, _, _⟩ |
    ⟨_, _, e0, l1, l2, hl, _⟩
  · rw [e]; exact h
  · rw [e]
    refine h.erase_lru rfl rfl rfl rfl ?_ h.cache h.umap
    intro x hx
    have hx' : x ∈ r.new_frame_.filter (fun g => g ≠ f) := hx
    rw [List.mem_filter] at hx'
    exact ⟨hx'.1, by simpa using hx'.2⟩
  · rw [h.cache] at hl
    exact absurd hl (by simp)

/-- `Remove` keeps the invariant. -/
theorem remove_lru (h : LruInv r) (x : Int) : LruInv (r.Remove x) := by
  unfold LRUKReplacer.Remove
  cases hx : ufind r.frame_evictable_ x with
  | none => exact h
  | some b =>
    cases b with
    | false => exact h
    | true =>
      simp only
      split
      · refine h.erase_lru rfl rfl rfl rfl ?_ h.cache h.umap
        intro y hy
        have hy' : y ∈ r.new_frame_.filter (fun g => g ≠ x) := hy
        rw [List.mem_filter] at hy'
        exact ⟨hy'.1, by simpa using hy'.2⟩
      · next hmem =>
        split
        · next e he =>
          exfalso
          simp only [h.cache, List.find?_nil] at he
          exact Option.noConfusion he
        · refine h.erase_lru rfl rfl rfl rfl ?_ h.cache h.umap
          intro y hy
          exact ⟨hy, fun e => hmem (e ▸ hy)⟩

/-- `SetEvictable` keeps the invariant. -/
theorem set_lru (h : LruInv r) (f : Int) (b : Bool) : LruInv (r.SetEvictable f b) := by
  have hflags := SetEvictable_flags r f b
  have hrest : (r.SetEvictable f b).k_ = r.k_ ∧
      (r.SetEvictable f b).cache_frame_ = r.cache_frame_ ∧
      (r.SetEvictable f b).cache_frame_umap_ = r.cache_frame_umap_ ∧
      (r.SetEvictable f b).new_frame_ = r.new_frame_ ∧
      (r.SetEvictable f b).frame_k_ = r.frame_k_ ∧
      (r.SetEvictable f b).current_timestamp_ = r.current_timestamp_ ∧
      (r.SetEvictable f b).frame_evictable_.length ≤ r.frame_evictable_.length := by
    unfold LRUKReplacer.SetEvictable
    cases hf : ufind r.frame_evictable_ f with
    | none => exact ⟨rfl, rfl, rfl, rfl, rfl, rfl, le_refl _⟩
    | some b0 =>
      simp only
      split
      · exact ⟨rfl, rfl, rfl, rfl, rfl, rfl, le_refl _⟩
      · split
        · exact ⟨rfl, rfl, rfl, rfl, rfl, rfl, length_uset_of_mem hf _⟩
        · exact ⟨rfl, rfl, rfl, rfl, rfl, rfl, length_uset_of_mem hf _⟩
  obtain ⟨a1, a2, a3, a4, a5, a6, a7⟩ := hrest
  have htr : ∀ x, ufind (r.SetEvictable f b).frame_evictable_ x ≠ none ↔
      ufind r.frame_evictable_ x ≠ none := by
    intro x
    rw [hflags x]
    split
    · next hc =>
      rw [← hc.1]
      exact ⟨fun _ => hc.2, fun _ => Option.some_ne_none _⟩
    · exact Iff.rfl
  refine ⟨by rw [a1]; exact h.hk, by rw [a2]; exact h.cache, by rw [a3]; exact h.umap,
    ?_, ?_, ?_, ?_⟩
  · intro x hx
    rw [a5] at hx
    exact (htr x).2 (h.counted x hx)
  · intro x hx
    rw [a4] at hx
    exact (htr x).2 (h.members x hx)
  · intro x hx
    rw [a5]
    exact h.once x ((htr x).1 hx)
  · rw [a6]
    exact le_trans a7 h.szb

/-- `RecordAccess` that returns keeps the invariant: it is the first access of an untracked
frame. -/
theorem record_lru (h : LruInv r) (hts : r.current_timestamp_ + 1 < SIZE_MOD) {f : Int}
    (hr : r.RecordAccess f = some r') :
    LruInv r' ∧ r'.current_timestamp_ = r.current_timestamp_ + 1 ∧
      ufind r.frame_evictable_ f = none := by
  have hf : ufind r.frame_evictable_ f = none := by
    by_contra hne
    have h1 := h.once f hne
    have hcnt : r.countAfter f = 2 := by
      unfold LRUKReplacer.countAfter
      rw [h1]
      simp only [h1, Option.getD_some]
      decide
    rw [RecordAccess_second hcnt h.hk h.umap] at hr
    exact Option.noConfusion hr
  have hfk : ufind r.frame_k_ f = none := by
    by_contra hne
    exact h.counted f hne hf
  have hcnt := countAfter_of_uncounted r f hfk
  rw [RecordAccess_first hcnt, Option.some.injEq] at hr
  subst hr
  -- the state before the frame enters `new_frame_`
  have key : ∀ r2 : LRUKReplacer, r2.k_ = r.k_ → r2.cache_frame_ = [] →
      r2.cache_frame_umap_ = [] → r2.current_timestamp_ = szInc r.current_timestamp_ →
      (∀ x, x ≠ f → ufind r2.frame_k_ x ≠ none → ufind r2.frame_evictable_ x ≠ none) →
      (∀ x ∈ r2.new_frame_, ufind r2.frame_evictable_ x ≠ none) →
      (∀ x, x ≠ f → ufind r2.frame_evictable_ x ≠ none → ufind r2.frame_k_ x = some 1) →
      ufind r2.frame_k_ f = some 1 →
      r2.frame_evictable_.length ≤ r.frame_evictable_.length →
      LruInv (LRUKReplacer.enterNew r2 f) ∧
        (LRUKReplacer.enterNew r2 f).current_timestamp_ = r.current_timestamp_ + 1 ∧
        ufind r.frame_evictable_ f = none := by
    intro r2 c1 c2 c3 c4 c5 c6 c7 c8 c9
    refine ⟨⟨by show r2.k_ ≤ 1; rw [c1]; exact h.hk, c2, c3, ?_, ?_, ?_, ?_⟩,
      by show r2.current_timestamp_ = _; rw [c4, szInc_eq hts], hf⟩
    · intro x hx
      show ufind (uset r2.frame_evictable_ f true) x ≠ none
      rw [ufind_uset]
      by_cases hxf : f = x
      · rw [if_pos hxf]; exact Option.some_ne_none _
      · rw [if_neg hxf]; exact c5 x (Ne.symm hxf) hx
    · intro x hx
      show ufind (uset r2.frame_evictable_ f true) x ≠ none
      rw [ufind_uset]
      by_cases hxf : f = x
      · rw [if_pos hxf]; exact Option.some_ne_none _
      · rw [if_neg hxf]
        have hx' : x ∈ f :: r2.new_frame_ := hx
        rcases List.mem_cons.1 hx' with e | e
        · exact absurd e.symm hxf
        · exact c6 x e
    · intro x hx
      show ufind r2.frame_k_ x = some 1
      by_cases hxf : x = f
      · rw [hxf]; exact c8
      · have hx' : ufind (uset r2.frame_evictable_ f true) x ≠ none := hx
        rw [ufind_uset_ne _ _ (Ne.symm hxf)] at hx'
        exact c7 x hxf hx'
    · show (uset r2.frame_evictable_ f true).length ≤ r2.current_timestamp_
      rw [c4, szInc_eq hts]
      exact le_trans (length_uset_le _ _ _) (Nat.succ_le_succ (le_trans c9 h.szb))
  have hstf : ufind (r.stamped f).frame_k_ f = some 1 := by
    show ufind (uset _ f (r.countAfter f)) f = some 1
    rw [ufind_uset_same, hcnt]
  have hn : ∀ x ∈ (r.stamped f).new_frame_, ufind (r.stamped f).frame_evictable_ x ≠ none :=
    h.members
  have hc : ∀ e ∈ (r.stamped f).cache_frame_,
      ufind (r.stamped f).frame_evictable_ e.1 ≠ none := by
    intro e he
    have he' : e ∈ r.cache_frame_ := he
    rw [h.cache] at he'
    exact absurd he' (List.not_mem_nil _)
  split
  · rcases EvictInstance_cases (r.stamped f) hn hc with ⟨e, _⟩ |
      ⟨_, v, l1, l2, _, e, hv, _⟩ | ⟨_, _, e0, l1, l2, hl, _⟩
    · rw [e]
      refine key _ rfl h.cache h.umap rfl ?_ h.members ?_ hstf (le_refl _)
      · intro x hxf hx
        rw [stamped_count_other r f hxf] at hx
        exact h.counted x hx
      · intro x hxf hx
        rw [stamped_count_other r f hxf]
        exact h.once x hx
    · rw [e]
      have hvf : v ≠ f := by
        intro e'
        rw [e'] at hv
        have hv' : ufind r.frame_evictable_ f = some true := hv
        rw [hf] at hv'
        exact Option.noConfusion hv'
      refine key _ rfl h.cache h.umap rfl ?_ ?_ ?_ ?_ (length_uerase_le _ _)
      · intro x hxf hx
        have hx' : ufind (uerase (r.stamped f).frame_k_ v) x ≠ none := hx
        show ufind (uerase r.frame_evictable_ v) x ≠ none
        rw [ufind_uerase] at hx' ⊢
        by_cases hvx : v = x
        · rw [if_pos hvx] at hx'; exact absurd rfl hx'
        · rw [if_neg hvx] at hx' ⊢
          rw [stamped_count_other r f hxf] at hx'
          exact h.counted x hx'
      · intro x hx
        have hx' : x ∈ r.new_frame_.filter (fun g => g ≠ v) := hx
        rw [List.mem_filter] at hx'
        have hxv : x ≠ v := by simpa using hx'.2
        show ufind (uerase r.frame_evictable_ v) x ≠ none
        rw [ufind_uerase_ne _ (Ne.symm hxv)]
        exact h.members x hx'.1
      · intro x hxf hx
        have hx' : ufind (uerase r.frame_evictable_ v) x ≠ none := hx
        show ufind (uerase (r.stamped f).frame_k_ v) x = some 1
        rw [ufind_uerase] at hx' ⊢
        by_cases hvx : v = x
        · rw [if_pos hvx] at hx'; exact absurd rfl hx'
        · rw [if_neg hvx] at hx' ⊢
          rw [stamped_count_other r f hxf]
          exact h.once x hx'
      · show ufind (uerase (r.stamped f).frame_k_ v) f = some 1
        rw [ufind_uerase_ne _ hvf]
        exact hstf
    · have hl' : r.cache_frame_ = l1 ++ e0 :: l2 := hl
      rw [h.cache] at hl'
      exact absurd hl' (by simp)
  · refine key _ rfl h.cache h.umap rfl ?_ h.members ?_ hstf (le_refl _)
    · intro x hxf hx
      rw [stamped_count_other r f hxf] at hx
      exact h.counted x hx
    · intro x hxf hx
      rw [stamped_count_other r f hxf]
      exact h.once x hx

end LruInv

end bustub

namespace bustub

/-! ## The two sizes along a run of the replacer -/

/-- `RecordAccess` never changes `replacer_size_`. -/
theorem RecordAccess_replacer_size {r r' : LRUKReplacer} {f : Int}
    (h : r.RecordAccess f = some r') : r'.replacer_size_ = r.replacer_size_ := by
  by_cases hcnt : r.countAfter f = 1
  · rw [RecordAccess_first hcnt, Option.some.injEq] at h
    subst h
    show (if (r.stamped f).curr_size_ = (r.stamped f).replacer_size_ then
      (r.stamped f).EvictInstance.1 else r.stamped f).replacer_size_ = r.replacer_size_
    split
    · exact (EvictInstance_keeps (r.stamped f)).1
    · rfl
  · exact (RecordAccess_later hcnt h).2.1

/-- `Remove` never changes `replacer_size_`. -/
theorem Remove_replacer_size (r : LRUKReplacer) (x : Int) :
    (r.Remove x).replacer_size_ = r.replacer_size_ := by
  unfold LRUKReplacer.Remove
  cases hx : ufind r.frame_evictable_ x with
  | none => rfl
  | some b =>
    cases b with
    | false => rfl
    | true =>
      simp only
      split
      · rfl
      · split <;> rfl

theorem Remove_timestamp (r : LRUKReplacer) (x : Int) :
    (r.Remove x).current_timestamp_ = r.current_timestamp_ := by
  unfold LRUKReplacer.Remove
  cases hx : ufind r.frame_evictable_ x with
  | none => rfl
  | some b =>
    cases b with
    | false => rfl
    | true =>
      simp only
      split
      · rfl
      · split <;> rfl

theorem SetEvictable_timestamp (r : LRUKReplacer) (f : Int) (b : Bool) :
    (r.SetEvictable f b).current_timestamp_ = r.current_timestamp_ := by
  unfold LRUKReplacer.SetEvictable
  cases hf : ufind r.frame_evictable_ f with
  | none => rfl
  | some b0 =>
    simp only
    split
    · rfl
    · split <;> rfl

/-- The frames whose flag has the value `b`, without repetition. -/
theorem flagged_frames {m : List (Int × Bool)} (hn : (m.map Prod.fst).Nodup) (b : Bool) :
    ((m.filter (fun e => e.2 == b)).map Prod.fst).Nodup ∧
    (∀ f, f ∈ (m.filter (fun e => e.2 == b)).map Prod.fst ↔ ufind m f = some b) := by
  refine ⟨hn.sublist (List.Sublist.map _ (List.filter_sublist _)), ?_⟩
  intro f
  constructor
  · intro hf
    obtain ⟨e, he, hef⟩ := List.mem_map.1 hf
    rw [List.mem_filter] at he
    obtain ⟨a, c⟩ := e
    have hc : c = b := by simpa using he.2
    have ha : a = f := hef
    subst hc
    subst ha
    exact ufind_of_mem hn he.1
  · intro hf
    exact List.mem_map.2 ⟨(f, b), List.mem_filter.2 ⟨mem_of_ufind hf, by simp⟩, rfl⟩

theorem evCount_eq_flagged (m : List (Int × Bool)) :
    evCount m = ((m.filter (fun e => e.2 == true)).map Prod.fst).length := by
  unfold evCount
  rw [List.length_map]
  congr 2
  funext e
  cases e.2 <;> rfl

theorem falseCount_eq_flagged (m : List (Int × Bool)) :
    falseCount m = ((m.filter (fun e => e.2 == false)).map Prod.fst).length := by
  unfold falseCount
  rw [List.length_map]
  congr 2
  funext e
  cases e.2 <;> rfl

theorem SizeInv.new_sizes (N k : Nat) : SizeInv N (LRUKReplacer.new N k) :=
  { evNodup := List.nodup_nil
    size := rfl
    cap := by
      show (N % SIZE_MOD + 0) % SIZE_MOD = N % SIZE_MOD
      rw [Nat.add_zero, Nat.mod_mod] }

theorem LruInv.new_lru (N : Nat) {k : Nat} (hk : k ≤ 1) : LruInv (LRUKReplacer.new N k) :=
  { hk := le_trans (Nat.mod_le _ _) hk
    cache := rfl
    umap := rfl
    counted := fun _ hf => absurd rfl hf
    members := fun _ hf => absurd hf (List.not_mem_nil _)
    once := fun _ hf => absurd rfl hf
    szb := Nat.le_refl _ }

/-- With `k ≥ 2`, a tracked frame is never given the access count 1. -/
theorem ReplInv.count_tracked {k : Nat} {r : LRUKReplacer} {g : AccessLog} (h : ReplInv k r g)
    (hclk : g.clock + 1 < SIZE_MOD) (f : Int) (hf : ufind r.frame_evictable_ f ≠ none) :
    r.countAfter f ≠ 1 := by
  cases hb : ufind r.frame_evictable_ f with
  | none => exact absurd hb hf
  | some b =>
    obtain ⟨t1, _, t3, t4, _⟩ := h.trk f b hb
    have hpos : 0 < (g.log f).length := List.length_pos.2 t1
    unfold LRUKReplacer.countAfter
    simp only [t4, Option.getD_some]
    rw [szInc_eq (by omega)]
    omega

/-- With `k ≥ 2`, each call keeps the invariant of the sizes. -/
theorem ReplInv.step_sizes {k N : Nat} {r r' : LRUKReplacer} {g : AccessLog}
    (h : ReplInv k r g) (hs : SizeInv N r) (hclk : g.clock + 1 < SIZE_MOD)
    {op : ReplacerOp} (hr : r.apply op = some r') : SizeInv N r' := by
  have hlen : r.frame_evictable_.length + 1 < SIZE_MOD :=
    lt_of_le_of_lt (Nat.succ_le_succ h.szb) hclk
  cases op with
  | record_access f =>
    exact hs.record_access (fun f hf => h.tracked_of_mem_new hf)
      (fun e he => h.tracked_of_mem_cache he) (h.count_tracked hclk) hlen hr
  | set_evictable f b =>
    simp only [LRUKReplacer.apply, Option.some.injEq] at hr
    subst hr
    exact hs.set_evictable hlen f b
  | remove x =>
    simp only [LRUKReplacer.apply, Option.some.injEq] at hr
    subst hr
    exact hs.remove_sizes x
  | evict =>
    simp only [LRUKReplacer.apply, Option.some.injEq] at hr
    subst hr
    exact hs.evict_sizes (fun f hf => h.tracked_of_mem_new hf)
      (fun e he => h.tracked_of_mem_cache he)

/-- With `k ≥ 2`, a run keeps the invariant of the sizes. -/
theorem ReplInv.run_sizes {k N : Nat} (hk2 : 2 ≤ k) (ops : List ReplacerOp) :
    ∀ {r : LRUKReplacer} {g : AccessLog} {s : LRUKReplacer × AccessLog},
    ReplInv k r g → SizeInv N r → g.clock + ops.length < SIZE_MOD →
    bustub.runOps (r, g) ops = some s → SizeInv N s.1 := by
  induction ops with
  | nil =>
    intro r g s _ hs _ hrun
    simp only [bustub.runOps, Option.some.injEq] at hrun
    subst hrun
    exact hs
  | cons op ops ih =>
    intro r g s h hs hlen hrun
    simp only [List.length_cons] at hlen
    obtain ⟨r1, h1, h2, h3⟩ := h.apply hk2 (by omega) op
    simp only [bustub.runOps, h1] at hrun
    exact ih h2 (h.step_sizes hs (by omega) h1) (by omega) hrun

/-- With `k ≤ 1`, each call that returns keeps both invariants. -/
theorem LruInv.step_lru {N : Nat} {r r' : LRUKReplacer} (h : LruInv r) (hs : SizeInv N r)
    (hts : r.current_timestamp_ + 1 < SIZE_MOD) {op : ReplacerOp}
    (hr : r.apply op = some r') :
    LruInv r' ∧ SizeInv N r' ∧ r'.current_timestamp_ ≤ r.current_timestamp_ + 1 := by
  have hlen : r.frame_evictable_.length + 1 < SIZE_MOD :=
    lt_of_le_of_lt (Nat.succ_le_succ h.szb) hts
  have hc : ∀ e ∈ r.cache_frame_, ufind r.frame_evictable_ e.1 ≠ none := by
    rw [h.cache]; intro e he; exact absurd he (List.not_mem_nil _)
  cases op with
  | record_access f =>
    obtain ⟨a1, a2, _⟩ := h.record_lru hts hr
    refine ⟨a1, hs.record_access h.members hc ?_ hlen hr, Nat.le_of_eq a2⟩
    intro x hx
    have h1 := h.once x hx
    unfold LRUKReplacer.countAfter
    simp only [h1, Option.getD_some]
    decide
  | set_evictable f b =>
    simp only [LRUKReplacer.apply, Option.some.injEq] at hr
    subst hr
    refine ⟨h.set_lru f b, hs.set_evictable hlen f b, ?_⟩
    rw [SetEvictable_timestamp]
    exact Nat.le_succ _
  | remove x =>
    simp only [LRUKReplacer.apply, Option.some.injEq] at hr
    subst hr
    refine ⟨h.remove_lru x, hs.remove_sizes x, ?_⟩
    rw [Remove_timestamp]
    exact Nat.le_succ _
  | evict =>
    simp only [LRUKReplacer.apply, Option.some.injEq] at hr
    subst hr
    refine ⟨h.evict_lru, hs.evict_sizes h.members hc, ?_⟩
    rcases EvictInstance_cases r h.members hc with ⟨e, _⟩ | ⟨_, f, l1, l2, _, e, _, _⟩ |
      ⟨_, _, e0, l1, l2, _, e, _⟩
    · show r.EvictInstance.1.current_timestamp_ ≤ _
      rw [e]; exact Nat.le_succ _
    · show r.EvictInstance.1.current_timestamp_ ≤ _
      rw [e]; exact Nat.le_succ _
    · show r.EvictInstance.1.current_timestamp_ ≤ _
      rw [e]; exact Nat.le_succ _

/-- With `k ≤ 1`, a run that returns keeps both invariants. -/
theorem LruInv.run_lru {N : Nat} (ops : List ReplacerOp) :
    ∀ {r : LRUKReplacer} {g : AccessLog} {s : LRUKReplacer × AccessLog},
    LruInv r → SizeInv N r → r.current_timestamp_ + ops.length < SIZE_MOD →
    bustub.runOps (r, g) ops = some s → LruInv s.1 ∧ SizeInv N s.1 := by
  induction ops with
  | nil =>
    intro r g s h hs _ hrun
    simp only [bustub.runOps, Option.some.injEq] at hrun
    subst hrun
    exact ⟨h, hs⟩
  | cons op ops ih =>
    intro r g s h hs hlen hrun
    simp only [List.length_cons] at hlen
    cases h1 : r.apply op with
    | none =>
      simp only [bustub.runOps, h1] at hrun
      exact Option.noConfusion hrun
    | some r1 =>
      simp only [bustub.runOps, h1] at hrun
      obtain ⟨a1, a2, a3⟩ := h.step_lru hs (by omega) h1
      exact ih a1 a2 (by omega) hrun

/-- Every run of a new replacer keeps the invariant of the sizes. -/
theorem SizeInv.run_new (N : Nat) {k : Nat} (hk : k < SIZE_MOD) (ops : List ReplacerOp)
    (hlen : ops.length < SIZE_MOD) {s : LRUKReplacer × AccessLog}
    (hrun : bustub.runOps (LRUKReplacer.new N k, AccessLog.empty) ops = some s) :
    SizeInv N s.1 := by
  by_cases hk2 : 2 ≤ k
  · exact ReplInv.run_sizes hk2 ops (ReplInv.new_replacer N hk) (SizeInv.new_sizes N k)
      (by show 0 + ops.length < SIZE_MOD; omega) hrun
  · exact (LruInv.run_lru ops (LruInv.new_lru N (by omega)) (SizeInv.new_sizes N k)
      (by show 0 + ops.length < SIZE_MOD; omega) hrun).2

end bustub

namespace bustub

/-! ## The shape of the directory -/

/-- Among the numbers below `q * n`, exactly `n` have the remainder `c < q` modulo `q`. -/
theorem countP_mod_eq (q c : Nat) (hc : c < q) (n : Nat) :
    (List.range (q * n)).countP (fun j => decide (j % q = c)) = n := by
  induction n with
  | zero => simp
  | succ n ih =>
    rw [Nat.mul_succ, List.range_add, List.countP_append, ih, List.countP_map]
    have h1 : (List.range q).countP ((fun j => decide (j % q = c)) ∘ fun x => q * n + x) =
        (List.range q).countP (fun j => decide (j = c)) := by
      apply List.countP_congr
      intro x hx
      have hx' : x < q := List.mem_range.1 hx
      simp only [Function.comp, decide_eq_true_eq]
      rw [Nat.mul_add_mod, Nat.mod_eq_of_lt hx']
    rw [h1]
    have h2 : (List.range q).countP (fun j => decide (j = c)) = (List.range q).count c := by
      rw [List.count]
      apply List.countP_congr
      intro x _
      simp
    rw [h2, List.count_eq_one_of_mem (List.nodup_range q) (List.mem_range.2 hc)]

/-- Among the slots of a directory of `2^G` slots, exactly `2^(G-d)` agree with `i` on the
low `d ≤ G` bits. -/
theorem countP_low_bits {G d : Nat} (hd : d ≤ G) (i : Nat) :
    (List.range (2 ^ G)).countP (fun j => decide (j % 2 ^ d = i % 2 ^ d)) = 2 ^ (G - d) := by
  have h : 2 ^ G = 2 ^ d * 2 ^ (G - d) := by
    rw [← Nat.pow_add]
    congr 1
    omega
  rw [h]
  exact countP_mod_eq (2 ^ d) (i % 2 ^ d) (Nat.mod_lt _ (Nat.two_pow_pos d)) _

section hashTable
variable {K V : Type} [DecidableEq K] {hash : K → Nat}

/-- A run of calls that return keeps the table well formed. -/
theorem HashWF.run_keeps (ops : List (HashOp K V)) :
    ∀ {t t' : ExtendibleHashTable K V} {outs : List (Option Bool)}, HashWF hash t →
      t.run hash ops = some (t', outs) → HashWF hash t' := by
  induction ops with
  | nil =>
    intro t t' outs h hr
    simp only [ExtendibleHashTable.run, Option.some.injEq, Prod.mk.injEq] at hr
    exact hr.1 ▸ h
  | cons op ops ih =>
    intro t t' outs h hr
    simp only [ExtendibleHashTable.run] at hr
    cases h1 : t.step hash op with
    | none => rw [h1] at hr; exact Option.noConfusion hr
    | some res =>
      obtain ⟨t1, out⟩ := res
      rw [h1] at hr
      simp only at hr
      cases h2 : ExtendibleHashTable.run hash t1 ops with
      | none => rw [h2] at hr; exact Option.noConfusion hr
      | some res2 =>
        obtain ⟨t2, outs2⟩ := res2
        rw [h2] at hr
        simp only [Option.some.injEq, Prod.mk.injEq] at hr
        have hw1 : HashWF hash t1 := by
          cases op with
          | insert k v =>
            simp only [ExtendibleHashTable.step] at h1
            cases h3 : t.Insert hash k v with
            | none => rw [h3] at h1; exact Option.noConfusion h1
            | some t3 =>
              rw [h3] at h1
              simp only [Option.some.injEq, Prod.mk.injEq] at h1
              exact h1.1 ▸ (h.insert_of_some h3).1
          | remove k =>
            simp only [ExtendibleHashTable.step] at h1
            cases h3 : t.Remove hash k with
            | none => rw [h3] at h1; exact Option.noConfusion h1
            | some res3 =>
              rw [h3] at h1
              simp only [Option.some.injEq, Prod.mk.injEq] at h1
              exact h1.1 ▸ (h.remove_of_some h3).1
        exact hr.1 ▸ ih hw1 h2

/-- The slots of a well-formed table that refer to the bucket of slot `i`. -/
theorem HashWF.slot_count {t : ExtendibleHashTable K V} (h : HashWF hash t) {i : Nat}
    (hi : i < 2 ^ t.global_depth_) :
    ∃ p b, t.dir_[i]? = some p ∧ t.heap[p]? = some b ∧ b.depth_ ≤ t.global_depth_ ∧
      (∀ j, j < 2 ^ t.global_depth_ →
        (t.dir_[j]? = some p ↔ j % 2 ^ b.depth_ = i % 2 ^ b.depth_)) ∧
      (List.range (2 ^ t.global_depth_)).countP (fun j => decide (t.dir_[j]? = some p)) =
        2 ^ (t.global_depth_ - b.depth_) := by
  obtain ⟨p, b, h1, h2, h3, _, _, _, _, h8⟩ := h.slot i hi
  refine ⟨p, b, h1, h2, h3, h8, ?_⟩
  rw [← countP_low_bits h3 i]
  apply List.countP_congr
  intro j hj
  simp only [decide_eq_true_eq]
  exact h8 j (List.mem_range.1 hj)

end hashTable

end bustub

namespace bustub

open BufferPoolManagerInstance

variable {env : Env} {s s1 s' : BufferPoolManagerInstance}

/-! ## Pinned frames and the replacer -/

/-- After `RecordAccess(f); SetEvictable(f, false)` frame `f` is tracked and not evictable,
and no other frame has lost this. -/
theorem pinInReplacer_counted {r r' : LRUKReplacer} {f : Int} (hc : r.Counted)
    (h : pinInReplacer r f = some r') :
    r'.Counted ∧ ufind r'.frame_evictable_ f = some false ∧
      ∀ g, ufind r.frame_evictable_ g = some false →
        ufind r'.frame_evictable_ g = some false := by
  unfold pinInReplacer at h
  cases hra : r.RecordAccess f with
  | none => rw [hra] at h; exact Option.noConfusion h
  | some r0 =>
    rw [hra] at h
    simp only [Option.some.injEq] at h
    subst h
    obtain ⟨a1, a2, _, a4⟩ := RecordAccess_counted hc hra
    refine ⟨SetEvictable_counted a1 f false, ?_, ?_⟩
    · rw [SetEvictable_flags, if_pos ⟨rfl, a2⟩]
    · intro g hg
      rw [SetEvictable_flags]
      split
      · rfl
      · next hne =>
        have hgf : g ≠ f := by
          intro e
          apply hne
          exact ⟨e.symm, a2⟩
        exact a4 g hgf hg

/-- The replacer after `acquireFrame`: as before, or after `Evict`. -/
theorem acquireFrame_replacer {f : Int} (h : acquireFrame env s = some (s1, f)) :
    s1.replacer_ = s.replacer_ ∨ s1.replacer_ = s.replacer_.Evict.1 := by
  rcases acquireFrame_cases h with ⟨rest, _, rfl⟩ | ⟨_, pg, res, _, _, _, rfl⟩
  · exact Or.inl rfl
  · exact Or.inr rfl

/-- The replacer after `installPage`. -/
theorem installPage_replacer {f p : Int} {data : List Nat}
    (h : installPage env s1 f p data = some s') :
    pinInReplacer s1.replacer_ f = some s'.replacer_ := by
  unfold installPage at h
  cases hins : s1.page_table_.Insert env.hash p f with
  | none => rw [hins] at h; exact Option.noConfusion h
  | some pt =>
    rw [hins] at h
    simp only at h
    cases hpin : pinInReplacer s1.replacer_ f with
    | none => rw [hpin] at h; exact Option.noConfusion h
    | some r =>
      rw [hpin] at h
      simp only at h
      cases hpg : s1.getPage f with
      | none => rw [hpg] at h; exact Option.noConfusion h
      | some pg0 =>
        rw [hpg] at h
        simp only [Option.some.injEq] at h
        subst h
        rfl

/-- What `acquireFrame` followed by `installPage` leaves in the replacer. -/
theorem reuse_counted (hc : s.replacer_.Counted) {f p : Int} {data : List Nat}
    (ha : acquireFrame env s = some (s1, f))
    (hi : installPage env s1 f p data = some s') :
    s'.replacer_.Counted ∧ ufind s'.replacer_.frame_evictable_ f = some false ∧
      ∀ g, ufind s.replacer_.frame_evictable_ g = some false →
        ufind s'.replacer_.frame_evictable_ g = some false := by
  have hpin := installPage_replacer hi
  rcases acquireFrame_replacer ha with e | e
  · rw [e] at hpin
    exact pinInReplacer_counted hc hpin
  · rw [e] at hpin
    obtain ⟨a1, a2, a3⟩ := pinInReplacer_counted (EvictInstance_counted hc) hpin
    exact ⟨a1, a2, fun g hg => a3 g (EvictInstance_keeps_false _ hg)⟩

/-- The replacer after `NewPgImp` has returned frame `f`. -/
theorem NewPgImp_replacer (hc : s.replacer_.Counted) {n f : Int}
    (hr : s.NewPgImp env = some (s', some (n, f))) :
    s'.replacer_.Counted ∧ ufind s'.replacer_.frame_evictable_ f = some false ∧
      ∀ g, ufind s.replacer_.frame_evictable_ g = some false →
        ufind s'.replacer_.frame_evictable_ g = some false := by
  unfold NewPgImp at hr
  split at hr
  · simp only [Option.some.injEq, Prod.mk.injEq] at hr
    exact Option.noConfusion hr.2
  · simp only at hr
    cases ha : acquireFrame env { s with next_page_id_ := wrapPageId (s.next_page_id_ + 1) } with
    | none => rw [ha] at hr; exact Option.noConfusion hr
    | some res =>
      obtain ⟨s1, g⟩ := res
      rw [ha] at hr
      simp only at hr
      cases hi : installPage env s1 g s.next_page_id_ env.zeroData with
      | none => rw [hi] at hr; exact Option.noConfusion hr
      | some s2 =>
        rw [hi] at hr
        simp only [Option.some.injEq, Prod.mk.injEq] at hr
        obtain ⟨e1, _, e3⟩ := hr
        subst e1 e3
        exact reuse_counted (s := { s with next_page_id_ := wrapPageId (s.next_page_id_ + 1) }) hc ha hi

/-- The replacer after `FetchPgImp` has returned frame `f`. -/
theorem FetchPgImp_replacer (h : BPMInv env s) (hc : s.replacer_.Counted) {p f : Int}
    (hr : s.FetchPgImp env p = some (s', some f)) :
    s'.replacer_.Counted ∧ ufind s'.replacer_.frame_evictable_ f = some false ∧
      ∀ g, ufind s.replacer_.frame_evictable_ g = some false →
        ufind s'.replacer_.frame_evictable_ g = some false := by
  unfold FetchPgImp at hr
  obtain ⟨o, ho⟩ := h.wf.find_total p
  rw [ho] at hr
  cases o with
  | some g =>
    simp only at hr
    cases hra : s.replacer_.RecordAccess g with
    | none => rw [hra] at hr; exact Option.noConfusion hr
    | some r0 =>
      rw [hra] at hr
      simp only at hr
      obtain ⟨pg, hpg, _⟩ := h.i1 p g ho
      rw [hpg] at hr
      simp only [Option.some.injEq, Prod.mk.injEq] at hr
      obtain ⟨e1, e2⟩ := hr
      subst e1 e2
      have hpin : pinInReplacer s.replacer_ g = some (r0.SetEvictable g false) := by
        simp [pinInReplacer, hra]
      exact pinInReplacer_counted hc hpin
  | none =>
    simp only at hr
    split at hr
    · simp only [Option.some.injEq, Prod.mk.injEq] at hr
      exact Option.noConfusion hr.2
    · cases ha : acquireFrame env s with
      | none => rw [ha] at hr; exact Option.noConfusion hr
      | some res =>
        obtain ⟨s1, g⟩ := res
        rw [ha] at hr
        simp only at hr
        cases hi : installPage env s1 g p (s1.disk_manager_.ReadPage env p) with
        | none => rw [hi] at hr; exact Option.noConfusion hr
        | some s2 =>
          rw [hi] at hr
          simp only [Option.some.injEq, Prod.mk.injEq] at hr
          obtain ⟨e1, e2⟩ := hr
          subst e1 e2
          exact reuse_counted hc ha hi

/-- The replacer after `UnpinPgImp`. -/
theorem UnpinPgImp_replacer (h : BPMInv env s) {p : Int} {d b : Bool}
    (hr : s.UnpinPgImp env p d = some (s', b)) :
    s' = s ∨
    (∃ f pg, s.page_table_.Find env.hash p = some (some f) ∧ s.getPage f = some pg ∧
      0 < pg.pin_count_ ∧
      s'.replacer_ =
        (if pg.pin_count_ - 1 = 0 then s.replacer_.SetEvictable f true else s.replacer_)) := by
  unfold UnpinPgImp at hr
  obtain ⟨o, ho⟩ := h.wf.find_total p
  rw [ho] at hr
  cases o with
  | none =>
    simp only [Option.some.injEq, Prod.mk.injEq] at hr
    exact Or.inl hr.1.symm
  | some f =>
    simp only at hr
    obtain ⟨pg, hpg, _⟩ := h.i1 p f ho
    rw [hpg] at hr
    simp only at hr
    split at hr
    · simp only [Option.some.injEq, Prod.mk.injEq] at hr
      exact Or.inl hr.1.symm
    · next hpos =>
      simp only [Option.some.injEq, Prod.mk.injEq] at hr
      obtain ⟨hs, _⟩ := hr
      subst hs
      exact Or.inr ⟨f, pg, ho, hpg, by omega, rfl⟩

/-- `FlushPgImp` leaves the replacer as it is. -/
theorem FlushPgImp_replacer {p : Int} {b : Bool}
    (hr : s.FlushPgImp env p = some (s', b)) : s'.replacer_ = s.replacer_ := by
  unfold FlushPgImp at hr
  split at hr
  · exact Option.noConfusion hr
  · simp only [Option.some.injEq, Prod.mk.injEq] at hr
    rw [← hr.1]
  · split at hr
    · exact Option.noConfusion hr
    · split at hr
      · simp only [Option.some.injEq, Prod.mk.injEq] at hr
        rw [← hr.1]
      · simp only [Option.some.injEq, Prod.mk.injEq] at hr
        rw [← hr.1]

/-- The body of the loop of `FlushAllPgsImp` leaves the replacer as it is. -/
theorem flushFrame_replacer {i : Nat} (hr : s.flushFrame i = some s') :
    s'.replacer_ = s.replacer_ := by
  unfold BufferPoolManagerInstance.flushFrame at hr
  split at hr
  · exact Option.noConfusion hr
  · split at hr
    · simp only [Option.some.injEq] at hr
      rw [← hr]
    · simp only [Option.some.injEq] at hr
      rw [← hr]

/-- A store of the caller leaves the replacer as it is. -/
theorem writeData_replacer (s : BufferPoolManagerInstance) (f : Int) (bytes : List Nat) :
    (s.writeData f bytes).replacer_ = s.replacer_ := by
  unfold BufferPoolManagerInstance.writeData
  split <;> rfl

/-- An update of one frame keeps the invariant of pins when the replacer keeps every counted
frame tracked and every flag that is not set, and the updated frame, if pinned, is tracked
and not evictable. -/
theorem PinInv.patch_pins (h : PinInv env s) (hb : BPMInv env s') {f : Int} {pg pg' : Page}
    (hp : Patched env s s' f pg pg') (hc : s'.replacer_.Counted)
    (hkeep : ∀ g, g ≠ f → ufind s.replacer_.frame_evictable_ g = some false →
      ufind s'.replacer_.frame_evictable_ g = some false)
    (hf : 0 < pg'.pin_count_ → ufind s'.replacer_.frame_evictable_ f = some false) :
    PinInv env s' := by
  refine ⟨hb, hc, ?_⟩
  intro g pg2 hg hpin
  rw [hp.pages g] at hg
  by_cases hgf : g = f
  · subst hgf
    rw [if_pos rfl] at hg
    rw [← Option.some.inj hg] at hpin
    exact hf hpin
  · rw [if_neg hgf] at hg
    exact hkeep g hgf (h.pinned g pg2 hg hpin)

/-- A reuse keeps the invariant of pins. -/
theorem PinInv.reuse_pins (h : PinInv env s) (hb : BPMInv env s') {f n : Int}
    {data : List Nat} (hre : Reused env s s' f n data)
    (hrep : s'.replacer_.Counted ∧ ufind s'.replacer_.frame_evictable_ f = some false ∧
      ∀ g, ufind s.replacer_.frame_evictable_ g = some false →
        ufind s'.replacer_.frame_evictable_ g = some false) : PinInv env s' := by
  refine ⟨hb, hrep.1, ?_⟩
  intro g pg2 hg hpin
  rw [hre.pages g] at hg
  by_cases hgf : g = f
  · rw [hgf]; exact hrep.2.1
  · rw [if_neg hgf] at hg
    exact hrep.2.2 g (h.pinned g pg2 hg hpin)

/-- The loop of `FlushAllPgsImp` keeps the invariant of pins. -/
theorem PinInv.flush_pins (l : List Nat) : ∀ {s s' : BufferPoolManagerInstance},
    PinInv env s → flushFrames s l = some s' → PinInv env s' := by
  induction l with
  | nil =>
    intro s s' h hr
    simp only [BufferPoolManagerInstance.flushFrames, Option.some.injEq] at hr
    exact hr ▸ h
  | cons i l ih =>
    intro s s' h hr
    simp only [BufferPoolManagerInstance.flushFrames] at hr
    cases hf : s.flushFrame i with
    | none => rw [hf] at hr; exact Option.noConfusion hr
    | some s1 =>
      rw [hf] at hr
      have hb := (h.inv.flushFrame hf).1
      have hrep := flushFrame_replacer hf
      rcases flushFrame_effect env hf with rfl | ⟨pg, _, _, _, hp⟩
      · exact ih h hr
      · refine ih (h.patch_pins hb hp (by rw [hrep]; exact h.counted)
          (fun g _ hg => by rw [hrep]; exact hg) ?_) hr
        intro hpin
        rw [hrep]
        exact h.pinned _ pg hp.old hpin

/-- Every call keeps the invariant of pins. -/
theorem PinInv.step_pins (h : PinInv env s) {op : BPMOp} {out : BPMResult}
    (hr : s.step env op = some (s', out)) : PinInv env s' := by
  have hb := h.inv.step hr
  cases op with
  | new_page =>
    simp only [BufferPoolManagerInstance.step] at hr
    cases h1 : s.NewPgImp env with
    | none => rw [h1] at hr; exact Option.noConfusion hr
    | some res =>
      obtain ⟨s1, r⟩ := res
      rw [h1] at hr
      simp only [Option.some.injEq, Prod.mk.injEq] at hr
      obtain ⟨e1, _⟩ := hr
      subst e1
      rcases h.inv.newPg_effect h1 with ⟨_, rfl, _⟩ | ⟨f, rfl, hre, _⟩
      · exact h
      · exact h.reuse_pins hb hre (NewPgImp_replacer h.counted h1)
  | fetch_page p =>
    simp only [BufferPoolManagerInstance.step] at hr
    cases h1 : s.FetchPgImp env p with
    | none => rw [h1] at hr; exact Option.noConfusion hr
    | some res =>
      obtain ⟨s1, r⟩ := res
      rw [h1] at hr
      simp only [Option.some.injEq, Prod.mk.injEq] at hr
      obtain ⟨e1, _⟩ := hr
      subst e1
      rcases h.inv.fetchPg_effect h1 with ⟨f, pg, _, rfl, _, hp⟩ |
        ⟨_, ⟨_, rfl, _⟩ | ⟨f, rfl, hre, _⟩⟩
      · obtain ⟨a1, a2, a3⟩ := FetchPgImp_replacer h.inv h.counted h1
        exact h.patch_pins hb hp a1 (fun g _ hg => a3 g hg) (fun _ => a2)
      · exact h
      · exact h.reuse_pins hb hre (FetchPgImp_replacer h.inv h.counted h1)
  | unpin_page p d =>
    simp only [BufferPoolManagerInstance.step] at hr
    cases h1 : s.UnpinPgImp env p d with
    | none => rw [h1] at hr; exact Option.noConfusion hr
    | some res =>
      obtain ⟨s1, r⟩ := res
      rw [h1] at hr
      simp only [Option.some.injEq, Prod.mk.injEq] at hr
      obtain ⟨e1, _⟩ := hr
      subst e1
      rcases h.inv.unpinPg_effect h1 with ⟨_, rfl, _⟩ | ⟨f, pg, hq, _, _, _, hp⟩
      · exact h
      · rcases UnpinPgImp_replacer h.inv h1 with e | ⟨f2, pg2, hq2, hpg2, hpos, hrep⟩
        · rw [e]; exact h
        · rw [hq] at hq2
          have e2 := Option.some.inj (Option.some.inj hq2)
          subst e2
          have hold := hp.old
          rw [hpg2] at hold
          have e3 := Option.some.inj hold
          subst e3
          by_cases hz : pg2.pin_count_ - 1 = 0
          · rw [if_pos hz] at hrep
            refine h.patch_pins hb hp (by rw [hrep]; exact SetEvictable_counted h.counted _ _)
              ?_ ?_
            · intro g hg hfalse
              rw [hrep, SetEvictable_flags]
              split
              · next hc => exact absurd hc.1.symm hg
              · exact hfalse
            · intro hpin
              exfalso
              have : (pg2.pin_count_ - 1 : Int) > 0 := hpin
              omega
          · rw [if_neg hz] at hrep
            refine h.patch_pins hb hp (by rw [hrep]; exact h.counted)
              (fun g _ hg => by rw [hrep]; exact hg) ?_
            intro _
            rw [hrep]
            exact h.pinned f pg2 hpg2 hpos
  | flush_page p =>
    simp only [BufferPoolManagerInstance.step] at hr
    cases h1 : s.FlushPgImp env p with
    | none => rw [h1] at hr; exact Option.noConfusion hr
    | some res =>
      obtain ⟨s1, r⟩ := res
      rw [h1] at hr
      simp only [Option.some.injEq, Prod.mk.injEq] at hr
      obtain ⟨e1, _⟩ := hr
      subst e1
      have hrep := FlushPgImp_replacer h1
      rcases h.inv.flushPg_effect h1 with ⟨_, _, rfl⟩ |
        ⟨f, pg, _, _, _, _, ⟨_, rfl⟩ | ⟨_, _, hp⟩⟩
      · exact h
      · exact h
      · refine h.patch_pins hb hp (by rw [hrep]; exact h.counted)
          (fun g _ hg => by rw [hrep]; exact hg) ?_
        intro hpin
        rw [hrep]
        exact h.pinned f pg hp.old hpin
  | flush_all_pages =>
    simp only [BufferPoolManagerInstance.step] at hr
    cases h1 : s.FlushAllPgsImp with
    | none => rw [h1] at hr; exact Option.noConfusion hr
    | some res =>
      rw [h1] at hr
      simp only [Option.some.injEq, Prod.mk.injEq] at hr
      obtain ⟨e1, _⟩ := hr
      subst e1
      exact PinInv.flush_pins _ h h1
  | delete_page p =>
    simp only [BufferPoolManagerInstance.step] at hr
    cases h1 : s.DeletePgImp env p with
    | none => rw [h1] at hr; exact Option.noConfusion hr
    | some res =>
      obtain ⟨s1, r⟩ := res
      rw [h1] at hr
      simp only [Option.some.injEq, Prod.mk.injEq] at hr
      obtain ⟨e1, _⟩ := hr
      subst e1
      rcases h.inv.deletePg_effect h1 with rfl |
        ⟨f, pg, _, _, _, _, _, _, _, _, _, hrep, hpages⟩
      · exact h
      · obtain ⟨c1, c2⟩ := Remove_counted h.counted p
        refine ⟨hb, by rw [hrep]; exact c1, ?_⟩
        intro g pg2 hg hpin
        rw [hpages g] at hg
        by_cases hgf : g = f
        · rw [if_pos hgf] at hg
          rw [← Option.some.inj hg] at hpin
          exact absurd (show (0 : Int) < 0 from hpin) (by decide)
        · rw [if_neg hgf] at hg
          rw [hrep]
          exact c2 g (h.pinned g pg2 hg hpin)
  | write_data f bytes =>
    simp only [BufferPoolManagerInstance.step, Option.some.injEq, Prod.mk.injEq] at hr
    obtain ⟨e1, _⟩ := hr
    subst e1
    have hrep := writeData_replacer s f bytes
    rcases writeData_effect env s f bytes with e | ⟨pg, _, hp⟩
    · rw [e]; exact h
    · refine h.patch_pins hb hp (by rw [hrep]; exact h.counted)
        (fun g _ hg => by rw [hrep]; exact hg) ?_
      intro hpin
      rw [hrep]
      exact h.pinned f pg hp.old hpin

/-- A run keeps the invariant of pins. -/
theorem PinInv.run_pins (ops : List BPMOp) : ∀ {s s' : BufferPoolManagerInstance}
    {outs : List BPMResult}, PinInv env s → s.run env ops = some (s', outs) →
    PinInv env s' := by
  induction ops with
  | nil =>
    intro s s' outs h hr
    simp only [BufferPoolManagerInstance.run, Option.some.injEq, Prod.mk.injEq] at hr
    exact hr.1 ▸ h
  | cons op ops ih =>
    intro s s' outs h hr
    simp only [BufferPoolManagerInstance.run] at hr
    cases h1 : s.step env op with
    | none => rw [h1] at hr; exact Option.noConfusion hr
    | some res =>
      obtain ⟨s1, out⟩ := res
      rw [h1] at hr
      simp only at hr
      cases h2 : BufferPoolManagerInstance.run env s1 ops with
      | none => rw [h2] at hr; exact Option.noConfusion hr
      | some res2 =>
        obtain ⟨s2, outs2⟩ := res2
        rw [h2] at hr
        simp only [Option.some.injEq, Prod.mk.injEq] at hr
        exact hr.1 ▸ ih (h.step_pins h1) h2

/-- A new pool satisfies the invariant of pins. -/
theorem PinInv.at_start (env : Env) (pool_size replacer_k bucket_size : Nat) :
    PinInv env (BufferPoolManagerInstance.new env pool_size replacer_k bucket_size) := by
  refine ⟨BPMInv.new_pool env pool_size replacer_k bucket_size, ?_, ?_⟩
  · intro f hf
    exact absurd rfl hf
  · intro f pg hg hpin
    exfalso
    have h0 := getPage_nonneg hg
    simp only [getPage, BufferPoolManagerInstance.new, h0, if_true] at hg
    rw [List.getElem?_replicate] at hg
    split at hg
    · rw [← Option.some.inj hg] at hpin
      exact absurd (show (0 : Int) < 0 from hpin) (by decide)
    · exact Option.noConfusion hg

end bustub

namespace bustub

open BufferPoolManagerInstance

/-- C14: with `k = 1` a second access of a tracked frame has no defined behaviour. The first
`RecordAccess(1)` returns with frame 1 in `new_frame_` (the branch `cnt == 1` returns before
`cnt == k_` is tested) and no entry in `cache_frame_umap_`; the second takes the branch
`cnt > k_` and erases from `cache_frame_` through the missing entry. The same happens when
frame 2 is accessed in between. -/
theorem C14_lru_second_access_undefined :
    ((LRUKReplacer.new 7 1).RecordAccess 1).map (fun r => r.new_frame_) = some [1] ∧
      ((LRUKReplacer.new 7 1).RecordAccess 1).map (fun r => r.cache_frame_umap_) = some [] ∧
      ((LRUKReplacer.new 7 1).RecordAccess 1).bind (fun r => r.RecordAccess 1) = none ∧
      (((LRUKReplacer.new 7 1).RecordAccess 1).bind (fun r => r.RecordAccess 2)).bind
        (fun r => r.RecordAccess 1) = none := by
  decide

/-- C15: with `k = 1`, after `RecordAccess(1)` frame 1 is tracked with access count 1, which
is not below `k`, and it is in `new_frame_` and not in `cache_frame_`. -/
theorem C15_k1_frame_with_k_accesses_in_new_frame :
    ((LRUKReplacer.new 7 1).RecordAccess 1).map (fun r => (r.k_, r.tracked 1)) =
        some (1, true) ∧
      ((LRUKReplacer.new 7 1).RecordAccess 1).map (fun r => ufind r.frame_k_ 1) =
        some (some 1) ∧
      ((LRUKReplacer.new 7 1).RecordAccess 1).map (fun r => (r.new_frame_, r.cache_frame_)) =
        some ([1], []) := by
  decide

/-- C20: on a replacer of 7 frames, `RecordAccess(100)` returns and leaves frame 100 tracked
and evictable (`Size() = 1`), and so does `RecordAccess(-5)`; `SetEvictable(100, false)` on
the new replacer returns without a change. -/
theorem C20_invalid_frame_id_is_tracked :
    ((LRUKReplacer.new 7 2).RecordAccess 100).map
        (fun r => (r.tracked 100, r.evictable 100)) = some (true, true) ∧
      ((LRUKReplacer.new 7 2).RecordAccess 100).map (fun r => r.Size) = some 1 ∧
      ((LRUKReplacer.new 7 2).RecordAccess (-5)).map
        (fun r => (r.tracked (-5), r.Size)) = some (true, 1) ∧
      (LRUKReplacer.new 7 2).SetEvictable 100 false = LRUKReplacer.new 7 2 := by
  decide

/-- C19: in every state that calls reach from a new pool, `DeletePage(p)` returns true and
leaves the state as it is when `p` is not in the page table, and returns false and leaves the
state as it is when the frame of `p` has a positive pin count. -/
theorem C19_delete_absent_or_pinned_is_noop (env : Env)
    (pool_size replacer_k bucket_size : Nat) (ops : List BPMOp)
    (s : BufferPoolManagerInstance) (outs : List BPMResult)
    (hreach : (BufferPoolManagerInstance.new env pool_size replacer_k bucket_size).run
      env ops = some (s, outs)) (p : Int) :
    ((∀ f, s.page_table_.Find env.hash p ≠ some (some f)) →
      s.DeletePgImp env p = some (s, true)) ∧
    (∀ f pg, s.page_table_.Find env.hash p = some (some f) → s.getPage f = some pg →
      0 < pg.pin_count_ → s.DeletePgImp env p = some (s, false)) := by
  have hinv := BPMInv.run ops (BPMInv.new_pool env pool_size replacer_k bucket_size) hreach
  constructor
  · intro hab
    obtain ⟨o, ho⟩ := hinv.wf.find_total p
    cases o with
    | some f => exact absurd ho (hab f)
    | none =>
      unfold DeletePgImp
      rw [ho]
  · intro f pg hmap hpg hpin
    unfold DeletePgImp
    rw [hmap]
    simp only
    rw [hpg]
    simp only [gt_iff_lt, hpin, if_true]

/-- C19 on the run of the specification, on a pool of 1 frame: after `FetchPage(0)` the
call `DeletePage(0)` returns false and changes nothing; the whole run `FetchPage(0)`,
`DeletePage(0)`, `UnpinPage(0, false)`, `DeletePage(0)` returns frame 0, false, true, true. -/
theorem C19_delete_absent_or_pinned_is_noop_witness :
    (sampleRun 1 [.fetch_page 0]).1.DeletePgImp sampleEnv 0 =
        some ((sampleRun 1 [.fetch_page 0]).1, false) ∧
      (sampleRun 1 [.fetch_page 0, .delete_page 0, .unpin_page 0 false, .delete_page 0]).2 =
        [.frame (some 0), .bool false, .bool true, .bool true] :=
  ⟨(C19_delete_absent_or_pinned_is_noop sampleEnv 1 2 4 [.fetch_page 0] _ _
      (sampleRun_eq 1 _ (by decide)) 0).2 0
      { data_ := [0, 0], page_id_ := 0, pin_count_ := 1, is_dirty_ := false }
      (by decide) (by decide) (by decide),
    by decide⟩

end bustub

namespace bustub

/-- A defined run on a new table is the run that `sampleTable` names. -/
theorem sampleTable_eq (bucket_size : Nat) (ops : List (HashOp Nat Nat))
    (h : ((ExtendibleHashTable.new bucket_size).run (fun n => n) ops).isSome = true) :
    (ExtendibleHashTable.new bucket_size).run (fun n => n) ops =
      some ((sampleTable bucket_size ops).1, (sampleTable bucket_size ops).2) := by
  unfold sampleTable
  cases hx : (ExtendibleHashTable.new bucket_size).run (fun n : Nat => n) ops with
  | none => rw [hx] at h; exact Bool.noConfusion h
  | some x => rfl

section hashTable
variable {K V : Type} [DecidableEq K]

/-- C13: after construction and after every `Insert` or `Remove` that returns, on a table of
global depth `G`: the directory has exactly `2^G` slots, and the bucket of every slot `i` has
a local depth `d ≤ G` and is the bucket of precisely the slots that agree with `i` on their
low `d` bits, which are exactly `2^(G-d)` slots. -/
theorem C13_directory_shape (hash : K → Nat) (bucket_size : Nat) (ops : List (HashOp K V))
    (t : ExtendibleHashTable K V) (outs : List (Option Bool))
    (hrun : (ExtendibleHashTable.new bucket_size).run hash ops = some (t, outs)) :
    t.dir_.length = 2 ^ t.global_depth_ ∧
      ∀ i, i < 2 ^ t.global_depth_ →
        ∃ p b, t.dir_[i]? = some p ∧ t.heap[p]? = some b ∧ b.depth_ ≤ t.global_depth_ ∧
          (∀ j, j < 2 ^ t.global_depth_ →
            (t.dir_[j]? = some p ↔ j % 2 ^ b.depth_ = i % 2 ^ b.depth_)) ∧
          (List.range (2 ^ t.global_depth_)).countP
              (fun j => decide (t.dir_[j]? = some p)) =
            2 ^ (t.global_depth_ - b.depth_) := by
  have hwf : HashWF hash t :=
    HashWF.run_keeps ops (HashWF.new_table hash bucket_size) hrun
  exact ⟨hwf.dirLen, fun i hi => hwf.slot_count hi⟩

end hashTable

/-- C13 on a table of capacity 2 after the keys 0, 4, 8, 2 have been inserted and 4 removed:
the directory then has 8 slots (global depth 3). -/
theorem C13_directory_shape_witness :
    (sampleTable 2 [.insert 0 10, .insert 4 14, .insert 8 18, .insert 2 12, .remove 4]).1.dir_.length
        = 2 ^ (sampleTable 2 [.insert 0 10, .insert 4 14, .insert 8 18, .insert 2 12,
          .remove 4]).1.global_depth_ ∧
      ∀ i, i < 2 ^ (sampleTable 2 [.insert 0 10, .insert 4 14, .insert 8 18, .insert 2 12,
          .remove 4]).1.global_depth_ →
        ∃ p b,
          (sampleTable 2 [.insert 0 10, .insert 4 14, .insert 8 18, .insert 2 12,
            .remove 4]).1.dir_[i]? = some p ∧
          (sampleTable 2 [.insert 0 10, .insert 4 14, .insert 8 18, .insert 2 12,
            .remove 4]).1.heap[p]? = some b ∧
          b.depth_ ≤ (sampleTable 2 [.insert 0 10, .insert 4 14, .insert 8 18, .insert 2 12,
            .remove 4]).1.global_depth_ ∧
          (∀ j, j < 2 ^ (sampleTable 2 [.insert 0 10, .insert 4 14, .insert 8 18, .insert 2 12,
              .remove 4]).1.global_depth_ →
            ((sampleTable 2 [.insert 0 10, .insert 4 14, .insert 8 18, .insert 2 12,
              .remove 4]).1.dir_[j]? = some p ↔ j % 2 ^ b.depth_ = i % 2 ^ b.depth_)) ∧
          (List.range (2 ^ (sampleTable 2 [.insert 0 10, .insert 4 14, .insert 8 18,
              .insert 2 12, .remove 4]).1.global_depth_)).countP
              (fun j => decide ((sampleTable 2 [.insert 0 10, .insert 4 14, .insert 8 18,
                .insert 2 12, .remove 4]).1.dir_[j]? = some p)) =
            2 ^ ((sampleTable 2 [.insert 0 10, .insert 4 14, .insert 8 18, .insert 2 12,
              .remove 4]).1.global_depth_ - b.depth_) :=
  C13_directory_shape (fun n : Nat => n) 2
    [.insert 0 10, .insert 4 14, .insert 8 18, .insert 2 12, .remove 4] _ _
    (sampleTable_eq 2 _ (by decide))

end bustub

namespace bustub

open BufferPoolManagerInstance

variable {env : Env} {s s' : BufferPoolManagerInstance}

/-- C11: in every state that calls reach from a new pool, a frame with a positive pin count
is tracked by the replacer with its evictable flag not set, so that it is not evictable and
`Evict` does not return it. -/
theorem C11_pinned_frame_not_evictable (env : Env) (pool_size replacer_k bucket_size : Nat)
    (ops : List BPMOp) (s : BufferPoolManagerInstance) (outs : List BPMResult)
    (hreach : (BufferPoolManagerInstance.new env pool_size replacer_k bucket_size).run
      env ops = some (s, outs))
    (f : Int) (pg : Page) (hpg : s.getPage f = some pg) (hpin : 0 < pg.pin_count_) :
    ufind s.replacer_.frame_evictable_ f = some false ∧ s.replacer_.tracked f = true ∧
      s.replacer_.evictable f = false ∧ s.replacer_.Evict.2 ≠ some f := by
  have hinv := PinInv.run_pins ops (PinInv.at_start env pool_size replacer_k bucket_size)
    hreach
  have hflag := hinv.pinned f pg hpg hpin
  refine ⟨hflag, ?_, ?_, ?_⟩
  · simp [LRUKReplacer.tracked, hflag]
  · simp [LRUKReplacer.evictable, hflag]
  · intro hev
    have := (EvictInstance_flags s.replacer_).2.1 f hev
    rw [hflag] at this
    exact Bool.noConfusion (Option.some.inj this)

/-- C11 on a pool of 2 frames, after page 0 has been unpinned and fetched again while page 1
was unpinned: frame 0, pinned, is tracked and not evictable, and `Evict` does not return it. -/
theorem C11_pinned_frame_not_evictable_witness :
    ufind (sampleRun 2 [.new_page, .new_page, .unpin_page 0 false, .unpin_page 1 true,
        .fetch_page 0]).1.replacer_.frame_evictable_ 0 = some false ∧
      (sampleRun 2 [.new_page, .new_page, .unpin_page 0 false, .unpin_page 1 true,
        .fetch_page 0]).1.replacer_.tracked 0 = true ∧
      (sampleRun 2 [.new_page, .new_page, .unpin_page 0 false, .unpin_page 1 true,
        .fetch_page 0]).1.replacer_.evictable 0 = false ∧
      (sampleRun 2 [.new_page, .new_page, .unpin_page 0 false, .unpin_page 1 true,
        .fetch_page 0]).1.replacer_.Evict.2 ≠ some 0 :=
  C11_pinned_frame_not_evictable sampleEnv 2 2 4
    [.new_page, .new_page, .unpin_page 0 false, .unpin_page 1 true, .fetch_page 0] _ _
    (sampleRun_eq 2 _ (by decide)) 0
    { data_ := [0, 0], page_id_ := 0, pin_count_ := 1, is_dirty_ := false }
    (by decide) (by decide)

/-- `UnpinPgImp` on a page whose frame has a positive pin count. -/
theorem UnpinPgImp_pos (env : Env) {p f : Int} {pg : Page} (d : Bool)
    (hmap : s.page_table_.Find env.hash p = some (some f)) (hpg : s.getPage f = some pg)
    (hpin : 0 < pg.pin_count_) :
    s.UnpinPgImp env p d = some ({ s with
      replacer_ := if pg.pin_count_ - 1 = 0 then s.replacer_.SetEvictable f true
        else s.replacer_
      pages_ := s.pages_.set f.toNat { pg with
        pin_count_ := pg.pin_count_ - 1
        is_dirty_ := if d = true then true else pg.is_dirty_ } }, true) := by
  unfold UnpinPgImp
  rw [hmap]
  simp only
  rw [hpg]
  simp only
  rw [if_neg (not_le.2 hpin)]

/-- `UnpinPgImp` returns false and changes nothing, or updates the frame of the page. -/
theorem UnpinPgImp_cases {p : Int} {d b : Bool}
    (hr : s.UnpinPgImp env p d = some (s', b)) :
    (b = false ∧ s' = s ∧ (s.page_table_.Find env.hash p = some none ∨
      ∃ f pg, s.page_table_.Find env.hash p = some (some f) ∧ s.getPage f = some pg ∧
        pg.pin_count_ ≤ 0)) ∨
    (b = true ∧ ∃ f pg, s.page_table_.Find env.hash p = some (some f) ∧
      s.getPage f = some pg ∧ 0 < pg.pin_count_ ∧
      s' = { s with
        replacer_ := if pg.pin_count_ - 1 = 0 then s.replacer_.SetEvictable f true
          else s.replacer_
        pages_ := s.pages_.set f.toNat { pg with
          pin_count_ := pg.pin_count_ - 1
          is_dirty_ := if d = true then true else pg.is_dirty_ } }) := by
  cases hfind : s.page_table_.Find env.hash p with
  | none =>
    unfold UnpinPgImp at hr
    rw [hfind] at hr
    exact Option.noConfusion hr
  | some o =>
    cases o with
    | none =>
      unfold UnpinPgImp at hr
      rw [hfind] at hr
      simp only [Option.some.injEq, Prod.mk.injEq] at hr
      exact Or.inl ⟨hr.2.symm, hr.1.symm, Or.inl rfl⟩
    | some f =>
      cases hpg : s.getPage f with
      | none =>
        unfold UnpinPgImp at hr
        rw [hfind] at hr
        simp only at hr
        rw [hpg] at hr
        exact Option.noConfusion hr
      | some pg =>
        by_cases hpin : 0 < pg.pin_count_
        · rw [UnpinPgImp_pos env d hfind hpg hpin] at hr
          simp only [Option.some.injEq, Prod.mk.injEq] at hr
          exact Or.inr ⟨hr.2.symm, f, pg, rfl, hpg, hpin, hr.1.symm⟩
        · unfold UnpinPgImp at hr
          rw [hfind] at hr
          simp only at hr
          rw [hpg] at hr
          simp only at hr
          rw [if_pos (not_lt.1 hpin)] at hr
          simp only [Option.some.injEq, Prod.mk.injEq] at hr
          exact Or.inl ⟨hr.2.symm, hr.1.symm, Or.inr ⟨f, pg, rfl, hpg, not_lt.1 hpin⟩⟩

/-- C17 (counterexample): on a pool of 1 frame, page 0 is in the page table with pin count 1
and a clean frame; `UnpinPage(0, false)` returns true, `UnpinPage(0, true)` returns false,
and the dirty flag of the frame is still false. -/
theorem C17_second_unpin_refused_leaves_clean :
    (sampleRun 1 [.new_page]).1.page_table_.Find sampleEnv.hash 0 = some (some 0) ∧
      (sampleRun 1 [.new_page]).1.getPage 0 =
        some { data_ := [0, 0], page_id_ := 0, pin_count_ := 1, is_dirty_ := false } ∧
      (sampleRun 1 [.new_page, .unpin_page 0 false, .unpin_page 0 true]).2 =
        [.new_page (some (0, 0)), .bool true, .bool false] ∧
      (sampleRun 1 [.new_page, .unpin_page 0 false, .unpin_page 0 true]).1.getPage 0 =
        some { data_ := [0, 0], page_id_ := 0, pin_count_ := 0, is_dirty_ := false } := by
  decide

/-- C17 (amended): the dirty flag is monotonic under unpin. For every page `p` in the page
table whose frame has a pin count of at least 2, `UnpinPage(p, false)` followed by
`UnpinPage(p, true)` both return true and leave the dirty flag of the frame true; and no
`UnpinPage` call changes the dirty flag of any frame from true to false. -/
theorem C17_unpin_dirty_monotonic (env : Env) (s : BufferPoolManagerInstance) :
    (∀ p f pg, s.page_table_.Find env.hash p = some (some f) → s.getPage f = some pg →
      2 ≤ pg.pin_count_ →
      ∃ s1 s2 pg2, s.UnpinPgImp env p false = some (s1, true) ∧
        s1.UnpinPgImp env p true = some (s2, true) ∧
        s2.getPage f = some pg2 ∧ pg2.is_dirty_ = true) ∧
    (∀ p d s' b, s.UnpinPgImp env p d = some (s', b) →
      ∀ g pg, s.getPage g = some pg → pg.is_dirty_ = true →
        ∃ pg', s'.getPage g = some pg' ∧ pg'.is_dirty_ = true) := by
  constructor
  · intro p f pg hmap hpg hpin
    have h1 := UnpinPgImp_pos env false hmap hpg (by omega)
    have hpg1 := getPage_of_set { s with
      replacer_ := if pg.pin_count_ - 1 = 0 then s.replacer_.SetEvictable f true
        else s.replacer_
      pages_ := s.pages_.set f.toNat { pg with
        pin_count_ := pg.pin_count_ - 1
        is_dirty_ := if false = true then true else pg.is_dirty_ } } _ hpg rfl f
    rw [if_pos rfl] at hpg1
    have h2 := UnpinPgImp_pos env true (show ExtendibleHashTable.Find env.hash
      ({ s with
        replacer_ := if pg.pin_count_ - 1 = 0 then s.replacer_.SetEvictable f true
          else s.replacer_
        pages_ := s.pages_.set f.toNat { pg with
          pin_count_ := pg.pin_count_ - 1
          is_dirty_ := if false = true then true else pg.is_dirty_ } } :
        BufferPoolManagerInstance).page_table_ p = some (some f) from hmap) hpg1
      (show (0 : Int) < pg.pin_count_ - 1 by omega)
    refine ⟨_, _, _, h1, h2, getPage_of_set _ _ hpg1 rfl f |>.trans (if_pos rfl), rfl⟩
  · intro p d s' b hr g pg hg hdirty
    rcases UnpinPgImp_cases hr with ⟨_, e, _⟩ | ⟨_, f, pg0, _, hpg0, _, e⟩
    · rw [e]; exact ⟨pg, hg, hdirty⟩
    · have hset := getPage_of_set s' { pg0 with
        pin_count_ := pg0.pin_count_ - 1
        is_dirty_ := if d = true then true else pg0.is_dirty_ } hpg0 (by rw [e]) g
      rw [hset]
      by_cases hgf : g = f
      · subst hgf
        rw [hpg0] at hg
        have e2 := Option.some.inj hg
        subst e2
        rw [if_pos rfl]
        refine ⟨_, rfl, ?_⟩
        show (if d = true then true else pg0.is_dirty_) = true
        rw [hdirty]
        split <;> rfl
      · rw [if_neg hgf]
        exact ⟨pg, hg, hdirty⟩

/-- C17 (amended) on a pool of 1 frame whose page 0 has been fetched twice: after
`UnpinPage(0, false)` and `UnpinPage(0, true)` the frame is dirty. -/
theorem C17_unpin_dirty_monotonic_witness :
    ∃ s1 s2 pg2,
      (sampleRun 1 [.new_page, .fetch_page 0]).1.UnpinPgImp sampleEnv 0 false =
        some (s1, true) ∧
      s1.UnpinPgImp sampleEnv 0 true = some (s2, true) ∧
      s2.getPage 0 = some pg2 ∧ pg2.is_dirty_ = true :=
  (C17_unpin_dirty_monotonic sampleEnv (sampleRun 1 [.new_page, .fetch_page 0]).1).1 0 0
    { data_ := [0, 0], page_id_ := 0, pin_count_ := 2, is_dirty_ := false }
    (by decide) (by decide) (by decide)

/-- C18: in every state that calls reach from a new pool, `UnpinPage(p, d)` returns; it
returns false exactly when `p` is not in the page table or the pin count of its frame is not
positive, and then the state is unchanged; otherwise it returns true, the pin count of the
frame is one less, and the frame is evictable in the replacer exactly when the new pin count
is 0. -/
theorem C18_unpin_result (env : Env) (pool_size replacer_k bucket_size : Nat)
    (ops : List BPMOp) (s : BufferPoolManagerInstance) (outs : List BPMResult)
    (hreach : (BufferPoolManagerInstance.new env pool_size replacer_k bucket_size).run
      env ops = some (s, outs)) (p : Int) (d : Bool) :
    ∃ s' b, s.UnpinPgImp env p d = some (s', b) ∧
      (b = false ↔ (s.page_table_.Find env.hash p = some none ∨
        ∃ f pg, s.page_table_.Find env.hash p = some (some f) ∧ s.getPage f = some pg ∧
          pg.pin_count_ ≤ 0)) ∧
      (b = false → s' = s) ∧
      (b = true → ∃ f pg pg', s.page_table_.Find env.hash p = some (some f) ∧
        s.getPage f = some pg ∧ s'.getPage f = some pg' ∧
        pg'.pin_count_ = pg.pin_count_ - 1 ∧
        (s'.replacer_.evictable f = true ↔ pg'.pin_count_ = 0)) := by
  have hinv := PinInv.run_pins ops (PinInv.at_start env pool_size replacer_k bucket_size)
    hreach
  have htotal : ∃ s' b, s.UnpinPgImp env p d = some (s', b) := by
    obtain ⟨o, ho⟩ := hinv.inv.wf.find_total p
    cases o with
    | none => exact ⟨s, false, by unfold UnpinPgImp; rw [ho]⟩
    | some f =>
      obtain ⟨pg, hpg, _⟩ := hinv.inv.i1 p f ho
      by_cases hpin : 0 < pg.pin_count_
      · exact ⟨_, _, UnpinPgImp_pos env d ho hpg hpin⟩
      · refine ⟨s, false, ?_⟩
        unfold UnpinPgImp
        rw [ho]
        simp only
        rw [hpg]
        simp only
        rw [if_pos (not_lt.1 hpin)]
  obtain ⟨s', b, hr⟩ := htotal
  refine ⟨s', b, hr, ?_⟩
  rcases UnpinPgImp_cases hr with ⟨e1, e2, hwhy⟩ | ⟨e1, f, pg, hmap, hpg, hpin, e2⟩
  · refine ⟨⟨fun _ => hwhy, fun _ => e1⟩, fun _ => e2, ?_⟩
    intro hb
    rw [e1] at hb
    exact Bool.noConfusion hb
  · refine ⟨⟨?_, ?_⟩, ?_, ?_⟩
    · intro hb
      rw [e1] at hb
      exact Bool.noConfusion hb
    · rintro (hn | ⟨f2, pg2, hmap2, hpg2, hle⟩)
      · rw [hmap] at hn
        exact Option.noConfusion (Option.some.inj hn)
      · rw [hmap] at hmap2
        have e3 := Option.some.inj (Option.some.inj hmap2)
        subst e3
        rw [hpg] at hpg2
        have e4 := Option.some.inj hpg2
        subst e4
        omega
    · intro hb
      rw [e1] at hb
      exact Bool.noConfusion hb
    · intro _
      have hset := getPage_of_set s' { pg with
        pin_count_ := pg.pin_count_ - 1
        is_dirty_ := if d = true then true else pg.is_dirty_ } hpg (by rw [e2]) f
      rw [if_pos rfl] at hset
      refine ⟨f, pg, _, hmap, hpg, hset, rfl, ?_⟩
      have hflag := hinv.pinned f pg hpg hpin
      have hrep : s'.replacer_ =
          (if pg.pin_count_ - 1 = 0 then s.replacer_.SetEvictable f true
            else s.replacer_) := by rw [e2]
      show s'.replacer_.evictable f = true ↔ pg.pin_count_ - 1 = 0
      rw [hrep]
      by_cases hz : pg.pin_count_ - 1 = 0
      · rw [if_pos hz]
        have : ufind (s.replacer_.SetEvictable f true).frame_evictable_ f = some true := by
          rw [SetEvictable_flags, if_pos ⟨rfl, by rw [hflag]; exact Option.some_ne_none _⟩]
        simp [LRUKReplacer.evictable, this, hz]
      · rw [if_neg hz]
        simp [LRUKReplacer.evictable, hflag, hz]

/-- C18 on a pool of 1 frame whose page 0 has pin count 1: `UnpinPage(0, true)` returns
true, leaves pin count 0 and the frame evictable. -/
theorem C18_unpin_result_witness :
    ∃ s' b, (sampleRun 1 [.new_page]).1.UnpinPgImp sampleEnv 0 true = some (s', b) ∧
      (b = false ↔ ((sampleRun 1 [.new_page]).1.page_table_.Find sampleEnv.hash 0 = some none ∨
        ∃ f pg, (sampleRun 1 [.new_page]).1.page_table_.Find sampleEnv.hash 0 =
            some (some f) ∧
          (sampleRun 1 [.new_page]).1.getPage f = some pg ∧ pg.pin_count_ ≤ 0)) ∧
      (b = false → s' = (sampleRun 1 [.new_page]).1) ∧
      (b = true → ∃ f pg pg',
        (sampleRun 1 [.new_page]).1.page_table_.Find sampleEnv.hash 0 = some (some f) ∧
        (sampleRun 1 [.new_page]).1.getPage f = some pg ∧ s'.getPage f = some pg' ∧
        pg'.pin_count_ = pg.pin_count_ - 1 ∧
        (s'.replacer_.evictable f = true ↔ pg'.pin_count_ = 0)) :=
  C18_unpin_result sampleEnv 1 2 4 [.new_page] _ _ (sampleRun_eq 1 _ (by decide)) 0 true

end bustub

namespace bustub

/-- C12: after every sequence of `RecordAccess` / `SetEvictable` / `Remove` / `Evict` calls on
a new replacer, for every `k` (a `size_t`), `Size()` is the number of frames that are tracked
and marked evictable: there is a list without repetition of exactly those frames whose length
is `Size()`. With `k ≥ 2` every such sequence of fewer than `2^64` calls runs to its end; with
`k ≤ 1` it does so as long as no tracked frame is accessed again. -/
theorem C12_size_counts_evictable_frames (num_frames k : Nat) (hk : k < SIZE_MOD)
    (ops : List ReplacerOp) (hlen : ops.length < SIZE_MOD) :
    (2 ≤ k → ∃ s, runOps (LRUKReplacer.new num_frames k, AccessLog.empty) ops = some s) ∧
    ∀ r g, runOps (LRUKReplacer.new num_frames k, AccessLog.empty) ops = some (r, g) →
      ∃ l : List Int, l.Nodup ∧
        (∀ f, f ∈ l ↔ (r.tracked f = true ∧ r.evictable f = true)) ∧
        r.Size = l.length := by
  constructor
  · intro hk2
    obtain ⟨s, h1, _⟩ := ReplInv.runOps ops (ReplInv.new_replacer num_frames hk) hk2
      (show 0 + ops.length < SIZE_MOD by omega)
    exact ⟨s, h1⟩
  · intro r g hrun
    have hs : SizeInv num_frames r := SizeInv.run_new num_frames hk ops hlen hrun
    obtain ⟨n1, n2⟩ := flagged_frames hs.evNodup true
    refine ⟨_, n1, ?_, ?_⟩
    · intro f
      rw [n2 f]
      unfold LRUKReplacer.tracked LRUKReplacer.evictable
      cases ufind r.frame_evictable_ f with
      | none => simp
      | some b => cases b <;> simp
    · show r.curr_size_ = _
      rw [hs.size, evCount_eq_flagged]

/-- C12, an instance: with `k = 2`, the calls `RecordAccess(1)`, `RecordAccess(2)`,
`SetEvictable(1, false)`, `RecordAccess(1)`, `Evict()`, `Remove(1)` on a replacer of 7
frames. -/
theorem C12_size_counts_evictable_frames_witness :
    (2 : Nat) < SIZE_MOD ∧
    ([ReplacerOp.record_access 1, .record_access 2, .set_evictable 1 false,
      .record_access 1, .evict, .remove 1] : List ReplacerOp).length < SIZE_MOD ∧
    ((2 ≤ 2 → ∃ s, runOps (LRUKReplacer.new 7 2, AccessLog.empty)
      [.record_access 1, .record_access 2, .set_evictable 1 false,
        .record_access 1, .evict, .remove 1] = some s) ∧
    ∀ r g, runOps (LRUKReplacer.new 7 2, AccessLog.empty)
      [.record_access 1, .record_access 2, .set_evictable 1 false,
        .record_access 1, .evict, .remove 1] = some (r, g) →
      ∃ l : List Int, l.Nodup ∧
        (∀ f, f ∈ l ↔ (r.tracked f = true ∧ r.evictable f = true)) ∧
        r.Size = l.length) :=
  ⟨by decide, by decide,
    C12_size_counts_evictable_frames 7 2 (by decide) _ (by decide)⟩

/-- C16, counterexample: on a replacer built for 7 frames, `RecordAccess(1)` followed by
`SetEvictable(1, false)` leaves `replacer_size_` at 6. -/
theorem C16_set_evictable_changes_replacer_size :
    (LRUKReplacer.new 7 2).replacer_size_ = 7 ∧
    (runOps (LRUKReplacer.new 7 2, AccessLog.empty)
      [.record_access 1, .set_evictable 1 false]).map (fun s => s.1.replacer_size_) =
      some 6 := by
  decide

/-- C16, amended: `SetEvictable(f, b)` changes nothing except the flag of `f`, `curr_size_`
and `replacer_size_`, and nothing at all when `f` is untracked or already in state `b`; a call
that changes the flag moves both sizes together, by `+1` for `b = true` and by `-1` for
`b = false` (in `size_t` arithmetic). `RecordAccess`, `Remove` and `Evict` never change
`replacer_size_`. So after every sequence of calls on a new replacer, `replacer_size_` plus
the number of tracked frames that are not evictable is `num_frames`, modulo `2^64`. -/
theorem C16_replacer_size_follows_set_evictable (num_frames k : Nat) (hk : k < SIZE_MOD)
    (ops : List ReplacerOp) (hlen : ops.length < SIZE_MOD) :
    (∀ (r : LRUKReplacer) (f : Int) (b : Bool),
      { r.SetEvictable f b with
          frame_evictable_ := r.frame_evictable_
          curr_size_ := r.curr_size_
          replacer_size_ := r.replacer_size_ } = r ∧
      (∀ g, g ≠ f →
        ufind (r.SetEvictable f b).frame_evictable_ g = ufind r.frame_evictable_ g) ∧
      ((ufind r.frame_evictable_ f = none ∨ ufind r.frame_evictable_ f = some b) →
        r.SetEvictable f b = r) ∧
      (ufind r.frame_evictable_ f = some (!b) →
        ufind (r.SetEvictable f b).frame_evictable_ f = some b ∧
        (r.SetEvictable f b).curr_size_ =
          (if b then szInc r.curr_size_ else szDec r.curr_size_) ∧
        (r.SetEvictable f b).replacer_size_ =
          (if b then szInc r.replacer_size_ else szDec r.replacer_size_))) ∧
    (∀ (r r' : LRUKReplacer) (f : Int), r.RecordAccess f = some r' →
      r'.replacer_size_ = r.replacer_size_) ∧
    (∀ (r : LRUKReplacer) (f : Int), (r.Remove f).replacer_size_ = r.replacer_size_) ∧
    (∀ r : LRUKReplacer, r.Evict.1.replacer_size_ = r.replacer_size_) ∧
    ∀ r g, runOps (LRUKReplacer.new num_frames k, AccessLog.empty) ops = some (r, g) →
      ∃ l : List Int, l.Nodup ∧
        (∀ f, f ∈ l ↔ (r.tracked f = true ∧ r.evictable f = false)) ∧
        (r.replacer_size_ + l.length) % SIZE_MOD = num_frames % SIZE_MOD := by
  refine ⟨?_, fun r r' f h => RecordAccess_replacer_size h, Remove_replacer_size,
    fun r => (EvictInstance_keeps r).1, ?_⟩
  · intro r f b
    refine ⟨?_, ?_, ?_, ?_⟩
    · unfold LRUKReplacer.SetEvictable
      cases hf : ufind r.frame_evictable_ f with
      | none => rfl
      | some b0 =>
        simp only
        split
        · rfl
        · split <;> rfl
    · intro g hg
      rw [SetEvictable_flags, if_neg (fun h => hg h.1.symm)]
    · intro h
      unfold LRUKReplacer.SetEvictable
      rcases h with h | h
      · rw [h]
      · rw [h]
        simp only [if_true]
    · intro h
      refine ⟨by rw [SetEvictable_flags, if_pos ⟨rfl, by rw [h]; exact Option.some_ne_none _⟩],
        ?_⟩
      unfold LRUKReplacer.SetEvictable
      rw [h]
      cases b <;> simp
  · intro r g hrun
    have hs : SizeInv num_frames r := SizeInv.run_new num_frames hk ops hlen hrun
    obtain ⟨n1, n2⟩ := flagged_frames hs.evNodup false
    refine ⟨_, n1, ?_, ?_⟩
    · intro f
      rw [n2 f]
      unfold LRUKReplacer.tracked LRUKReplacer.evictable
      cases ufind r.frame_evictable_ f with
      | none => simp
      | some b => cases b <;> simp
    · rw [← falseCount_eq_flagged]
      exact hs.cap

/-- C16, an instance of the amended claim: a replacer of 7 frames with `k = 2` and the calls
`RecordAccess(1)`, `SetEvictable(1, false)`, `RecordAccess(2)`, `SetEvictable(1, true)`,
`SetEvictable(2, false)`. -/
theorem C16_replacer_size_follows_set_evictable_witness :
    (2 : Nat) < SIZE_MOD ∧
    ((runOps (LRUKReplacer.new 7 2, AccessLog.empty)
      [.record_access 1, .set_evictable 1 false, .record_access 2, .set_evictable 1 true,
        .set_evictable 2 false]).map
      (fun s => (s.1.replacer_size_, s.1.curr_size_, s.1.frame_evictable_))) =
      some (6, 1, [(2, false), (1, true)]) ∧
    ∀ r g, runOps (LRUKReplacer.new 7 2, AccessLog.empty)
      [.record_access 1, .set_evictable 1 false, .record_access 2, .set_evictable 1 true,
        .set_evictable 2 false] = some (r, g) →
      ∃ l : List Int, l.Nodup ∧
        (∀ f, f ∈ l ↔ (r.tracked f = true ∧ r.evictable f = false)) ∧
        (r.replacer_size_ + l.length) % SIZE_MOD = 7 % SIZE_MOD :=
  ⟨by decide, by decide,
    (C16_replacer_size_follows_set_evictable 7 2 (by decide) _ (by decide)).2.2.2.2⟩

end bustub

namespace bustub

/-! ## The guard of the eviction in `RecordAccess` -/

theorem szInc_lt {x : Nat} (h : x < SIZE_MOD) : szInc x < SIZE_MOD := by
  unfold szInc
  split
  · unfold SIZE_MOD; positivity
  · omega

theorem szDec_lt {x : Nat} (h : x < SIZE_MOD) : szDec x < SIZE_MOD := by
  unfold szDec
  split
  · exact Nat.sub_lt (by unfold SIZE_MOD; positivity) (by decide)
  · omega

theorem SetEvictable_replacer_size_lt (r : LRUKReplacer) (f : Int) (b : Bool)
    (h : r.replacer_size_ < SIZE_MOD) : (r.SetEvictable f b).replacer_size_ < SIZE_MOD := by
  unfold LRUKReplacer.SetEvictable
  cases hf : ufind r.frame_evictable_ f with
  | none => exact h
  | some b0 =>
    simp only
    split
    · exact h
    · split
      · exact szInc_lt h
      · exact szDec_lt h

/-- Every call keeps `replacer_size_` below `2^64`. -/
theorem apply_replacer_size_lt {r r' : LRUKReplacer} {op : ReplacerOp}
    (hr : r.apply op = some r') (h : r.replacer_size_ < SIZE_MOD) :
    r'.replacer_size_ < SIZE_MOD := by
  cases op with
  | record_access f =>
    rw [RecordAccess_replacer_size hr]; exact h
  | set_evictable f b =>
    simp only [LRUKReplacer.apply, Option.some.injEq] at hr
    subst hr
    exact SetEvictable_replacer_size_lt r f b h
  | remove x =>
    simp only [LRUKReplacer.apply, Option.some.injEq] at hr
    subst hr
    rw [Remove_replacer_size]; exact h
  | evict =>
    simp only [LRUKReplacer.apply, Option.some.injEq] at hr
    subst hr
    show r.EvictInstance.1.replacer_size_ < SIZE_MOD
    rw [(EvictInstance_keeps r).1]; exact h

/-- A run keeps `replacer_size_` below `2^64` and advances the clock of the record by at most
one for each call. -/
theorem runOps_bounds (ops : List ReplacerOp) :
    ∀ {r : LRUKReplacer} {g : AccessLog} {s : LRUKReplacer × AccessLog},
    bustub.runOps (r, g) ops = some s → r.replacer_size_ < SIZE_MOD →
    s.1.replacer_size_ < SIZE_MOD ∧ s.2.clock ≤ g.clock + ops.length := by
  induction ops with
  | nil =>
    intro r g s hrun h
    simp only [bustub.runOps, Option.some.injEq] at hrun
    subst hrun
    exact ⟨h, Nat.le_refl _⟩
  | cons op ops ih =>
    intro r g s hrun h
    cases h1 : r.apply op with
    | none =>
      simp only [bustub.runOps, h1] at hrun
      exact Option.noConfusion hrun
    | some r1 =>
      simp only [bustub.runOps, h1] at hrun
      obtain ⟨a1, a2⟩ := ih hrun (apply_replacer_size_lt h1 h)
      refine ⟨a1, le_trans a2 ?_⟩
      have hc : (g.step op r1).clock ≤ g.clock + 1 := by
        cases op <;> simp [AccessLog.step]
      simp only [List.length_cons]
      omega

/-- With `k ≤ 1`, a run that returns advances the timestamp by at most one for each call. -/
theorem LruInv.run_stamp {N : Nat} (ops : List ReplacerOp) :
    ∀ {r : LRUKReplacer} {g : AccessLog} {s : LRUKReplacer × AccessLog},
    LruInv r → SizeInv N r → r.current_timestamp_ + ops.length < SIZE_MOD →
    bustub.runOps (r, g) ops = some s →
    s.1.current_timestamp_ ≤ r.current_timestamp_ + ops.length := by
  induction ops with
  | nil =>
    intro r g s _ _ _ hrun
    simp only [bustub.runOps, Option.some.injEq] at hrun
    subst hrun
    exact Nat.le_refl _
  | cons op ops ih =>
    intro r g s h hs hlen hrun
    simp only [List.length_cons] at hlen
    cases h1 : r.apply op with
    | none =>
      simp only [bustub.runOps, h1] at hrun
      exact Option.noConfusion hrun
    | some r1 =>
      simp only [bustub.runOps, h1] at hrun
      obtain ⟨a1, a2, a3⟩ := h.step_lru hs (by omega) h1
      have := ih a1 a2 (by omega) hrun
      simp only [List.length_cons]
      omega

theorem evCount_add_falseCount (m : List (Int × Bool)) :
    evCount m + falseCount m = m.length := by
  induction m with
  | nil => rfl
  | cons e m ih =>
    rw [evCount_cons, falseCount_cons, List.length_cons]
    cases e.2 <;> simp <;> omega

/-- The sizes of a replacer built for `N` frames differ as `N` and the number of tracked
frames. -/
theorem SizeInv.tracked_sizes {N : Nat} {r : LRUKReplacer} (h : SizeInv N r) :
    (r.replacer_size_ + r.frame_evictable_.length) % SIZE_MOD =
      (N + r.curr_size_) % SIZE_MOD := by
  rw [← evCount_add_falseCount, h.size]
  have e1 : r.replacer_size_ + (evCount r.frame_evictable_ + falseCount r.frame_evictable_) =
      (r.replacer_size_ + falseCount r.frame_evictable_) + evCount r.frame_evictable_ := by
    omega
  rw [e1, Nat.add_mod, h.cap, ← Nat.add_mod]

/-- The two sizes are equal exactly when the number of tracked frames is congruent to `N`. -/
theorem SizeInv.guard_iff {N : Nat} {r : LRUKReplacer} (h : SizeInv N r)
    (hrs : r.replacer_size_ < SIZE_MOD) (hlen : r.frame_evictable_.length < SIZE_MOD) :
    r.curr_size_ = r.replacer_size_ ↔
      r.frame_evictable_.length % SIZE_MOD = N % SIZE_MOD := by
  have hcs : r.curr_size_ < SIZE_MOD := by
    rw [h.size]
    exact lt_of_le_of_lt (evCount_le_length _) hlen
  have ht := h.tracked_sizes
  constructor
  · intro e
    rw [← e] at ht
    have h1 : (r.frame_evictable_.length + r.curr_size_) % SIZE_MOD =
        (N + r.curr_size_) % SIZE_MOD := by rw [← ht, Nat.add_comm]
    exact Nat.ModEq.add_right_cancel' r.curr_size_ h1
  · intro e
    have h1 : (r.replacer_size_ + r.frame_evictable_.length) % SIZE_MOD =
        (r.curr_size_ + r.frame_evictable_.length) % SIZE_MOD := by
      rw [ht, Nat.add_mod, ← e, ← Nat.add_mod, Nat.add_comm]
    have h2 : r.replacer_size_ % SIZE_MOD = r.curr_size_ % SIZE_MOD :=
      Nat.ModEq.add_right_cancel' r.frame_evictable_.length h1
    rw [Nat.mod_eq_of_lt hrs, Nat.mod_eq_of_lt hcs] at h2
    exact h2.symm

/-- The state that a run of a new replacer reaches: the invariant of the sizes, the bounds of
`replacer_size_` and of the number of tracked frames, and the access count 1 for exactly the
frames that are not tracked. -/
theorem SizeInv.run_facts (N : Nat) {k : Nat} (hk : k < SIZE_MOD) (ops : List ReplacerOp)
    (hlen : ops.length + 1 < SIZE_MOD) {s : LRUKReplacer × AccessLog}
    (hrun : bustub.runOps (LRUKReplacer.new N k, AccessLog.empty) ops = some s) :
    SizeInv N s.1 ∧ s.1.replacer_size_ < SIZE_MOD ∧
      s.1.frame_evictable_.length < SIZE_MOD ∧
      ∀ f, s.1.countAfter f = 1 ↔ ufind s.1.frame_evictable_ f = none := by
  have hs := SizeInv.run_new N hk ops (by omega) hrun
  have hnew : (LRUKReplacer.new N k).replacer_size_ < SIZE_MOD :=
    Nat.mod_lt _ (by unfold SIZE_MOD; positivity)
  obtain ⟨b1, b2⟩ := runOps_bounds ops hrun hnew
  have b2' : s.2.clock ≤ ops.length := by
    have : AccessLog.empty.clock = 0 := rfl
    omega
  refine ⟨hs, b1, ?_⟩
  by_cases hk2 : 2 ≤ k
  · obtain ⟨s', h1, h2⟩ := ReplInv.runOps ops (ReplInv.new_replacer N hk) hk2
      (show AccessLog.empty.clock + ops.length < SIZE_MOD by
        have : AccessLog.empty.clock = 0 := rfl
        omega)
    rw [hrun, Option.some.injEq] at h1
    subst h1
    refine ⟨lt_of_le_of_lt h2.szb (by omega), ?_⟩
    intro f
    constructor
    · intro hc
      by_contra hne
      exact h2.count_tracked (by omega) f hne hc
    · intro hf
      exact countAfter_of_uncounted _ f (h2.untr f hf).1
  · have hl := LruInv.new_lru N (show k ≤ 1 by omega)
    have hz : (LRUKReplacer.new N k).current_timestamp_ = 0 := rfl
    obtain ⟨c1, _⟩ := LruInv.run_lru ops hl (SizeInv.new_sizes N k)
      (by rw [hz]; omega) hrun
    have c2 := LruInv.run_stamp ops hl (SizeInv.new_sizes N k) (by rw [hz]; omega) hrun
    rw [hz] at c2
    refine ⟨lt_of_le_of_lt c1.szb (by omega), ?_⟩
    intro f
    constructor
    · intro hc
      by_contra hne
      have h1 := c1.once f hne
      unfold LRUKReplacer.countAfter at hc
      simp only [h1, Option.getD_some] at hc
      exact absurd hc (by decide)
    · intro hf
      apply countAfter_of_uncounted
      by_contra hne
      exact c1.counted f hne hf

end bustub

namespace bustub

/-! ## The replacer refines its specification -/

theorem ufind_flags (l : List (Int × (List Nat × Bool))) (f : Int) :
    ufind (l.map (fun e => (e.1, e.2.2))) f = (ufind l f).map (fun e => e.2) := by
  induction l with
  | nil => rfl
  | cons a l ih =>
    obtain ⟨x, h, b⟩ := a
    simp only [List.map_cons, ufind]
    by_cases hx : x = f
    · simp [hx]
    · simp [hx, ih]

theorem flags_uerase (l : List (Int × (List Nat × Bool))) (f : Int) :
    (uerase l f).map (fun e => (e.1, e.2.2)) = uerase (l.map (fun e => (e.1, e.2.2))) f := by
  induction l with
  | nil => rfl
  | cons a l ih =>
    obtain ⟨x, h, b⟩ := a
    simp only [List.map_cons, uerase]
    by_cases hx : x = f
    · simp [hx, ih]
    · simp [hx, ih]

theorem flags_uset (l : List (Int × (List Nat × Bool))) (f : Int) (h : List Nat) (b : Bool) :
    (uset l f (h, b)).map (fun e => (e.1, e.2.2)) =
      uset (l.map (fun e => (e.1, e.2.2))) f b := by
  simp only [uset, List.map_cons, flags_uerase]

theorem flags_touch (l : List (Int × (List Nat × Bool))) (f : Int) (c : Nat) :
    (l.map (fun e => if e.1 = f then (e.1, (e.2.1 ++ [c], e.2.2)) else e)).map
      (fun e => (e.1, e.2.2)) = l.map (fun e => (e.1, e.2.2)) := by
  rw [List.map_map]
  apply List.map_congr_left
  intro e _
  simp only [Function.comp]
  split <;> rfl

theorem leastBy_none {α : Type} (key : α → Nat) (l : List α) :
    leastBy key l = none ↔ l = [] := by
  cases l with
  | nil => simp [leastBy]
  | cons a l =>
    simp only [leastBy]
    cases leastBy key l with
    | none => simp
    | some b =>
      simp only
      by_cases hle : key a ≤ key b
      · simp [hle]
      · simp [hle]

theorem leastBy_mem {α : Type} (key : α → Nat) : ∀ (l : List α) (a : α),
    leastBy key l = some a → a ∈ l ∧ ∀ x ∈ l, key a ≤ key x := by
  intro l
  induction l with
  | nil => intro a h; simp [leastBy] at h
  | cons c l ih =>
    intro a h
    simp only [leastBy] at h
    cases hl : leastBy key l with
    | none =>
      rw [hl] at h
      simp only [Option.some.injEq] at h
      subst h
      have : l = [] := (leastBy_none key l).1 hl
      subst this
      exact ⟨List.mem_cons_self _ _, fun x hx => by
        simp only [List.mem_singleton] at hx
        rw [hx]⟩
    | some b =>
      rw [hl] at h
      obtain ⟨hb1, hb2⟩ := ih b hl
      simp only at h
      split at h
      · next hle =>
        simp only [Option.some.injEq] at h
        subst h
        refine ⟨List.mem_cons_self _ _, ?_⟩
        intro x hx
        rcases List.mem_cons.1 hx with rfl | hx
        · exact Nat.le_refl _
        · exact le_trans hle (hb2 x hx)
      · next hle =>
        simp only [Option.some.injEq] at h
        subst h
        refine ⟨List.mem_cons_of_mem _ hb1, ?_⟩
        intro x hx
        rcases List.mem_cons.1 hx with rfl | hx
        · omega
        · exact hb2 x hx

theorem earliest_mem {l : List Nat} (h : l ≠ []) : earliest l ∈ l := by
  cases l with
  | nil => exact absurd rfl h
  | cons a l => simp [earliest]

theorem kthRecent_mem {k : Nat} {l : List Nat} (hk : 0 < k) (h : k ≤ l.length) :
    kthRecent k l ∈ l := by
  unfold kthRecent
  have hlt : l.length - k < l.length := by omega
  rw [List.getD_eq_getElem _ _ hlt]
  exact List.getElem_mem _

/-- `EvictInstance` does not read what the first statements of `RecordAccess` write. -/
theorem EvictInstance_stamped (r : LRUKReplacer) (f : Int) :
    (r.stamped f).EvictInstance.2 = r.EvictInstance.2 ∧
      (r.stamped f).EvictInstance.1.frame_evictable_ =
        r.EvictInstance.1.frame_evictable_ := by
  unfold LRUKReplacer.EvictInstance
  simp only [LRUKReplacer.stamped]
  split
  · exact ⟨rfl, rfl⟩
  · split
    · exact ⟨rfl, rfl⟩
    · split
      · exact ⟨rfl, rfl⟩
      · exact ⟨rfl, rfl⟩

/-- The flags after `SetEvictable`. -/
theorem SetEvictable_table (r : LRUKReplacer) (f : Int) (b : Bool) :
    (r.SetEvictable f b).frame_evictable_ =
      match ufind r.frame_evictable_ f with
      | none => r.frame_evictable_
      | some b0 => if b0 = b then r.frame_evictable_ else uset r.frame_evictable_ f b := by
  unfold LRUKReplacer.SetEvictable
  cases hf : ufind r.frame_evictable_ f with
  | none => rfl
  | some b0 =>
    simp only
    split
    · rfl
    · split <;> rfl

/-- The flags after `Remove`. -/
theorem Remove_table (r : LRUKReplacer) (f : Int) :
    (r.Remove f).frame_evictable_ =
      if ufind r.frame_evictable_ f = some true then uerase r.frame_evictable_ f
      else r.frame_evictable_ := by
  unfold LRUKReplacer.Remove
  cases hf : ufind r.frame_evictable_ f with
  | none => simp
  | some b0 =>
    cases b0 with
    | false => simp
    | true =>
      simp only [if_true]
      split
      · rfl
      · split <;> rfl

/-- The flags after `Evict` in a state whose lists hold tracked frames only. -/
theorem Evict_table (r : LRUKReplacer)
    (hn : ∀ f ∈ r.new_frame_, ufind r.frame_evictable_ f ≠ none)
    (hc : ∀ e ∈ r.cache_frame_, ufind r.frame_evictable_ e.1 ≠ none) :
    r.EvictInstance.1.frame_evictable_ =
      match r.EvictInstance.2 with
      | some v => uerase r.frame_evictable_ v
      | none => r.frame_evictable_ := by
  rcases EvictInstance_cases r hn hc with
    ⟨e1, _⟩ | ⟨_, v, l1, l2, _, e2, _⟩ | ⟨_, _, e, l1, l2, _, e2, _⟩
  · rw [e1]
  · rw [e2]; rfl
  · rw [e2]; rfl

end bustub

namespace bustub

theorem evictable_iff (r : LRUKReplacer) (f : Int) :
    r.evictable f = true ↔ ufind r.frame_evictable_ f = some true := by
  simp [LRUKReplacer.evictable]

/-- What `Evict` returns in a state that satisfies the invariant. -/
theorem ReplInv.evict_choice {k : Nat} {r : LRUKReplacer} {g : AccessLog} (h : ReplInv k r g) :
    (∀ f, r.evictable f = true → ∃ v, r.Evict.2 = some v) ∧
    (∀ v, r.Evict.2 = some v →
      r.evictable v = true ∧
      ((∃ f, r.evictable f = true ∧ (g.log f).length < k) →
        (g.log v).length < k ∧
        ∀ f, r.evictable f = true → (g.log f).length < k →
          earliest (g.log v) ≤ earliest (g.log f)) ∧
      ((¬ ∃ f, r.evictable f = true ∧ (g.log f).length < k) →
        ∀ f, r.evictable f = true → kthRecent k (g.log v) ≤ kthRecent k (g.log f))) := by
  have hmem : ∀ f, ufind r.frame_evictable_ f = some true →
      ((g.log f).length < k ∧ f ∈ r.new_frame_) ∨
      (k ≤ (g.log f).length ∧ (f, kthRecent k (g.log f)) ∈ r.cache_frame_) := by
    intro f hf
    obtain ⟨_, _, _, _, _, h6, h7⟩ := h.trk f true hf
    by_cases hlt : (g.log f).length < k
    · exact Or.inl ⟨hlt, (h6 hlt).1⟩
    · exact Or.inr ⟨Nat.le_of_not_lt hlt, (h7 (Nat.le_of_not_lt hlt)).2.1⟩
  have hnew_lt : ∀ f, f ∈ r.new_frame_ → ∀ b, ufind r.frame_evictable_ f = some b →
      (g.log f).length < k := by
    intro f hf b hb
    obtain ⟨_, _, _, _, _, _, h7⟩ := h.trk f b hb
    by_contra hge
    exact (h7 (Nat.le_of_not_lt hge)).1 hf
  simp only [evictable_iff]
  show (∀ f, _ → ∃ v, r.EvictInstance.2 = some v) ∧ ∀ v, r.EvictInstance.2 = some v → _
  rcases EvictInstance_cases r (fun f hf => h.tracked_of_mem_new hf)
      (fun e he => h.tracked_of_mem_cache he) with
    ⟨e1, e2⟩ | ⟨_, v, l1, l2, e1, e2, e3, e4⟩ | ⟨_, e0, e, l1, l2, e1, e2, e3, e4⟩
  · -- nothing is evicted: no frame is evictable
    have hnone : ∀ f, ufind r.frame_evictable_ f ≠ some true := by
      intro f hf
      rcases e2 with e2 | ⟨e2, e3⟩
      · have := evCount_pos_of_ufind hf
        rw [← h.size] at this
        omega
      · rcases hmem f hf with ⟨_, hm⟩ | ⟨_, hm⟩
        · have := e2 f hm
          rw [hf] at this
          exact Bool.noConfusion (Option.some.inj this)
        · have := e3 _ hm
          rw [hf] at this
          exact Bool.noConfusion (Option.some.inj this)
    rw [e1]
    exact ⟨fun f hf => absurd hf (hnone f), fun v hv => Option.noConfusion hv⟩
  · -- a frame of `new_frame_` is evicted
    rw [e2]
    refine ⟨fun _ _ => ⟨v, rfl⟩, ?_⟩
    intro v' hv'
    obtain rfl : v = v' := Option.some.inj hv'
    have hvmem : v ∈ r.new_frame_ :=
      e1 ▸ List.mem_append_right _ (List.mem_cons_self _ _)
    have hvlt := hnew_lt v hvmem true e3
    refine ⟨e3, fun _ => ⟨hvlt, ?_⟩, fun hno => absurd ⟨v, e3, hvlt⟩ hno⟩
    intro f hf hflt
    have hfmem : f ∈ r.new_frame_ := by
      rcases hmem f hf with ⟨_, hm⟩ | ⟨hle, _⟩
      · exact hm
      · omega
    rw [e1] at hfmem
    have hord := h.newOrd
    rw [e1, List.pairwise_append] at hord
    rcases List.mem_append.1 hfmem with hin | hin
    · exact hord.2.2 f hin v (List.mem_cons_self _ _)
    · rcases List.mem_cons.1 hin with rfl | hin
      · exact Nat.le_refl _
      · have := e4 f hin
        rw [hf] at this
        exact Bool.noConfusion (Option.some.inj this)
  · -- a frame of `cache_frame_` is evicted
    rw [e2]
    refine ⟨fun _ _ => ⟨e.1, rfl⟩, ?_⟩
    intro v' hv'
    obtain rfl : e.1 = v' := Option.some.inj hv'
    have hemem : e ∈ r.cache_frame_ :=
      e1 ▸ List.mem_append_right _ (List.mem_cons_self _ _)
    have hnolt : ∀ f, ufind r.frame_evictable_ f = some true → k ≤ (g.log f).length ∧
        (f, kthRecent k (g.log f)) ∈ r.cache_frame_ := by
      intro f hf
      rcases hmem f hf with ⟨_, hm⟩ | hm
      · have := e0 f hm
        rw [hf] at this
        exact Bool.noConfusion (Option.some.inj this)
      · exact hm
    refine ⟨e3, ?_, fun _ => ?_⟩
    · rintro ⟨f, hf, hflt⟩
      have := (hnolt f hf).1
      omega
    · intro f hf
      have hfm := (hnolt f hf).2
      have hord := h.cacheOrd
      rw [e1] at hfm
      rw [e1, List.pairwise_append] at hord
      rw [← h.cacheVal e hemem]
      rcases List.mem_append.1 hfm with hin | hin
      · have := e4 _ hin
        rw [hf] at this
        exact Bool.noConfusion (Option.some.inj this)
      · rcases List.mem_cons.1 hin with heq | hin
        · rw [← heq]
        · exact (List.pairwise_cons.1 hord.2.1).1 _ hin

namespace SpecSim

variable {k N : Nat} {S : SpecReplacer} {r : LRUKReplacer} {g : AccessLog}

theorem find_flag (h : SpecSim S r g) (f : Int) :
    ufind r.frame_evictable_ f = (ufind S.frames f).map (fun e => e.2) := by
  rw [← h.flags]
  exact ufind_flags _ _

theorem history_eq (h : SpecSim S r g) (hi : ReplInv k r g) (f : Int) :
    S.history f = g.log f := by
  unfold SpecReplacer.history
  cases hf : ufind S.frames f with
  | none =>
    have : ufind r.frame_evictable_ f = none := by rw [h.find_flag, hf]; rfl
    rw [(hi.untr f this).2.2.2.2]
    rfl
  | some e =>
    have := h.hist _ (mem_of_ufind hf)
    simpa using this

theorem evictable_eq (h : SpecSim S r g) (f : Int) : S.evictable f = r.evictable f := by
  unfold SpecReplacer.evictable LRUKReplacer.evictable
  rw [h.find_flag]

theorem tracked_eq (h : SpecSim S r g) (f : Int) : S.tracked f = r.tracked f := by
  unfold SpecReplacer.tracked LRUKReplacer.tracked
  rw [h.find_flag]
  cases ufind S.frames f <;> rfl

theorem flag_of_mem (h : SpecSim S r g) (hi : ReplInv k r g) {e : Int × (List Nat × Bool)}
    (he : e ∈ S.frames) : ufind r.frame_evictable_ e.1 = some e.2.2 := by
  apply ufind_of_mem hi.evNodup
  rw [← h.flags]
  exact List.mem_map.2 ⟨e, he, rfl⟩

theorem entry_of_flag (h : SpecSim S r g) {f : Int} {b : Bool}
    (hf : ufind r.frame_evictable_ f = some b) :
    ∃ e ∈ S.frames, e.1 = f ∧ e.2.2 = b := by
  have hm := mem_of_ufind hf
  rw [← h.flags] at hm
  obtain ⟨e, he, heq⟩ := List.mem_map.1 hm
  simp only [Prod.mk.injEq] at heq
  exact ⟨e, he, heq.1, heq.2⟩

/-- In a state of the specification, `Evict` returns the victim of the specification. -/
theorem victim_eq (h : SpecSim S r g) (hi : ReplInv k r g) (hk1 : 0 < k) :
    r.Evict.2 = S.victim k := by
  obtain ⟨c1, c2⟩ := hi.evict_choice
  have hlog := h.hist
  unfold SpecReplacer.victim
  cases hy : leastBy (fun e : Int × (List Nat × Bool) => earliest e.2.1)
      (S.frames.filter (fun e => e.2.2 && decide (e.2.1.length < k))) with
  | some e =>
    simp only
    obtain ⟨m1, m2⟩ := leastBy_mem _ _ _ hy
    rw [List.mem_filter] at m1
    obtain ⟨me, mb⟩ := m1
    simp only [Bool.and_eq_true, decide_eq_true_eq] at mb
    have hev : r.evictable e.1 = true := by
      rw [evictable_iff, h.flag_of_mem hi me, mb.1]
    obtain ⟨v, hv⟩ := c1 e.1 hev
    obtain ⟨d1, d2, _⟩ := c2 v hv
    have hylen : (g.log e.1).length < k := by rw [← hlog e me]; exact mb.2
    obtain ⟨d3, d4⟩ := d2 ⟨e.1, hev, hylen⟩
    obtain ⟨e', me', ev1, ev2⟩ := h.entry_of_flag ((evictable_iff _ _).1 d1)
    have hle1 : earliest (g.log v) ≤ earliest (g.log e.1) := d4 e.1 hev hylen
    have hle2 : earliest e.2.1 ≤ earliest e'.2.1 :=
      m2 e' (List.mem_filter.2 ⟨me', by
        simp only [Bool.and_eq_true, decide_eq_true_eq]
        exact ⟨ev2, by rw [hlog e' me', ev1]; exact d3⟩⟩)
    rw [hlog e me, hlog e' me', ev1] at hle2
    have heq : earliest (g.log v) = earliest (g.log e.1) := le_antisymm hle1 hle2
    have hne1 : g.log v ≠ [] := (hi.trk v true ((evictable_iff _ _).1 d1)).1
    have hne2 : g.log e.1 ≠ [] := (hi.trk e.1 true ((evictable_iff _ _).1 hev)).1
    have : v = e.1 :=
      h.apart v e.1 (earliest (g.log v)) (earliest_mem hne1) (heq ▸ earliest_mem hne2)
    rw [hv, this]
  | none =>
    simp only
    have hyoung := (leastBy_none _ _).1 hy
    have hno : ¬ ∃ f, r.evictable f = true ∧ (g.log f).length < k := by
      rintro ⟨f, hf, hlt⟩
      obtain ⟨e', me', ev1, ev2⟩ := h.entry_of_flag ((evictable_iff _ _).1 hf)
      have : e' ∈ S.frames.filter (fun e => e.2.2 && decide (e.2.1.length < k)) :=
        List.mem_filter.2 ⟨me', by
          simp only [Bool.and_eq_true, decide_eq_true_eq]
          exact ⟨ev2, by rw [hlog e' me', ev1]; exact hlt⟩⟩
      rw [hyoung] at this
      exact absurd this (List.not_mem_nil _)
    have hlen : ∀ f, r.evictable f = true → k ≤ (g.log f).length := by
      intro f hf
      by_contra hlt
      exact hno ⟨f, hf, by omega⟩
    cases hc : leastBy (fun e : Int × (List Nat × Bool) => kthRecent k e.2.1)
        (S.frames.filter (fun e => e.2.2)) with
    | none =>
      have hnil := (leastBy_none _ _).1 hc
      cases hE : r.Evict.2 with
      | none => rfl
      | some v =>
        exfalso
        obtain ⟨d1, _⟩ := c2 v hE
        obtain ⟨e', me', ev1, ev2⟩ := h.entry_of_flag ((evictable_iff _ _).1 d1)
        have : e' ∈ S.frames.filter (fun e => e.2.2) := List.mem_filter.2 ⟨me', ev2⟩
        rw [hnil] at this
        exact absurd this (List.not_mem_nil _)
    | some e =>
      obtain ⟨m1, m2⟩ := leastBy_mem _ _ _ hc
      rw [List.mem_filter] at m1
      obtain ⟨me, mb⟩ := m1
      have hev : r.evictable e.1 = true := by
        rw [evictable_iff, h.flag_of_mem hi me, mb]
      obtain ⟨v, hv⟩ := c1 e.1 hev
      obtain ⟨d1, _, d3⟩ := c2 v hv
      obtain ⟨e', me', ev1, ev2⟩ := h.entry_of_flag ((evictable_iff _ _).1 d1)
      have hle1 : kthRecent k (g.log v) ≤ kthRecent k (g.log e.1) := d3 hno e.1 hev
      have hle2 : kthRecent k e.2.1 ≤ kthRecent k e'.2.1 :=
        m2 e' (List.mem_filter.2 ⟨me', ev2⟩)
      rw [hlog e me, hlog e' me', ev1] at hle2
      have heq : kthRecent k (g.log v) = kthRecent k (g.log e.1) := le_antisymm hle1 hle2
      have : v = e.1 :=
        h.apart v e.1 (kthRecent k (g.log v)) (kthRecent_mem hk1 (hlen v d1))
          (heq ▸ kthRecent_mem hk1 (hlen e.1 hev))
      rw [hv, this]
      rfl

end SpecSim

end bustub

namespace bustub

theorem SpecReplacer.evict_clock (k : Nat) (S : SpecReplacer) : (S.evict k).clock = S.clock := by
  unfold SpecReplacer.evict
  split <;> rfl

theorem SpecReplacer.mem_evict {k : Nat} {S : SpecReplacer} {e : Int × (List Nat × Bool)}
    (he : e ∈ (S.evict k).frames) : e ∈ S.frames := by
  unfold SpecReplacer.evict at he
  split at he
  · exact (mem_uerase.1 he).1
  · exact he

/-- The timestamps of a record are below its clock. -/
theorem ReplInv.log_lt {k : Nat} {r : LRUKReplacer} {g : AccessLog} (h : ReplInv k r g)
    (f : Int) : ∀ t ∈ g.log f, t < g.clock := by
  cases hf : ufind r.frame_evictable_ f with
  | none =>
    rw [(h.untr f hf).2.2.2.2]
    intro t ht
    exact absurd ht (List.not_mem_nil _)
  | some b => exact (h.trk f b hf).2.1

/-- A timestamp of the record after a call is one of the record before, or the clock, for
the frame of a `RecordAccess`. -/
theorem AccessLog.mem_step {g : AccessLog} {op : ReplacerOp} {r' : LRUKReplacer} {x : Int}
    {t : Nat} (ht : t ∈ (g.step op r').log x) :
    t ∈ g.log x ∨ (t = g.clock ∧ op = .record_access x) := by
  simp only [AccessLog.step] at ht
  split at ht
  · cases op with
    | record_access f =>
      simp only at ht
      split at ht
      · next hfx =>
        rcases List.mem_append.1 ht with h1 | h1
        · exact Or.inl h1
        · simp only [List.mem_singleton] at h1
          exact Or.inr ⟨h1, by rw [hfx]⟩
      · exact Or.inl ht
    | set_evictable f b => exact Or.inl ht
    | remove f => exact Or.inl ht
    | evict => exact Or.inl ht
  · exact absurd ht (List.not_mem_nil _)

/-- The record after a call, at a frame that the new state tracks. -/
theorem AccessLog.step_tracked (g : AccessLog) (op : ReplacerOp) {r' : LRUKReplacer} {x : Int}
    (hx : ufind r'.frame_evictable_ x ≠ none) :
    (g.step op r').log x =
      match op with
      | .record_access f => if f = x then g.log x ++ [g.clock] else g.log x
      | _ => g.log x := by
  obtain ⟨b, hb⟩ := Option.ne_none_iff_exists'.1 hx
  simp only [AccessLog.step, LRUKReplacer.tracked, hb, Option.isSome_some, if_true]
  all_goals (cases op <;> rfl)

namespace SpecSim

variable {k N : Nat} {S : SpecReplacer} {r : LRUKReplacer} {g : AccessLog}

/-- A frame of the specification state is tracked by a replacer state with the same flags. -/
theorem tracked_of_flags {S' : SpecReplacer} {r' : LRUKReplacer}
    (hfl : S'.flags = r'.frame_evictable_) {e : Int × (List Nat × Bool)}
    (he : e ∈ S'.frames) : ufind r'.frame_evictable_ e.1 ≠ none := by
  rw [Ne, ufind_eq_none_iff, ← hfl]
  simp only [SpecReplacer.flags, List.map_map, not_not]
  exact List.mem_map.2 ⟨e, he, rfl⟩

/-- The flags that the specification gives after a call are those of the replacer. -/
theorem step_flags (h : SpecSim S r g) (hi : ReplInv k r g) (hs : SizeInv N r)
    (hN : N < SIZE_MOD) (hrs : r.replacer_size_ < SIZE_MOD) (hk2 : 2 ≤ k)
    (hclk : g.clock + 1 < SIZE_MOD) {op : ReplacerOp} {r' : LRUKReplacer}
    (hr : r.apply op = some r') : (S.step N k op).flags = r'.frame_evictable_ := by
  have hn : ∀ f ∈ r.new_frame_, ufind r.frame_evictable_ f ≠ none :=
    fun f hf => hi.tracked_of_mem_new hf
  have hc : ∀ e ∈ r.cache_frame_, ufind r.frame_evictable_ e.1 ≠ none :=
    fun e he => hi.tracked_of_mem_cache he
  have hevict : (S.evict k).flags = r.EvictInstance.1.frame_evictable_ := by
    rw [Evict_table r hn hc]
    have hv := h.victim_eq hi (by omega : 0 < k)
    change r.EvictInstance.2 = S.victim k at hv
    unfold SpecReplacer.evict
    rw [hv]
    cases S.victim k with
    | none => exact h.flags
    | some v =>
      simp only [SpecReplacer.flags]
      rw [flags_uerase]
      exact congrArg (fun m => uerase m v) h.flags
  cases op with
  | record_access f =>
    simp only [LRUKReplacer.apply] at hr
    simp only [SpecReplacer.step]
    cases hf : ufind S.frames f with
    | some e =>
      have hfr : ufind r.frame_evictable_ f ≠ none := by
        rw [h.find_flag, hf]
        exact Option.noConfusion
      have hcnt := hi.count_tracked hclk f hfr
      obtain ⟨a1, _⟩ := RecordAccess_later hcnt hr
      rw [a1, ← h.flags]
      exact flags_touch _ _ _
    | none =>
      have hfr : ufind r.frame_evictable_ f = none := by
        rw [h.find_flag, hf]
        rfl
      have hcnt := countAfter_of_uncounted r f (hi.untr f hfr).1
      rw [RecordAccess_first hcnt, Option.some.injEq] at hr
      subst hr
      have hlen : r.frame_evictable_.length = S.frames.length := by
        rw [← h.flags]
        simp [SpecReplacer.flags]
      have hlt : r.frame_evictable_.length < SIZE_MOD := lt_of_le_of_lt hi.szb hi.clk
      have hguard : (r.stamped f).curr_size_ = (r.stamped f).replacer_size_ ↔
          S.frames.length = N := by
        have := hs.guard_iff hrs hlt
        rw [Nat.mod_eq_of_lt hlt, Nat.mod_eq_of_lt hN, hlen] at this
        exact this
      simp only [SpecReplacer.flags, LRUKReplacer.enterNew]
      rw [flags_uset]
      by_cases hfull : S.frames.length = N
      · rw [if_pos hfull, if_pos (hguard.2 hfull), (EvictInstance_stamped r f).2]
        exact congrArg (fun m => uset m f true) hevict
      · rw [if_neg hfull, if_neg (fun hc' => hfull (hguard.1 hc'))]
        exact congrArg (fun m => uset m f true) h.flags
  | set_evictable f b =>
    simp only [LRUKReplacer.apply, Option.some.injEq] at hr
    subst hr
    rw [SetEvictable_table, h.find_flag]
    simp only [SpecReplacer.step]
    cases hf : ufind S.frames f with
    | none => exact h.flags
    | some e =>
      simp only [Option.map_some']
      by_cases hb : e.2 = b
      · rw [if_pos hb, if_pos hb]
        exact h.flags
      · rw [if_neg hb, if_neg hb]
        simp only [SpecReplacer.flags]
        rw [flags_uset]
        exact congrArg (fun m => uset m f b) h.flags
  | remove f =>
    simp only [LRUKReplacer.apply, Option.some.injEq] at hr
    subst hr
    rw [Remove_table, h.find_flag]
    simp only [SpecReplacer.step]
    cases hf : ufind S.frames f with
    | none =>
      simp only [Option.map_none']
      rw [if_neg (by exact Option.noConfusion)]
      exact h.flags
    | some e =>
      obtain ⟨hh, b⟩ := e
      cases b with
      | true =>
        simp only [Option.map_some', if_true, SpecReplacer.flags]
        rw [flags_uerase]
        exact congrArg (fun m => uerase m f) h.flags
      | false =>
        simp only [Option.map_some']
        rw [if_neg (by simp)]
        exact h.flags
  | evict =>
    simp only [LRUKReplacer.apply, Option.some.injEq] at hr
    subst hr
    exact hevict

/-- Each call leads from a state of the specification to the state that the specification
gives. -/
theorem step_sim (h : SpecSim S r g) (hi : ReplInv k r g) (hs : SizeInv N r)
    (hN : N < SIZE_MOD) (hrs : r.replacer_size_ < SIZE_MOD) (hk2 : 2 ≤ k)
    (hclk : g.clock + 1 < SIZE_MOD) {op : ReplacerOp} {r' : LRUKReplacer}
    (hr : r.apply op = some r') : SpecSim (S.step N k op) r' (g.step op r') := by
  have hfl := h.step_flags hi hs hN hrs hk2 hclk hr
  refine ⟨?_, hfl, ?_, ?_⟩
  · -- the clocks
    cases op with
    | record_access f =>
      simp only [SpecReplacer.step, AccessLog.step]
      cases ufind S.frames f with
      | none => simp only [h.clock]
      | some e => simp only [h.clock]
    | set_evictable f b =>
      simp only [SpecReplacer.step, AccessLog.step]
      cases ufind S.frames f with
      | none => exact h.clock
      | some e =>
        simp only
        split
        · exact h.clock
        · exact h.clock
    | remove f =>
      simp only [SpecReplacer.step, AccessLog.step]
      split
      · exact h.clock
      · exact h.clock
    | evict =>
      simp only [SpecReplacer.step, AccessLog.step, SpecReplacer.evict_clock]
      exact h.clock
  · -- the histories
    intro e' he'
    rw [AccessLog.step_tracked g op (tracked_of_flags hfl he')]
    cases op with
    | record_access f =>
      simp only [SpecReplacer.step] at he'
      simp only
      cases hf : ufind S.frames f with
      | some e =>
        rw [hf] at he'
        simp only [List.mem_map] at he'
        obtain ⟨e0, he0, heq⟩ := he'
        by_cases hx : e0.1 = f
        · rw [if_pos hx] at heq
          subst heq
          simp only
          rw [if_pos hx.symm, h.hist e0 he0, h.clock]
        · rw [if_neg hx] at heq
          subst heq
          rw [if_neg (fun h' => hx h'.symm)]
          exact h.hist e0 he0
      | none =>
        rw [hf] at he'
        simp only [uset, List.mem_cons] at he'
        have hfr : ufind r.frame_evictable_ f = none := by
          rw [h.find_flag, hf]
          rfl
        rcases he' with rfl | he'
        · simp only [if_true]
          rw [(hi.untr f hfr).2.2.2.2, h.clock]
          rfl
        · obtain ⟨m1, m2⟩ := mem_uerase.1 he'
          rw [if_neg (fun h' => m2 h'.symm)]
          apply h.hist
          split at m1
          · exact SpecReplacer.mem_evict m1
          · exact m1
    | set_evictable f b =>
      simp only [SpecReplacer.step] at he'
      simp only
      cases hf : ufind S.frames f with
      | none =>
        rw [hf] at he'
        exact h.hist e' he'
      | some e =>
        rw [hf] at he'
        simp only at he'
        split at he'
        · exact h.hist e' he'
        · simp only [uset, List.mem_cons] at he'
          rcases he' with rfl | he'
          · exact h.hist (f, e) (mem_of_ufind hf)
          · exact h.hist e' (mem_uerase.1 he').1
    | remove f =>
      simp only [SpecReplacer.step] at he'
      simp only
      split at he'
      · exact h.hist e' (mem_uerase.1 he').1
      · exact h.hist e' he'
    | evict =>
      simp only [SpecReplacer.step] at he'
      exact h.hist e' (SpecReplacer.mem_evict he')
  · -- no timestamp is recorded twice
    intro f f' t ht ht'
    rcases AccessLog.mem_step ht with h1 | ⟨h1, h2⟩
    · rcases AccessLog.mem_step ht' with h3 | ⟨h3, h4⟩
      · exact h.apart f f' t h1 h3
      · have := hi.log_lt f t h1
        omega
    · rcases AccessLog.mem_step ht' with h3 | ⟨h3, h4⟩
      · have := hi.log_lt f' t h3
        omega
      · rw [h2] at h4
        exact ReplacerOp.record_access.inj h4

/-- A run of calls leads from a state of the specification to the state that the
specification gives. -/
theorem run_sim (hN : N < SIZE_MOD) (hk2 : 2 ≤ k) (ops : List ReplacerOp) :
    ∀ {S : SpecReplacer} {r : LRUKReplacer} {g : AccessLog} {s : LRUKReplacer × AccessLog},
    SpecSim S r g → ReplInv k r g → SizeInv N r → r.replacer_size_ < SIZE_MOD →
    g.clock + ops.length < SIZE_MOD → runOps (r, g) ops = some s →
    SpecSim (ops.foldl (SpecReplacer.step N k) S) s.1 s.2 ∧ ReplInv k s.1 s.2 := by
  induction ops with
  | nil =>
    intro S r g s h hi _ _ _ hrun
    simp only [runOps, Option.some.injEq] at hrun
    subst hrun
    exact ⟨h, hi⟩
  | cons op ops ih =>
    intro S r g s h hi hs hrs hlen hrun
    simp only [List.length_cons] at hlen
    obtain ⟨r1, h1, h2, h3⟩ := hi.apply hk2 (by omega) op
    simp only [runOps, h1] at hrun
    simp only [List.foldl_cons]
    exact ih (h.step_sim hi hs hN hrs hk2 (by omega) h1) h2
      (hi.step_sizes hs (by omega) h1) (apply_replacer_size_lt h1 hrs) (by omega) hrun

end SpecSim

end bustub

namespace bustub

/-- The empty specification describes a new replacer. -/
theorem SpecSim.of_new (num_frames k : Nat) :
    SpecSim SpecReplacer.empty (LRUKReplacer.new num_frames k) AccessLog.empty :=
  { clock := rfl
    flags := rfl
    hist := fun e he => absurd he (List.not_mem_nil _)
    apart := fun f f' t ht => absurd ht (List.not_mem_nil _) }

/-- C1: for every `k ≥ 2` and every sequence of fewer than `2^64` `RecordAccess` /
`SetEvictable` / `Remove` / `Evict` calls on a new replacer (`num_frames` and `k` being
`size_t`), the run is defined and a following `Evict` returns the victim that the
specification `SpecReplacer`, run on the same calls, selects. With "tracked", "evictable" and
the accesses of a frame "since it was last evicted or removed" as the calls determine them in
the specification: `Evict` returns a frame whenever some tracked frame is evictable; the frame
it returns is evictable; if some evictable frame has fewer than `k` such accesses, the
returned frame is one of those and its earliest such access is the smallest among them;
otherwise its `k`-th most recent access is the smallest among all evictable frames. -/
theorem C1_evict_max_backward_k_distance (num_frames k : Nat) (hN : num_frames < SIZE_MOD)
    (hk2 : 2 ≤ k) (hk : k < SIZE_MOD) (ops : List ReplacerOp) (hlen : ops.length < SIZE_MOD) :
    ∃ r g, runOps (LRUKReplacer.new num_frames k, AccessLog.empty) ops = some (r, g) ∧
      r.Evict.2 = (SpecReplacer.run num_frames k ops).victim k ∧
      (∀ f, (SpecReplacer.run num_frames k ops).evictable f = true →
        ∃ v, r.Evict.2 = some v) ∧
      (∀ v, r.Evict.2 = some v →
        (SpecReplacer.run num_frames k ops).evictable v = true ∧
        ((∃ f, (SpecReplacer.run num_frames k ops).evictable f = true ∧
            ((SpecReplacer.run num_frames k ops).history f).length < k) →
          ((SpecReplacer.run num_frames k ops).history v).length < k ∧
          ∀ f, (SpecReplacer.run num_frames k ops).evictable f = true →
            ((SpecReplacer.run num_frames k ops).history f).length < k →
            earliest ((SpecReplacer.run num_frames k ops).history v) ≤
              earliest ((SpecReplacer.run num_frames k ops).history f)) ∧
        ((¬ ∃ f, (SpecReplacer.run num_frames k ops).evictable f = true ∧
            ((SpecReplacer.run num_frames k ops).history f).length < k) →
          ∀ f, (SpecReplacer.run num_frames k ops).evictable f = true →
            kthRecent k ((SpecReplacer.run num_frames k ops).history v) ≤
              kthRecent k ((SpecReplacer.run num_frames k ops).history f))) := by
  obtain ⟨s, hs1, _⟩ := ReplInv.runOps ops (ReplInv.new_replacer num_frames hk) hk2
    (by simpa [AccessLog.empty] using hlen)
  obtain ⟨hsim, hinv⟩ := SpecSim.run_sim hN hk2 ops (SpecSim.of_new num_frames k)
    (ReplInv.new_replacer num_frames hk) (SizeInv.new_sizes num_frames k)
    (show (LRUKReplacer.new num_frames k).replacer_size_ < SIZE_MOD from
      Nat.mod_lt _ (by unfold SIZE_MOD; positivity))
    (by simpa [AccessLog.empty] using hlen) hs1
  have hev : ∀ f, (SpecReplacer.run num_frames k ops).evictable f = s.1.evictable f :=
    fun f => hsim.evictable_eq f
  have hh : ∀ f, (SpecReplacer.run num_frames k ops).history f = s.2.log f :=
    fun f => hsim.history_eq hinv f
  refine ⟨s.1, s.2, hs1, hsim.victim_eq hinv (by omega), ?_⟩
  simp only [hev, hh]
  exact hinv.evict_choice

/-- Witness of C1: `k = 2`, frames 1, 2, 3 accessed, then frame 1 twice more and frame 2 made
non-evictable; the specification selects frame 3, the one evictable frame with fewer than 2
accesses. -/
theorem C1_evict_max_backward_k_distance_witness :
    (SpecReplacer.run 7 2
        [.record_access 1, .record_access 2, .record_access 3, .record_access 1,
          .set_evictable 2 false, .record_access 1]).victim 2 = some 3 ∧
    ∃ r g, runOps (LRUKReplacer.new 7 2, AccessLog.empty)
        [.record_access 1, .record_access 2, .record_access 3, .record_access 1,
          .set_evictable 2 false, .record_access 1] = some (r, g) ∧
      r.Evict.2 = (SpecReplacer.run 7 2
        [.record_access 1, .record_access 2, .record_access 3, .record_access 1,
          .set_evictable 2 false, .record_access 1]).victim 2 ∧
      (∀ f, (SpecReplacer.run 7 2
          [.record_access 1, .record_access 2, .record_access 3, .record_access 1,
            .set_evictable 2 false, .record_access 1]).evictable f = true →
        ∃ v, r.Evict.2 = some v) ∧
      (∀ v, r.Evict.2 = some v →
        (SpecReplacer.run 7 2
          [.record_access 1, .record_access 2, .record_access 3, .record_access 1,
            .set_evictable 2 false, .record_access 1]).evictable v = true ∧
        ((∃ f, (SpecReplacer.run 7 2
            [.record_access 1, .record_access 2, .record_access 3, .record_access 1,
              .set_evictable 2 false, .record_access 1]).evictable f = true ∧
            ((SpecReplacer.run 7 2
              [.record_access 1, .record_access 2, .record_access 3, .record_access 1,
                .set_evictable 2 false, .record_access 1]).history f).length < 2) →
          ((SpecReplacer.run 7 2
            [.record_access 1, .record_access 2, .record_access 3, .record_access 1,
              .set_evictable 2 false, .record_access 1]).history v).length < 2 ∧
          ∀ f, (SpecReplacer.run 7 2
              [.record_access 1, .record_access 2, .record_access 3, .record_access 1,
                .set_evictable 2 false, .record_access 1]).evictable f = true →
            ((SpecReplacer.run 7 2
              [.record_access 1, .record_access 2, .record_access 3, .record_access 1,
                .set_evictable 2 false, .record_access 1]).history f).length < 2 →
            earliest ((SpecReplacer.run 7 2
              [.record_access 1, .record_access 2, .record_access 3, .record_access 1,
                .set_evictable 2 false, .record_access 1]).history v) ≤
              earliest ((SpecReplacer.run 7 2
                [.record_access 1, .record_access 2, .record_access 3, .record_access 1,
                  .set_evictable 2 false, .record_access 1]).history f)) ∧
        ((¬ ∃ f, (SpecReplacer.run 7 2
            [.record_access 1, .record_access 2, .record_access 3, .record_access 1,
              .set_evictable 2 false, .record_access 1]).evictable f = true ∧
            ((SpecReplacer.run 7 2
              [.record_access 1, .record_access 2, .record_access 3, .record_access 1,
                .set_evictable 2 false, .record_access 1]).history f).length < 2) →
          ∀ f, (SpecReplacer.run 7 2
              [.record_access 1, .record_access 2, .record_access 3, .record_access 1,
                .set_evictable 2 false, .record_access 1]).evictable f = true →
            kthRecent 2 ((SpecReplacer.run 7 2
              [.record_access 1, .record_access 2, .record_access 3, .record_access 1,
                .set_evictable 2 false, .record_access 1]).history v) ≤
              kthRecent 2 ((SpecReplacer.run 7 2
                [.record_access 1, .record_access 2, .record_access 3, .record_access 1,
                  .set_evictable 2 false, .record_access 1]).history f))) :=
  ⟨by decide, C1_evict_max_backward_k_distance 7 2 (by decide) (by decide) (by decide) _
    (by decide)⟩

end bustub

namespace bustub

open BufferPoolManagerInstance

variable {env : Env} {s s1 s' : BufferPoolManagerInstance}

/-! ## The page ids that `NewPage` hands out -/

/-- The loop of `FlushAllPgsImp` leaves the page counter as it is. -/
theorem flushFrames_next (env : Env) (l : List Nat) : ∀ {s s' : BufferPoolManagerInstance},
    flushFrames s l = some s' → s'.next_page_id_ = s.next_page_id_ := by
  induction l with
  | nil =>
    intro s s' hr
    simp only [BufferPoolManagerInstance.flushFrames, Option.some.injEq] at hr
    rw [hr]
  | cons i l ih =>
    intro s s' hr
    simp only [BufferPoolManagerInstance.flushFrames] at hr
    cases hf : s.flushFrame i with
    | none => rw [hf] at hr; exact Option.noConfusion hr
    | some s1 =>
      rw [hf] at hr
      rcases flushFrame_effect env hf with e | ⟨pg, _, _, _, hp⟩
      · rw [ih hr, e]
      · rw [ih hr, hp.next]

/-- A call that hands out an id hands out the value of the page counter and advances the
counter; another call leaves the counter as it is. -/
theorem BPMInv.step_ids {c : Nat} (h : BPMInv env s) {op : BPMOp} {out : BPMResult}
    (hcount : s.next_page_id_ = wrapPageId (c : Int))
    (hr : s.step env op = some (s', out)) :
    s'.next_page_id_ = wrapPageId ((c + out.newIds.length : Nat) : Int) ∧
      ∀ p ∈ out.newIds, p = wrapPageId (c : Int) := by
  cases op with
  | new_page =>
    simp only [BufferPoolManagerInstance.step] at hr
    cases h1 : s.NewPgImp env with
    | none => rw [h1] at hr; exact Option.noConfusion hr
    | some res =>
      obtain ⟨s1, r⟩ := res
      rw [h1] at hr
      simp only [Option.some.injEq, Prod.mk.injEq] at hr
      obtain ⟨e1, e2⟩ := hr
      subst e1 e2
      rcases h.newPg_effect h1 with ⟨rfl, rfl, _⟩ | ⟨f, rfl, _, hnx⟩
      · exact ⟨hcount, by simp [BPMResult.newIds]⟩
      · rw [hcount, wrapPageId_succ] at hnx
        refine ⟨hnx, ?_⟩
        intro p hp
        simp only [BPMResult.newIds, List.mem_singleton] at hp
        rw [hp, hcount]
  | fetch_page p =>
    simp only [BufferPoolManagerInstance.step] at hr
    cases h1 : s.FetchPgImp env p with
    | none => rw [h1] at hr; exact Option.noConfusion hr
    | some res =>
      obtain ⟨s1, r⟩ := res
      rw [h1] at hr
      simp only [Option.some.injEq, Prod.mk.injEq] at hr
      obtain ⟨e1, e2⟩ := hr
      subst e1 e2
      refine ⟨?_, by simp [BPMResult.newIds]⟩
      show s1.next_page_id_ = wrapPageId (c : Int)
      rcases h.fetchPg_effect h1 with ⟨f, pg, _, _, _, hp⟩ |
        ⟨_, ⟨_, rfl, _⟩ | ⟨f, _, _, hnx⟩⟩
      · rw [hp.next]; exact hcount
      · exact hcount
      · rw [hnx]; exact hcount
  | unpin_page p d =>
    simp only [BufferPoolManagerInstance.step] at hr
    cases h1 : s.UnpinPgImp env p d with
    | none => rw [h1] at hr; exact Option.noConfusion hr
    | some res =>
      obtain ⟨s1, r⟩ := res
      rw [h1] at hr
      simp only [Option.some.injEq, Prod.mk.injEq] at hr
      obtain ⟨e1, e2⟩ := hr
      subst e1 e2
      refine ⟨?_, by simp [BPMResult.newIds]⟩
      show s1.next_page_id_ = wrapPageId (c : Int)
      rcases h.unpinPg_effect h1 with ⟨_, rfl, _⟩ | ⟨f, pg, _, _, _, _, hp⟩
      · exact hcount
      · rw [hp.next]; exact hcount
  | flush_page p =>
    simp only [BufferPoolManagerInstance.step] at hr
    cases h1 : s.FlushPgImp env p with
    | none => rw [h1] at hr; exact Option.noConfusion hr
    | some res =>
      obtain ⟨s1, r⟩ := res
      rw [h1] at hr
      simp only [Option.some.injEq, Prod.mk.injEq] at hr
      obtain ⟨e1, e2⟩ := hr
      subst e1 e2
      refine ⟨?_, by simp [BPMResult.newIds]⟩
      show s1.next_page_id_ = wrapPageId (c : Int)
      rcases h.flushPg_effect h1 with ⟨_, _, rfl⟩ |
        ⟨f, pg, _, _, _, _, ⟨_, rfl⟩ | ⟨_, _, hp⟩⟩
      · exact hcount
      · exact hcount
      · rw [hp.next]; exact hcount
  | flush_all_pages =>
    simp only [BufferPoolManagerInstance.step] at hr
    cases h1 : s.FlushAllPgsImp with
    | none => rw [h1] at hr; exact Option.noConfusion hr
    | some res =>
      rw [h1] at hr
      simp only [Option.some.injEq, Prod.mk.injEq] at hr
      obtain ⟨e1, e2⟩ := hr
      subst e1 e2
      refine ⟨?_, by simp [BPMResult.newIds]⟩
      show res.next_page_id_ = wrapPageId (c : Int)
      rw [flushFrames_next env _ h1]; exact hcount
  | delete_page p =>
    simp only [BufferPoolManagerInstance.step] at hr
    cases h1 : s.DeletePgImp env p with
    | none => rw [h1] at hr; exact Option.noConfusion hr
    | some res =>
      obtain ⟨s1, r⟩ := res
      rw [h1] at hr
      simp only [Option.some.injEq, Prod.mk.injEq] at hr
      obtain ⟨e1, e2⟩ := hr
      subst e1 e2
      refine ⟨?_, by simp [BPMResult.newIds]⟩
      show s1.next_page_id_ = wrapPageId (c : Int)
      rcases h.deletePg_effect h1 with rfl | ⟨f, pg, _, _, _, _, _, _, hnx, _⟩
      · exact hcount
      · rw [hnx]; exact hcount
  | write_data f bytes =>
    simp only [BufferPoolManagerInstance.step, Option.some.injEq, Prod.mk.injEq] at hr
    obtain ⟨e1, e2⟩ := hr
    subst e1 e2
    refine ⟨?_, by simp [BPMResult.newIds]⟩
    show (s.writeData f bytes).next_page_id_ = wrapPageId (c : Int)
    rcases writeData_effect env s f bytes with e | ⟨pg, _, hp⟩
    · rw [e]; exact hcount
    · rw [hp.next]; exact hcount

/-- The ids handed out along a run are the values of the page counter, one after the other,
and the counter is advanced once at most by each `NewPage`. -/
theorem BPMInv.run_ids (ops : List BPMOp) : ∀ {s s' : BufferPoolManagerInstance}
    {outs : List BPMResult} {c : Nat}, BPMInv env s →
    s.next_page_id_ = wrapPageId (c : Int) → s.run env ops = some (s', outs) →
    ∃ c' : Nat, s'.next_page_id_ = wrapPageId (c' : Int) ∧ c ≤ c' ∧
      c' ≤ c + newPageCalls ops ∧
      ∀ out ∈ outs, ∀ p ∈ out.newIds, ∃ i : Nat, c ≤ i ∧ i < c' ∧ p = wrapPageId (i : Int) := by
  induction ops with
  | nil =>
    intro s s' outs c _ hcount hr
    simp only [BufferPoolManagerInstance.run, Option.some.injEq, Prod.mk.injEq] at hr
    obtain ⟨e1, e2⟩ := hr
    subst e1 e2
    exact ⟨c, hcount, Nat.le_refl _, Nat.le_add_right _ _,
      fun out ho => absurd ho (List.not_mem_nil _)⟩
  | cons op ops ih =>
    intro s s' outs c h hcount hr
    rw [newPageCalls_cons]
    simp only [BufferPoolManagerInstance.run] at hr
    cases h1 : s.step env op with
    | none => rw [h1] at hr; exact Option.noConfusion hr
    | some res =>
      obtain ⟨s1, out⟩ := res
      rw [h1] at hr
      simp only at hr
      cases h2 : BufferPoolManagerInstance.run env s1 ops with
      | none => rw [h2] at hr; exact Option.noConfusion hr
      | some res2 =>
        obtain ⟨s2, outs2⟩ := res2
        rw [h2] at hr
        simp only [Option.some.injEq, Prod.mk.injEq] at hr
        obtain ⟨e1, e2⟩ := hr
        subst e1 e2
        obtain ⟨a1, a2⟩ := h.step_ids hcount h1
        have hle := step_newIds_le h1
        obtain ⟨c', b1, b2, b3, b4⟩ := ih (h.step h1) a1 h2
        refine ⟨c', b1, by omega, by omega, ?_⟩
        intro o ho p hp
        rcases List.mem_cons.1 ho with e | e
        · subst e
          have hpos : 0 < o.newIds.length := List.length_pos_of_mem hp
          exact ⟨c, Nat.le_refl _, by omega, a2 p hp⟩
        · obtain ⟨i, i1, i2, i3⟩ := b4 o e p hp
          exact ⟨i, by omega, i2, i3⟩

/-- The frame that `NewPgImp` returns: the front of the free list, or the victim of the
replacer when the free list is empty. -/
theorem NewPgImp_frame {n f : Int} (hr : s.NewPgImp env = some (s', some (n, f))) :
    (∃ rest, s.free_list_ = f :: rest ∧ s'.free_list_ = rest) ∨
    (s.free_list_ = [] ∧ s'.free_list_ = [] ∧ s.replacer_.Evict.2 = some f) := by
  unfold NewPgImp at hr
  split at hr
  · simp only [Option.some.injEq, Prod.mk.injEq] at hr
    exact Option.noConfusion hr.2
  · simp only at hr
    cases ha : acquireFrame env { s with next_page_id_ := wrapPageId (s.next_page_id_ + 1) } with
    | none => rw [ha] at hr; exact Option.noConfusion hr
    | some res =>
      obtain ⟨s1, g⟩ := res
      rw [ha] at hr
      simp only at hr
      cases hi : installPage env s1 g s.next_page_id_ env.zeroData with
      | none => rw [hi] at hr; exact Option.noConfusion hr
      | some s2 =>
        rw [hi] at hr
        simp only [Option.some.injEq, Prod.mk.injEq] at hr
        obtain ⟨e1, _, e3⟩ := hr
        subst e1 e3
        have hfl : s2.free_list_ = s1.free_list_ := by
          unfold installPage at hi
          split at hi
          · exact Option.noConfusion hi
          · split at hi
            · exact Option.noConfusion hi
            · split at hi
              · exact Option.noConfusion hi
              · simp only [Option.some.injEq] at hi
                rw [← hi]
        rcases acquireFrame_cases ha with ⟨rest, h1, h2⟩ | ⟨h1, pg, res, h2, _, _, h3⟩
        · left
          refine ⟨rest, h1, ?_⟩
          rw [hfl, h2]
        · right
          refine ⟨h1, ?_, h2⟩
          rw [hfl, h3]
          exact h1

end bustub

namespace bustub

open BufferPoolManagerInstance

variable {env : Env} {s s1 s' : BufferPoolManagerInstance}

/-! ## The replacer of the pool with `k ≥ 2` -/

namespace Clocked

variable {k n : Nat} {r : LRUKReplacer}

theorem mono {m : Nat} (h : Clocked k n r) (hnm : n ≤ m) : Clocked k m r := by
  obtain ⟨g, h1, h2⟩ := h
  exact ⟨g, h1, le_trans h2 hnm⟩

theorem set_flag (h : Clocked k n r) (f : Int) (b : Bool) :
    Clocked k n (r.SetEvictable f b) := by
  obtain ⟨g, h1, h2⟩ := h
  exact ⟨g, h1.setEvictable f b, h2⟩

theorem remove_call (h : Clocked k n r) (x : Int) : Clocked k n (r.Remove x) := by
  obtain ⟨g, h1, h2⟩ := h
  exact ⟨_, h1.remove_frame x, h2⟩

theorem evict_call (h : Clocked k n r) : Clocked k n r.Evict.1 := by
  obtain ⟨g, h1, h2⟩ := h
  exact ⟨_, h1.evict, h2⟩

/-- `RecordAccess` returns as long as the clock does not wrap. -/
theorem record (h : Clocked k n r) (hk2 : 2 ≤ k) (hn : n + 1 < SIZE_MOD) (f : Int) :
    ∃ r', r.RecordAccess f = some r' ∧ Clocked k (n + 1) r' := by
  obtain ⟨g, h1, h2⟩ := h
  obtain ⟨r', a1, a2⟩ := h1.recordAccess hk2 (by omega) f
  refine ⟨r', a1, _, a2, ?_⟩
  show g.clock + 1 ≤ n + 1
  omega

/-- `RecordAccess(f); SetEvictable(f, false)` returns as long as the clock does not wrap. -/
theorem pin (h : Clocked k n r) (hk2 : 2 ≤ k) (hn : n + 1 < SIZE_MOD) (f : Int) :
    ∃ r', pinInReplacer r f = some r' ∧ Clocked k (n + 1) r' := by
  obtain ⟨r0, a1, a2⟩ := h.record hk2 hn f
  refine ⟨r0.SetEvictable f false, ?_, a2.set_flag f false⟩
  simp [pinInReplacer, a1]

theorem of_pin (h : Clocked k n r) (hk2 : 2 ≤ k) (hn : n + 1 < SIZE_MOD) {f : Int}
    {r' : LRUKReplacer} (hp : pinInReplacer r f = some r') : Clocked k (n + 1) r' := by
  obtain ⟨r2, a1, a2⟩ := h.pin hk2 hn f
  rw [a1, Option.some.injEq] at hp
  exact hp ▸ a2

end Clocked

/-- The loop of `FlushAllPgsImp` leaves the replacer as it is. -/
theorem flushFrames_replacer (l : List Nat) : ∀ {s s' : BufferPoolManagerInstance},
    flushFrames s l = some s' → s'.replacer_ = s.replacer_ := by
  induction l with
  | nil =>
    intro s s' hr
    simp only [BufferPoolManagerInstance.flushFrames, Option.some.injEq] at hr
    rw [hr]
  | cons i l ih =>
    intro s s' hr
    simp only [BufferPoolManagerInstance.flushFrames] at hr
    cases hf : s.flushFrame i with
    | none => rw [hf] at hr; exact Option.noConfusion hr
    | some s1 =>
      rw [hf] at hr
      rw [ih hr, flushFrame_replacer hf]

/-- The calls of the replacer that `NewPgImp` makes when it returns a frame. -/
theorem NewPgImp_pin {n f : Int} (hr : s.NewPgImp env = some (s', some (n, f))) :
    ∃ r1, (r1 = s.replacer_ ∨ r1 = s.replacer_.Evict.1) ∧
      pinInReplacer r1 f = some s'.replacer_ := by
  unfold NewPgImp at hr
  split at hr
  · simp only [Option.some.injEq, Prod.mk.injEq] at hr
    exact Option.noConfusion hr.2
  · simp only at hr
    cases ha : acquireFrame env { s with next_page_id_ := wrapPageId (s.next_page_id_ + 1) } with
    | none => rw [ha] at hr; exact Option.noConfusion hr
    | some res =>
      obtain ⟨s1, g⟩ := res
      rw [ha] at hr
      simp only at hr
      cases hi : installPage env s1 g s.next_page_id_ env.zeroData with
      | none => rw [hi] at hr; exact Option.noConfusion hr
      | some s2 =>
        rw [hi] at hr
        simp only [Option.some.injEq, Prod.mk.injEq] at hr
        obtain ⟨e1, _, e3⟩ := hr
        subst e1 e3
        exact ⟨s1.replacer_,
          acquireFrame_replacer (s := { s with next_page_id_ := wrapPageId (s.next_page_id_ + 1) }) ha,
          installPage_replacer hi⟩

/-- The calls of the replacer that `FetchPgImp` makes when it returns a frame. -/
theorem FetchPgImp_pin (h : BPMInv env s) {p f : Int}
    (hr : s.FetchPgImp env p = some (s', some f)) :
    ∃ r1, (r1 = s.replacer_ ∨ r1 = s.replacer_.Evict.1) ∧
      pinInReplacer r1 f = some s'.replacer_ := by
  unfold FetchPgImp at hr
  obtain ⟨o, ho⟩ := h.wf.find_total p
  rw [ho] at hr
  cases o with
  | some g =>
    simp only at hr
    cases hra : s.replacer_.RecordAccess g with
    | none => rw [hra] at hr; exact Option.noConfusion hr
    | some r0 =>
      rw [hra] at hr
      simp only at hr
      obtain ⟨pg, hpg, _⟩ := h.i1 p g ho
      rw [hpg] at hr
      simp only [Option.some.injEq, Prod.mk.injEq] at hr
      obtain ⟨e1, e2⟩ := hr
      subst e1 e2
      exact ⟨s.replacer_, Or.inl rfl, by simp [pinInReplacer, hra]⟩
  | none =>
    simp only at hr
    split at hr
    · simp only [Option.some.injEq, Prod.mk.injEq] at hr
      exact Option.noConfusion hr.2
    · cases ha : acquireFrame env s with
      | none => rw [ha] at hr; exact Option.noConfusion hr
      | some res =>
        obtain ⟨s1, g⟩ := res
        rw [ha] at hr
        simp only at hr
        cases hi : installPage env s1 g p (s1.disk_manager_.ReadPage env p) with
        | none => rw [hi] at hr; exact Option.noConfusion hr
        | some s2 =>
          rw [hi] at hr
          simp only [Option.some.injEq, Prod.mk.injEq] at hr
          obtain ⟨e1, e2⟩ := hr
          subst e1 e2
          exact ⟨s1.replacer_, acquireFrame_replacer ha, installPage_replacer hi⟩

/-- Each call of the pool makes at most one call of `RecordAccess` and keeps the invariant of
the replacer. -/
theorem Clocked.pool_step {k n : Nat} (h : Clocked k n s.replacer_) (hb : BPMInv env s)
    (hk2 : 2 ≤ k) (hn : n + 1 < SIZE_MOD) {op : BPMOp} {out : BPMResult}
    (hr : s.step env op = some (s', out)) : Clocked k (n + 1) s'.replacer_ := by
  have hpin : ∀ (r1 : LRUKReplacer) (f : Int),
      (r1 = s.replacer_ ∨ r1 = s.replacer_.Evict.1) →
      pinInReplacer r1 f = some s'.replacer_ → Clocked k (n + 1) s'.replacer_ := by
    intro r1 f h1 h2
    rcases h1 with e | e
    · rw [e] at h2; exact h.of_pin hk2 hn h2
    · rw [e] at h2; exact h.evict_call.of_pin hk2 hn h2
  cases op with
  | new_page =>
    simp only [BufferPoolManagerInstance.step] at hr
    cases h1 : s.NewPgImp env with
    | none => rw [h1] at hr; exact Option.noConfusion hr
    | some res =>
      obtain ⟨s1, r⟩ := res
      rw [h1] at hr
      simp only [Option.some.injEq, Prod.mk.injEq] at hr
      obtain ⟨e1, _⟩ := hr
      subst e1
      rcases hb.newPg_effect h1 with ⟨_, rfl, _⟩ | ⟨f, rfl, _, _⟩
      · exact h.mono (Nat.le_succ _)
      · obtain ⟨r1, a1, a2⟩ := NewPgImp_pin h1
        exact hpin r1 f a1 a2
  | fetch_page p =>
    simp only [BufferPoolManagerInstance.step] at hr
    cases h1 : s.FetchPgImp env p with
    | none => rw [h1] at hr; exact Option.noConfusion hr
    | some res =>
      obtain ⟨s1, r⟩ := res
      rw [h1] at hr
      simp only [Option.some.injEq, Prod.mk.injEq] at hr
      obtain ⟨e1, _⟩ := hr
      subst e1
      cases r with
      | none =>
        rcases hb.fetchPg_effect h1 with ⟨f, pg, _, e, _⟩ |
          ⟨_, ⟨_, rfl, _⟩ | ⟨f, e, _⟩⟩
        · exact Option.noConfusion e
        · exact h.mono (Nat.le_succ _)
        · exact Option.noConfusion e
      | some f =>
        obtain ⟨r1, a1, a2⟩ := FetchPgImp_pin hb h1
        exact hpin r1 f a1 a2
  | unpin_page p d =>
    simp only [BufferPoolManagerInstance.step] at hr
    cases h1 : s.UnpinPgImp env p d with
    | none => rw [h1] at hr; exact Option.noConfusion hr
    | some res =>
      obtain ⟨s1, r⟩ := res
      rw [h1] at hr
      simp only [Option.some.injEq, Prod.mk.injEq] at hr
      obtain ⟨e1, _⟩ := hr
      subst e1
      rcases UnpinPgImp_replacer hb h1 with e | ⟨f, pg, _, _, _, hrep⟩
      · rw [e]; exact h.mono (Nat.le_succ _)
      · rw [hrep]
        split
        · exact (h.set_flag f true).mono (Nat.le_succ _)
        · exact h.mono (Nat.le_succ _)
  | flush_page p =>
    simp only [BufferPoolManagerInstance.step] at hr
    cases h1 : s.FlushPgImp env p with
    | none => rw [h1] at hr; exact Option.noConfusion hr
    | some res =>
      obtain ⟨s1, r⟩ := res
      rw [h1] at hr
      simp only [Option.some.injEq, Prod.mk.injEq] at hr
      obtain ⟨e1, _⟩ := hr
      subst e1
      rw [FlushPgImp_replacer h1]
      exact h.mono (Nat.le_succ _)
  | flush_all_pages =>
    simp only [BufferPoolManagerInstance.step] at hr
    cases h1 : s.FlushAllPgsImp with
    | none => rw [h1] at hr; exact Option.noConfusion hr
    | some res =>
      rw [h1] at hr
      simp only [Option.some.injEq, Prod.mk.injEq] at hr
      obtain ⟨e1, _⟩ := hr
      subst e1
      rw [flushFrames_replacer _ h1]
      exact h.mono (Nat.le_succ _)
  | delete_page p =>
    simp only [BufferPoolManagerInstance.step] at hr
    cases h1 : s.DeletePgImp env p with
    | none => rw [h1] at hr; exact Option.noConfusion hr
    | some res =>
      obtain ⟨s1, r⟩ := res
      rw [h1] at hr
      simp only [Option.some.injEq, Prod.mk.injEq] at hr
      obtain ⟨e1, _⟩ := hr
      subst e1
      rcases hb.deletePg_effect h1 with rfl | ⟨f, pg, _, _, _, _, _, _, _, _, _, hrep, _⟩
      · exact h.mono (Nat.le_succ _)
      · rw [hrep]
        exact (h.remove_call p).mono (Nat.le_succ _)
  | write_data f bytes =>
    simp only [BufferPoolManagerInstance.step, Option.some.injEq, Prod.mk.injEq] at hr
    obtain ⟨e1, _⟩ := hr
    subst e1
    rw [writeData_replacer]
    exact h.mono (Nat.le_succ _)

/-- A run of the pool keeps the invariant of the replacer. -/
theorem Clocked.pool_run {k : Nat} (hk2 : 2 ≤ k) (ops : List BPMOp) :
    ∀ {n : Nat} {s s' : BufferPoolManagerInstance} {outs : List BPMResult},
    Clocked k n s.replacer_ → BPMInv env s → n + ops.length < SIZE_MOD →
    s.run env ops = some (s', outs) → Clocked k (n + ops.length) s'.replacer_ := by
  induction ops with
  | nil =>
    intro n s s' outs h _ _ hr
    simp only [BufferPoolManagerInstance.run, Option.some.injEq, Prod.mk.injEq] at hr
    exact hr.1 ▸ h
  | cons op ops ih =>
    intro n s s' outs h hb hlen hr
    simp only [List.length_cons] at hlen
    simp only [BufferPoolManagerInstance.run] at hr
    cases h1 : s.step env op with
    | none => rw [h1] at hr; exact Option.noConfusion hr
    | some res =>
      obtain ⟨s1, out⟩ := res
      rw [h1] at hr
      simp only at hr
      cases h2 : BufferPoolManagerInstance.run env s1 ops with
      | none => rw [h2] at hr; exact Option.noConfusion hr
      | some res2 =>
        obtain ⟨s2, outs2⟩ := res2
        rw [h2] at hr
        simp only [Option.some.injEq, Prod.mk.injEq] at hr
        obtain ⟨e1, _⟩ := hr
        subst e1
        have := ih (h.pool_step hb hk2 (by omega) h1) (hb.step h1) (by omega) h2
        simp only [List.length_cons]
        exact this.mono (by omega)

/-- The replacer of a new pool. -/
theorem Clocked.new_pool_replacer (env : Env) (pool_size bucket_size : Nat) {k : Nat}
    (hk : k < SIZE_MOD) :
    Clocked k 0 (BufferPoolManagerInstance.new env pool_size k bucket_size).replacer_ :=
  ⟨AccessLog.empty, ReplInv.new_replacer pool_size hk, Nat.le_refl _⟩

/-- With `k ≥ 2`, `FetchPage` of a page of the page table returns its frame. -/
theorem Clocked.fetch_hit {k n : Nat} (h : Clocked k n s.replacer_) (hb : BPMInv env s)
    (hk2 : 2 ≤ k) (hn : n + 1 < SIZE_MOD) {p f : Int}
    (hmap : s.page_table_.Find env.hash p = some (some f)) :
    ∃ s', s.FetchPgImp env p = some (s', some f) := by
  obtain ⟨r0, a1, _⟩ := h.record hk2 hn f
  obtain ⟨pg, hpg, _⟩ := hb.i1 p f hmap
  unfold FetchPgImp
  rw [hmap]
  simp only [a1, hpg]
  exact ⟨_, rfl⟩

end bustub

namespace bustub

open BufferPoolManagerInstance

variable {env : Env} {s s1 s' : BufferPoolManagerInstance} {B B' : Int → Int} {c c' : Nat}

/-! ## Pin counts and the pins that the calls have taken -/

namespace PinBal

theorem congr (h : PinBal env c s B) (hB : ∀ p, B' p = B p) : PinBal env c s B' :=
  { pool := h.pool
    nonneg := h.nonneg
    mapped := fun p f pg h1 h2 => by rw [hB p]; exact h.mapped p f pg h1 h2
    unmapped := fun p h1 => by rw [hB p]; exact h.unmapped p h1 }

/-- An update of one frame, the page table being as before. -/
theorem keep_patched (h : PinBal env c s B) (hp' : PoolInv env c' s') {f : Int} {pg pg' : Page}
    (hp : Patched env s s' f pg pg') (hnn : 0 ≤ pg'.pin_count_)
    (hf : ∀ p, s.page_table_.Find env.hash p = some (some f) → pg'.pin_count_ = B' p)
    (hg : ∀ p g, g ≠ f → s.page_table_.Find env.hash p = some (some g) → B' p = B p)
    (hu : ∀ p, s.page_table_.Find env.hash p = some none → B' p = B p) :
    PinBal env c' s' B' := by
  refine ⟨hp', ?_, ?_, ?_⟩
  · intro g pg2 hg2
    rw [hp.pages g] at hg2
    by_cases hgf : g = f
    · rw [if_pos hgf] at hg2
      rw [← Option.some.inj hg2]
      exact hnn
    · rw [if_neg hgf] at hg2
      exact h.nonneg g pg2 hg2
  · intro p g pg2 hm hg2
    rw [hp.table] at hm
    rw [hp.pages g] at hg2
    by_cases hgf : g = f
    · rw [if_pos hgf] at hg2
      rw [← Option.some.inj hg2]
      exact hf p (hgf ▸ hm)
    · rw [if_neg hgf] at hg2
      rw [hg p g hgf hm]
      exact h.mapped p g pg2 hm hg2
  · intro p hm
    rw [hp.table] at hm
    rw [hu p hm]
    exact h.unmapped p hm

/-- An update of one frame that leaves its pin count as it is. -/
theorem keep_pins (h : PinBal env c s B) (hp' : PoolInv env c' s') {f : Int} {pg pg' : Page}
    (hp : Patched env s s' f pg pg') (hpin : pg'.pin_count_ = pg.pin_count_) :
    PinBal env c' s' B := by
  refine h.keep_patched hp' hp (by rw [hpin]; exact h.nonneg f pg hp.old) ?_
    (fun _ _ _ _ => rfl) (fun _ _ => rfl)
  intro p hm
  rw [hpin]
  exact h.mapped p f pg hm hp.old

/-- A page enters a frame taken from the free list or from the replacer. -/
theorem keep_reused (h : PinBal env c s B) (hp' : PoolInv env c' s') {f n : Int}
    {data : List Nat} (hr : Reused env s s' f n data)
    (hn : s.page_table_.Find env.hash n = some none)
    (hBn : B' n = B n + 1) (hBo : ∀ p, p ≠ n → B' p = B p) : PinBal env c' s' B' := by
  have hB0 : B n = 0 := h.unmapped n hn
  obtain ⟨pgv, hv, hpin, hcase⟩ := hr.victim
  have hv0 : pgv.pin_count_ = 0 := le_antisymm hpin (h.nonneg f pgv hv)
  refine ⟨hp', ?_, ?_, ?_⟩
  · intro g pg2 hg2
    rw [hr.pages g] at hg2
    by_cases hgf : g = f
    · rw [if_pos hgf] at hg2
      rw [← Option.some.inj hg2]
      exact Int.le_of_lt Int.one_pos
    · rw [if_neg hgf] at hg2
      exact h.nonneg g pg2 hg2
  · intro p g pg2 hm hg2
    by_cases hpn : n = p
    · subst hpn
      have hfind : s'.page_table_.Find env.hash n = some (some f) := by
        rcases hcase with ⟨_, _, hfind, _⟩ | ⟨_, _, hfind, _⟩
        · rw [hfind, if_pos rfl]
        · rw [hfind, if_pos rfl]
      rw [hfind] at hm
      have hgf : g = f := (Option.some.inj (Option.some.inj hm)).symm
      rw [hr.pages g, if_pos hgf] at hg2
      rw [← Option.some.inj hg2, hBn, hB0]
      rfl
    · have hm0 : s.page_table_.Find env.hash p = some (some g) ∧ g ≠ f := by
        rcases hcase with ⟨_, hun, hfind, _⟩ | ⟨_, _, hfind, _⟩
        · rw [hfind, if_neg hpn] at hm
          exact ⟨hm, fun e => hun p (e ▸ hm)⟩
        · rw [hfind, if_neg hpn] at hm
          by_cases hq : pgv.page_id_ = p
          · rw [if_pos hq] at hm
            exact Option.noConfusion (Option.some.inj hm)
          · rw [if_neg hq] at hm
            refine ⟨hm, fun e => hq ?_⟩
            obtain ⟨pg3, c1, c2⟩ := h.pool.inv.i1 p g hm
            rw [e, hv] at c1
            rw [Option.some.inj c1]
            exact c2
      rw [hr.pages g, if_neg hm0.2] at hg2
      rw [hBo p (Ne.symm hpn)]
      exact h.mapped p g pg2 hm0.1 hg2
  · intro p hm
    have hpn : n ≠ p := by
      intro e
      subst e
      rcases hcase with ⟨_, _, hfind, _⟩ | ⟨_, _, hfind, _⟩
      · rw [hfind, if_pos rfl] at hm
        exact Option.noConfusion (Option.some.inj hm)
      · rw [hfind, if_pos rfl] at hm
        exact Option.noConfusion (Option.some.inj hm)
    rw [hBo p (Ne.symm hpn)]
    rcases hcase with ⟨_, _, hfind, _⟩ | ⟨hfl, _, hfind, _⟩
    · rw [hfind, if_neg hpn] at hm
      exact h.unmapped p hm
    · rw [hfind, if_neg hpn] at hm
      by_cases hq : pgv.page_id_ = p
      · have hres := h.pool.resident f pgv hv (by rw [hfl]; exact List.not_mem_nil _)
        rw [hq] at hres
        rw [← h.mapped p f pgv hres hv]
        exact hv0
      · rw [if_neg hq] at hm
        exact h.unmapped p hm

/-- The loop of `FlushAllPgsImp` keeps the invariant. -/
theorem flush_bal (l : List Nat) : ∀ {s s' : BufferPoolManagerInstance},
    PinBal env c s B → flushFrames s l = some s' → PinBal env c s' B := by
  induction l with
  | nil =>
    intro s s' h hr
    simp only [BufferPoolManagerInstance.flushFrames, Option.some.injEq] at hr
    exact hr ▸ h
  | cons i l ih =>
    intro s s' h hr
    simp only [BufferPoolManagerInstance.flushFrames] at hr
    cases hf : s.flushFrame i with
    | none => rw [hf] at hr; exact Option.noConfusion hr
    | some s1 =>
      rw [hf] at hr
      have hb := (h.pool.inv.flushFrame hf).1
      rcases flushFrame_effect env hf with e | ⟨pg, _, _, _, hp⟩
      · rw [e] at hr
        exact ih h hr
      · exact ih (h.keep_pins (h.pool.of_patched hb hp rfl) hp rfl) hr

/-- Each admitted call changes the pin count of a page of the page table by what
`pinDelta` counts. -/
theorem step_bal (h : PinBal env c s B) {op : BPMOp} {out : BPMResult}
    (hadm : ∀ q, op = .fetch_page q → Issued c q)
    (hroom : op = .new_page → c < 2 ^ 32)
    (hr : s.step env op = some (s', out)) :
    PinBal env (c + out.newIds.length) s' (fun p => B p + pinDelta p op out) := by
  have hp' := (h.pool.step_admitted hadm hroom hr).1
  cases op with
  | new_page =>
    simp only [BufferPoolManagerInstance.step] at hr
    cases h1 : s.NewPgImp env with
    | none => rw [h1] at hr; exact Option.noConfusion hr
    | some res =>
      obtain ⟨s1, r⟩ := res
      rw [h1] at hr
      simp only [Option.some.injEq, Prod.mk.injEq] at hr
      obtain ⟨e1, e2⟩ := hr
      subst e1 e2
      rcases h.pool.inv.newPg_effect h1 with ⟨rfl, rfl, _⟩ | ⟨f, rfl, hre, _⟩
      · exact h.congr (fun p => by simp [pinDelta])
      · have hn := h.pool.next_unmapped (hroom rfl)
        refine h.keep_reused hp' hre hn ?_ ?_
        · simp [pinDelta]
        · intro p hp
          simp [pinDelta, Ne.symm hp]
  | fetch_page p =>
    simp only [BufferPoolManagerInstance.step] at hr
    cases h1 : s.FetchPgImp env p with
    | none => rw [h1] at hr; exact Option.noConfusion hr
    | some res =>
      obtain ⟨s1, r⟩ := res
      rw [h1] at hr
      simp only [Option.some.injEq, Prod.mk.injEq] at hr
      obtain ⟨e1, e2⟩ := hr
      subst e1 e2
      rcases h.pool.inv.fetchPg_effect h1 with ⟨f, pg, hm, rfl, _, hp⟩ |
        ⟨hn, ⟨rfl, rfl, _⟩ | ⟨f, rfl, hre, _⟩⟩
      · have hpin := h.mapped p f pg hm hp.old
        refine h.keep_patched hp' hp ?_ ?_ ?_ ?_
        · have := h.nonneg f pg hp.old
          show 0 ≤ pg.pin_count_ + 1
          omega
        · intro q hq
          obtain ⟨pg2, c1, c2⟩ := h.pool.inv.i1 q f hq
          obtain ⟨pg3, d1, d2⟩ := h.pool.inv.i1 p f hm
          rw [c1] at d1
          have hqp : p = q := by rw [← d2, ← Option.some.inj d1, c2]
          subst hqp
          simp only [pinDelta, if_pos]
          show pg.pin_count_ + 1 = B p + 1
          rw [hpin]
        · intro q g hgf hq
          have hqp : ¬ p = q := by
            intro e
            subst e
            rw [hm] at hq
            exact hgf (Option.some.inj (Option.some.inj hq)).symm
          simp [pinDelta, hqp]
        · intro q hq
          have hqp : ¬ p = q := by
            intro e
            subst e
            rw [hm] at hq
            exact Option.noConfusion (Option.some.inj hq)
          simp [pinDelta, hqp]
      · exact h.congr (fun q => by simp [pinDelta])
      · refine h.keep_reused hp' hre hn ?_ ?_
        · simp [pinDelta]
        · intro q hq
          simp [pinDelta, Ne.symm hq]
  | unpin_page p d =>
    simp only [BufferPoolManagerInstance.step] at hr
    cases h1 : s.UnpinPgImp env p d with
    | none => rw [h1] at hr; exact Option.noConfusion hr
    | some res =>
      obtain ⟨s1, r⟩ := res
      rw [h1] at hr
      simp only [Option.some.injEq, Prod.mk.injEq] at hr
      obtain ⟨e1, e2⟩ := hr
      subst e1 e2
      rcases h.pool.inv.unpinPg_effect h1 with ⟨rfl, rfl, _⟩ | ⟨f, pg, hm, hpos, rfl, _, hp⟩
      · exact h.congr (fun q => by simp [pinDelta])
      · have hpin := h.mapped p f pg hm hp.old
        refine h.keep_patched hp' hp ?_ ?_ ?_ ?_
        · show 0 ≤ pg.pin_count_ - 1
          omega
        · intro q hq
          obtain ⟨pg2, c1, c2⟩ := h.pool.inv.i1 q f hq
          obtain ⟨pg3, d1, d2⟩ := h.pool.inv.i1 p f hm
          rw [c1] at d1
          have hqp : p = q := by rw [← d2, ← Option.some.inj d1, c2]
          subst hqp
          simp only [pinDelta, if_pos]
          show pg.pin_count_ - 1 = B p + -1
          rw [hpin]
          ring
        · intro q g hgf hq
          have hqp : ¬ p = q := by
            intro e
            subst e
            rw [hm] at hq
            exact hgf (Option.some.inj (Option.some.inj hq)).symm
          simp [pinDelta, hqp]
        · intro q hq
          have hqp : ¬ p = q := by
            intro e
            subst e
            rw [hm] at hq
            exact Option.noConfusion (Option.some.inj hq)
          simp [pinDelta, hqp]
  | flush_page p =>
    simp only [BufferPoolManagerInstance.step] at hr
    cases h1 : s.FlushPgImp env p with
    | none => rw [h1] at hr; exact Option.noConfusion hr
    | some res =>
      obtain ⟨s1, r⟩ := res
      rw [h1] at hr
      simp only [Option.some.injEq, Prod.mk.injEq] at hr
      obtain ⟨e1, e2⟩ := hr
      subst e1 e2
      have hB : ∀ q, B q + pinDelta q (.flush_page p) (.bool r) = B q := by
        intro q; simp [pinDelta]
      rcases h.pool.inv.flushPg_effect h1 with ⟨_, _, rfl⟩ |
        ⟨f, pg, _, _, _, _, ⟨_, rfl⟩ | ⟨_, _, hp⟩⟩
      · exact h.congr hB
      · exact h.congr hB
      · exact (h.keep_pins hp' hp rfl).congr hB
  | flush_all_pages =>
    simp only [BufferPoolManagerInstance.step] at hr
    cases h1 : s.FlushAllPgsImp with
    | none => rw [h1] at hr; exact Option.noConfusion hr
    | some res =>
      rw [h1] at hr
      simp only [Option.some.injEq, Prod.mk.injEq] at hr
      obtain ⟨e1, e2⟩ := hr
      subst e1 e2
      exact (flush_bal _ h h1).congr (fun q => by simp [pinDelta])
  | delete_page p =>
    simp only [BufferPoolManagerInstance.step] at hr
    cases h1 : s.DeletePgImp env p with
    | none => rw [h1] at hr; exact Option.noConfusion hr
    | some res =>
      obtain ⟨s1, r⟩ := res
      rw [h1] at hr
      simp only [Option.some.injEq, Prod.mk.injEq] at hr
      obtain ⟨e1, e2⟩ := hr
      subst e1 e2
      have hB : ∀ q, B q + pinDelta q (.delete_page p) (.bool r) = B q := by
        intro q; simp [pinDelta]
      rcases h.pool.inv.deletePg_effect h1 with rfl |
        ⟨f, pg, _, hm, hpg, hpin, hfind, _, _, _, _, _, hpages⟩
      · exact h.congr hB
      · refine PinBal.congr ⟨hp', ?_, ?_, ?_⟩ hB
        · intro g pg2 hg2
          rw [hpages g] at hg2
          by_cases hgf : g = f
          · rw [if_pos hgf] at hg2
            rw [← Option.some.inj hg2]
          · rw [if_neg hgf] at hg2
            exact h.nonneg g pg2 hg2
        · intro q g pg2 hq hg2
          rw [hfind q] at hq
          by_cases hpq : p = q
          · rw [if_pos hpq] at hq
            exact Option.noConfusion (Option.some.inj hq)
          · rw [if_neg hpq] at hq
            have hgf : g ≠ f := by
              intro e
              obtain ⟨pg3, c1, c2⟩ := h.pool.inv.i1 q g hq
              obtain ⟨pg4, d1, d2⟩ := h.pool.inv.i1 p f hm
              rw [e, d1] at c1
              exact hpq (by rw [← d2, Option.some.inj c1, c2])
            rw [hpages g, if_neg hgf] at hg2
            exact h.mapped q g pg2 hq hg2
        · intro q hq
          rw [hfind q] at hq
          by_cases hpq : p = q
          · subst hpq
            rw [← h.mapped p f pg hm hpg]
            exact le_antisymm hpin (h.nonneg f pg hpg)
          · rw [if_neg hpq] at hq
            exact h.unmapped q hq
  | write_data f bytes =>
    simp only [BufferPoolManagerInstance.step, Option.some.injEq, Prod.mk.injEq] at hr
    obtain ⟨e1, e2⟩ := hr
    subst e1 e2
    have hB : ∀ q, B q + pinDelta q (.write_data f bytes) .unit = B q := by
      intro q; simp [pinDelta]
    rcases writeData_effect env s f bytes with e | ⟨pg, _, hp⟩
    · rw [e]
      exact h.congr hB
    · exact (h.keep_pins hp' hp rfl).congr hB

end PinBal

end bustub

namespace bustub

open BufferPoolManagerInstance

variable {env : Env}

/-- In a new pool no page is pinned. -/
theorem PinBal.start (env : Env) (pool_size replacer_k bucket_size : Nat) :
    PinBal env 0 (BufferPoolManagerInstance.new env pool_size replacer_k bucket_size)
      (fun _ => 0) := by
  refine ⟨PoolInv.initial env pool_size replacer_k bucket_size, ?_, ?_, fun _ _ => rfl⟩
  · intro g pg hg
    have h0 := getPage_nonneg hg
    simp only [getPage, BufferPoolManagerInstance.new, h0, if_true] at hg
    have hmem := List.getElem?_mem hg
    rw [List.eq_of_mem_replicate hmem]
    exact le_refl _
  · intro p f pg hf
    have := Find_new (V := Int) env.hash bucket_size p
    simp only [BufferPoolManagerInstance.new] at hf
    rw [this] at hf
    exact Option.noConfusion (Option.some.inj hf)

/-- Along a run in which `FetchPage` is only called with ids that `NewPage` has returned and
the page counter is not advanced more than `2^32` times, the pin count of a page of the page
table is the number of pins that `pinBalance` counts. -/
theorem PinBal.run_bal (ops : List BPMOp) :
    ∀ {s s' : BufferPoolManagerInstance} {outs : List BPMResult} {ids : List Int}
      {B : Int → Int} {c : Nat}, PinBal env c s B →
      (∀ p ∈ ids, Issued c p) →
      c + newPageCalls ops ≤ 2 ^ 32 →
      s.run env ops = some (s', outs) → admittedFrom ids ops outs = true →
      ∃ c', PinBal env c' s' (fun p => B p + pinBalance p ops outs) := by
  induction ops with
  | nil =>
    intro s s' outs ids B c h _ _ hr _
    simp only [BufferPoolManagerInstance.run, Option.some.injEq, Prod.mk.injEq] at hr
    obtain ⟨e1, e2⟩ := hr
    subst e1 e2
    exact ⟨c, h.congr (fun p => by simp [pinBalance])⟩
  | cons op ops ih =>
    intro s s' outs ids B c h hids hlen hr hadm
    rw [newPageCalls_cons] at hlen
    simp only [BufferPoolManagerInstance.run] at hr
    cases h1 : s.step env op with
    | none => rw [h1] at hr; exact Option.noConfusion hr
    | some res =>
      obtain ⟨s1, out⟩ := res
      rw [h1] at hr
      simp only at hr
      cases h2 : BufferPoolManagerInstance.run env s1 ops with
      | none => rw [h2] at hr; exact Option.noConfusion hr
      | some res2 =>
        obtain ⟨s2, outs2⟩ := res2
        rw [h2] at hr
        simp only [Option.some.injEq, Prod.mk.injEq] at hr
        obtain ⟨e1, e2⟩ := hr
        subst e1 e2
        simp only [admittedFrom, Bool.and_eq_true] at hadm
        have hadm' : ∀ q, op = .fetch_page q → Issued c q := by
          intro q hq
          subst hq
          have := hadm.1
          simp only [BPMOp.admitted, decide_eq_true_eq] at this
          exact hids q this
        have hle := step_newIds_le h1
        have hroom : op = .new_page → c < 2 ^ 32 := by
          intro e
          subst e
          have : newPageCalls [BPMOp.new_page] = 1 := rfl
          omega
        obtain ⟨_, a3⟩ := h.pool.step_admitted hadm' hroom h1
        have hids1 : ∀ p ∈ ids ++ out.newIds, Issued (c + out.newIds.length) p := by
          intro p hp
          rcases List.mem_append.1 hp with hp | hp
          · exact (hids p hp).of_le (Nat.le_add_right _ _)
          · have hpos : 0 < out.newIds.length := List.length_pos_of_mem hp
            rw [a3 p hp]
            have : out.newIds.length = 1 := by
              have := newPageCalls_single_le op
              omega
            rw [this]
            exact Issued.last c
        obtain ⟨c', hc'⟩ := ih (h.step_bal hadm' hroom h1) hids1 (by omega) h2 hadm.2
        refine ⟨c', hc'.congr ?_⟩
        intro p
        simp only [pinBalance]
        ring

end bustub

namespace bustub

section hashTable
variable {K V : Type} [DecidableEq K] {hash : K → Nat}

/-! ## The splits of `Insert` into a full bucket -/

theorem Bucket.Insert_of_full {c : Bucket K V} {k : K} (v : V) (hnone : ufind c.list_ k = none)
    (hfull : c.list_.length = c.size_) : c.Insert k v = (c, false) := by
  unfold Bucket.Insert
  rw [replaceFirst_eq_none.2 hnone]
  simp [Bucket.IsFull, hfull]

/-- A list of entries without a repeated key that misses a key of a list holding all its
entries is shorter. -/
theorem length_lt_of_missing {l l' : List (K × V)} (hn' : (l'.map Prod.fst).Nodup)
    (hsub : ∀ x ∈ l', x ∈ l) {e : K × V} (he : e ∈ l) (hne : e.1 ∉ l'.map Prod.fst) :
    l'.length < l.length := by
  have hnd : (e.1 :: l'.map Prod.fst).Nodup := List.nodup_cons.2 ⟨hne, hn'⟩
  have hss : (e.1 :: l'.map Prod.fst) ⊆ l.map Prod.fst := by
    intro x hx
    rcases List.mem_cons.1 hx with rfl | hx
    · exact List.mem_map.2 ⟨e, he, rfl⟩
    · obtain ⟨y, hy, rfl⟩ := List.mem_map.1 hx
      exact List.mem_map.2 ⟨y, hsub y hy, rfl⟩
  have := (List.subperm_of_subset hnd hss).length_le
  simp only [List.length_cons, List.length_map] at this
  omega

/-- Two lists of entries without repeated keys that hold the same entries have the same
length. -/
theorem length_eq_of_same {l l' : List (K × V)} (hn : (l.map Prod.fst).Nodup)
    (hn' : (l'.map Prod.fst).Nodup) (h1 : ∀ x ∈ l', x ∈ l) (h2 : ∀ x ∈ l, x ∈ l') :
    l'.length = l.length := by
  have a := (List.subperm_of_subset hn'.of_map (fun x hx => h1 x hx)).length_le
  have b := (List.subperm_of_subset hn.of_map (fun x hx => h2 x hx)).length_le
  omega

namespace HashWF

/-- The split of the bucket of `k`: the bucket of `k` afterwards, one level deeper, holds
exactly the entries of the split bucket whose hash agrees with that of `k` on one more
bit. -/
theorem split_next {t : ExtendibleHashTable K V} (h : HashWF hash t) (k : K) {p : Nat}
    {b : Bucket K V} (hp : t.dir_[t.IndexOf hash k]? = some p) (hb : t.heap[p]? = some b)
    (hroom : b.depth_ = t.global_depth_ → t.global_depth_ < 30) :
    ∃ t3, t.split hash p b = some t3 ∧ HashWF hash t3 ∧ t3.bucket_size_ = t.bucket_size_ ∧
      t3.global_depth_ = max t.global_depth_ (b.depth_ + 1) ∧
      t3.num_buckets_ = t.num_buckets_ + 1 ∧
      ∃ p' b', t3.dir_[t3.IndexOf hash k]? = some p' ∧ t3.heap[p']? = some b' ∧
        b'.depth_ = b.depth_ + 1 ∧ b'.size_ = t.bucket_size_ ∧
        (b'.list_.map Prod.fst).Nodup ∧
        (∀ x, x ∈ b'.list_ ↔
          (x ∈ b.list_ ∧ hash x.1 % 2 ^ (b.depth_ + 1) = hash k % 2 ^ (b.depth_ + 1))) := by
  obtain ⟨p0, b0, s1, s2, s3, s4, s5, s6, s7, s8, s9⟩ := h.slotOf k
  have hpp : p0 = p := Option.some.inj (s1.symm.trans hp)
  subst hpp
  have hbb : b0 = b := Option.some.inj (s2.symm.trans hb)
  subst hbb
  obtain ⟨t3, r1, r2, r3, r4, r5, r6, p', b', r7, r8, r9, r10⟩ := h.split_spec k hp hb hroom
  obtain ⟨p1, b1, u1, u2, u3, u4, u5, u6, u7, u8, u9⟩ := r2.slotOf k
  have hpp : p1 = p' := Option.some.inj (u1.symm.trans r7)
  subst hpp
  have hbb : b1 = b' := Option.some.inj (u2.symm.trans r8)
  subst hbb
  refine ⟨t3, r1, r2, r3, r4, r5, p1, b1, r7, r8, r9, by rw [u4, r3], u6, ?_⟩
  intro x
  constructor
  · intro hx
    refine ⟨r10 x hx, ?_⟩
    rw [← r9]
    exact u7 x hx
  · rintro ⟨hx, hmod⟩
    have hfind : t.Find hash x.1 = some (some x.2) := by
      have hslot : t.dir_[t.IndexOf hash x.1]? = some p0 := by
        refine (s8 _ (IndexOf_lt hash t x.1)).2 ?_
        rw [IndexOf_eq, Nat.mod_mod_of_dvd _ (pow_dvd_pow 2 s3), s7 x hx]
      rw [Find_of_slot hslot s2, ufind_of_mem s6 hx]
    have hslot3 : t3.dir_[t3.IndexOf hash x.1]? = some p1 := by
      refine (u8 _ (IndexOf_lt hash t3 x.1)).2 ?_
      rw [IndexOf_eq, Nat.mod_mod_of_dvd _ (pow_dvd_pow 2 u3), r9]
      exact hmod
    have h3 := r6 x.1
    rw [hfind, Find_of_slot hslot3 r8] at h3
    exact mem_of_ufind (Option.some.inj h3)

/-- `Insert` into a full bucket that lacks the key makes exactly `j + 1` splits when the
hashes of the entries agree with that of the key on the `j` bits above the depth of the
bucket and one of them differs on the next bit, that bit being among the low 30. -/
theorem insert_splits (k : K) (v : V) : ∀ (j : Nat) (t : ExtendibleHashTable K V),
    HashWF hash t → 1 ≤ t.bucket_size_ →
    ∀ (p : Nat) (b : Bucket K V), t.dir_[t.IndexOf hash k]? = some p → t.heap[p]? = some b →
    b.list_.length = t.bucket_size_ → ufind b.list_ k = none → b.depth_ + j + 1 ≤ 30 →
    (∀ e ∈ b.list_, hash e.1 % 2 ^ (b.depth_ + j) = hash k % 2 ^ (b.depth_ + j)) →
    (∃ e ∈ b.list_, hash e.1 % 2 ^ (b.depth_ + j + 1) ≠ hash k % 2 ^ (b.depth_ + j + 1)) →
    ∀ fuel, j + 2 ≤ fuel →
    ∃ t', t.InsertFuel hash fuel k v = some t' ∧
      t.SplitCountFuel hash fuel k v = some (j + 1) ∧
      t'.global_depth_ = max t.global_depth_ (b.depth_ + j + 1) ∧
      t'.num_buckets_ = t.num_buckets_ + (j + 1) := by
  intro j
  induction j with
  | zero =>
    intro t h hbs p b hp hb hfull hnone h30 hsame hdiff fuel hfuel
    obtain ⟨fuel', rfl⟩ : ∃ f, fuel = f + 2 := ⟨fuel - 2, by omega⟩
    obtain ⟨p0, b0, s1, s2, s3, s4, s5, s6, s7, s8, s9⟩ := h.slotOf k
    have hpp : p0 = p := Option.some.inj (s1.symm.trans hp)
    subst hpp
    have hbb : b0 = b := Option.some.inj (s2.symm.trans hb)
    subst hbb
    have hins : b0.Insert k v = (b0, false) :=
      Bucket.Insert_of_full v hnone (by rw [hfull, s4])
    obtain ⟨t3, r1, r2, r3, r4, r5, p', b', r7, r8, r9, r10, r11, r12⟩ := h.split_next k hp hb
      (fun hd => by omega)
    obtain ⟨e0, he0, hne0⟩ := hdiff
    have hk' : ufind b'.list_ k = none := by
      rw [ufind_eq_none_iff] at hnone ⊢
      intro hk
      obtain ⟨y, hy, hyk⟩ := List.mem_map.1 hk
      exact hnone (List.mem_map.2 ⟨y, ((r12 y).1 hy).1, hyk⟩)
    have hlt : b'.list_.length < b0.list_.length := by
      refine length_lt_of_missing r11 (fun x hx => ((r12 x).1 hx).1) he0 ?_
      intro hmem
      obtain ⟨y, hy, hyk⟩ := List.mem_map.1 hmem
      obtain ⟨y1, y2⟩ := (r12 y).1 hy
      apply hne0
      rw [← hyk]
      exact y2
    have hins' : b'.Insert k v = ({ b' with list_ := b'.list_ ++ [(k, v)] }, true) :=
      Bucket.Insert_fresh v hk' (by rw [r10]; omega)
    refine ⟨{ t3 with heap := t3.heap.set p' (b'.Insert k v).1 }, ?_, ?_, ?_, ?_⟩
    · simp only [ExtendibleHashTable.InsertFuel, hp, hb, hins, Bool.false_eq_true, if_false,
        r1, r7, r8, hins', if_true]
    · simp only [ExtendibleHashTable.SplitCountFuel, hp, hb, hins, Bool.false_eq_true,
        if_false, r1, r7, r8, hins', if_true, Option.map_some']
    · show t3.global_depth_ = _
      rw [r4]
    · show t3.num_buckets_ = _
      rw [r5]
  | succ j ih =>
    intro t h hbs p b hp hb hfull hnone h30 hsame hdiff fuel hfuel
    obtain ⟨fuel', rfl⟩ : ∃ f, fuel = f + 1 := ⟨fuel - 1, by omega⟩
    obtain ⟨p0, b0, s1, s2, s3, s4, s5, s6, s7, s8, s9⟩ := h.slotOf k
    have hpp : p0 = p := Option.some.inj (s1.symm.trans hp)
    subst hpp
    have hbb : b0 = b := Option.some.inj (s2.symm.trans hb)
    subst hbb
    have hins : b0.Insert k v = (b0, false) :=
      Bucket.Insert_of_full v hnone (by rw [hfull, s4])
    obtain ⟨t3, r1, r2, r3, r4, r5, p', b', r7, r8, r9, r10, r11, r12⟩ := h.split_next k hp hb
      (fun hd => by omega)
    have hall : ∀ x ∈ b0.list_, x ∈ b'.list_ := fun x hx =>
      (r12 x).2 ⟨hx, mod_pow_of_mod_pow (by omega) (hsame x hx)⟩
    have hk' : ufind b'.list_ k = none := by
      rw [ufind_eq_none_iff] at hnone ⊢
      intro hk
      obtain ⟨y, hy, hyk⟩ := List.mem_map.1 hk
      exact hnone (List.mem_map.2 ⟨y, ((r12 y).1 hy).1, hyk⟩)
    have hlen : b'.list_.length = t3.bucket_size_ := by
      rw [r3, ← hfull]
      exact length_eq_of_same s6 r11 (fun x hx => ((r12 x).1 hx).1) hall
    have e1 : b'.depth_ + j = b0.depth_ + (j + 1) := by omega
    have e2 : b'.depth_ + j + 1 = b0.depth_ + (j + 1) + 1 := by omega
    obtain ⟨e0, he0, hne0⟩ := hdiff
    obtain ⟨t', a1, a2, a3, a4⟩ := ih t3 r2 (by rw [r3]; exact hbs) p' b' r7 r8 hlen hk'
      (by omega)
      (fun e he => by rw [e1]; exact hsame e ((r12 e).1 he).1)
      ⟨e0, hall e0 he0, by rw [e2]; exact hne0⟩ fuel' (by omega)
    refine ⟨t', ?_, ?_, ?_, ?_⟩
    · simp only [ExtendibleHashTable.InsertFuel, hp, hb, hins, Bool.false_eq_true, if_false,
        r1]
      exact a1
    · simp only [ExtendibleHashTable.SplitCountFuel, hp, hb, hins, Bool.false_eq_true,
        if_false, r1, a2, Option.map_some']
    · rw [a3, r4, e2]
      omega
    · rw [a4, r5]
      omega

/-- `Insert` into a full bucket that lacks the key does not return, whatever the number of
rounds, when the hashes of all entries of the bucket agree with that of the key on the low 30
bits: the splits reach depth 30, where the directory cannot be doubled. -/
theorem insert_overflows (k : K) (v : V) : ∀ (n : Nat) (t : ExtendibleHashTable K V),
    HashWF hash t → 1 ≤ t.bucket_size_ → t.global_depth_ ≤ 30 →
    ∀ (p : Nat) (b : Bucket K V), t.dir_[t.IndexOf hash k]? = some p → t.heap[p]? = some b →
    b.list_.length = t.bucket_size_ → ufind b.list_ k = none → 30 ≤ b.depth_ + n →
    (∀ e ∈ b.list_, hash e.1 % 2 ^ 30 = hash k % 2 ^ 30) →
    ∀ fuel, t.InsertFuel hash fuel k v = none := by
  intro n
  induction n with
  | zero =>
    intro t h hbs hG p b hp hb hfull hnone h30 hsame fuel
    cases fuel with
    | zero => rfl
    | succ fuel =>
      obtain ⟨p0, b0, s1, s2, s3, s4, s5, s6, s7, s8, s9⟩ := h.slotOf k
      have hpp : p0 = p := Option.some.inj (s1.symm.trans hp)
      subst hpp
      have hbb : b0 = b := Option.some.inj (s2.symm.trans hb)
      subst hbb
      have hins : b0.Insert k v = (b0, false) :=
        Bucket.Insert_of_full v hnone (by rw [hfull, s4])
      simp only [ExtendibleHashTable.InsertFuel, hp, hb, hins, Bool.false_eq_true, if_false,
        h.split_overflow p0 (by omega : b0.depth_ = t.global_depth_) (by omega)]
  | succ n ih =>
    intro t h hbs hG p b hp hb hfull hnone h30 hsame fuel
    cases fuel with
    | zero => rfl
    | succ fuel =>
      obtain ⟨p0, b0, s1, s2, s3, s4, s5, s6, s7, s8, s9⟩ := h.slotOf k
      have hpp : p0 = p := Option.some.inj (s1.symm.trans hp)
      subst hpp
      have hbb : b0 = b := Option.some.inj (s2.symm.trans hb)
      subst hbb
      have hins : b0.Insert k v = (b0, false) :=
        Bucket.Insert_of_full v hnone (by rw [hfull, s4])
      by_cases hd30 : 30 ≤ b0.depth_
      · simp only [ExtendibleHashTable.InsertFuel, hp, hb, hins, Bool.false_eq_true, if_false,
          h.split_overflow p0 (by omega : b0.depth_ = t.global_depth_) (by omega)]
      · obtain ⟨t3, r1, r2, r3, r4, r5, p', b', r7, r8, r9, r10, r11, r12⟩ :=
          h.split_next k hp hb (fun hd => by omega)
        have hall : ∀ x ∈ b0.list_, x ∈ b'.list_ := fun x hx =>
          (r12 x).2 ⟨hx, mod_pow_of_mod_pow (by omega) (hsame x hx)⟩
        have hk' : ufind b'.list_ k = none := by
          rw [ufind_eq_none_iff] at hnone ⊢
          intro hk
          obtain ⟨y, hy, hyk⟩ := List.mem_map.1 hk
          exact hnone (List.mem_map.2 ⟨y, ((r12 y).1 hy).1, hyk⟩)
        have hlen : b'.list_.length = t3.bucket_size_ := by
          rw [r3, ← hfull]
          exact length_eq_of_same s6 r11 (fun x hx => ((r12 x).1 hx).1) hall
        simp only [ExtendibleHashTable.InsertFuel, hp, hb, hins, Bool.false_eq_true, if_false,
          r1]
        exact ih t3 r2 (by rw [r3]; exact hbs) (by rw [r4]; omega) p' b' r7 r8 hlen hk'
          (by omega) (fun e he => hsame e ((r12 e).1 he).1) fuel

end HashWF

end hashTable

end bustub

namespace bustub

section hashTable
variable {K V : Type} [DecidableEq K] {hash : K → Nat}

/-- A run keeps the global depth at most 30: the mask of `IndexOf` is an `int` in every
table that a run of calls reaches. -/
theorem HashWF.run_depth (ops : List (HashOp K V)) :
    ∀ {t t' : ExtendibleHashTable K V} {outs : List (Option Bool)}, HashWF hash t →
      t.global_depth_ ≤ 30 → t.run hash ops = some (t', outs) → t'.global_depth_ ≤ 30 := by
  induction ops with
  | nil =>
    intro t t' outs _ hG hr
    simp only [ExtendibleHashTable.run, Option.some.injEq, Prod.mk.injEq] at hr
    rw [← hr.1]
    exact hG
  | cons op ops ih =>
    intro t t' outs h hG hr
    simp only [ExtendibleHashTable.run] at hr
    cases h1 : t.step hash op with
    | none => rw [h1] at hr; exact Option.noConfusion hr
    | some res =>
      obtain ⟨t1, out⟩ := res
      rw [h1] at hr
      simp only at hr
      cases h2 : ExtendibleHashTable.run hash t1 ops with
      | none => rw [h2] at hr; exact Option.noConfusion hr
      | some res2 =>
        obtain ⟨t2, outs2⟩ := res2
        rw [h2] at hr
        simp only [Option.some.injEq, Prod.mk.injEq] at hr
        obtain ⟨e1, _⟩ := hr
        subst e1
        have hstep : HashWF hash t1 ∧ t1.global_depth_ ≤ 30 := by
          cases op with
          | insert k v =>
            simp only [ExtendibleHashTable.step] at h1
            cases h3 : t.Insert hash k v with
            | none => rw [h3] at h1; exact Option.noConfusion h1
            | some t3 =>
              rw [h3] at h1
              simp only [Option.some.injEq, Prod.mk.injEq] at h1
              obtain ⟨e1, _⟩ := h1
              subst e1
              obtain ⟨p, b, s1, s2, _⟩ := h.slotOf k
              simp only [ExtendibleHashTable.Insert, s1, s2] at h3
              obtain ⟨a1, _, _, a4⟩ := h.insertFuel k v _ t t3 h3
              exact ⟨a1, a4 hG⟩
          | remove k =>
            simp only [ExtendibleHashTable.step] at h1
            obtain ⟨t3, res, r1, r2, _⟩ := h.remove_key k
            rw [r1] at h1
            simp only [Option.some.injEq, Prod.mk.injEq] at h1
            obtain ⟨e1, _⟩ := h1
            subst e1
            refine ⟨r2, ?_⟩
            unfold ExtendibleHashTable.Remove at r1
            cases hd : t.dir_[t.IndexOf hash k]? with
            | none => rw [hd] at r1; exact Option.noConfusion r1
            | some p =>
              cases hh : t.heap[p]? with
              | none => simp [hd, hh] at r1
              | some b =>
                simp only [hd, hh, Option.bind_eq_bind, Option.some_bind, Option.pure_def,
                  Option.some.injEq, Prod.mk.injEq] at r1
                rw [← r1.1]
                exact hG
        exact ih hstep.1 hstep.2 h2

/-- Every table that a run of calls on a new table reaches has global depth at most 30. -/
theorem HashWF.reach_depth (bucket_size : Nat) (ops : List (HashOp K V))
    {t : ExtendibleHashTable K V} {outs : List (Option Bool)}
    (hr : (ExtendibleHashTable.new bucket_size).run hash ops = some (t, outs)) :
    t.global_depth_ ≤ 30 :=
  HashWF.run_depth ops (HashWF.new_table hash bucket_size) (Nat.zero_le _) hr

end hashTable

/-- On the table of capacity 1 that holds the key 0, natural numbers hashed by themselves,
`Insert(2^30, 11)` does not return (`2^30 = 1073741824`): the keys 0 and `2^30` agree on the
low 30 bits. -/
theorem sample_insert_overflows :
    (sampleTable 1 [.insert 0 10]).1.Insert (fun n => n) 1073741824 11 = none := by
  have hrun := sampleTable_eq 1 [.insert 0 10] (by decide)
  have hwf : HashWF (fun n : Nat => n) (sampleTable 1 [.insert 0 10]).1 :=
    HashWF.run_keeps _ (HashWF.new_table _ 1) hrun
  have hp : (sampleTable 1 [.insert 0 10]).1.dir_[
      (sampleTable 1 [.insert 0 10]).1.IndexOf (fun n => n) 1073741824]? = some 0 := by decide
  have hb : (sampleTable 1 [.insert 0 10]).1.heap[0]? =
      some { size_ := 1, depth_ := 0, list_ := [(0, 10)] } := by decide
  simp only [ExtendibleHashTable.Insert, hp, hb]
  exact hwf.insert_overflows 1073741824 11 30 _ (by decide) (by decide) 0 _ hp hb (by decide)
    (by decide) (by decide) (by decide) _

/-- On a new table of capacity 1, natural numbers hashed by themselves, the run of
`Insert(0, 10)`, `Insert(2^30, 11)` is not defined. -/
theorem sample_run_overflows (k : Nat) (hk : k = 1073741824) :
    (ExtendibleHashTable.new 1).run (fun n : Nat => n)
      [HashOp.insert 0 10, .insert k 11] = none := by
  have h1 : (ExtendibleHashTable.new 1).step (fun n : Nat => n) (HashOp.insert 0 10) =
      some ((sampleTable 1 [.insert 0 10]).1, none) := by decide
  have h2 : (sampleTable 1 [.insert 0 10]).1.step (fun n : Nat => n)
      (HashOp.insert k 11) = none := by
    simp only [ExtendibleHashTable.step]
    rw [hk, sample_insert_overflows]
  simp only [ExtendibleHashTable.run, h1, h2]

end bustub

namespace bustub

section hashTable
variable {K V : Type} [DecidableEq K] {hash : K → Nat}

/-- A run of calls whose keys, together with the keys now bound, have hashes that are
pairwise distinct in their low 30 bits refines the run of the same calls on a finite map. -/
theorem HashWF.run_refines (P : K → Prop)
    (hP : ∀ x y, P x → P y → hash x % 2 ^ 30 = hash y % 2 ^ 30 → x = y) :
    ∀ (ops : List (HashOp K V)) (t : ExtendibleHashTable K V) (m : K → Option V),
    HashWF hash t → 1 ≤ t.bucket_size_ → (∀ k, t.Find hash k = some (m k)) →
    (∀ k, m k ≠ none → P k) → (∀ a ∈ ops, P a.key) →
    ∃ t', t.run hash ops = some (t', (specRun m ops).2) ∧
      ∀ k, t'.Find hash k = some ((specRun m ops).1 k) := by
  intro ops
  induction ops with
  | nil => intro t m _ _ hf _ _; exact ⟨t, rfl, hf⟩
  | cons op ops ih =>
    intro t m h hbs hf hm hops
    have hPop := hops op (List.mem_cons_self _ _)
    have hops' : ∀ a ∈ ops, P a.key := fun a ha => hops a (List.mem_cons_of_mem _ ha)
    cases op with
    | insert k v =>
      obtain ⟨t1, r1, r2, r3, r4, _⟩ := h.insert hbs k v (by
        intro k' hk' ⟨v', hv'⟩ heq
        have hmk : m k' = some v' := by
          have := (hf k').symm.trans hv'
          exact Option.some.inj this
        exact hk' (hP k' k (hm k' (by rw [hmk]; exact Option.noConfusion)) hPop heq))
      obtain ⟨t', a1, a2⟩ := ih t1 (specStep m (.insert k v)).1 r2 (by rw [r3]; exact hbs)
        (by
          intro x
          rw [r4 x]
          simp only [specStep]
          by_cases hx : k = x
          · simp [hx]
          · simp [hx, hf x])
        (by
          intro x hx
          simp only [specStep] at hx
          by_cases hkx : k = x
          · exact hkx ▸ hPop
          · simp only [hkx, if_false] at hx
            exact hm x hx)
        hops'
      refine ⟨t', ?_, a2⟩
      simp only [ExtendibleHashTable.run, ExtendibleHashTable.step, r1, a1]
      rfl
    | remove k =>
      obtain ⟨t1, res, r1, r2, r3, r4⟩ := h.remove_key k
      have hres : res = (m k).isSome := by
        have hfk := hf k
        cases hmk : m k with
        | none =>
          rw [hmk] at hfk
          have : ¬ res = true := fun h' => by
            obtain ⟨v, hv⟩ := r3.1 h'
            rw [hfk] at hv
            exact Option.noConfusion (Option.some.inj hv)
          simpa using this
        | some v =>
          rw [hmk] at hfk
          simpa using r3.2 ⟨v, hfk⟩
      have hbs1 : t1.bucket_size_ = t.bucket_size_ := by
        simp only [ExtendibleHashTable.Remove] at r1
        cases hd : t.dir_[t.IndexOf hash k]? with
        | none => simp [hd] at r1
        | some p =>
          cases hh : t.heap[p]? with
          | none => simp [hd, hh] at r1
          | some b =>
            simp [hd, hh] at r1
            rw [← r1.1]
      obtain ⟨t', a1, a2⟩ := ih t1 (specStep m (.remove k)).1 r2 (by rw [hbs1]; exact hbs)
        (by
          intro x
          rw [r4 x]
          simp only [specStep]
          by_cases hx : k = x
          · simp [hx]
          · simp [hx, hf x])
        (by
          intro x hx
          simp only [specStep] at hx
          by_cases hkx : k = x
          · simp [hkx] at hx
          · simp only [hkx, if_false] at hx
            exact hm x hx)
        hops'
      refine ⟨t', ?_, a2⟩
      simp only [ExtendibleHashTable.run, ExtendibleHashTable.step, r1, a1, hres]
      rfl

/-- C2, counterexample: on a new table of capacity 1, natural numbers hashed by themselves,
the calls `Insert(0, 10)`, `Insert(2^30, 11)` (`2^30 = 1073741824`) have keys with distinct
hashes, yet the run is not defined: the second call does not return, the two keys agreeing on
the low 30 bits. -/
theorem C2_insert_of_distinct_hashes_overflows :
    (∀ a ∈ [HashOp.insert (0 : Nat) (10 : Nat), .insert 1073741824 11],
      ∀ b ∈ [HashOp.insert (0 : Nat) (10 : Nat), .insert 1073741824 11],
        (fun n : Nat => n) a.key = (fun n : Nat => n) b.key → a.key = b.key) ∧
    (ExtendibleHashTable.new 1).run (fun n : Nat => n)
      [HashOp.insert 0 10, .insert 1073741824 11] = none := by
  exact ⟨fun a _ b _ hab => hab, sample_run_overflows _ rfl⟩

/-- C2: for every capacity `bucket_size ≥ 1` and every sequence of `Insert` / `Remove`
calls on a new table whose keys have hashes that are pairwise distinct in their low 30 bits,
every call returns, each `Remove` returns what the removal from a finite map returns (true
exactly when the key is bound), and afterwards `Find` agrees on every key with the finite map
that the calls specify: the value of the latest `Insert` of the key not followed by its
`Remove`. -/
theorem C2_hash_table_is_finite_map (hash : K → Nat) (bucket_size : Nat)
    (hbs : 1 ≤ bucket_size) (ops : List (HashOp K V))
    (hinj : ∀ a ∈ ops, ∀ b ∈ ops, hash a.key % 2 ^ 30 = hash b.key % 2 ^ 30 →
      a.key = b.key) :
    ∃ t, (ExtendibleHashTable.new bucket_size).run hash ops =
        some (t, (specRun (fun _ => none) ops).2) ∧
      ∀ k, t.Find hash k = some ((specRun (fun _ => none) ops).1 k) := by
  refine HashWF.run_refines (fun x => ∃ a ∈ ops, a.key = x) ?_ ops _ _
    (HashWF.new_table hash bucket_size) hbs (fun k => Find_new hash bucket_size k)
    (fun k hk => absurd rfl hk) (fun a ha => ⟨a, ha, rfl⟩)
  rintro x y ⟨a, ha, rfl⟩ ⟨b, hb, rfl⟩ hxy
  exact hinj a ha b hb hxy

end hashTable

/-- Witness of C2: capacity 2, identity hash, keys 0, 4, 8 forcing two splits. -/
theorem C2_hash_table_is_finite_map_witness :
    ∃ t, (ExtendibleHashTable.new 2).run (fun n : Nat => n)
        [HashOp.insert 0 10, .insert 4 14, .insert 8 18, .remove 4, .insert 0 20,
          .remove 5] = some (t, (specRun (fun _ => none)
        [HashOp.insert 0 10, .insert 4 14, .insert 8 18, .remove 4, .insert 0 20,
          .remove 5]).2) ∧
      ∀ k, t.Find (fun n : Nat => n) k = some ((specRun (fun _ => (none : Option Nat))
        [HashOp.insert 0 10, .insert 4 14, .insert 8 18, .remove 4, .insert 0 20,
          .remove 5]).1 k) :=
  C2_hash_table_is_finite_map (fun n : Nat => n) 2 (by decide) _ (by decide)

end bustub

namespace bustub

/-- C24: after every sequence of `RecordAccess` / `SetEvictable` / `Remove` / `Evict` calls on
a replacer built for `n` frames, `replacer_size_ - curr_size_` is congruent modulo `2^64` to
`n - T`, where `T` is the number of tracked frames (the length of a list without repetition
of exactly these frames). Hence `RecordAccess(f)` calls `EvictInstance` exactly when `f` is
not tracked and `T` is congruent to `n`: an access of an untracked frame enters the frame
after that eviction or without it, and an access of a tracked frame leaves the flags and
`curr_size_` as they are. -/
theorem C24_size_gap_counts_tracked_frames (n k : Nat) (hk : k < SIZE_MOD)
    (ops : List ReplacerOp) (hlen : ops.length + 1 < SIZE_MOD) :
    ∀ r g, runOps (LRUKReplacer.new n k, AccessLog.empty) ops = some (r, g) →
      ∃ l : List Int, l.Nodup ∧ (∀ f, f ∈ l ↔ r.tracked f = true) ∧
        ((r.replacer_size_ : Int) - (r.curr_size_ : Int)) % (SIZE_MOD : Int) =
          ((n : Int) - (l.length : Int)) % (SIZE_MOD : Int) ∧
        ∀ f,
          (r.evictsOnAccess f = true ↔
            (r.tracked f = false ∧ l.length % SIZE_MOD = n % SIZE_MOD)) ∧
          (r.tracked f = false → r.RecordAccess f = some (LRUKReplacer.enterNew
            (if r.evictsOnAccess f then (r.stamped f).EvictInstance.1 else r.stamped f) f)) ∧
          (r.tracked f = true → ∀ r', r.RecordAccess f = some r' →
            r'.frame_evictable_ = r.frame_evictable_ ∧ r'.curr_size_ = r.curr_size_) := by
  intro r g hrun
  obtain ⟨hs, hrs, hT, hcnt⟩ := SizeInv.run_facts n hk ops hlen hrun
  have htr : ∀ f, r.tracked f = false ↔ ufind r.frame_evictable_ f = none := by
    intro f
    unfold LRUKReplacer.tracked
    cases ufind r.frame_evictable_ f <;> simp
  refine ⟨r.frame_evictable_.map Prod.fst, hs.evNodup, ?_, ?_, ?_⟩
  · intro f
    unfold LRUKReplacer.tracked
    constructor
    · intro hf
      obtain ⟨e, he, hef⟩ := List.mem_map.1 hf
      obtain ⟨a, b⟩ := e
      have ha : a = f := hef
      subst ha
      rw [ufind_of_mem hs.evNodup he]
      rfl
    · intro hf
      cases hb : ufind r.frame_evictable_ f with
      | none => rw [hb] at hf; exact absurd hf (by decide)
      | some b => exact List.mem_map.2 ⟨(f, b), mem_of_ufind hb, rfl⟩
  · rw [List.length_map]
    have h1 := hs.tracked_sizes
    have h2 : ((r.replacer_size_ + r.frame_evictable_.length : Nat) : Int) ≡
        ((n + r.curr_size_ : Nat) : Int) [ZMOD (SIZE_MOD : Int)] :=
      (Int.natCast_modEq_iff).2 h1
    push_cast at h2
    have h3 := Int.ModEq.sub_right ((r.curr_size_ : Int) + (r.frame_evictable_.length : Int)) h2
    have e1 : (r.replacer_size_ : Int) + (r.frame_evictable_.length : Int) -
        ((r.curr_size_ : Int) + (r.frame_evictable_.length : Int)) =
        (r.replacer_size_ : Int) - (r.curr_size_ : Int) := by ring
    have e2 : (n : Int) + (r.curr_size_ : Int) -
        ((r.curr_size_ : Int) + (r.frame_evictable_.length : Int)) =
        (n : Int) - (r.frame_evictable_.length : Int) := by ring
    rw [e1, e2] at h3
    exact h3
  · intro f
    rw [List.length_map]
    have hev : r.evictsOnAccess f = true ↔
        (r.countAfter f = 1 ∧ r.curr_size_ = r.replacer_size_) := by
      unfold LRUKReplacer.evictsOnAccess
      exact decide_eq_true_iff
    refine ⟨?_, ?_, ?_⟩
    · rw [hev, hcnt f, htr f, hs.guard_iff hrs hT]
    · intro hf
      have hc : r.countAfter f = 1 := (hcnt f).2 ((htr f).1 hf)
      rw [RecordAccess_first hc]
      by_cases hg : r.curr_size_ = r.replacer_size_
      · have h1 : r.evictsOnAccess f = true := hev.2 ⟨hc, hg⟩
        have h2 : (r.stamped f).curr_size_ = (r.stamped f).replacer_size_ := hg
        rw [h1, if_pos h2, if_pos rfl]
      · have h1 : r.evictsOnAccess f = false := by
          cases h0 : r.evictsOnAccess f with
          | false => rfl
          | true => exact absurd (hev.1 h0).2 hg
        have h2 : ¬ (r.stamped f).curr_size_ = (r.stamped f).replacer_size_ := hg
        rw [h1, if_neg h2, if_neg (by decide)]
    · intro hf r' hr'
      have hc : r.countAfter f ≠ 1 := by
        intro hc
        have := (htr f).2 ((hcnt f).1 hc)
        rw [this] at hf
        exact absurd hf (by decide)
      obtain ⟨a1, _, a3, _⟩ := RecordAccess_later hc hr'
      exact ⟨a1, a3⟩

/-- C24, an instance: a replacer built for 2 frames with `k = 2` after `RecordAccess(1)`,
`SetEvictable(1, false)`, `RecordAccess(2)`. Both sizes are 1 and two frames are tracked, so
an access of frame 3 evicts first; an access of frame 1 does not. -/
theorem C24_size_gap_counts_tracked_frames_witness :
    (2 : Nat) < SIZE_MOD ∧
    (runOps (LRUKReplacer.new 2 2, AccessLog.empty)
      [.record_access 1, .set_evictable 1 false, .record_access 2]).map
      (fun s => (s.1.replacer_size_, s.1.curr_size_, s.1.evictsOnAccess 3,
        s.1.evictsOnAccess 1)) = some (1, 1, true, false) ∧
    ∀ r g, runOps (LRUKReplacer.new 2 2, AccessLog.empty)
      [.record_access 1, .set_evictable 1 false, .record_access 2] = some (r, g) →
      ∃ l : List Int, l.Nodup ∧ (∀ f, f ∈ l ↔ r.tracked f = true) ∧
        ((r.replacer_size_ : Int) - (r.curr_size_ : Int)) % (SIZE_MOD : Int) =
          (((2 : Nat) : Int) - (l.length : Int)) % (SIZE_MOD : Int) ∧
        ∀ f,
          (r.evictsOnAccess f = true ↔
            (r.tracked f = false ∧ l.length % SIZE_MOD = 2 % SIZE_MOD)) ∧
          (r.tracked f = false → r.RecordAccess f = some (LRUKReplacer.enterNew
            (if r.evictsOnAccess f then (r.stamped f).EvictInstance.1 else r.stamped f) f)) ∧
          (r.tracked f = true → ∀ r', r.RecordAccess f = some r' →
            r'.frame_evictable_ = r.frame_evictable_ ∧ r'.curr_size_ = r.curr_size_) :=
  ⟨by decide, by decide,
    C24_size_gap_counts_tracked_frames 2 2 (by decide) _ (by decide)⟩

end bustub

namespace bustub

open BufferPoolManagerInstance

/-- A defined `NewPage` is the call that `sampleNewPage` names. -/
theorem sampleNewPage_eq (s : BufferPoolManagerInstance)
    (h : (s.NewPgImp sampleEnv).isSome = true) :
    s.NewPgImp sampleEnv = some ((sampleNewPage s).1, (sampleNewPage s).2) := by
  unfold sampleNewPage
  cases hx : s.NewPgImp sampleEnv with
  | none => rw [hx] at h; exact Bool.noConfusion h
  | some x => rfl

/-- C21: in every state that calls reach from a new pool, a `NewPage` that fails leaves the
state as it is (no id is consumed), and a `NewPage` that succeeds returns an id which, when
fewer than `2^31` `NewPage` calls precede it (the page counter has not wrapped), is greater
than every id that `NewPage` has returned before; it returns it in the frame at the front of
the free list, or in the victim of the replacer when the free list is empty; the frame then
holds the new id with pin count 1, not dirty, zeroed; the page table maps the new id to the
frame; the replacer tracks the frame and it is not evictable. -/
theorem C21_new_page_effect (env : Env) (pool_size replacer_k bucket_size : Nat)
    (ops : List BPMOp) (s : BufferPoolManagerInstance) (outs : List BPMResult)
    (hreach : (BufferPoolManagerInstance.new env pool_size replacer_k bucket_size).run
      env ops = some (s, outs))
    (s' : BufferPoolManagerInstance) (r : Option (Int × Int))
    (hr : s.NewPgImp env = some (s', r)) :
    (r = none → s' = s) ∧
    ∀ id f, r = some (id, f) →
      (newPageCalls ops < 2 ^ 31 → ∀ out ∈ outs, ∀ q ∈ out.newIds, q < id) ∧
      ((∃ rest, s.free_list_ = f :: rest ∧ s'.free_list_ = rest) ∨
        (s.free_list_ = [] ∧ s'.free_list_ = [] ∧ s.replacer_.Evict.2 = some f)) ∧
      s'.getPage f =
        some { data_ := env.zeroData, page_id_ := id, pin_count_ := 1, is_dirty_ := false } ∧
      s'.page_table_.Find env.hash id = some (some f) ∧
      s'.replacer_.tracked f = true ∧ s'.replacer_.evictable f = false := by
  have hpin := PinInv.run_pins ops (PinInv.at_start env pool_size replacer_k bucket_size)
    hreach
  have hids : newPageCalls ops < 2 ^ 31 → ∀ out ∈ outs, ∀ q ∈ out.newIds,
      q < s.next_page_id_ := by
    intro hlen out ho q hq
    obtain ⟨c', b1, _, b3, b4⟩ := BPMInv.run_ids ops
      (BPMInv.new_pool env pool_size replacer_k bucket_size) (c := 0)
      (by simp [BufferPoolManagerInstance.new, wrapPageId]) hreach
    obtain ⟨i, _, i2, i3⟩ := b4 out ho q hq
    rw [b1, i3, wrapPageId_small (by omega), wrapPageId_small (by omega)]
    exact_mod_cast i2
  constructor
  · intro hn
    subst hn
    rcases hpin.inv.newPg_effect hr with ⟨_, e, _⟩ | ⟨f, e, _⟩
    · exact e
    · exact Option.noConfusion e
  · intro id f hrf
    subst hrf
    rcases hpin.inv.newPg_effect hr with ⟨e, _⟩ | ⟨f', e, hre, _⟩
    · exact Option.noConfusion e
    · simp only [Option.some.injEq, Prod.mk.injEq] at e
      obtain ⟨e1, e2⟩ := e
      subst e1 e2
      obtain ⟨_, hflag, _⟩ := NewPgImp_replacer hpin.counted hr
      refine ⟨hids, NewPgImp_frame hr, ?_, ?_, ?_, ?_⟩
      · rw [hre.pages f, if_pos rfl]
      · obtain ⟨pgv, _, _, ⟨_, _, hfind, _⟩ | ⟨_, _, hfind, _⟩⟩ := hre.victim
        · rw [hfind, if_pos rfl]
        · rw [hfind, if_pos rfl]
      · simp [LRUKReplacer.tracked, hflag]
      · simp [LRUKReplacer.evictable, hflag]

/-- C21 on a pool of 1 frame in which page 0 has been created and unpinned: `NewPage` returns
the id 1, above the id 0 returned before, in frame 0, the victim of the replacer. -/
theorem C21_new_page_effect_witness :
    (sampleNewPage (sampleRun 1 [.new_page, .unpin_page 0 false]).1).2 = some (1, 0) ∧
    ((newPageCalls [BPMOp.new_page, .unpin_page 0 false] < 2 ^ 31 →
        ∀ out ∈ (sampleRun 1 [.new_page, .unpin_page 0 false]).2, ∀ q ∈ out.newIds,
          q < 1) ∧
      ((∃ rest, (sampleRun 1 [.new_page, .unpin_page 0 false]).1.free_list_ = 0 :: rest ∧
          (sampleNewPage (sampleRun 1 [.new_page, .unpin_page 0 false]).1).1.free_list_ =
            rest) ∨
        ((sampleRun 1 [.new_page, .unpin_page 0 false]).1.free_list_ = [] ∧
          (sampleNewPage (sampleRun 1 [.new_page, .unpin_page 0 false]).1).1.free_list_ =
            [] ∧
          (sampleRun 1 [.new_page, .unpin_page 0 false]).1.replacer_.Evict.2 = some 0)) ∧
      (sampleNewPage (sampleRun 1 [.new_page, .unpin_page 0 false]).1).1.getPage 0 =
        some { data_ := sampleEnv.zeroData, page_id_ := 1, pin_count_ := 1,
               is_dirty_ := false } ∧
      (sampleNewPage (sampleRun 1 [.new_page, .unpin_page 0 false]).1).1.page_table_.Find
        sampleEnv.hash 1 = some (some 0) ∧
      (sampleNewPage (sampleRun 1 [.new_page, .unpin_page 0 false]).1).1.replacer_.tracked 0 =
        true ∧
      (sampleNewPage (sampleRun 1 [.new_page, .unpin_page 0 false]).1).1.replacer_.evictable
        0 = false) :=
  ⟨by decide,
    (C21_new_page_effect sampleEnv 1 2 4 [.new_page, .unpin_page 0 false] _ _
      (sampleRun_eq 1 _ (by decide)) _ _
      (sampleNewPage_eq _ (by decide))).2 1 0 (by decide)⟩

end bustub

namespace bustub

open BufferPoolManagerInstance

/-- C22, counterexample: on a pool of 1 frame, after the one call `NewPage`, which returns
page 0 in frame 0, page 0 is in the page table and its frame has the pin count 1, while no
`FetchPage` has been called: the number of fetches not matched by an unpin is 0. -/
theorem C22_new_page_pins_without_fetch :
    (sampleRun 1 [.new_page]).2 = [.new_page (some (0, 0))] ∧
    (sampleRun 1 [.new_page]).1.page_table_.Find sampleEnv.hash 0 = some (some 0) ∧
    (sampleRun 1 [.new_page]).1.getPage 0 =
      some { data_ := [0, 0], page_id_ := 0, pin_count_ := 1, is_dirty_ := false } ∧
    fetchBalance 0 [.new_page] (sampleRun 1 [.new_page]).2 = 0 := by
  decide

/-- C22, amended: in a pool whose replacer has `2 ≤ k < 2^64`, in every state that fewer than
`2^64 - 1` calls reach from a new pool, `FetchPage(p)` of a page `p` that the page table maps
to frame `f` returns `f`; the pin count of `f` is one more; the replacer tracks `f` and `f` is
not evictable; the disk, the page table and the free list are as before; page id, dirty flag
and bytes of `f` are as before, and so is every other frame. Hence, when `FetchPage` has only
been called with ids that `NewPage` had returned and `NewPage` has not been called more than
`2^32` times (the page counter has handed out no id twice), the pin count of the frame of `p`
is the number of `NewPage` calls that returned `p` and of `FetchPage(p)` calls that returned
a frame, less the number of `UnpinPage(p, _)` calls that returned true. -/
theorem C22_fetch_of_resident_page (env : Env) (pool_size replacer_k bucket_size : Nat)
    (hk2 : 2 ≤ replacer_k) (hk : replacer_k < SIZE_MOD)
    (ops : List BPMOp) (hlen : ops.length + 1 < SIZE_MOD)
    (s : BufferPoolManagerInstance) (outs : List BPMResult)
    (hreach : (BufferPoolManagerInstance.new env pool_size replacer_k bucket_size).run
      env ops = some (s, outs))
    (p f : Int) (hmap : s.page_table_.Find env.hash p = some (some f)) :
    ∃ s' pg, s.FetchPgImp env p = some (s', some f) ∧ s.getPage f = some pg ∧
      s'.getPage f = some { pg with pin_count_ := pg.pin_count_ + 1 } ∧
      s'.replacer_.tracked f = true ∧ s'.replacer_.evictable f = false ∧
      s'.disk_manager_ = s.disk_manager_ ∧ s'.page_table_ = s.page_table_ ∧
      s'.free_list_ = s.free_list_ ∧ (∀ g, g ≠ f → s'.getPage g = s.getPage g) ∧
      (admittedFrom [] ops outs = true → newPageCalls ops ≤ 2 ^ 32 →
        pg.pin_count_ = pinBalance p ops outs) := by
  have hb := BPMInv.run ops (BPMInv.new_pool env pool_size replacer_k bucket_size) hreach
  have hpins := PinInv.run_pins ops (PinInv.at_start env pool_size replacer_k bucket_size)
    hreach
  have hclk := Clocked.pool_run hk2 ops
    (Clocked.new_pool_replacer env pool_size bucket_size hk)
    (BPMInv.new_pool env pool_size replacer_k bucket_size)
    (show 0 + ops.length < SIZE_MOD by omega) hreach
  obtain ⟨s', hs'⟩ := hclk.fetch_hit hb hk2 (by omega) hmap
  obtain ⟨_, hflag, _⟩ := FetchPgImp_replacer hb hpins.counted hs'
  rcases hb.fetchPg_effect hs' with ⟨f', pg, hm, ef, hdisk, hp⟩ | ⟨hn, _⟩
  · have e : f' = f := by
      rw [hmap] at hm
      exact (Option.some.inj (Option.some.inj hm)).symm
    subst e
    refine ⟨s', pg, hs', hp.old, ?_, ?_, ?_, hdisk, hp.table, hp.freeList, ?_, ?_⟩
    · rw [hp.pages f', if_pos rfl]
    · simp [LRUKReplacer.tracked, hflag]
    · simp [LRUKReplacer.evictable, hflag]
    · intro g hg
      rw [hp.pages g, if_neg hg]
    · intro hadm hlen32
      obtain ⟨c', hbal⟩ := PinBal.run_bal ops
        (PinBal.start env pool_size replacer_k bucket_size)
        (fun q hq => absurd hq (List.not_mem_nil _)) (by omega) hreach hadm
      have := hbal.mapped p f' pg hmap hp.old
      simpa using this
  · rw [hmap] at hn
    exact Option.noConfusion (Option.some.inj hn)

/-- C22, amended, on a pool of 2 frames after `NewPage` (page 0), `FetchPage(0)` and
`UnpinPage(0, true)`: two pins were taken on page 0 and one was returned, and `FetchPage(0)`
returns frame 0, whose pin count was 1. -/
theorem C22_fetch_of_resident_page_witness :
    pinBalance 0 [.new_page, .fetch_page 0, .unpin_page 0 true]
      (sampleRun 2 [.new_page, .fetch_page 0, .unpin_page 0 true]).2 = 1 ∧
    ∃ s' pg, (sampleRun 2 [.new_page, .fetch_page 0, .unpin_page 0 true]).1.FetchPgImp
        sampleEnv 0 = some (s', some 0) ∧
      (sampleRun 2 [.new_page, .fetch_page 0, .unpin_page 0 true]).1.getPage 0 = some pg ∧
      s'.getPage 0 = some { pg with pin_count_ := pg.pin_count_ + 1 } ∧
      s'.replacer_.tracked 0 = true ∧ s'.replacer_.evictable 0 = false ∧
      s'.disk_manager_ =
        (sampleRun 2 [.new_page, .fetch_page 0, .unpin_page 0 true]).1.disk_manager_ ∧
      s'.page_table_ =
        (sampleRun 2 [.new_page, .fetch_page 0, .unpin_page 0 true]).1.page_table_ ∧
      s'.free_list_ =
        (sampleRun 2 [.new_page, .fetch_page 0, .unpin_page 0 true]).1.free_list_ ∧
      (∀ g, g ≠ 0 → s'.getPage g =
        (sampleRun 2 [.new_page, .fetch_page 0, .unpin_page 0 true]).1.getPage g) ∧
      (admittedFrom [] [.new_page, .fetch_page 0, .unpin_page 0 true]
          (sampleRun 2 [.new_page, .fetch_page 0, .unpin_page 0 true]).2 = true →
        newPageCalls [BPMOp.new_page, .fetch_page 0, .unpin_page 0 true] ≤ 2 ^ 32 →
        pg.pin_count_ = pinBalance 0 [.new_page, .fetch_page 0, .unpin_page 0 true]
          (sampleRun 2 [.new_page, .fetch_page 0, .unpin_page 0 true]).2) :=
  ⟨by decide,
    C22_fetch_of_resident_page sampleEnv 2 2 4 (by decide) (by decide)
      [.new_page, .fetch_page 0, .unpin_page 0 true] (by decide) _ _
      (sampleRun_eq 2 _ (by decide)) 0 0 (by decide)⟩

end bustub

namespace bustub

section hashTable
variable {K V : Type} [DecidableEq K] {hash : K → Nat}

/-- A run keeps the capacity of the buckets. -/
theorem HashWF.run_bucket_size (ops : List (HashOp K V)) :
    ∀ {t t' : ExtendibleHashTable K V} {outs : List (Option Bool)}, HashWF hash t →
      t.run hash ops = some (t', outs) → t'.bucket_size_ = t.bucket_size_ := by
  induction ops with
  | nil =>
    intro t t' outs _ hr
    simp only [ExtendibleHashTable.run, Option.some.injEq, Prod.mk.injEq] at hr
    rw [← hr.1]
  | cons op ops ih =>
    intro t t' outs h hr
    simp only [ExtendibleHashTable.run] at hr
    cases h1 : t.step hash op with
    | none => rw [h1] at hr; exact Option.noConfusion hr
    | some res =>
      obtain ⟨t1, out⟩ := res
      rw [h1] at hr
      simp only at hr
      cases h2 : ExtendibleHashTable.run hash t1 ops with
      | none => rw [h2] at hr; exact Option.noConfusion hr
      | some res2 =>
        obtain ⟨t2, outs2⟩ := res2
        rw [h2] at hr
        simp only [Option.some.injEq, Prod.mk.injEq] at hr
        obtain ⟨e1, _⟩ := hr
        subst e1
        have hstep : HashWF hash t1 ∧ t1.bucket_size_ = t.bucket_size_ := by
          cases op with
          | insert k v =>
            simp only [ExtendibleHashTable.step] at h1
            cases h3 : t.Insert hash k v with
            | none => rw [h3] at h1; exact Option.noConfusion h1
            | some t3 =>
              rw [h3] at h1
              simp only [Option.some.injEq, Prod.mk.injEq] at h1
              obtain ⟨e1, _⟩ := h1
              subst e1
              obtain ⟨p, b, s1, s2, _⟩ := h.slotOf k
              simp only [ExtendibleHashTable.Insert, s1, s2] at h3
              obtain ⟨a1, a2, _⟩ := h.insertFuel k v _ t t3 h3
              exact ⟨a1, a2⟩
          | remove k =>
            simp only [ExtendibleHashTable.step] at h1
            obtain ⟨t3, res, r1, r2, _⟩ := h.remove_key k
            rw [r1] at h1
            simp only [Option.some.injEq, Prod.mk.injEq] at h1
            obtain ⟨e1, _⟩ := h1
            subst e1
            refine ⟨r2, ?_⟩
            unfold ExtendibleHashTable.Remove at r1
            cases hd : t.dir_[t.IndexOf hash k]? with
            | none => rw [hd] at r1; exact Option.noConfusion r1
            | some p =>
              cases hh : t.heap[p]? with
              | none => simp [hd, hh] at r1
              | some b =>
                simp only [hd, hh, Option.bind_eq_bind, Option.some_bind, Option.pure_def,
                  Option.some.injEq, Prod.mk.injEq] at r1
                rw [← r1.1]
        rw [ih hstep.1 h2, hstep.2]

/-- C23: on a table with buckets of capacity at least 1, `Insert(k, v)` whose target bucket,
of local depth `d`, is full and lacks `k` returns whenever an entry of the bucket differs from
`k` in one of the low 30 bits of the hash. It makes exactly `j` splits, `j ≥ 1` being the
least number such that an entry differs from `k` on one of the bits `d .. d+j-1` of the hash
(all entries agree with `k` modulo `2^(d+j-1)`, one does not modulo `2^(d+j)`), with
`d + j ≤ 30`; the global depth is then `max G (d+j)`, the number of buckets has grown by `j`,
and `k` is bound to `v`. -/
theorem C23_insert_splits_until_separated (hash : K → Nat) (bucket_size : Nat)
    (hbs : 1 ≤ bucket_size) (ops : List (HashOp K V)) (t : ExtendibleHashTable K V)
    (outs : List (Option Bool))
    (hrun : (ExtendibleHashTable.new bucket_size).run hash ops = some (t, outs))
    (k : K) (v : V) (p : Nat) (b : Bucket K V)
    (hp : t.dir_[t.IndexOf hash k]? = some p) (hb : t.heap[p]? = some b)
    (hfull : b.IsFull = true) (habs : b.Find k = none)
    (hne : ∃ e ∈ b.list_, hash e.1 % 2 ^ 30 ≠ hash k % 2 ^ 30) :
    ∃ j t', 1 ≤ j ∧ b.depth_ + j ≤ 30 ∧
      (∀ e ∈ b.list_, hash e.1 % 2 ^ (b.depth_ + j - 1) = hash k % 2 ^ (b.depth_ + j - 1)) ∧
      (∃ e ∈ b.list_, hash e.1 % 2 ^ (b.depth_ + j) ≠ hash k % 2 ^ (b.depth_ + j)) ∧
      t.Insert hash k v = some t' ∧ t.SplitCount hash k v = some j ∧
      t'.global_depth_ = max t.global_depth_ (b.depth_ + j) ∧
      t'.num_buckets_ = t.num_buckets_ + j ∧ t'.Find hash k = some (some v) := by
  classical
  have hwf : HashWF hash t := HashWF.run_keeps ops (HashWF.new_table hash bucket_size) hrun
  have hsz : t.bucket_size_ = bucket_size :=
    HashWF.run_bucket_size ops (HashWF.new_table hash bucket_size) hrun
  obtain ⟨p0, b0, s1, s2, s3, s4, s5, s6, s7, s8, s9⟩ := hwf.slotOf k
  have hpp : p0 = p := Option.some.inj (s1.symm.trans hp)
  subst hpp
  have hbb : b0 = b := Option.some.inj (s2.symm.trans hb)
  subst hbb
  have hlen : b0.list_.length = t.bucket_size_ := by
    have : b0.list_.length = b0.size_ := by simpa [Bucket.IsFull] using hfull
    rw [this, s4]
  obtain ⟨c1, c2⟩ := lt_pow_hashBits hash k b0.list_
  have hne' : ∃ e ∈ b0.list_, hash e.1 ≠ hash k := by
    obtain ⟨e, he, hd⟩ := hne
    exact ⟨e, he, fun heq => hd (by rw [heq])⟩
  have hex : ∃ m, ∃ e ∈ b0.list_, hash e.1 % 2 ^ m ≠ hash k % 2 ^ m := ⟨30, hne⟩
  have h30 : Nat.find hex ≤ 30 := Nat.find_min' hex hne
  have hspec := Nat.find_spec hex
  have hmin := fun m (hm : m < Nat.find hex) => Nat.find_min hex hm
  have hle : Nat.find hex ≤ hashBits hash k b0.list_ := by
    apply Nat.find_min' hex
    obtain ⟨e, he, hd⟩ := hne'
    refine ⟨e, he, ?_⟩
    rw [Nat.mod_eq_of_lt (c2 e he), Nat.mod_eq_of_lt c1]
    exact hd
  have hgt : b0.depth_ < Nat.find hex := by
    by_contra hcon
    obtain ⟨e, he, hd⟩ := hspec
    exact hd (mod_pow_of_mod_pow (by omega) (s7 e he))
  have hsame : ∀ e ∈ b0.list_,
      hash e.1 % 2 ^ (Nat.find hex - 1) = hash k % 2 ^ (Nat.find hex - 1) := by
    intro e he
    by_contra hd
    exact hmin (Nat.find hex - 1) (by omega) ⟨e, he, hd⟩
  have e1 : b0.depth_ + (Nat.find hex - b0.depth_ - 1) = Nat.find hex - 1 := by omega
  have e2 : b0.depth_ + (Nat.find hex - b0.depth_ - 1) + 1 = Nat.find hex := by omega
  have e3 : b0.depth_ + (Nat.find hex - b0.depth_) = Nat.find hex := by omega
  obtain ⟨t', a1, a2, a3, a4⟩ := hwf.insert_splits k v (Nat.find hex - b0.depth_ - 1) t
    (by rw [hsz]; exact hbs) p0 b0 hp hb hlen habs (by omega)
    (by rw [e1]; exact hsame) (by rw [e2]; exact hspec)
    (hashBits hash k b0.list_ + 1) (by omega)
  have hins : t.Insert hash k v = some t' := by
    simp only [ExtendibleHashTable.Insert, hp, hb]
    exact a1
  refine ⟨Nat.find hex - b0.depth_, t', by omega, by omega, ?_, ?_, hins, ?_, ?_, ?_, ?_⟩
  · rw [e3]; exact hsame
  · rw [e3]; exact hspec
  · simp only [ExtendibleHashTable.SplitCount, hp, hb]
    rw [a2]
    congr 1
    omega
  · rw [a3, e2, e3]
  · rw [a4]
    omega
  · rw [(hwf.insert_of_some hins).2 k, if_pos rfl]

end hashTable

/-- C23, counterexample: on the table of capacity 1 that holds the key 0, natural numbers
hashed by themselves, the target bucket of `2^30 = 1073741824` is full, lacks `2^30` and holds
an entry of another hash, yet `Insert(2^30, 11)` does not return: the two keys agree on the
low 30 bits and no directory of `2^31` slots exists. -/
theorem C23_insert_beyond_depth_30_does_not_return :
    (sampleTable 1 [.insert 0 10]).1.dir_[
      (sampleTable 1 [.insert 0 10]).1.IndexOf (fun n => n) 1073741824]? = some 0 ∧
    (sampleTable 1 [.insert 0 10]).1.heap[0]? =
      some { size_ := 1, depth_ := 0, list_ := [(0, 10)] } ∧
    Bucket.IsFull ({ size_ := 1, depth_ := 0, list_ := [(0, 10)] } : Bucket Nat Nat) = true ∧
    Bucket.Find ({ size_ := 1, depth_ := 0, list_ := [(0, 10)] } : Bucket Nat Nat) 1073741824 =
      none ∧
    (∃ e ∈ [((0 : Nat), (10 : Nat))], (fun n : Nat => n) e.1 ≠ (fun n : Nat => n) 1073741824) ∧
    (sampleTable 1 [.insert 0 10]).1.Insert (fun n => n) 1073741824 11 = none :=
  ⟨by decide, by decide, by decide, by decide, ⟨(0, 10), by decide, by decide⟩,
    sample_insert_overflows⟩

/-- C23 on the table of capacity 2 that holds the keys 0 and 4, hashed by themselves:
`Insert(8, 18)` makes 3 splits and leaves global depth 3 and 4 buckets. -/
theorem C23_insert_splits_until_separated_witness :
    (sampleTable 2 [.insert 0 10, .insert 4 14]).1.SplitCount (fun n => n) 8 18 = some 3 ∧
    (sampleTable 2 [.insert 0 10, .insert 4 14, .insert 8 18]).1.global_depth_ = 3 ∧
    (sampleTable 2 [.insert 0 10, .insert 4 14, .insert 8 18]).1.num_buckets_ = 4 ∧
    ∃ j t', 1 ≤ j ∧ 0 + j ≤ 30 ∧
      (∀ e ∈ [((0 : Nat), (10 : Nat)), (4, 14)], e.1 % 2 ^ (0 + j - 1) = 8 % 2 ^ (0 + j - 1)) ∧
      (∃ e ∈ [((0 : Nat), (10 : Nat)), (4, 14)], e.1 % 2 ^ (0 + j) ≠ 8 % 2 ^ (0 + j)) ∧
      (sampleTable 2 [.insert 0 10, .insert 4 14]).1.Insert (fun n => n) 8 18 = some t' ∧
      (sampleTable 2 [.insert 0 10, .insert 4 14]).1.SplitCount (fun n => n) 8 18 = some j ∧
      t'.global_depth_ =
        max (sampleTable 2 [.insert 0 10, .insert 4 14]).1.global_depth_ (0 + j) ∧
      t'.num_buckets_ = (sampleTable 2 [.insert 0 10, .insert 4 14]).1.num_buckets_ + j ∧
      t'.Find (fun n => n) 8 = some (some 18) :=
  ⟨by decide, by decide, by decide,
    C23_insert_splits_until_separated (fun n : Nat => n) 2 (by decide)
      [.insert 0 10, .insert 4 14] _ _ (sampleTable_eq 2 _ (by decide)) 8 18 0
      { size_ := 2, depth_ := 0, list_ := [(0, 10), (4, 14)] }
      (by decide) (by decide) (by decide) (by decide) ⟨(4, 14), by decide, by decide⟩⟩

end bustub

namespace bustub

open BufferPoolManagerInstance

/-! ## A run that wraps the page counter -/

theorem wrapPageId_ne_zero {c : Nat} (h1 : 0 < c) (h2 : c < 2 ^ 32) :
    wrapPageId (c : Int) ≠ 0 := by
  have h2' : ((c : Nat) : Int) < 2 ^ 32 := by exact_mod_cast h2
  have h1' : (0 : Int) < ((c : Nat) : Int) := by exact_mod_cast h1
  unfold wrapPageId
  omega

/-- `UnpinPage` of the pinned page of frame 1. -/
theorem churn_unpin (pid nxt : Int) (ts : Nat) (hpid : pid ≠ 0) :
    (churnState 1 false 0 [(0, 0), (pid, 1)] pid ts nxt).step wideEnv (.unpin_page pid false) =
      some (churnState 0 true 1 [(0, 0), (pid, 1)] pid ts nxt, .bool true) := by
  have h0 : ¬ (0 : Int) = pid := fun h => hpid h.symm
  simp [BufferPoolManagerInstance.step, UnpinPgImp, ExtendibleHashTable.Find,
    ExtendibleHashTable.IndexOf, churnState, Bucket.Find, ufind, h0, getPage,
    LRUKReplacer.SetEvictable, uset, uerase, szInc, SIZE_MOD]

/-- `NewPage` when frame 1 holds an unpinned page: the page is evicted and the page whose id
is the page counter `nxt` takes frame 1; when `nxt` is 0, the id of the page pinned in frame
0, the entry of page 0 in the page table is overwritten. -/
theorem churn_new_page (pid nxt : Int) (ts : Nat) (hpid : pid ≠ 0)
    (hts : ts + 2 < SIZE_MOD) :
    (churnState 0 true 1 [(0, 0), (pid, 1)] pid ts nxt).step wideEnv .new_page =
      some (churnState 1 false 0 (if nxt = 0 then [(0, 1)] else [(0, 0), (nxt, 1)]) nxt
        (ts + 1) (wrapPageId (nxt + 1)), .new_page (some (nxt, 1))) := by
  have h0 : ¬ (0 : Int) = pid := fun h => hpid h.symm
  have hs : ¬ (ts + 1 + 1 = 18446744073709551616) := by
    unfold SIZE_MOD at hts
    omega
  by_cases hn : nxt = 0
  · subst hn
    simp [BufferPoolManagerInstance.step, NewPgImp, acquireFrame, installPage, pinInReplacer,
      LRUKReplacer.Size, LRUKReplacer.Evict, LRUKReplacer.EvictInstance, scanNew, scanCache,
      ExtendibleHashTable.Find, ExtendibleHashTable.Remove, ExtendibleHashTable.Insert,
      ExtendibleHashTable.InsertFuel, ExtendibleHashTable.IndexOf, churnState, Bucket.Find,
      Bucket.Remove, Bucket.Insert, Bucket.IsFull, eraseFirst, replaceFirst, hashBits,
      ufind, h0, hpid, getPage, LRUKReplacer.RecordAccess, LRUKReplacer.SetEvictable, uset,
      uerase, szDec, szInc, SIZE_MOD, hs, Env.zeroData, wideEnv]
  · have hn' : ¬ (0 : Int) = nxt := fun h => hn h.symm
    simp [BufferPoolManagerInstance.step, NewPgImp, acquireFrame, installPage, pinInReplacer,
      LRUKReplacer.Size, LRUKReplacer.Evict, LRUKReplacer.EvictInstance, scanNew, scanCache,
      ExtendibleHashTable.Find, ExtendibleHashTable.Remove, ExtendibleHashTable.Insert,
      ExtendibleHashTable.InsertFuel, ExtendibleHashTable.IndexOf, churnState, Bucket.Find,
      Bucket.Remove, Bucket.Insert, Bucket.IsFull, eraseFirst, replaceFirst, hashBits,
      ufind, h0, hpid, hn, hn', getPage, LRUKReplacer.RecordAccess, LRUKReplacer.SetEvictable,
      uset, uerase, szDec, szInc, SIZE_MOD, hs, Env.zeroData, wideEnv]

/-- `NewPage` after `m` pages of frame 1, `m + 1 < 2^64`. -/
theorem churnIdle_new_page (m : Nat) (h1 : 1 ≤ m) (h2 : m < 2 ^ 32) :
    (churnIdle m).step wideEnv .new_page =
      some (churnState 1 false 0
        (if wrapPageId ((m + 1 : Nat) : Int) = 0 then [(0, 1)]
          else [(0, 0), (wrapPageId ((m + 1 : Nat) : Int), 1)])
        (wrapPageId ((m + 1 : Nat) : Int)) (m + 1) (wrapPageId ((m + 1 + 1 : Nat) : Int)),
        .new_page (some (wrapPageId ((m + 1 : Nat) : Int), 1))) := by
  have hts : m + 2 < SIZE_MOD := by
    unfold SIZE_MOD
    have : (2 : Nat) ^ 32 < 2 ^ 64 - 2 := by decide
    omega
  have := churn_new_page (wrapPageId m) (wrapPageId ((m + 1 : Nat) : Int)) m
    (wrapPageId_ne_zero (by omega) h2) hts
  rw [wrapPageId_succ (m + 1)] at this
  exact this

/-- One round: `NewPage` and `UnpinPage` of the page it returns. -/
theorem churn_round (m : Nat) (h1 : 1 ≤ m) (h2 : m + 1 < 2 ^ 32) :
    (churnIdle m).step wideEnv .new_page =
      some (churnState 1 false 0 [(0, 0), (wrapPageId ((m + 1 : Nat) : Int), 1)]
        (wrapPageId ((m + 1 : Nat) : Int)) (m + 1) (wrapPageId ((m + 1 + 1 : Nat) : Int)),
        .new_page (some (wrapPageId ((m + 1 : Nat) : Int), 1))) ∧
    (churnState 1 false 0 [(0, 0), (wrapPageId ((m + 1 : Nat) : Int), 1)]
        (wrapPageId ((m + 1 : Nat) : Int)) (m + 1)
        (wrapPageId ((m + 1 + 1 : Nat) : Int))).step wideEnv
      (.unpin_page (wrapPageId ((m + 1 : Nat) : Int)) false) =
      some (churnIdle (m + 1), .bool true) := by
  have hne := wrapPageId_ne_zero (c := m + 1) (by omega) h2
  refine ⟨?_, churn_unpin _ _ _ hne⟩
  rw [churnIdle_new_page m h1 (by omega), if_neg hne]

theorem run_cons_of {env : Env} {s s' s'' : BufferPoolManagerInstance} {op : BPMOp}
    {ops : List BPMOp} {out : BPMResult} {outs : List BPMResult}
    (h1 : s.step env op = some (s', out)) (h2 : s'.run env ops = some (s'', outs)) :
    s.run env (op :: ops) = some (s'', out :: outs) := by
  simp only [BufferPoolManagerInstance.run, h1, h2]

theorem runPublic_cons_of {env : Env} {s s' s'' : BufferPoolManagerInstance} {op : BPMOp}
    {ops : List BPMOp} {out : BPMResult} {ids ids' : List Int}
    (hadm : op.admitted ids = true)
    (h1 : s.step env op = some (s', out))
    (h2 : s'.runPublic env (ids ++ out.newIds) ops = some (s'', ids')) :
    s.runPublic env ids (op :: ops) = some (s'', ids') := by
  simp only [BufferPoolManagerInstance.runPublic, hadm, if_true, h1, h2]

/-- The rounds of `churn` lead from one idle state to another. -/
theorem churn_run (n : Nat) : ∀ (m : Nat), 1 ≤ m → m + n < 2 ^ 32 →
    ∃ outs, (churnIdle m).run wideEnv (churn n (m + 1)) = some (churnIdle (m + n), outs) := by
  induction n with
  | zero =>
    intro m _ _
    refine ⟨[], ?_⟩
    simp only [churn, BufferPoolManagerInstance.run, Nat.add_zero]
  | succ n ih =>
    intro m h1 h2
    obtain ⟨a1, a2⟩ := churn_round m h1 (by omega)
    obtain ⟨outs, ho⟩ := ih (m + 1) (by omega) (by omega)
    have e : m + (n + 1) = m + 1 + n := by omega
    rw [e]
    exact ⟨_, run_cons_of a1 (run_cons_of a2 ho)⟩

/-- The rounds of `churn` are admitted calls. -/
theorem churn_public (n : Nat) : ∀ (m : Nat) (ids : List Int), 1 ≤ m → m + n < 2 ^ 32 →
    ∃ ids', (churnIdle m).runPublic wideEnv ids (churn n (m + 1)) =
      some (churnIdle (m + n), ids') := by
  induction n with
  | zero =>
    intro m ids _ _
    refine ⟨ids, ?_⟩
    simp only [churn, BufferPoolManagerInstance.runPublic, Nat.add_zero]
  | succ n ih =>
    intro m ids h1 h2
    obtain ⟨a1, a2⟩ := churn_round m h1 (by omega)
    obtain ⟨ids', ho⟩ := ih (m + 1)
      ((ids ++ (BPMResult.new_page (some (wrapPageId ((m + 1 : Nat) : Int), 1))).newIds) ++
        (BPMResult.bool true).newIds) (by omega) (by omega)
    have e : m + (n + 1) = m + 1 + n := by omega
    rw [e]
    exact ⟨ids', runPublic_cons_of rfl a1 (runPublic_cons_of rfl a2 ho)⟩

end bustub

namespace bustub

open BufferPoolManagerInstance

theorem run_append (env : Env) (ops1 ops2 : List BPMOp) :
    ∀ {s s1 s2 : BufferPoolManagerInstance} {o1 o2 : List BPMResult},
    s.run env ops1 = some (s1, o1) → s1.run env ops2 = some (s2, o2) →
    s.run env (ops1 ++ ops2) = some (s2, o1 ++ o2) := by
  induction ops1 with
  | nil =>
    intro s s1 s2 o1 o2 h1 h2
    simp only [BufferPoolManagerInstance.run, Option.some.injEq, Prod.mk.injEq] at h1
    obtain ⟨e1, e2⟩ := h1
    subst e1 e2
    exact h2
  | cons op ops ih =>
    intro s s1 s2 o1 o2 h1 h2
    simp only [BufferPoolManagerInstance.run] at h1
    cases hs : s.step env op with
    | none => rw [hs] at h1; exact Option.noConfusion h1
    | some res =>
      obtain ⟨s', out⟩ := res
      rw [hs] at h1
      simp only at h1
      cases hr : BufferPoolManagerInstance.run env s' ops with
      | none => rw [hr] at h1; exact Option.noConfusion h1
      | some res2 =>
        obtain ⟨s'', outs⟩ := res2
        rw [hr] at h1
        simp only [Option.some.injEq, Prod.mk.injEq] at h1
        obtain ⟨e1, e2⟩ := h1
        subst e1 e2
        exact run_cons_of hs (ih hr h2)

theorem runPublic_append (env : Env) (ops1 ops2 : List BPMOp) :
    ∀ {s s1 s2 : BufferPoolManagerInstance} {i i1 i2 : List Int},
    s.runPublic env i ops1 = some (s1, i1) → s1.runPublic env i1 ops2 = some (s2, i2) →
    s.runPublic env i (ops1 ++ ops2) = some (s2, i2) := by
  induction ops1 with
  | nil =>
    intro s s1 s2 i i1 i2 h1 h2
    simp only [BufferPoolManagerInstance.runPublic, Option.some.injEq, Prod.mk.injEq] at h1
    obtain ⟨e1, e2⟩ := h1
    subst e1 e2
    exact h2
  | cons op ops ih =>
    intro s s1 s2 i i1 i2 h1 h2
    simp only [BufferPoolManagerInstance.runPublic] at h1
    split at h1
    · next hadm =>
      cases hs : s.step env op with
      | none => rw [hs] at h1; exact Option.noConfusion h1
      | some res =>
        obtain ⟨s', out⟩ := res
        rw [hs] at h1
        simp only at h1
        exact runPublic_cons_of hadm hs (ih h1 h2)
    · exact Option.noConfusion h1

/-- The first three calls of `churnOps` lead to the first idle state. -/
theorem churn_start :
    (BufferPoolManagerInstance.new wideEnv 2 2 4).run wideEnv
        [.new_page, .new_page, .unpin_page 1 false] =
      some (churnIdle 1, [.new_page (some (0, 0)), .new_page (some (1, 1)), .bool true]) := by
  rfl

theorem churn_start_public :
    (BufferPoolManagerInstance.new wideEnv 2 2 4).runPublic wideEnv []
        [.new_page, .new_page, .unpin_page 1 false] = some (churnIdle 1, [0, 1]) := by
  rfl

end bustub

namespace bustub

open BufferPoolManagerInstance

/-- In an idle state of the churn, page 0 is in frame 0 with the pin count 1. -/
theorem churnIdle_page_zero (m : Nat) :
    (churnIdle m).page_table_.Find wideEnv.hash 0 = some (some 0) ∧
      (churnIdle m).getPage 0 =
        some { data_ := [0, 0], page_id_ := 0, pin_count_ := 1, is_dirty_ := false } := by
  constructor
  · simp [churnIdle, churnState, ExtendibleHashTable.Find, ExtendibleHashTable.IndexOf,
      Bucket.Find, ufind]
  · simp [churnIdle, churnState, getPage]

/-- The page counter after `2^32` allocations is 0 again. -/
theorem wrapPageId_full (m : Nat) (hm : m = 4294967295) :
    wrapPageId ((m + 1 : Nat) : Int) = 0 := by
  subst hm
  norm_num [wrapPageId]

/-- The page counter after `2^31` allocations is `-2^31`. -/
theorem wrapPageId_half (m : Nat) (hm : m = 2147483647) :
    wrapPageId ((m + 1 : Nat) : Int) = -2147483648 := by
  subst hm
  norm_num [wrapPageId]

/-- C3, counterexample: on a pool of 2 frames, `NewPage` pins page 0 in frame 0; frame 1 then
receives, one after the other, the pages 1, 2, ..., each being unpinned before the next
`NewPage` evicts it (`churnOps`, `2^32 - 1` rounds in all, every call admitted). The page
counter, a 32-bit `int`, is then 0 again, while page 0 is still in frame 0 with the pin count
1. The call `NewPage` now returns the id 0 in frame 1, and the page table maps page 0 to
frame 1: the pinned page is no longer mapped to its frame. -/
theorem C3_pinned_page_remapped_after_wrap :
    ∃ s ids pg s' out,
      (BufferPoolManagerInstance.new wideEnv 2 2 4).runPublic wideEnv []
        (churnOps 4294967294) = some (s, ids) ∧
      s.page_table_.Find wideEnv.hash 0 = some (some 0) ∧ s.getPage 0 = some pg ∧
      0 < pg.pin_count_ ∧
      s.step wideEnv .new_page = some (s', out) ∧
      s'.page_table_.Find wideEnv.hash 0 = some (some 1) := by
  obtain ⟨ids, hrun⟩ := churn_public 4294967294 1 [0, 1] (by decide) (by decide)
  have hstep := churnIdle_new_page (1 + 4294967294) (by decide) (by decide)
  rw [if_pos (wrapPageId_full _ rfl)] at hstep
  refine ⟨_, ids, _, _, _, runPublic_append _ _ _ churn_start_public hrun,
    (churnIdle_page_zero _).1, (churnIdle_page_zero _).2, by decide, hstep, ?_⟩
  simp [churnState, ExtendibleHashTable.Find, ExtendibleHashTable.IndexOf, Bucket.Find, ufind]

/-- C21, counterexample: on a pool of 2 frames, `NewPage` pins page 0 in frame 0; frame 1 then
receives, one after the other, the pages 1, 2, ..., `2^31 - 1`, each being unpinned before the
next `NewPage` evicts it (`churnOps`). The page counter, a 32-bit `int`, has then wrapped:
the call `NewPage` succeeds and returns the id `-2^31`, which is not greater than the id 0
that the first `NewPage` returned. -/
theorem C21_new_page_id_wraps :
    ∃ s outs s',
      (BufferPoolManagerInstance.new wideEnv 2 2 4).run wideEnv (churnOps 2147483646) =
        some (s, outs) ∧
      s.step wideEnv .new_page = some (s', .new_page (some (-2147483648, 1))) ∧
      ∃ out ∈ outs, ∃ q ∈ out.newIds, ¬ q < -2147483648 := by
  obtain ⟨outs, hrun⟩ := churn_run 2147483646 1 (by decide) (by decide)
  have hstep := churnIdle_new_page (1 + 2147483646) (by decide) (by decide)
  rw [wrapPageId_half _ rfl] at hstep
  refine ⟨_, _, _, run_append _ _ _ churn_start hrun, hstep,
    .new_page (some (0, 0)), by simp, 0, by simp [BPMResult.newIds], by decide⟩

end bustub

namespace bustub

open BufferPoolManagerInstance

/-- The rounds of `churn`, followed by one more `NewPage`: the calls are admitted, and the
pins they take on page 0 are those of the last call. -/
theorem churn_balance (n : Nat) : ∀ (m : Nat), 1 ≤ m → m + n < 2 ^ 32 →
    ∃ outs, (churnIdle m).run wideEnv (churn n (m + 1)) = some (churnIdle (m + n), outs) ∧
      ∀ (ids : List Int) (o : BPMResult),
        admittedFrom ids (churn n (m + 1) ++ [.new_page]) (outs ++ [o]) = true ∧
        pinBalance 0 (churn n (m + 1) ++ [.new_page]) (outs ++ [o]) =
          pinDelta 0 .new_page o := by
  induction n with
  | zero =>
    intro m _ _
    refine ⟨[], ?_, ?_⟩
    · simp only [churn, BufferPoolManagerInstance.run, Nat.add_zero]
    · intro ids o
      simp [churn, admittedFrom, pinBalance, BPMOp.admitted]
  | succ n ih =>
    intro m h1 h2
    obtain ⟨a1, a2⟩ := churn_round m h1 (by omega)
    obtain ⟨outs, ho, hb⟩ := ih (m + 1) (by omega) (by omega)
    have hne := wrapPageId_ne_zero (c := m + 1) (by omega) (by omega)
    have e : m + (n + 1) = m + 1 + n := by omega
    rw [e]
    refine ⟨_, run_cons_of a1 (run_cons_of a2 ho), ?_⟩
    intro ids o
    simp only [churn, List.cons_append, admittedFrom, pinBalance, pinDelta, BPMOp.admitted,
      Bool.true_and, if_neg hne, zero_add]
    exact hb _ o

/-- After the page counter has wrapped around, the pin count of a page is no longer the
number of its pins: on a pool of 2 frames, `NewPage` pins page 0 in frame 0, frame 1 receives
the pages 1, 2, ..., `2^32 - 1` one after the other (`churnOps`), and one more `NewPage`
returns the id 0 again, in frame 1. No `FetchPage` has been called, `NewPage` has returned
the id 0 twice and `UnpinPage(0, _)` has not been called, while the frame that the page table
gives for page 0 has the pin count 1. -/
theorem pin_balance_after_wrap :
    ∃ s outs pg,
      (BufferPoolManagerInstance.new wideEnv 2 2 4).run wideEnv
        (churnOps 4294967294 ++ [.new_page]) = some (s, outs) ∧
      admittedFrom [] (churnOps 4294967294 ++ [.new_page]) outs = true ∧
      s.page_table_.Find wideEnv.hash 0 = some (some 1) ∧ s.getPage 1 = some pg ∧
      pg.pin_count_ = 1 ∧ pinBalance 0 (churnOps 4294967294 ++ [.new_page]) outs = 2 := by
  obtain ⟨outs, hrun, hb⟩ := churn_balance 4294967294 1 (by decide) (by decide)
  have hstep := churnIdle_new_page (1 + 4294967294) (by decide) (by decide)
  rw [wrapPageId_full _ rfl, if_pos rfl] at hstep
  have hlast : (churnIdle (1 + 4294967294)).run wideEnv [.new_page] = some (_, [_]) :=
    run_cons_of hstep rfl
  have hall := run_append _ _ _ churn_start (run_append _ _ _ hrun hlast)
  rw [← List.append_assoc] at hall
  refine ⟨_, _, { data_ := [0, 0], page_id_ := 0, pin_count_ := 1, is_dirty_ := false },
    hall, ?_, ?_, ?_, rfl, ?_⟩
  · show admittedFrom [] (.new_page :: .new_page :: .unpin_page 1 false ::
        (churn 4294967294 (1 + 1) ++ [.new_page]))
      (BPMResult.new_page (some (0, 0)) :: .new_page (some (1, 1)) :: .bool true ::
        (outs ++ [.new_page (some (0, 1))])) = true
    simp only [admittedFrom, BPMOp.admitted, Bool.true_and]
    exact (hb _ _).1
  · simp [churnState, ExtendibleHashTable.Find, ExtendibleHashTable.IndexOf, Bucket.Find, ufind]
  · simp [churnState, getPage]
  · show pinBalance 0 (.new_page :: .new_page :: .unpin_page 1 false ::
        (churn 4294967294 (1 + 1) ++ [.new_page]))
      (BPMResult.new_page (some (0, 0)) :: .new_page (some (1, 1)) :: .bool true ::
        (outs ++ [.new_page (some (0, 1))])) = 2
    have b2 := (hb [0, 1] (.new_page (some (0, 1)))).2
    simp only [pinBalance, b2]
    decide

end bustub
